import Mathlib

/-!
# CSParve64: 64-bit chain-and-sum checksum and encryption

A shallow embedding of `CompanionKit/Authentication/CSParve64.cpp`.

Conventions of the embedding:

* a `BYTE*` buffer is a `List Nat`; `buf[i]` is `buf.getD i 0` and the
  assignment `buf[i] = v` is `buf.set i v`;
* a `BYTE` is a natural number below `256`, a `UINT32` one below `2 ^ 32`, a
  `UINT64` one below `2 ^ 64`; every cast and every wrapping operation of the
  source is an explicit `%`;
* an expression of `UINT32` additions and multiplications is reduced modulo
  `2 ^ 32` once, where its value is stored (reduction commutes with `+` and
  `*`); a `UINT32` subtraction is `wsub32`;
* byte offsets such as `index << 2` are not reduced: every length is a `UINT32`,
  and the statements about buffers assume a length below `2 ^ 32` where the
  code computes with it;
* a loop is a structurally recursive function over its iteration count;
* a callee that receives `data + offset` receives `data.drop offset`, and the
  caller puts the block back behind `data.take offset`.
-/

set_option linter.unusedVariables false

/-! ## Constants (`class CS64Defs`) -/

namespace CS64Defs

abbrev SBOX_SIZE : Nat := 256
abbrev BLK_SIZE : Nat := 8
abbrev KEY_SIZE : Nat := 8
abbrev NUM_ROUNDS : Nat := 8
abbrev CS_BLOCK_SIZE : Nat := 4
abbrev MODULUS : Nat := 0x7FFFFFFF

end CS64Defs

/-- Result code `CSPARVE64_OK`. -/
abbrev CSPARVE64_OK : Int := 0

/-- Result code `CSPARVE64_FAIL`. -/
abbrev CSPARVE64_FAIL : Int := -1

/-! ## Endian and bit utilities (`class Utils`) -/

namespace Utils

/-- Store the 64-bit value `n` big-endian at `dest[offset .. offset + 7]`. -/
def WriteUInt64 (n : Nat) (dest : List Nat) (offset : Nat) : List Nat :=
  let dest := dest.set offset ((n >>> 56) % 256)
  let dest := dest.set (offset + 1) ((n >>> 48) % 256)
  let dest := dest.set (offset + 2) ((n >>> 40) % 256)
  let dest := dest.set (offset + 3) ((n >>> 32) % 256)
  let dest := dest.set (offset + 4) ((n >>> 24) % 256)
  let dest := dest.set (offset + 5) ((n >>> 16) % 256)
  let dest := dest.set (offset + 6) ((n >>> 8) % 256)
  dest.set (offset + 7) (n % 256)

/-- Load a big-endian 64-bit value from `buffer[offset .. offset + 7]`. -/
def ReadUInt64 (buffer : List Nat) (offset : Nat) : Nat :=
  let result := buffer.getD offset 0 <<< 56
  let result := result ||| (buffer.getD (offset + 1) 0 <<< 48)
  let result := result ||| (buffer.getD (offset + 2) 0 <<< 40)
  let result := result ||| (buffer.getD (offset + 3) 0 <<< 32)
  let result := result ||| (buffer.getD (offset + 4) 0 <<< 24)
  let result := result ||| (buffer.getD (offset + 5) 0 <<< 16)
  let result := result ||| (buffer.getD (offset + 6) 0 <<< 8)
  result ||| buffer.getD (offset + 7) 0

/-- Store the 32-bit value `n` big-endian at `dest[offset .. offset + 3]`. -/
def WriteUInt32 (n : Nat) (dest : List Nat) (offset : Nat) : List Nat :=
  let dest := dest.set offset ((n >>> 24) % 256)
  let dest := dest.set (offset + 1) ((n >>> 16) % 256)
  let dest := dest.set (offset + 2) ((n >>> 8) % 256)
  dest.set (offset + 3) (n % 256)

/-- Load a big-endian 32-bit value from `buffer[offset .. offset + 3]`. -/
def ReadUInt32 (buffer : List Nat) (offset : Nat) : Nat :=
  let result := buffer.getD offset 0 <<< 24
  let result := result ||| (buffer.getD (offset + 1) 0 <<< 16)
  let result := result ||| (buffer.getD (offset + 2) 0 <<< 8)
  result ||| buffer.getD (offset + 3) 0

/-- High half of a 64-bit value: `(UINT32)(n >> 32)`. -/
def Hi (n : Nat) : Nat := (n >>> 32) % 2 ^ 32

/-- Low half of a 64-bit value: `(UINT32)n`. -/
def Lo (n : Nat) : Nat := n % 2 ^ 32

/-- Pack two 32-bit halves: `(((UINT64)hi) << 32) | lo`. -/
def MakeUInt64 (hi lo : Nat) : Nat := (hi <<< 32) ||| lo

end Utils

/-! ## Parve block cipher (`class MACHelper`) -/

namespace MACHelper

/-- The byte rotation `(BYTE)((tmp << 1) | (tmp >> 7))` (`rol tmp, 1`). -/
def rol1 (tmp : Nat) : Nat := ((tmp <<< 1) ||| (tmp >>> 7)) % 256

/-- The byte rotation `(BYTE)((tmp >> 1) | (tmp << 7))` (`ror tmp, 1`). -/
def ror1 (tmp : Nat) : Nat := ((tmp >>> 1) ||| (tmp <<< 7)) % 256

/-- One pass of the inner encryption loop body, for `i < BLK_SIZE - 1`:
`block[i + 1] = rol (block[i + 1] + sbox[(key[i] + block[i] + r) & 255], 1)`. -/
def encStep (key sbox : List Nat) (r i : Nat) (block : List Nat) : List Nat :=
  let tmp := (block.getD (i + 1) 0 + sbox.getD ((key.getD i 0 + block.getD i 0 + r) &&& 255) 0) % 256
  let tmp := rol1 tmp
  block.set (i + 1) tmp

/-- The loop `for (i = 0; i < n; i++)` of one encryption round. -/
def encInner (key sbox : List Nat) (r : Nat) : Nat → List Nat → List Nat
  | 0, block => block
  | n + 1, block => encStep key sbox r n (encInner key sbox r n block)

/-- One encryption round: the inner loop over `i = 0 .. 6`, then the wrap-around
step on `block[0]` with `i = 7`. -/
def encRound (key sbox : List Nat) (r : Nat) (block : List Nat) : List Nat :=
  let block := encInner key sbox r (CS64Defs.BLK_SIZE - 1) block
  let i := CS64Defs.BLK_SIZE - 1
  let tmp := (block.getD 0 0 + sbox.getD ((key.getD i 0 + block.getD i 0 + r) &&& 255) 0) % 256
  let tmp := rol1 tmp
  block.set 0 tmp

/-- The loop `for (r = n; r > 0; r--)` over encryption rounds. -/
def encRounds (key sbox : List Nat) : Nat → List Nat → List Nat
  | 0, block => block
  | r + 1, block => encRounds key sbox r (encRound key sbox (r + 1) block)

/-- Encrypt one block in place with Parve. -/
def ParveEncryptBlock (key sbox block : List Nat) : List Nat :=
  encRounds key sbox CS64Defs.NUM_ROUNDS block

/-- One pass of the inner decryption loop body:
`block[i + 1] = ror (block[i + 1], 1) - sbox[(key[i] + block[i] + r) & 255]`. -/
def decStep (key sbox : List Nat) (r i : Nat) (block : List Nat) : List Nat :=
  let tmp := block.getD (i + 1) 0
  let tmp := ror1 tmp
  block.set (i + 1)
    ((tmp + 256 - sbox.getD ((key.getD i 0 + block.getD i 0 + r) &&& 255) 0 % 256) % 256)

/-- The loop `for (--i; i >= 0; i--)` of one decryption round, entered with
`i = n - 1`. -/
def decInner (key sbox : List Nat) (r : Nat) : Nat → List Nat → List Nat
  | 0, block => block
  | n + 1, block => decInner key sbox r n (decStep key sbox r n block)

/-- One decryption round: `block[0]` first (with `i = 7`), then the inner loop
over `i = 6 .. 0`. -/
def decRound (key sbox : List Nat) (r : Nat) (block : List Nat) : List Nat :=
  let i := CS64Defs.BLK_SIZE - 1
  let tmp := block.getD 0 0
  let tmp := ror1 tmp
  let block := block.set 0
    ((tmp + 256 - sbox.getD ((key.getD i 0 + block.getD i 0 + r) &&& 255) 0 % 256) % 256)
  decInner key sbox r i block

/-- The loop `for (r = 1; r <= n; r++)` over decryption rounds. -/
def decRounds (key sbox : List Nat) : Nat → List Nat → List Nat
  | 0, block => block
  | r + 1, block => decRound key sbox (r + 1) (decRounds key sbox r block)

/-- Decrypt one block in place with Parve. -/
def ParveDecryptBlock (key sbox block : List Nat) : List Nat :=
  decRounds key sbox CS64Defs.NUM_ROUNDS block

end MACHelper

/-- The 32-bit wrapping subtraction `x - y` on `UINT32`. -/
def wsub32 (x y : Nat) : Nat := (x + 2 ^ 32 - y % 2 ^ 32) % 2 ^ 32

namespace MACHelper

/-- The loop `for (j = 0; j < n; ++j) aBlock[j] ^= inText[i * BLK_SIZE + j]`. -/
def xorBlock (inText : List Nat) (i : Nat) : Nat → List Nat → List Nat
  | 0, aBlock => aBlock
  | n + 1, aBlock =>
    let aBlock := xorBlock inText i n aBlock
    aBlock.set n (aBlock.getD n 0 ^^^ inText.getD (i * CS64Defs.BLK_SIZE + n) 0)

/-- The loop `for (i = 0; i < n; ++i)` of `ParveCBCMAC`:
`C_i = E_k (C_{i-1} ^ M_i)`. -/
def cbcLoop (key sbox inText : List Nat) : Nat → List Nat → List Nat
  | 0, aBlock => aBlock
  | n + 1, aBlock =>
    let aBlock := cbcLoop key sbox inText n aBlock
    ParveEncryptBlock key sbox (xorBlock inText n CS64Defs.BLK_SIZE aBlock)

/-- Compute a CBC MAC using Parve as the block cipher. -/
def ParveCBCMAC (key sbox inText : List Nat) (inTextLength : Nat) : Nat :=
  let numBlocks := inTextLength / CS64Defs.BLK_SIZE
  let aBlock := cbcLoop key sbox inText numBlocks (List.replicate CS64Defs.BLK_SIZE 0)
  Utils.ReadUInt64 aBlock 0

end MACHelper

/-! ## Chain-and-sum key over 32-bit words (`class CS64Key`) -/

/-- The key components and the inverses (mod `2 ^ 32`) of `a`, `c` and `e`. -/
structure CS64Key where
  a : Nat
  b : Nat
  c : Nat
  d : Nat
  e : Nat
  invA : Nat
  invC : Nat
  invE : Nat
deriving DecidableEq, Repr

namespace CS64Key

/-- The constructor `CS64Key::CS64Key()`: every component is zero. -/
def new : CS64Key :=
  { a := 0, b := 0, c := 0, d := 0, e := 0, invA := 0, invC := 0, invE := 0 }

/-- The loop `while (b != 0)` of `Egcd32`, run for at most `fuel` passes; the
result is `(lastx, lasty)`. -/
def Egcd32Loop : Nat → Nat → Nat → Nat → Nat → Nat → Nat → Nat × Nat
  | 0, _, _, _, _, lastx, lasty => (lastx, lasty)
  | fuel + 1, a, b, x, y, lastx, lasty =>
    if b = 0 then (lastx, lasty)
    else
      let q := a / b
      Egcd32Loop fuel b (a % b)
        (wsub32 lastx ((q * x) % 2 ^ 32)) (wsub32 lasty ((q * y) % 2 ^ 32)) x y

/-- Run the extended Euclidean algorithm; the result is `(outx, outy)`. The
second argument strictly decreases on every pass, so `b + 1` passes are enough
(`Egcd32Loop_fuel`). -/
def Egcd32 (a b : Nat) : Nat × Nat :=
  Egcd32Loop (b + 1) a b 0 1 1 0

/-- Invert `n` mod `2 ^ 32` without using 64-bit arithmetic. -/
def ModInvert32_32 (n : Nat) : Nat :=
  if 1 = n then 1
  else
    let r := Egcd32 n ((1 + 0xffffffff % n) % 2 ^ 32)
    let x := r.1
    let inv := r.2
    wsub32 x ((inv * (0xffffffff / n)) % 2 ^ 32)

/-- Build a chain-and-sum key from a 64-bit hash and three 32-bit keys. -/
def Init (inHash key1 key2 key3 : Nat) : CS64Key :=
  let hi := Utils.Hi inHash
  let lo := Utils.Lo inHash
  let a := 1 ||| lo
  let b := 1 ||| hi
  let c := 1 ||| (key1 ^^^ lo)
  let d := 1 ||| (key2 ^^^ hi)
  let e := 1 ||| (key3 ^^^ lo)
  { a := a, b := b, c := c, d := d, e := e,
    invA := ModInvert32_32 a, invC := ModInvert32_32 c, invE := ModInvert32_32 e }

/-- The body of the loop of `CS64ComputeMAC` at the word index `index`: one
even-indexed and one odd-indexed block; the result is `(chain, sum)`. -/
def macStep (key : CS64Key) (data : List Nat) (index chain sum : Nat) : Nat × Nat :=
  let exn := (key.e * Utils.ReadUInt32 data (index <<< 2)) % 2 ^ 32
  let index := index + 1
  let chain := (key.a * (chain + exn) + key.b) % 2 ^ 32
  let sum := (sum + chain) % 2 ^ 32
  let chain := (key.c * (chain + Utils.ReadUInt32 data (index <<< 2)) + key.d) % 2 ^ 32
  let sum := (sum + chain) % 2 ^ 32
  (chain, sum)

/-- The loop `for (i = 1; i < numBlocks / 2; i++)` of `CS64ComputeMAC`, run for
`n` passes from the word index `index`; the result is `(chain, sum)`. -/
def macLoop (key : CS64Key) (data : List Nat) : Nat → Nat → Nat → Nat → Nat × Nat
  | 0, _, chain, sum => (chain, sum)
  | n + 1, index, chain, sum =>
    let r := macStep key data index chain sum
    macLoop key data n (index + 2) r.1 r.2

/-- Chain-and-sum MAC over 32-bit words. -/
def CS64ComputeMAC (key : CS64Key) (data : List Nat) (numBlocks : Nat) : Nat :=
  let index := 0
  let exn := (key.e * Utils.ReadUInt32 data (index <<< 2)) % 2 ^ 32
  let index := index + 1
  let chain := (key.a * exn + key.b) % 2 ^ 32
  let sum := chain
  let chain := (key.c * (chain + Utils.ReadUInt32 data (index <<< 2)) + key.d) % 2 ^ 32
  let index := index + 1
  let sum := (sum + chain) % 2 ^ 32
  let r := macLoop key data (numBlocks / 2 - 1) index chain sum
  let chain := r.1
  let sum := r.2
  sum + (chain <<< 32)

/-- Invert the chain-and-sum computation. -/
def CS64InvertMAC (key : CS64Key) (data : List Nat) (dataLength hash : Nat) : Nat :=
  let numBlocks := dataLength / 4
  let sum := Utils.Lo hash
  let yn := Utils.Hi hash
  let yn2 := if numBlocks > 2 then Utils.Hi (CS64ComputeMAC key data (numBlocks - 2)) else 0
  let sumPrev := if numBlocks > 2 then Utils.Lo (CS64ComputeMAC key data (numBlocks - 2)) else 0
  let yn1 := wsub32 (wsub32 sum sumPrev) yn
  let xn := wsub32 ((key.invC * wsub32 yn key.d) % 2 ^ 32) yn1
  let xn1 := (key.invE * wsub32 ((key.invA * wsub32 yn1 key.b) % 2 ^ 32) yn2) % 2 ^ 32
  Utils.MakeUInt64 xn1 xn

end CS64Key

/-! ## BV4 stream cipher (`class BV4Key`) -/

/-- The state of a BV4 key: the indices `_i`, `_j`, the scalar `_h`, the RC4
table `_s` and the table `_y`. -/
structure BV4Key where
  i : Nat
  j : Nat
  h : Nat
  s : List Nat
  y : List Nat
deriving DecidableEq, Repr

namespace BV4Key

abbrev RC4_TABLESIZE : Nat := 256
abbrev BV4_Y_TABLESIZE : Nat := 32

/-- The RC4 key-setup loop `for (i = ..; i < RC4_TABLESIZE; i++)`, run for `n`
passes from the loop state `(i, j, k, s)`; the result is the table. -/
def ksaLoop (keyData : List Nat) (keyDataOffset keyDataLength : Nat) :
    Nat → Nat → Nat → Nat → List Nat → List Nat
  | 0, _, _, _, s => s
  | n + 1, i, j, k, s =>
    let j := (j + s.getD i 0 + keyData.getD (k + keyDataOffset) 0) &&& (RC4_TABLESIZE - 1)
    let tmp := s.getD i 0
    let s := s.set i (s.getD j 0)
    let s := s.set j tmp
    let k := if k + 1 = keyDataLength then 0 else k + 1
    ksaLoop keyData keyDataOffset keyDataLength n (i + 1) j k s

/-- The loop `for (k = ..; k < bufferLength; ++k)` of `RC4Fill`, run for `n`
passes; the result is `(i, j, s, buffer)`. -/
def rc4FillLoop : Nat → Nat → Nat → Nat → List Nat → List Nat →
    Nat × Nat × List Nat × List Nat
  | 0, _, i, j, s, buffer => (i, j, s, buffer)
  | n + 1, k, i, j, s, buffer =>
    let i := (i + 1) &&& (RC4_TABLESIZE - 1)
    let tmp := s.getD i 0
    let j := (j + tmp) &&& (RC4_TABLESIZE - 1)
    let s := s.set i (s.getD j 0)
    let s := s.set j tmp
    let buffer := buffer.set k (s.getD ((s.getD i 0 + tmp) &&& (RC4_TABLESIZE - 1)) 0)
    rc4FillLoop n (k + 1) i j s buffer

/-- Fill a buffer with RC4 keystream and set `_i`, `_j`, `_h` and `_y[]` from
it. -/
def RC4Fill (s : List Nat) : BV4Key :=
  let bufferLength := (1 + BV4_Y_TABLESIZE) * 4
  let r := rc4FillLoop bufferLength 0 0 0 s (List.replicate bufferLength 0)
  let buffer := r.2.2.2
  { i := r.1 % 256,
    j := r.2.1 % 256,
    h := Utils.ReadUInt32 buffer 0,
    s := r.2.2.1,
    y := (List.range BV4_Y_TABLESIZE).map (fun k => Utils.ReadUInt32 buffer ((k + 1) * 4)) }

/-- Set up a BV4 key (the constructor `BV4Key::BV4Key`). -/
def new (keyData : List Nat) (keyDataOffset keyDataLength : Nat) : BV4Key :=
  let s := List.range RC4_TABLESIZE
  let s := ksaLoop keyData keyDataOffset keyDataLength RC4_TABLESIZE 0 0 0 s
  RC4Fill s

/-- One pass of the body of the `while` loop of `BV4Crypt`, on the loop state
`(i, j, h, s)` (held in a `BV4Key`) and the buffer. -/
def cryptStep (st : BV4Key) (index : Nat) (inputBuf : List Nat) : BV4Key × List Nat :=
  let i := (st.i + 1) &&& (RC4_TABLESIZE - 1)
  let tmp := st.s.getD i 0
  let j := (st.j + tmp) &&& (RC4_TABLESIZE - 1)
  let s := st.s.set i (st.s.getD j 0)
  let s := s.set j tmp
  let t := (s.getD i 0 + s.getD j 0) % 256
  let dword := Utils.ReadUInt32 inputBuf (index <<< 2)
  let dword := dword ^^^ ((st.h * s.getD (t &&& (RC4_TABLESIZE - 1)) 0) % 2 ^ 32)
  let inputBuf := Utils.WriteUInt32 dword inputBuf (index <<< 2)
  let h := (st.h + st.y.getD (t &&& (BV4_Y_TABLESIZE - 1)) 0) % 2 ^ 32
  let s := s.set t ((s.getD t 0 + st.y.getD (t &&& (BV4_Y_TABLESIZE - 1)) 0 % 256) % 256)
  ({ i := i, j := j, h := h, s := s, y := st.y }, inputBuf)

/-- The loop `while (inputBufBytes-- > 0)` of `BV4Crypt`, run for `n` passes
from the word index `index`. -/
def cryptLoop : Nat → BV4Key → Nat → List Nat → BV4Key × List Nat
  | 0, st, _, inputBuf => (st, inputBuf)
  | n + 1, st, index, inputBuf =>
    let r := cryptStep st index inputBuf
    cryptLoop n r.1 (index + 1) r.2

/-- XOR the input buffer with the BV4 keystream; the result is the key after
the call and the buffer. -/
def BV4Crypt (key : BV4Key) (inputBufBytes : Nat) (inputBuf : List Nat) : BV4Key × List Nat :=
  let r := cryptLoop (inputBufBytes >>> 2) key 0 inputBuf
  ({ i := r.1.i % 256, j := r.1.j % 256, h := r.1.h, s := r.1.s, y := r.1.y }, r.2)

end BV4Key

/-! ## Context (`class Context`) -/

/-- The configuration shared by the instances created from it. -/
structure Context where
  Flags : Nat
  Key1 : Nat
  Key2 : Nat
  Key3 : Nat
  WS_B1 : Nat
  WS_C1 : Nat
  WS_D1 : Nat
  WS_E1 : Nat
  WS_B2 : Nat
  WS_C2 : Nat
  WS_D2 : Nat
  WS_E2 : Nat
  REV_B1 : Nat
  REV_C1 : Nat
  REV_D1 : Nat
  REV_E1 : Nat
  REV_B2 : Nat
  REV_C2 : Nat
  REV_D2 : Nat
  REV_E2 : Nat
  SBox : List Nat
deriving DecidableEq, Repr

/-- The constructor `Context::Context`: `Flags` is taken as it is, every other
word is made odd. -/
def Context.new (config20 sbox : List Nat) : Context :=
  { Flags := config20.getD 0 0,
    Key1 := config20.getD 1 0 ||| 1,
    Key2 := config20.getD 2 0 ||| 1,
    Key3 := config20.getD 3 0 ||| 1,
    WS_B1 := config20.getD 4 0 ||| 1,
    WS_C1 := config20.getD 5 0 ||| 1,
    WS_D1 := config20.getD 6 0 ||| 1,
    WS_E1 := config20.getD 7 0 ||| 1,
    WS_B2 := config20.getD 8 0 ||| 1,
    WS_C2 := config20.getD 9 0 ||| 1,
    WS_D2 := config20.getD 10 0 ||| 1,
    WS_E2 := config20.getD 11 0 ||| 1,
    REV_B1 := config20.getD 12 0 ||| 1,
    REV_C1 := config20.getD 13 0 ||| 1,
    REV_D1 := config20.getD 14 0 ||| 1,
    REV_E1 := config20.getD 15 0 ||| 1,
    REV_B2 := config20.getD 16 0 ||| 1,
    REV_C2 := config20.getD 17 0 ||| 1,
    REV_D2 := config20.getD 18 0 ||| 1,
    REV_E2 := config20.getD 19 0 ||| 1,
    SBox := sbox.take CS64Defs.SBOX_SIZE }

/-! ## Chain-and-sum modulo `2 ^ 31 - 1` (`class MACHelper`) -/

namespace MACHelper

/-- Reduce a 64-bit intermediate chain-and-sum result mod `2 ^ 31 - 1`. -/
def CS64Mod (ui : Nat) : Nat :=
  let hi := Utils.Hi ui
  let lo := Utils.Lo ui
  let r := (hi <<< 1) % 2 ^ 32
  let r := if r ≥ CS64Defs.MODULUS then r - CS64Defs.MODULUS else r
  let lo := if lo ≥ CS64Defs.MODULUS then lo - CS64Defs.MODULUS else lo
  let r := (r + lo) % 2 ^ 32
  let r := if r ≥ CS64Defs.MODULUS then r - CS64Defs.MODULUS else r
  r

/-- The body of the loop of `CS64_Modular` at the word index `index`; the
result is `(mac, sum)`. -/
def modularStep (cs64A cs64B cs64C cs64D cs64E : Nat) (data : List Nat)
    (index mac sum : Nat) : Nat × Nat :=
  let tmp := (cs64E * Utils.ReadUInt32 data (index <<< 2) + mac) % 2 ^ 64
  let index := index + 1
  let tmp := CS64Mod tmp
  let mac := (cs64A * tmp + cs64B) % 2 ^ 64
  let mac := CS64Mod mac
  let sum := (sum + mac) % 2 ^ 64
  let tmp := (mac + Utils.ReadUInt32 data (index <<< 2)) % 2 ^ 64
  let tmp := CS64Mod tmp
  let mac := (cs64C * tmp + cs64D) % 2 ^ 64
  let mac := CS64Mod mac
  let sum := (sum + mac) % 2 ^ 64
  (mac, sum)

/-- The loop `for (i = 1; i < (numBlocks >> 1); i++)` of `CS64_Modular`, run
for `n` passes from the word index `index`; the result is `(mac, sum)`. -/
def modularLoop (cs64A cs64B cs64C cs64D cs64E : Nat) (data : List Nat) :
    Nat → Nat → Nat → Nat → Nat × Nat
  | 0, _, mac, sum => (mac, sum)
  | n + 1, index, mac, sum =>
    let r := modularStep cs64A cs64B cs64C cs64D cs64E data index mac sum
    modularLoop cs64A cs64B cs64C cs64D cs64E data n (index + 2) r.1 r.2

/-- The part of `CS64_Modular` that follows the generation of the key
`cs64A .. cs64E`: the first pair of blocks, the loop over the remaining pairs
and the final step. -/
def modularChain (cs64A cs64B cs64C cs64D cs64E : Nat) (data : List Nat)
    (numBlocks : Nat) : Nat :=
  let sum := 0
  let index := 0
  let tmp := (cs64E * Utils.ReadUInt32 data (index <<< 2)) % 2 ^ 64
  let index := index + 1
  let tmp := CS64Mod tmp
  let mac := (cs64A * tmp + cs64B) % 2 ^ 64
  let mac := CS64Mod mac
  let sum := (sum + mac) % 2 ^ 64
  let tmp := (mac + Utils.ReadUInt32 data (index <<< 2)) % 2 ^ 64
  let index := index + 1
  let tmp := CS64Mod tmp
  let mac := (cs64C * tmp + cs64D) % 2 ^ 64
  let mac := CS64Mod mac
  let sum := (sum + mac) % 2 ^ 64
  let r := modularLoop cs64A cs64B cs64C cs64D cs64E data ((numBlocks >>> 1) - 1) index mac sum
  let mac := r.1
  let sum := r.2
  let mac := (mac + cs64B) % 2 ^ 64
  let mac := CS64Mod mac
  let sum := (sum + cs64D) % 2 ^ 64
  let sum := CS64Mod sum
  Utils.MakeUInt64 (Utils.Lo sum) (Utils.Lo mac)

/-- Chain-and-sum MAC over `Z_{2^31 - 1}`; the key is generated from the input
hash and the three 32-bit keys. -/
def CS64_Modular (inHash keyC keyD keyE : Nat) (data : List Nat) (dataLength : Nat) : Nat :=
  let numBlocks := dataLength / CS64Defs.CS_BLOCK_SIZE
  let cs64A := CS64Mod (Utils.Lo inHash)
  let cs64B := CS64Mod (Utils.Hi inHash)
  let cs64C := keyC
  let cs64D := keyD
  let cs64E := keyE
  modularChain cs64A cs64B cs64C cs64D cs64E data numBlocks

end MACHelper

/-! ## Word-swap chain-and-sum (`class WordSwapHelper`) -/

namespace WordSwapHelper

/-- Swap the halves of a 32-bit word: `(d >> 16) | (d << 16)`. -/
def WordSwap (d : Nat) : Nat := (d >>> 16) ||| ((d <<< 16) % 2 ^ 32)

/-- The pairwise-independent function and summing step of `CS64_WordSwap`; the
state is `(t, t2, index, sum)`. -/
def Iteration (a b c d e : Nat) (data : List Nat) (st : Nat × Nat × Nat × Nat) :
    Nat × Nat × Nat × Nat :=
  let t2 := st.2.1
  let index := st.2.2.1
  let sum := st.2.2.2
  let t := t2
  let t := (t + Utils.ReadUInt32 data (index <<< 2)) % 2 ^ 32
  let index := index + 1
  let t := (t * a + WordSwap t * b) % 2 ^ 32
  let t2 := (WordSwap t * c + t * d) % 2 ^ 32
  let t2 := (t2 + WordSwap t * e) % 2 ^ 32
  let sum := (sum + t2) % 2 ^ 32
  (t, t2, index, sum)

/-- The padding step of `CS64_WordSwap`, invoked if the number of blocks is
odd. -/
def FinalIteration (a b c d e : Nat) (st : Nat × Nat × Nat × Nat) : Nat × Nat × Nat × Nat :=
  let t2 := st.2.1
  let index := st.2.2.1
  let sum := st.2.2.2
  let t := t2
  let t := (t * a + WordSwap t * b) % 2 ^ 32
  let t2 := (WordSwap t * c + t * d) % 2 ^ 32
  let t2 := (t2 + WordSwap t * e) % 2 ^ 32
  let sum := (sum + t2) % 2 ^ 32
  (t, t2, index, sum)

/-- The pairwise-independent function and summing step of `CS64_Reversible`;
the state is `(t, u, index, sum)`. -/
def ReversibleIteration (a b c d e l : Nat) (data : List Nat) (st : Nat × Nat × Nat × Nat) :
    Nat × Nat × Nat × Nat :=
  let t := st.1
  let index := st.2.2.1
  let sum := st.2.2.2
  let t := (t + Utils.ReadUInt32 data (index <<< 2)) % 2 ^ 32
  let index := index + 1
  let t := (t * a) % 2 ^ 32
  let u := WordSwap t
  let t := (u * b) % 2 ^ 32
  let t := (WordSwap t * c) % 2 ^ 32
  let t := (WordSwap t * d) % 2 ^ 32
  let t := (WordSwap t * e) % 2 ^ 32
  let t := (t + u * l) % 2 ^ 32
  let sum := (sum + t) % 2 ^ 32
  (t, u, index, sum)

/-- The padding step of `CS64_Reversible`, invoked if the number of blocks is
odd. -/
def ReversibleFinalIteration (a b c d e l : Nat) (st : Nat × Nat × Nat × Nat) :
    Nat × Nat × Nat × Nat :=
  let t := st.1
  let index := st.2.2.1
  let sum := st.2.2.2
  let t := (t * a) % 2 ^ 32
  let u := WordSwap t
  let t := (u * b) % 2 ^ 32
  let t := (WordSwap t * c) % 2 ^ 32
  let t := (WordSwap t * d) % 2 ^ 32
  let t := (WordSwap t * e) % 2 ^ 32
  let t := (t + u * l) % 2 ^ 32
  let sum := (sum + t) % 2 ^ 32
  (t, u, index, sum)

/-- The loop `while (numBlocks > 1)` of `CS64_WordSwap`; the result is the
number of blocks left and the state. -/
def wordSwapLoop (context : Context) (data : List Nat) (key1 key2 : Nat) :
    Nat → Nat × Nat × Nat × Nat → Nat × (Nat × Nat × Nat × Nat)
  | numBlocks + 2, st =>
    let st := Iteration key1 context.WS_B1 context.WS_C1 context.WS_D1 context.WS_E1 data st
    let st := Iteration key2 context.WS_B2 context.WS_C2 context.WS_D2 context.WS_E2 data st
    wordSwapLoop context data key1 key2 numBlocks st
  | numBlocks, st => (numBlocks, st)

/-- Chain-and-sum MAC based on arithmetic and word swaps. -/
def CS64_WordSwap (context : Context) (data : List Nat) (length inHash : Nat) : Nat :=
  let numBlocks := length / CS64Defs.CS_BLOCK_SIZE
  let key1 := Utils.Lo inHash ||| 1
  let key2 := Utils.Hi inHash ||| 1
  let r := wordSwapLoop context data key1 key2 numBlocks (0, 0, 0, 0)
  let numBlocks := r.1
  let st := r.2
  let st :=
    if numBlocks = 1 then
      FinalIteration key2 context.WS_B2 context.WS_C2 context.WS_D2 context.WS_E2
        (Iteration key1 context.WS_B1 context.WS_C1 context.WS_D1 context.WS_E1 data st)
    else st
  Utils.MakeUInt64 st.2.2.2 st.2.1

/-- The loop `while (numBlocks > 1)` of `CS64_Reversible`; the result is the
number of blocks left and the state. -/
def reversibleLoop (context : Context) (data : List Nat) (key1 key2 l1 l2 : Nat) :
    Nat → Nat × Nat × Nat × Nat → Nat × (Nat × Nat × Nat × Nat)
  | numBlocks + 2, st =>
    let st := ReversibleIteration key1 context.REV_B1 context.REV_C1 context.REV_D1
      context.REV_E1 l1 data st
    let st := ReversibleIteration key2 context.REV_B2 context.REV_C2 context.REV_D2
      context.REV_E2 l2 data st
    reversibleLoop context data key1 key2 l1 l2 numBlocks st
  | numBlocks, st => (numBlocks, st)

/-- Chain-and-sum MAC based on arithmetic and word swaps, reversible version. -/
def CS64_Reversible (context : Context) (data : List Nat) (length inHash : Nat) : Nat :=
  let REV_L1 := 0
  let REV_L2 := 0
  let numBlocks := length / CS64Defs.CS_BLOCK_SIZE
  let key1 := Utils.Lo inHash ||| 1
  let key2 := Utils.Hi inHash ||| 1
  let r := reversibleLoop context data key1 key2 REV_L1 REV_L2 numBlocks (0, 0, 0, 0)
  let numBlocks := r.1
  let st := r.2
  let st :=
    if numBlocks = 1 then
      ReversibleFinalIteration key2 context.REV_B2 context.REV_C2 context.REV_D2
        context.REV_E2 REV_L2
        (ReversibleIteration key1 context.REV_B1 context.REV_C1 context.REV_D1
          context.REV_E1 REV_L1 data st)
    else st
  Utils.MakeUInt64 st.2.2.2 st.1

end WordSwapHelper

/-- Combined chain-and-sum hashes and Parve MAC-based 64-bit hash
(`CSParve64::CSH64_ParveCombined`); the result is the result code and
`*hash`. -/
def CSParve64.CSH64_ParveCombined (context : Context) (inputKey data : List Nat)
    (length : Nat) : Int × Nat :=
  let outHash := MACHelper.ParveCBCMAC inputKey context.SBox data length
  let aTempHash := MACHelper.CS64_Modular outHash context.Key1 context.Key2 context.Key3
    data length
  let outHash := outHash ^^^ aTempHash
  let aTempHash := WordSwapHelper.CS64_WordSwap context data length outHash
  let outHash := outHash ^^^ aTempHash
  let aTempHash := WordSwapHelper.CS64_Reversible context data length outHash
  let outHash := outHash ^^^ aTempHash
  (CSPARVE64_OK, outHash)

/-! ## Encryption and decryption with embedded MAC (`class CSParve64`) -/

/-- An instance: the cached hash, the three odd keys, the chain-and-sum key and
the copies of the Parve key and of the S-box. -/
structure CSParve64 where
  Hash : Nat
  C : Nat
  D : Nat
  E : Nat
  CsKey : CS64Key
  ParveKey : List Nat
  SBox : List Nat
deriving DecidableEq, Repr

namespace CSParve64

/-- Combined chain-and-sum and Parve MAC-based 64-bit hash; it initialises
`CsKey`. The result is the instance after the call and the hash. -/
def CS64Hash (self : CSParve64) (inText : List Nat) (inTextLength : Nat) : CSParve64 × Nat :=
  let aParveHash := MACHelper.ParveCBCMAC self.ParveKey self.SBox inText inTextLength
  let csKey := CS64Key.Init aParveHash self.C self.D self.E
  let outHash := csKey.CS64ComputeMAC inText (inTextLength / CS64Defs.CS_BLOCK_SIZE)
  let outHash := outHash ^^^ aParveHash
  ({ self with CsKey := csKey }, outHash)

/-- The constructor `CSParve64::CSParve64`. -/
def new (parveKey sbox : List Nat) (inKey1 inKey2 inKey3 : Nat) (data : List Nat)
    (dataLength : Nat) : CSParve64 :=
  let self : CSParve64 :=
    { Hash := 0,
      C := inKey1 ||| 1,
      D := inKey2 ||| 1,
      E := inKey3 ||| 1,
      CsKey := CS64Key.new,
      ParveKey := parveKey.take CS64Defs.KEY_SIZE,
      SBox := sbox.take CS64Defs.SBOX_SIZE }
  let r := self.CS64Hash data dataLength
  { r.1 with Hash := r.2 }

/-- Encrypt in place; the result is the result code, the buffer and `*mac`. -/
def Encrypt (self : CSParve64) (data : List Nat) (length : Nat) : Int × List Nat × Nat :=
  let MACLength := 2 * CS64Defs.CS_BLOCK_SIZE
  let MACOffset := wsub32 length (2 * CS64Defs.CS_BLOCK_SIZE)
  let mac := self.CsKey.CS64ComputeMAC data (length / CS64Defs.CS_BLOCK_SIZE)
  let data := Utils.WriteUInt64 mac data MACOffset
  let data := data.take MACOffset ++
    MACHelper.ParveEncryptBlock self.ParveKey self.SBox (data.drop MACOffset)
  let bv4Key := BV4Key.new data MACOffset MACLength
  let data := (bv4Key.BV4Crypt MACOffset data).2
  (CSPARVE64_OK, data, mac)

/-- Decrypt in place; the result is the result code, the buffer and `*mac`. -/
def Decrypt (self : CSParve64) (data : List Nat) (length : Nat) : Int × List Nat × Nat :=
  let MACLength := 2 * CS64Defs.CS_BLOCK_SIZE
  let MACOffset := wsub32 length (2 * CS64Defs.CS_BLOCK_SIZE)
  let bv4Key := BV4Key.new data MACOffset MACLength
  let data := (bv4Key.BV4Crypt MACOffset data).2
  let data := data.take MACOffset ++
    MACHelper.ParveDecryptBlock self.ParveKey self.SBox (data.drop MACOffset)
  let mac := Utils.ReadUInt64 data MACOffset
  let lastBlock := self.CsKey.CS64InvertMAC data length mac
  let data := Utils.WriteUInt64 lastBlock data MACOffset
  (CSPARVE64_OK, data, mac)

end CSParve64

/-! ## Exported functions -/

/-- What a call of `CSParve64_OpenContext` leaves behind: the result code and
the contents of the slot `*pContext`. -/
structure OpenResult where
  result : Int
  context : Option Context
deriving DecidableEq, Repr

/-- Create a context. `pContext` tells whether the pointer to the output slot
is present, an absent `sbox` pointer is `none`. The function stores through
`pContext` without a check, so with an absent slot the C code has no defined
behaviour; the model then reports the failure code and no context. -/
def CSParve64_OpenContext (pContext : Bool) (config : List Nat) (sbox : Option (List Nat)) :
    OpenResult :=
  match pContext, sbox with
  | true, some sb =>
    let authContext := Context.new config sb
    if authContext.Flags = 0 then
      { result := CSPARVE64_OK, context := some authContext }
    else
      { result := CSPARVE64_FAIL, context := none }
  | _, _ => { result := CSPARVE64_FAIL, context := none }

/-- What a call of `CSParve64_Create` leaves behind: the result code and the
contents of `*hiHash`, `*loHash` and `*auth`. -/
structure CreateResult where
  result : Int
  hiHash : Nat
  loHash : Nat
  auth : Option CSParve64
deriving DecidableEq, Repr

/-- Create an instance. An absent pointer is `none`; `hiHash`, `loHash` and
`auth` are the contents of the output slots before the call. -/
def CSParve64_Create (context : Option Context) (inputKey8 data : Option (List Nat))
    (dataLength hiHash loHash : Nat) (auth : Option CSParve64) : CreateResult :=
  match context with
  | none => { result := CSPARVE64_FAIL, hiHash := hiHash, loHash := loHash, auth := auth }
  | some authContext =>
    match data, inputKey8 with
    | some buf, some key =>
      if dataLength < CS64Defs.BLK_SIZE ∨ dataLength &&& (CS64Defs.BLK_SIZE - 1) ≠ 0 then
        { result := CSPARVE64_FAIL, hiHash := hiHash, loHash := loHash, auth := auth }
      else
        let cs64 := CSParve64.new key authContext.SBox authContext.Key1 authContext.Key2
          authContext.Key3 buf dataLength
        { result := CSPARVE64_OK, hiHash := Utils.Hi cs64.Hash, loHash := Utils.Lo cs64.Hash,
          auth := some cs64 }
    | _, _ => { result := CSPARVE64_FAIL, hiHash := hiHash, loHash := loHash, auth := auth }

/-- What a call of `CSParve64_Encode` or `CSParve64_Decode` leaves behind: the
result code, the caller's buffer, and the contents of `*hiMAC` and `*loMAC`. -/
structure CodecResult where
  result : Int
  data : Option (List Nat)
  hiMAC : Nat
  loMAC : Nat
deriving DecidableEq, Repr

/-- Encrypt a byte array. An absent pointer is `none`; `hiMAC` and `loMAC` are
the contents of the output slots before the call. -/
def CSParve64_Encode (auth : Option CSParve64) (data : Option (List Nat)) (dataLength : Nat)
    (hiMAC loMAC : Nat) : CodecResult :=
  match auth with
  | none => { result := CSPARVE64_FAIL, data := data, hiMAC := hiMAC, loMAC := loMAC }
  | some cs64 =>
    match data with
    | none => { result := CSPARVE64_FAIL, data := none, hiMAC := hiMAC, loMAC := loMAC }
    | some buf =>
      if dataLength < CS64Defs.BLK_SIZE ∨ dataLength &&& (CS64Defs.BLK_SIZE - 1) ≠ 0 then
        { result := CSPARVE64_FAIL, data := some buf, hiMAC := hiMAC, loMAC := loMAC }
      else
        let r := cs64.Encrypt buf dataLength
        let result := r.1
        let mac := if result ≠ CSPARVE64_OK then 0 else r.2.2
        { result := result, data := some r.2.1, hiMAC := Utils.Hi mac, loMAC := Utils.Lo mac }

/-- Decrypt a byte array. An absent pointer is `none`; `hiMAC` and `loMAC` are
the contents of the output slots before the call. -/
def CSParve64_Decode (auth : Option CSParve64) (data : Option (List Nat)) (length : Nat)
    (hiMAC loMAC : Nat) : CodecResult :=
  match auth with
  | none => { result := CSPARVE64_FAIL, data := data, hiMAC := hiMAC, loMAC := loMAC }
  | some cs64 =>
    match data with
    | none => { result := CSPARVE64_FAIL, data := none, hiMAC := hiMAC, loMAC := loMAC }
    | some buf =>
      if length < CS64Defs.BLK_SIZE ∨ length &&& (CS64Defs.BLK_SIZE - 1) ≠ 0 then
        { result := CSPARVE64_FAIL, data := some buf, hiMAC := hiMAC, loMAC := loMAC }
      else
        let r := cs64.Decrypt buf length
        let result := r.1
        let mac := if result ≠ CSPARVE64_OK then 0 else r.2.2
        { result := result, data := some r.2.1, hiMAC := Utils.Hi mac, loMAC := Utils.Lo mac }

/-- What a call of `CSParve64_ComputeHash` leaves behind: the result code and
the contents of `*hi` and `*lo`. -/
structure HashResult where
  result : Int
  hi : Nat
  lo : Nat
deriving DecidableEq, Repr

/-- Generate a hash using the data. An absent pointer is `none`; `hi` and `lo`
are the contents of the output slots before the call. -/
def CSParve64_ComputeHash (context : Option Context) (inputKey8 data : Option (List Nat))
    (dataLength hi lo : Nat) : HashResult :=
  match context with
  | none => { result := CSPARVE64_FAIL, hi := hi, lo := lo }
  | some authContext =>
    match data, inputKey8 with
    | some buf, some key =>
      if dataLength < CS64Defs.BLK_SIZE ∨ dataLength &&& (CS64Defs.BLK_SIZE - 1) ≠ 0 then
        { result := CSPARVE64_FAIL, hi := hi, lo := lo }
      else
        let hash := (CSParve64.CSH64_ParveCombined authContext key buf dataLength).2
        { result := CSPARVE64_OK, hi := Utils.Hi hash, lo := Utils.Lo hash }
    | _, _ => { result := CSPARVE64_FAIL, hi := hi, lo := lo }

/-- The 20 fields of a context in the order of the configuration vector. -/
def Context.words (c : Context) : List Nat :=
  [c.Flags, c.Key1, c.Key2, c.Key3, c.WS_B1, c.WS_C1, c.WS_D1, c.WS_E1, c.WS_B2, c.WS_C2,
    c.WS_D2, c.WS_E2, c.REV_B1, c.REV_C1, c.REV_D1, c.REV_E1, c.REV_B2, c.REV_C2, c.REV_D2,
    c.REV_E2]

/-! ## The BV4 keystream -/

namespace BV4Key

/-- The loop state after one pass of the body of `BV4Crypt`; it does not depend
on the buffer. -/
def advance (st : BV4Key) : BV4Key := (cryptStep st 0 []).1

/-- The keystream word `h * s[t]` that one pass of the body of `BV4Crypt` XORs
into the buffer. -/
def ksWord (st : BV4Key) : Nat :=
  let i := (st.i + 1) &&& (RC4_TABLESIZE - 1)
  let tmp := st.s.getD i 0
  let j := (st.j + tmp) &&& (RC4_TABLESIZE - 1)
  let s := st.s.set i (st.s.getD j 0)
  let s := s.set j tmp
  let t := (s.getD i 0 + s.getD j 0) % 256
  (st.h * s.getD (t &&& (RC4_TABLESIZE - 1)) 0) % 2 ^ 32

/-- The `k`-th keystream word produced from the loop state `st`. -/
def stream : BV4Key → Nat → Nat
  | st, 0 => ksWord st
  | st, k + 1 => stream (advance st) k

end BV4Key

/-! ## The inputs of the concrete scenarios of the specification -/

/-- The all-zero configuration vector of scenarios 1 and 2. -/
def scenarioConfig : List Nat := List.replicate 20 0

/-- The identity S-box `S[i] = i` of scenarios 1 and 2. -/
def scenarioSBox : List Nat := List.range 256

/-- The input key `00 01 02 03 04 05 06 07` of scenarios 1 and 2. -/
def scenarioInputKey : List Nat := [0, 1, 2, 3, 4, 5, 6, 7]

/-- The buffer of scenario 1: 16 bytes of `0x00`. -/
def scenario1Data : List Nat := List.replicate 16 0

/-- The buffer of scenario 2: 24 bytes with `data[i] = i`. -/
def scenario2Data : List Nat := List.range 24

/-- The instance of scenarios 1 and 2: created from the scenario context with
the scenario input key, with the buffer of scenario 1 as seed data. -/
def scenarioInstance : CSParve64 :=
  CSParve64.new scenarioInputKey (Context.new scenarioConfig scenarioSBox).SBox
    (Context.new scenarioConfig scenarioSBox).Key1 (Context.new scenarioConfig scenarioSBox).Key2
    (Context.new scenarioConfig scenarioSBox).Key3 scenario1Data 16

/-! ## Predicates used in the statements -/

/-- Every element of the configuration vector is a `UINT32`. -/
def IsWords (config : List Nat) : Prop := ∀ x ∈ config, x < 2 ^ 32

instance (config : List Nat) : Decidable (IsWords config) := by
  unfold IsWords; infer_instance


/-- The stored inverses match their multipliers (invariant I2 of the key). -/
def CS64Key.Valid (key : CS64Key) : Prop :=
  (key.a * key.invA) % 2 ^ 32 = 1 ∧ (key.c * key.invC) % 2 ^ 32 = 1 ∧
    (key.e * key.invE) % 2 ^ 32 = 1

instance (key : CS64Key) : Decidable key.Valid := by
  unfold CS64Key.Valid; infer_instance

/-- The ring of 32-bit words, in which the proofs about wrapping arithmetic are
carried out. -/
abbrev Z32 : Type := ZMod (2 ^ 32)

/-! ## GUID strings (`iOSGUIDs.c`)

A `char` is its code, a natural number; a string is the list of the bytes of
its buffer, read with `getD _ 0`, so that a list without a NUL is followed by
its terminator. The 16 bytes `Data` of a `GUID` are a list. -/

/-- The length of a GUID string with its terminator. -/
abbrev GUID_AS_STR_LENGTH : Nat := 37

/-- The C library function `strlen`: the number of characters before the first
NUL. -/
def strlen : List Nat → Nat
  | [] => 0
  | c :: s => if c = 0 then 0 else strlen s + 1

/-- Value of one hexadecimal digit: the result code and `*pByte`, which is
written on success only. The codes are `'0' = 48`, `'9' = 57`, `'a' = 97`,
`'f' = 102`, `'A' = 65`, `'F' = 70`. -/
def hexToNibble (hexChar : Nat) (pByte : Nat) : Int × Nat :=
  if 48 ≤ hexChar ∧ hexChar ≤ 57 then
    (0, (hexChar - 48) % 256)
  else if 97 ≤ hexChar ∧ hexChar ≤ 102 then
    (0, (10 + hexChar - 97) % 256)
  else if 65 ≤ hexChar ∧ hexChar ≤ 70 then
    (0, (10 + hexChar - 65) % 256)
  else
    (-1, pByte)

/-- Value of the two hexadecimal digits at `pHexChar[off]` and
`pHexChar[off + 1]`: the result code and `*pByte`. The high nibble is stored
as soon as the first digit is accepted. The local `tmp` starts uninitialised in
the source; it is read only after `hexToNibble` wrote it. -/
def hexToByte (pHexChar : List Nat) (off : Nat) (pByte : Nat) : Int × Nat :=
  let tmp := 0
  let r := hexToNibble (pHexChar.getD off 0) tmp
  let tmp := r.2
  if r.1 = 0 then
    let pByte := (tmp <<< 4) % 256
    let r := hexToNibble (pHexChar.getD (off + 1) 0) tmp
    let tmp := r.2
    if r.1 = 0 then
      let pByte := pByte ||| tmp
      (0, pByte)
    else
      (-1, pByte)
  else
    (-1, pByte)

/-- One statement `if (rc == 0) rc += hexToByte(&string[off], &guid->Data[idx])`
of `GuidFromString`, on the state `(rc, Data)`. -/
def guidStep (string : List Nat) (off idx : Nat) (st : Int × List Nat) : Int × List Nat :=
  if st.1 = 0 then
    let r := hexToByte string off (st.2.getD idx 0)
    (st.1 + r.1, st.2.set idx r.2)
  else
    st

/-- Parse a GUID string; the result is the result code and `guid->Data`.
`'-'` is the code 45. -/
def GuidFromString (string : Option (List Nat)) (guid : Option (List Nat)) :
    Int × Option (List Nat) :=
  match guid, string with
  | some data, some s =>
    if strlen s ≥ GUID_AS_STR_LENGTH - 1 then
      if s.getD 8 0 = 45 ∧ s.getD 13 0 = 45 ∧ s.getD 18 0 = 45 ∧ s.getD 23 0 = 45 then
        let st : Int × List Nat := (0, data)
        let st := guidStep s 0 3 st
        let st := guidStep s 2 2 st
        let st := guidStep s 4 1 st
        let st := guidStep s 6 0 st
        let st := guidStep s 9 5 st
        let st := guidStep s 11 4 st
        let st := guidStep s 14 7 st
        let st := guidStep s 16 6 st
        let st := guidStep s 19 8 st
        let st := guidStep s 21 9 st
        let st := guidStep s 24 10 st
        let st := guidStep s 26 11 st
        let st := guidStep s 28 12 st
        let st := guidStep s 30 13 st
        let st := guidStep s 32 14 st
        let st := guidStep s 34 15 st
        (if st.1 = 0 then 0 else -1, some st.2)
      else
        (-1, some data)
    else
      (-1, some data)
  | _, _ => (-1, guid)

/-- One lower-case hexadecimal digit, as the C library prints it. -/
def hexDigit (n : Nat) : Nat := if n < 10 then 48 + n else 87 + n

/-- The conversion `%02hhx` of the C library: the argument converted to
`unsigned char`, as two lower-case hexadecimal digits. -/
def fmt02hhx (b : Nat) : List Nat := [hexDigit (b % 256 / 16), hexDigit (b % 256 % 16)]

/-- The C library function `snprintf` on a formatted text: at most `size - 1`
characters and the terminator are stored at the start of `string`. -/
def snprintfText (string : List Nat) (size : Nat) (text : List Nat) : List Nat :=
  text.take (size - 1) ++ [0] ++ string.drop (min text.length (size - 1) + 1)

/-- The text of the format
`%02hhx%02hhx%02hhx%02hhx-%02hhx%02hhx-%02hhx%02hhx-%02hhx%02hhx-%02hhx%02hhx%02hhx%02hhx%02hhx%02hhx`
of `GuidToString` applied to `Data[3], Data[2], Data[1], Data[0], Data[5],
Data[4], Data[7], Data[6], Data[8], ..., Data[15]`. -/
def guidText (data : List Nat) : List Nat :=
  fmt02hhx (data.getD 3 0) ++ fmt02hhx (data.getD 2 0) ++ fmt02hhx (data.getD 1 0)
    ++ fmt02hhx (data.getD 0 0) ++ [45]
    ++ fmt02hhx (data.getD 5 0) ++ fmt02hhx (data.getD 4 0) ++ [45]
    ++ fmt02hhx (data.getD 7 0) ++ fmt02hhx (data.getD 6 0) ++ [45]
    ++ fmt02hhx (data.getD 8 0) ++ fmt02hhx (data.getD 9 0) ++ [45]
    ++ fmt02hhx (data.getD 10 0) ++ fmt02hhx (data.getD 11 0)
    ++ fmt02hhx (data.getD 12 0) ++ fmt02hhx (data.getD 13 0)
    ++ fmt02hhx (data.getD 14 0) ++ fmt02hhx (data.getD 15 0)

/-- Print a GUID; the result is the result code and the string buffer. -/
def GuidToString (guid : Option (List Nat)) (string : Option (List Nat)) :
    Int × Option (List Nat) :=
  match guid, string with
  | some data, some s => (0, some (snprintfText s GUID_AS_STR_LENGTH (guidText data)))
  | _, _ => (-1, string)

/-- A hexadecimal digit `0-9`, `a-f` or `A-F`. -/
def IsHexChar (c : Nat) : Prop :=
  (48 ≤ c ∧ c ≤ 57) ∨ (97 ≤ c ∧ c ≤ 102) ∨ (65 ≤ c ∧ c ≤ 70)

instance (c : Nat) : Decidable (IsHexChar c) := by
  unfold IsHexChar; infer_instance

/-- The value of a hexadecimal digit. -/
def hexValue (c : Nat) : Nat :=
  if c ≤ 57 then c - 48 else if 97 ≤ c then c - 87 else c - 55

/-- The documented layout `b4 b3 b2 b1 - b6 b5 - b8 b7 - b9 b10 - b11 .. b16`:
the index in the string of the first digit of `Data[j]`. -/
def guidDigitPos (j : Nat) : Nat :=
  [6, 4, 2, 0, 11, 9, 16, 14, 19, 21, 24, 26, 28, 30, 32, 34].getD j 0

/-- The byte the documented layout assigns to `Data[j]`: the value of the two
digits at `guidDigitPos j`. -/
def guidByte (s : List Nat) (j : Nat) : Nat :=
  hexValue (s.getD (guidDigitPos j) 0) * 16 + hexValue (s.getD (guidDigitPos j + 1) 0)

/-- The bytes the documented layout puts into `Data`: each of the 16 bytes is
replaced by the value of its two digits. -/
def guidParsed (s data : List Nat) : List Nat :=
  (((((((((((((((data.set 3 (guidByte s 3)).set 2 (guidByte s 2)).set 1 (guidByte s
    1)).set 0 (guidByte s 0)).set 5 (guidByte s 5)).set 4 (guidByte s 4)).set 7 (guidByte s
    7)).set 6 (guidByte s 6)).set 8 (guidByte s 8)).set 9 (guidByte s 9)).set 10 (guidByte s
    10)).set 11 (guidByte s 11)).set 12 (guidByte s 12)).set 13 (guidByte s 13)).set 14
    (guidByte s 14)).set 15 (guidByte s 15)

/-- The GUID string `00010203-0405-0607-0809-0a0b0c0d0e0f`, as character codes. -/
def exampleGuidString : List Nat :=
  [48, 48, 48, 49, 48, 50, 48, 51, 45, 48, 52, 48, 53, 45, 48, 54, 48, 55, 45, 48, 56, 48,
    57, 45, 48, 97, 48, 98, 48, 99, 48, 100, 48, 101, 48, 102]

/-! ## The reference recurrences of the specification -/

/-- The word `W[i]` of a buffer: the big-endian 32-bit value at byte `4 * i`. -/
def wordAt (data : List Nat) (i : Nat) : Nat := Utils.ReadUInt32 data (4 * i)

/-- The reference recurrence for `CS64ComputeMAC`, all arithmetic mod `2 ^ 32`:
the state `(chain, sum)` after the pair of words `2 k`, `2 k + 1`. -/
def refChainSum (key : CS64Key) (W : Nat → Nat) : Nat → Nat × Nat
  | 0 =>
    let chain := (key.a * (key.e * W 0) + key.b) % 2 ^ 32
    let sum := chain
    let chain := (key.c * (chain + W 1) + key.d) % 2 ^ 32
    let sum := (sum + chain) % 2 ^ 32
    (chain, sum)
  | k + 1 =>
    let chain := (refChainSum key W k).1
    let sum := (refChainSum key W k).2
    let chain := (key.a * (chain + key.e * W (2 * (k + 1))) + key.b) % 2 ^ 32
    let sum := (sum + chain) % 2 ^ 32
    let chain := (key.c * (chain + W (2 * (k + 1) + 1)) + key.d) % 2 ^ 32
    let sum := (sum + chain) % 2 ^ 32
    (chain, sum)

/-- The reference result for `n` words: `sum + (chain << 32)` after the pairs
`0 .. n / 2 - 1`. -/
def refComputeMAC (key : CS64Key) (W : Nat → Nat) (n : Nat) : Nat :=
  (refChainSum key W (n / 2 - 1)).2 + ((refChainSum key W (n / 2 - 1)).1 <<< 32)

/-- The reference recurrence for `CS64_Modular` over the integers mod
`p = 2 ^ 31 - 1`: the state `(m, s)` after the pair of words `2 k`, `2 k + 1`. -/
def refModularPairs (A B C D E : Nat) (W : Nat → Nat) : Nat → Nat × Nat
  | 0 =>
    let m := (A * (E * W 0) + B) % (2 ^ 31 - 1)
    let s := m
    let m := (C * (m + W 1) + D) % (2 ^ 31 - 1)
    let s := (s + m) % (2 ^ 31 - 1)
    (m, s)
  | k + 1 =>
    let m := (refModularPairs A B C D E W k).1
    let s := (refModularPairs A B C D E W k).2
    let m := (A * (E * W (2 * (k + 1)) + m) + B) % (2 ^ 31 - 1)
    let s := (s + m) % (2 ^ 31 - 1)
    let m := (C * (m + W (2 * (k + 1) + 1)) + D) % (2 ^ 31 - 1)
    let s := (s + m) % (2 ^ 31 - 1)
    (m, s)

/-- The reference result of `CS64_Modular` for `n` words, with
`A = CS64Mod (Lo seed)` and `B = CS64Mod (Hi seed)`: `mac = m + B`,
`sum = s + D` mod `p`, returned as `(sum << 32) | mac`. -/
def refModular (seed keyC keyD keyE : Nat) (W : Nat → Nat) (n : Nat) : Nat :=
  let A := MACHelper.CS64Mod (Utils.Lo seed)
  let B := MACHelper.CS64Mod (Utils.Hi seed)
  let r := refModularPairs A B keyC keyD keyE W (n / 2 - 1)
  let mac := (r.1 + B) % (2 ^ 31 - 1)
  let sum := (r.2 + keyD) % (2 ^ 31 - 1)
  (sum <<< 32) ||| mac

/-! ## Definitions used in the statements on BV4, the recurrences and `CS64_Reversible` -/

/-- The byte-wise XOR of two buffers. -/
def xorBuf (A B : List Nat) : List Nat := List.zipWith (fun a b => a ^^^ b) A B

/-- The reference pair step, written from the specification: the general pair
step of the chain-and-sum recurrence over the words `W`,
all arithmetic mod `2 ^ 32`, on the state `(chain, sum)`:
`chain = a * (chain + e * W[2k]) + b; sum += chain;
chain = c * (chain + W[2k+1]) + d; sum += chain`. -/
def refPairStep (key : CS64Key) (W : Nat → Nat) (k : Nat) (st : Nat × Nat) : Nat × Nat :=
  let chain := st.1
  let sum := st.2
  let chain := (key.a * (chain + key.e * W (2 * k)) + key.b) % 2 ^ 32
  let sum := (sum + chain) % 2 ^ 32
  let chain := (key.c * (chain + W (2 * k + 1)) + key.d) % 2 ^ 32
  let sum := (sum + chain) % 2 ^ 32
  (chain, sum)

/-- The reference uniform recurrence, written from the specification: the fold
of the general pair step over the pairs
`0 .. n / 2 - 1`, starting from `chain = 0`, `sum = 0`. -/
def refUniformChainSum (key : CS64Key) (W : Nat → Nat) (n : Nat) : Nat × Nat :=
  (List.range (n / 2)).foldl (fun st k => refPairStep key W k st) (0, 0)

/-- The relation between the states `(t, u, index, sum)` of two runs of
`CS64_Reversible` over buffers that differ in the word `k` only: the runs are
at the same index, and either the word `k` is still ahead and the states are
equal, or it was consumed and the values of `t` differ. -/
def revDiffer (k : Nat) (s1 s2 : Nat × Nat × Nat × Nat) : Prop :=
  s1.2.2.1 = s2.2.2.1 ∧ s1.1 < 2 ^ 32 ∧ s2.1 < 2 ^ 32 ∧
    ((s1.2.2.1 ≤ k ∧ s1 = s2) ∨ (k < s1.2.2.1 ∧ s1.1 ≠ s2.1))

/-- The local `buffer` of `RC4Fill` when the constructor `BV4Key::BV4Key` calls
it: the 132 warm-up bytes of the RC4 keystream. -/
def BV4Key.warmup (keyData : List Nat) (keyDataOffset keyDataLength : Nat) : List Nat :=
  (BV4Key.rc4FillLoop ((1 + BV4Key.BV4_Y_TABLESIZE) * 4) 0 0 0
    (BV4Key.ksaLoop keyData keyDataOffset keyDataLength BV4Key.RC4_TABLESIZE 0 0 0
      (List.range BV4Key.RC4_TABLESIZE))
    (List.replicate ((1 + BV4Key.BV4_Y_TABLESIZE) * 4) 0)).2.2.2

/-! ## The accesses to the caller's buffer and the chain-and-sum invocations

Every function below lists, in program order, what the function of the same
name does to the buffer that the caller passed (`data`, `inText`, `keyData`,
`inputBuf`, `block` when it points into `data`), and which chain-and-sum
functions it invokes. The indices of that buffer do not depend on the values
in it, so the lists are functions of the lengths and offsets alone. Indices are
computed without wrap-around: an index below a length that fits a `UINT32` is
the index the code computes. -/

/-- What a call does that its safety depends on: a read or a write of the
caller's buffer at a byte index, or an invocation of `CS64ComputeMAC` or of
`CS64_Modular` with its `numBlocks`. -/
inductive Event where
  | read (index : Nat)
  | write (index : Nat)
  | computeMAC (numBlocks : Nat)
  | modular (numBlocks : Nat)
deriving DecidableEq, Repr

/-- The event is an access to the buffer at an index below `bound`. -/
def Event.Below (bound : Nat) : Event → Prop
  | Event.read index => index < bound
  | Event.write index => index < bound
  | Event.computeMAC _ => False
  | Event.modular _ => False

/-- The event is safe for a buffer of `length` bytes: an access lies in
`[0, length)`, an invocation of a chain-and-sum function has an even
`numBlocks` that is at least 2. -/
def Event.Safe (length : Nat) : Event → Prop
  | Event.read index => index < length
  | Event.write index => index < length
  | Event.computeMAC numBlocks => numBlocks % 2 = 0 ∧ 2 ≤ numBlocks
  | Event.modular numBlocks => numBlocks % 2 = 0 ∧ 2 ≤ numBlocks

instance (length : Nat) (e : Event) : Decidable (e.Safe length) := by
  cases e <;> unfold Event.Safe <;> infer_instance

/-- The reads of `Utils::ReadUInt32 (buffer, offset)`. -/
def Utils.ReadUInt32_events (offset : Nat) : List Event :=
  [Event.read offset, Event.read (offset + 1), Event.read (offset + 2), Event.read (offset + 3)]

/-- The writes of `Utils::WriteUInt32 (n, dest, offset)`. -/
def Utils.WriteUInt32_events (offset : Nat) : List Event :=
  [Event.write offset, Event.write (offset + 1), Event.write (offset + 2),
    Event.write (offset + 3)]

/-- The reads of `Utils::ReadUInt64 (buffer, offset)`. -/
def Utils.ReadUInt64_events (offset : Nat) : List Event :=
  [Event.read offset, Event.read (offset + 1), Event.read (offset + 2), Event.read (offset + 3),
    Event.read (offset + 4), Event.read (offset + 5), Event.read (offset + 6),
    Event.read (offset + 7)]

/-- The writes of `Utils::WriteUInt64 (n, dest, offset)`. -/
def Utils.WriteUInt64_events (offset : Nat) : List Event :=
  [Event.write offset, Event.write (offset + 1), Event.write (offset + 2),
    Event.write (offset + 3), Event.write (offset + 4), Event.write (offset + 5),
    Event.write (offset + 6), Event.write (offset + 7)]

/-- The loop `for (i = 1; i < numBlocks / 2; i++)` of `CS64ComputeMAC`, run for
`n` passes from the word index `index`: two words are read per pass. -/
def CS64Key.macLoop_events : Nat → Nat → List Event
  | 0, _ => []
  | n + 1, index =>
    Utils.ReadUInt32_events (index <<< 2) ++ Utils.ReadUInt32_events ((index + 1) <<< 2)
      ++ CS64Key.macLoop_events n (index + 2)

/-- The events of `CS64ComputeMAC (data, numBlocks)`: the invocation, the reads
of the blocks 0 and 1, which happen whatever `numBlocks` is, and the loop. -/
def CS64Key.CS64ComputeMAC_events (numBlocks : Nat) : List Event :=
  Event.computeMAC numBlocks ::
    (Utils.ReadUInt32_events (0 <<< 2) ++ Utils.ReadUInt32_events (1 <<< 2)
      ++ CS64Key.macLoop_events (numBlocks / 2 - 1) 2)

/-- The events of `CS64InvertMAC (data, dataLength, hash)`: the buffer is
touched only by `CS64ComputeMAC (data, numBlocks - 2)`, called if
`numBlocks > 2`. -/
def CS64Key.CS64InvertMAC_events (dataLength : Nat) : List Event :=
  let numBlocks := dataLength / 4
  if numBlocks > 2 then CS64Key.CS64ComputeMAC_events (numBlocks - 2) else []

/-- The RC4 key-setup loop of the constructor `BV4Key::BV4Key`, run for `n`
passes from the key index `k`: each pass reads `keyData[k + keyDataOffset]`. -/
def BV4Key.ksaLoop_events (keyDataOffset keyDataLength : Nat) : Nat → Nat → List Event
  | 0, _ => []
  | n + 1, k =>
    Event.read (k + keyDataOffset) ::
      BV4Key.ksaLoop_events keyDataOffset keyDataLength n
        (if k + 1 = keyDataLength then 0 else k + 1)

/-- The events of the constructor `BV4Key::BV4Key (keyData, keyDataOffset,
keyDataLength)`; `RC4Fill` works on the tables of the key only. -/
def BV4Key.new_events (keyDataOffset keyDataLength : Nat) : List Event :=
  BV4Key.ksaLoop_events keyDataOffset keyDataLength BV4Key.RC4_TABLESIZE 0

/-- The loop `while (inputBufBytes-- > 0)` of `BV4Crypt`, run for `n` passes
from the word index `index`: each pass reads and writes one word. -/
def BV4Key.cryptLoop_events : Nat → Nat → List Event
  | 0, _ => []
  | n + 1, index =>
    Utils.ReadUInt32_events (index <<< 2) ++ Utils.WriteUInt32_events (index <<< 2)
      ++ BV4Key.cryptLoop_events n (index + 1)

/-- The events of `BV4Crypt (inputBufBytes, inputBuf)`. -/
def BV4Key.BV4Crypt_events (inputBufBytes : Nat) : List Event :=
  BV4Key.cryptLoop_events (inputBufBytes >>> 2) 0

namespace MACHelper

/-- The inner loop `for (i = 0; i < n; i++)` of an encryption round on the
block at `data + base`: `block[i + 1]` and `block[i]` are read, `block[i + 1]`
is written. -/
def encInner_events (base : Nat) : Nat → List Event
  | 0 => []
  | n + 1 =>
    encInner_events base n
      ++ [Event.read (base + (n + 1)), Event.read (base + n), Event.write (base + (n + 1))]

/-- One encryption round on the block at `data + base`: the inner loop, then
`block[0]` and `block[i]` with `i = 7` are read and `block[0]` is written. -/
def encRound_events (base : Nat) : List Event :=
  encInner_events base (CS64Defs.BLK_SIZE - 1)
    ++ [Event.read (base + 0), Event.read (base + (CS64Defs.BLK_SIZE - 1)),
      Event.write (base + 0)]

/-- The loop over `n` encryption rounds. -/
def encRounds_events (base : Nat) : Nat → List Event
  | 0 => []
  | r + 1 => encRound_events base ++ encRounds_events base r

/-- The events of `ParveEncryptBlock (key, sbox, data + base)`. -/
def ParveEncryptBlock_events (base : Nat) : List Event :=
  encRounds_events base CS64Defs.NUM_ROUNDS

/-- The inner loop `for (--i; i >= 0; i--)` of a decryption round on the block
at `data + base`, entered with `i = n - 1`. -/
def decInner_events (base : Nat) : Nat → List Event
  | 0 => []
  | n + 1 =>
    [Event.read (base + (n + 1)), Event.read (base + n), Event.write (base + (n + 1))]
      ++ decInner_events base n

/-- One decryption round on the block at `data + base`: `block[0]` and
`block[i]` with `i = 7` are read and `block[0]` is written, then the inner
loop. -/
def decRound_events (base : Nat) : List Event :=
  [Event.read (base + 0), Event.read (base + (CS64Defs.BLK_SIZE - 1)), Event.write (base + 0)]
    ++ decInner_events base (CS64Defs.BLK_SIZE - 1)

/-- The loop over `n` decryption rounds. -/
def decRounds_events (base : Nat) : Nat → List Event
  | 0 => []
  | r + 1 => decRounds_events base r ++ decRound_events base

/-- The events of `ParveDecryptBlock (key, sbox, data + base)`. -/
def ParveDecryptBlock_events (base : Nat) : List Event :=
  decRounds_events base CS64Defs.NUM_ROUNDS

/-- The loop `for (j = 0; j < n; ++j) aBlock[j] ^= inText[i * BLK_SIZE + j]`:
the reads of `inText`. -/
def xorBlock_events (i : Nat) : Nat → List Event
  | 0 => []
  | n + 1 => xorBlock_events i n ++ [Event.read (i * CS64Defs.BLK_SIZE + n)]

/-- The loop `for (i = 0; i < n; ++i)` of `ParveCBCMAC`; the block that is
encrypted is the local `aBlock`. -/
def cbcLoop_events : Nat → List Event
  | 0 => []
  | n + 1 => cbcLoop_events n ++ xorBlock_events n CS64Defs.BLK_SIZE

/-- The events of `ParveCBCMAC (key, sbox, inText, inTextLength)`. -/
def ParveCBCMAC_events (inTextLength : Nat) : List Event :=
  cbcLoop_events (inTextLength / CS64Defs.BLK_SIZE)

/-- The loop `for (i = 1; i < (numBlocks >> 1); i++)` of `CS64_Modular`, run
for `n` passes from the word index `index`: two words are read per pass. -/
def modularLoop_events : Nat → Nat → List Event
  | 0, _ => []
  | n + 1, index =>
    Utils.ReadUInt32_events (index <<< 2) ++ Utils.ReadUInt32_events ((index + 1) <<< 2)
      ++ modularLoop_events n (index + 2)

/-- The events of `CS64_Modular (inHash, keyC, keyD, keyE, data, dataLength)`:
the invocation with `numBlocks = dataLength / CS_BLOCK_SIZE`, the reads of the
blocks 0 and 1, which happen whatever `numBlocks` is, and the loop. -/
def CS64_Modular_events (dataLength : Nat) : List Event :=
  let numBlocks := dataLength / CS64Defs.CS_BLOCK_SIZE
  Event.modular numBlocks ::
    (Utils.ReadUInt32_events (0 <<< 2) ++ Utils.ReadUInt32_events (1 <<< 2)
      ++ modularLoop_events ((numBlocks >>> 1) - 1) 2)

end MACHelper

namespace WordSwapHelper

/-- The read of `Iteration` and of `ReversibleIteration`: the word at
`index << 2`. -/
def Iteration_events (index : Nat) : List Event :=
  Utils.ReadUInt32_events (index <<< 2)

/-- The loop `while (numBlocks > 1)` of `CS64_WordSwap` and of
`CS64_Reversible`, two iterations per pass; the result is the number of blocks
left, the word index and the events. -/
def loop_events : Nat → Nat → Nat × Nat × List Event
  | numBlocks + 2, index =>
    let r := loop_events numBlocks (index + 2)
    (r.1, r.2.1, Iteration_events index ++ Iteration_events (index + 1) ++ r.2.2)
  | numBlocks, index => (numBlocks, index, [])

/-- The events of `CS64_WordSwap (context, data, length, inHash)`: the loop,
and one more `Iteration` if one block is left (`FinalIteration` reads no
data). -/
def CS64_WordSwap_events (length : Nat) : List Event :=
  let numBlocks := length / CS64Defs.CS_BLOCK_SIZE
  let r := loop_events numBlocks 0
  r.2.2 ++ (if r.1 = 1 then Iteration_events r.2.1 else [])

/-- The events of `CS64_Reversible (context, data, length, inHash)`: the loop,
and one more `ReversibleIteration` if one block is left
(`ReversibleFinalIteration` reads no data). -/
def CS64_Reversible_events (length : Nat) : List Event :=
  let numBlocks := length / CS64Defs.CS_BLOCK_SIZE
  let r := loop_events numBlocks 0
  r.2.2 ++ (if r.1 = 1 then Iteration_events r.2.1 else [])

end WordSwapHelper

namespace CSParve64

/-- The events of `CS64Hash (inText, inTextLength)`. -/
def CS64Hash_events (inTextLength : Nat) : List Event :=
  MACHelper.ParveCBCMAC_events inTextLength
    ++ CS64Key.CS64ComputeMAC_events (inTextLength / CS64Defs.CS_BLOCK_SIZE)

/-- The events of the constructor `CSParve64::CSParve64` on `data`; the copies
of the Parve key and of the S-box read other buffers. -/
def new_events (dataLength : Nat) : List Event :=
  CS64Hash_events dataLength

/-- The events of `Encrypt (data, length, mac)`. -/
def Encrypt_events (length : Nat) : List Event :=
  let MACLength := 2 * CS64Defs.CS_BLOCK_SIZE
  let MACOffset := wsub32 length (2 * CS64Defs.CS_BLOCK_SIZE)
  CS64Key.CS64ComputeMAC_events (length / CS64Defs.CS_BLOCK_SIZE)
    ++ Utils.WriteUInt64_events MACOffset
    ++ MACHelper.ParveEncryptBlock_events MACOffset
    ++ BV4Key.new_events MACOffset MACLength
    ++ BV4Key.BV4Crypt_events MACOffset

/-- The events of `Decrypt (data, length, mac)`. -/
def Decrypt_events (length : Nat) : List Event :=
  let MACLength := 2 * CS64Defs.CS_BLOCK_SIZE
  let MACOffset := wsub32 length (2 * CS64Defs.CS_BLOCK_SIZE)
  BV4Key.new_events MACOffset MACLength
    ++ BV4Key.BV4Crypt_events MACOffset
    ++ MACHelper.ParveDecryptBlock_events MACOffset
    ++ Utils.ReadUInt64_events MACOffset
    ++ CS64Key.CS64InvertMAC_events length
    ++ Utils.WriteUInt64_events MACOffset

/-- The events of `CSH64_ParveCombined (context, inputKey, data, length,
hash)`. -/
def CSH64_ParveCombined_events (length : Nat) : List Event :=
  MACHelper.ParveCBCMAC_events length
    ++ MACHelper.CS64_Modular_events length
    ++ WordSwapHelper.CS64_WordSwap_events length
    ++ WordSwapHelper.CS64_Reversible_events length

end CSParve64

/-- The events of `CSParve64_Create` with all pointers present: none when the
validation of `dataLength` fails. -/
def CSParve64_Create_events (dataLength : Nat) : List Event :=
  if dataLength < CS64Defs.BLK_SIZE ∨ dataLength &&& (CS64Defs.BLK_SIZE - 1) ≠ 0 then []
  else CSParve64.new_events dataLength

/-- The events of `CSParve64_Encode` with all pointers present: none when the
validation of `dataLength` fails. -/
def CSParve64_Encode_events (dataLength : Nat) : List Event :=
  if dataLength < CS64Defs.BLK_SIZE ∨ dataLength &&& (CS64Defs.BLK_SIZE - 1) ≠ 0 then []
  else CSParve64.Encrypt_events dataLength

/-- The events of `CSParve64_Decode` with all pointers present: none when the
validation of `length` fails. -/
def CSParve64_Decode_events (length : Nat) : List Event :=
  if length < CS64Defs.BLK_SIZE ∨ length &&& (CS64Defs.BLK_SIZE - 1) ≠ 0 then []
  else CSParve64.Decrypt_events length

/-- The events of `CSParve64_ComputeHash` with all pointers present: none when
the validation of `dataLength` fails. -/
def CSParve64_ComputeHash_events (dataLength : Nat) : List Event :=
  if dataLength < CS64Defs.BLK_SIZE ∨ dataLength &&& (CS64Defs.BLK_SIZE - 1) ≠ 0 then []
  else CSParve64.CSH64_ParveCombined_events dataLength

/-! ## Buffers of bytes -/

/-- Every element of the buffer is a `BYTE`. -/
def IsBytes (buf : List Nat) : Prop := ∀ x ∈ buf, x < 256

instance (buf : List Nat) : Decidable (IsBytes buf) := by
  unfold IsBytes; infer_instance

theorem getD_set_eq (l : List Nat) (i j v : Nat) :
    (l.set i v).getD j 0 = if i = j ∧ i < l.length then v else l.getD j 0 := by
  simp only [List.getD_eq_getElem?_getD, List.getElem?_set]
  by_cases h : i = j
  · subst h
    by_cases h2 : i < l.length
    · simp [h2]
    · simp [h2, List.getElem?_eq_none (Nat.le_of_not_lt h2)]
  · simp [h]

theorem IsBytes.getD {buf : List Nat} (h : IsBytes buf) (i : Nat) : buf.getD i 0 < 256 := by
  rw [List.getD_eq_getElem?_getD]
  rcases hi : buf[i]? with _ | x
  · simp
  · simpa using h x (List.getElem?_mem hi)

theorem IsBytes.set {buf : List Nat} (h : IsBytes buf) (i v : Nat) (hv : v < 256) :
    IsBytes (buf.set i v) := by
  intro x hx
  rcases List.mem_or_eq_of_mem_set hx with hx | hx
  · exact h x hx
  · exact hx ▸ hv

theorem list_ext_getD {l₁ l₂ : List Nat} (hlen : l₁.length = l₂.length)
    (h : ∀ i, i < l₁.length → l₁.getD i 0 = l₂.getD i 0) : l₁ = l₂ := by
  apply List.ext_getElem hlen
  intro i h1 h2
  have := h i h1
  simpa [List.getD_eq_getElem?_getD, List.getElem?_eq_getElem h1,
    List.getElem?_eq_getElem h2] using this

/-! ## Parve: decryption inverts encryption -/

namespace MACHelper

set_option maxRecDepth 100000 in
theorem ror_rol : ∀ x, x < 256 → ror1 (rol1 x) = x := by
  decide

theorem rol1_lt (x : Nat) : rol1 x < 256 := Nat.mod_lt _ (by norm_num)

theorem length_encStep (key sbox : List Nat) (r i : Nat) (block : List Nat) :
    (encStep key sbox r i block).length = block.length := by
  simp [encStep]

theorem isBytes_encStep (key sbox : List Nat) (r i : Nat) {block : List Nat}
    (h : IsBytes block) : IsBytes (encStep key sbox r i block) := by
  unfold encStep
  exact h.set _ _ (rol1_lt _)

theorem length_encInner (key sbox : List Nat) (r n : Nat) (block : List Nat) :
    (encInner key sbox r n block).length = block.length := by
  induction n with
  | zero => rfl
  | succ n ih => simp [encInner, length_encStep, ih]

theorem isBytes_encInner (key sbox : List Nat) (r n : Nat) {block : List Nat}
    (h : IsBytes block) : IsBytes (encInner key sbox r n block) := by
  induction n with
  | zero => exact h
  | succ n ih => exact isBytes_encStep key sbox r n ih

theorem length_encRound (key sbox : List Nat) (r : Nat) (block : List Nat) :
    (encRound key sbox r block).length = block.length := by
  simp [encRound, length_encInner]

theorem isBytes_encRound (key sbox : List Nat) (r : Nat) {block : List Nat}
    (h : IsBytes block) : IsBytes (encRound key sbox r block) := by
  unfold encRound
  exact (isBytes_encInner key sbox r _ h).set _ _ (rol1_lt _)

theorem length_encRounds (key sbox : List Nat) (n : Nat) (block : List Nat) :
    (encRounds key sbox n block).length = block.length := by
  induction n generalizing block with
  | zero => rfl
  | succ n ih => simp [encRounds, ih, length_encRound]

theorem isBytes_encRounds (key sbox : List Nat) (n : Nat) {block : List Nat}
    (h : IsBytes block) : IsBytes (encRounds key sbox n block) := by
  induction n generalizing block with
  | zero => exact h
  | succ n ih => exact ih (isBytes_encRound key sbox (n + 1) h)

/-- The byte arithmetic of one cipher step is undone by the matching inverse
step. -/
theorem unstep_byte (x s : Nat) (hx : x < 256) :
    (ror1 (rol1 ((x + s) % 256)) + 256 - s % 256) % 256 = x := by
  rw [ror_rol _ (Nat.mod_lt _ (by norm_num))]
  omega

theorem decStep_encStep (key sbox : List Nat) (r i : Nat) {block : List Nat}
    (hb : IsBytes block) (hi : i + 1 < block.length) :
    decStep key sbox r i (encStep key sbox r i block) = block := by
  apply list_ext_getD
  · simp [decStep, encStep]
  · intro p hp
    have hx := hb.getD (i + 1)
    simp only [decStep, encStep, getD_set_eq, List.length_set]
    rw [if_neg (by omega : ¬ (i + 1 = i ∧ i + 1 < block.length))]
    simp only [true_and, hi, if_true, and_true]
    split
    · rename_i h
      rw [unstep_byte _ _ hx, h]
    · rfl

theorem decInner_encInner (key sbox : List Nat) (r n : Nat) {block : List Nat}
    (hb : IsBytes block) (hn : n < block.length) :
    decInner key sbox r n (encInner key sbox r n block) = block := by
  induction n with
  | zero => rfl
  | succ n ih =>
    simp only [encInner, decInner]
    rw [decStep_encStep key sbox r n (isBytes_encInner key sbox r n hb)
      (by rw [length_encInner]; exact hn)]
    exact ih (by omega)

theorem decRound_encRound (key sbox : List Nat) (r : Nat) {block : List Nat}
    (hb : IsBytes block) (hlen : block.length = 8) :
    decRound key sbox r (encRound key sbox r block) = block := by
  have hI := isBytes_encInner key sbox r 7 hb
  have hL := length_encInner key sbox r 7 block
  have key1 : (encRound key sbox r block).set 0
      ((ror1 ((encRound key sbox r block).getD 0 0) + 256
        - sbox.getD ((key.getD 7 0 + (encRound key sbox r block).getD 7 0 + r) &&& 255) 0 % 256)
        % 256) = encInner key sbox r 7 block := by
    apply list_ext_getD
    · simp [encRound, length_encInner]
    · intro p hp
      have hx := hI.getD 0
      simp only [encRound, getD_set_eq, List.length_set, hL, hlen, Nat.add_one_sub_one]
      have h8 : (0 : Nat) < 8 := by omega
      rw [if_neg (by omega : ¬ (0 = 7 ∧ 0 < 8))]
      simp only [true_and, h8, if_true, and_true]
      split
      · rename_i h
        rw [unstep_byte _ _ hx, h]
      · rfl
  unfold decRound
  simp only [Nat.add_one_sub_one]
  rw [key1]
  exact decInner_encInner key sbox r 7 hb (by omega)

theorem decRounds_encRounds (key sbox : List Nat) (n : Nat) {block : List Nat}
    (hb : IsBytes block) (hlen : block.length = 8) :
    decRounds key sbox n (encRounds key sbox n block) = block := by
  induction n generalizing block with
  | zero => rfl
  | succ n ih =>
    simp only [encRounds, decRounds]
    rw [ih (isBytes_encRound key sbox (n + 1) hb) (by rw [length_encRound]; exact hlen)]
    exact decRound_encRound key sbox (n + 1) hb hlen

theorem parve_decrypt_encrypt (key sbox : List Nat) {block : List Nat}
    (hb : IsBytes block) (hlen : block.length = 8) :
    ParveDecryptBlock key sbox (ParveEncryptBlock key sbox block) = block :=
  decRounds_encRounds key sbox 8 hb hlen

end MACHelper

/-! ## Arithmetic modulo `2 ^ 32` -/

theorem z32_two_pow : ((2 ^ 32 : ℕ) : Z32) = 0 := ZMod.natCast_self (2 ^ 32)

theorem cast_mod32 (x : ℕ) : ((x % 2 ^ 32 : ℕ) : Z32) = (x : Z32) := ZMod.natCast_mod x (2 ^ 32)

theorem cast_wsub32 (x y : ℕ) : ((wsub32 x y : ℕ) : Z32) = (x : Z32) - (y : Z32) := by
  unfold wsub32
  have hy : y % 2 ^ 32 ≤ x + 2 ^ 32 := by
    have := Nat.mod_lt y (show 0 < 2 ^ 32 by norm_num)
    omega
  rw [cast_mod32, Nat.cast_sub hy, Nat.cast_add, z32_two_pow, cast_mod32]
  ring

theorem wsub32_lt (x y : ℕ) : wsub32 x y < 2 ^ 32 := Nat.mod_lt _ (by norm_num)

theorem eq_of_cast_eq {x y : ℕ} (hx : x < 2 ^ 32) (hy : y < 2 ^ 32)
    (h : (x : Z32) = (y : Z32)) : x = y := by
  have := (ZMod.natCast_eq_natCast_iff' x y (2 ^ 32)).1 h
  rwa [Nat.mod_eq_of_lt hx, Nat.mod_eq_of_lt hy] at this

/-! ## The extended Euclidean algorithm and the modular inverse -/

namespace CS64Key

/-- Bezout identity of the loop of `Egcd32`, modulo `2 ^ 32`: with more fuel
than the second argument, the loop leaves through `b = 0` and its result
combines the initial arguments `a0`, `b0` to the greatest common divisor. -/
theorem Egcd32Loop_bezout (a0 b0 : ℕ) : ∀ (fuel a b x y lastx lasty : ℕ), b < fuel →
    (lastx : Z32) * a0 + lasty * b0 = a → (x : Z32) * a0 + y * b0 = b →
    ((Egcd32Loop fuel a b x y lastx lasty).1 : Z32) * a0
      + ((Egcd32Loop fuel a b x y lastx lasty).2 : Z32) * b0 = (Nat.gcd a b : ℕ) := by
  intro fuel
  induction fuel with
  | zero => intro a b x y lastx lasty hf; omega
  | succ fuel ih =>
    intro a b x y lastx lasty hf h1 h2
    unfold Egcd32Loop
    by_cases hb : b = 0
    · subst hb
      simpa using h1
    · rw [if_neg hb]
      have hlt : a % b < b := Nat.mod_lt _ (Nat.pos_of_ne_zero hb)
      have hdiv : ((b : ℕ) : Z32) * ((a / b : ℕ) : Z32) + ((a % b : ℕ) : Z32) = (a : Z32) := by
        have := congrArg (Nat.cast : ℕ → Z32) (Nat.div_add_mod a b)
        simpa only [Nat.cast_add, Nat.cast_mul] using this
      have hg : Nat.gcd b (a % b) = Nat.gcd a b := by
        rw [Nat.gcd_comm b (a % b), ← Nat.gcd_rec b a, Nat.gcd_comm]
      have := ih b (a % b) (wsub32 lastx ((a / b * x) % 2 ^ 32))
        (wsub32 lasty ((a / b * y) % 2 ^ 32)) x y (by omega) h2
        (by
          rw [cast_wsub32, cast_wsub32, cast_mod32, cast_mod32, Nat.cast_mul, Nat.cast_mul]
          linear_combination h1 - ((a / b : ℕ) : Z32) * h2 - hdiv)
      rw [hg] at this
      exact this

/-- The inverse computed by `ModInvert32_32` is an inverse modulo `2 ^ 32` of
every odd 32-bit value. -/
theorem ModInvert32_32_mul (n : ℕ) (hn : n < 2 ^ 32) (hodd : n % 2 = 1) :
    (n * ModInvert32_32 n) % 2 ^ 32 = 1 := by
  unfold ModInvert32_32
  by_cases h1 : 1 = n
  · subst h1
    simp
  · rw [if_neg h1]
    have hpos : 0 < n := by omega
    have hr : 0xffffffff % n < n := Nat.mod_lt _ hpos
    have hb0 : (1 + 0xffffffff % n) % 2 ^ 32 = 1 + 0xffffffff % n := by
      apply Nat.mod_eq_of_lt
      have : (2 : ℕ) ^ 32 = 4294967296 := by norm_num
      omega
    have hsplit : 1 + 0xffffffff % n + n * (0xffffffff / n) = 2 ^ 32 := by
      have := Nat.div_add_mod 0xffffffff n
      have h2 : (2 : ℕ) ^ 32 = 4294967296 := by norm_num
      omega
    have hcop : Nat.gcd n (1 + 0xffffffff % n) = 1 := by
      rw [← Nat.gcd_add_mul_left_right n (1 + 0xffffffff % n) (0xffffffff / n), hsplit]
      have hodd2 : Odd n := Nat.odd_iff.2 hodd
      exact Nat.Coprime.pow_right 32 (Nat.coprime_two_right.2 hodd2)
    have hbez := Egcd32Loop_bezout n (1 + 0xffffffff % n) (1 + 0xffffffff % n + 1) n
      (1 + 0xffffffff % n) 0 1 1 0 (by omega) (by simp) (by simp)
    rw [hcop] at hbez
    have hz : ((1 + 0xffffffff % n : ℕ) : Z32) + (n : Z32) * ((0xffffffff / n : ℕ) : Z32) = 0 := by
      have := congrArg (Nat.cast : ℕ → Z32) hsplit
      rw [z32_two_pow] at this
      simpa only [Nat.cast_add, Nat.cast_mul] using this
    simp only [Egcd32, hb0]
    have hgoal : ((n * wsub32 (Egcd32Loop (1 + 0xffffffff % n + 1) n (1 + 0xffffffff % n) 0 1 1 0).1
        (((Egcd32Loop (1 + 0xffffffff % n + 1) n (1 + 0xffffffff % n) 0 1 1 0).2
          * (0xffffffff / n)) % 2 ^ 32) : ℕ) : Z32) = ((1 : ℕ) : Z32) := by
      rw [Nat.cast_mul, cast_wsub32, cast_mod32, Nat.cast_mul]
      simp only [Nat.cast_one] at hbez ⊢
      linear_combination hbez
        - ((Egcd32Loop (1 + 0xffffffff % n + 1) n (1 + 0xffffffff % n) 0 1 1 0).2 : Z32) * hz
    have := (ZMod.natCast_eq_natCast_iff' _ _ (2 ^ 32)).1 hgoal
    simpa using this

end CS64Key

/-! ## Big-endian words in a buffer -/

namespace Utils

theorem or_acc (A b k K : ℕ) (hb : b < 256) (hK : K = k + 8) :
    (2 ^ K * A) ||| (b <<< k) = 2 ^ k * (A * 2 ^ 8 + b) := by
  subst hK
  have hlt : b * 2 ^ k < 2 ^ (k + 8) := by
    calc b * 2 ^ k < 256 * 2 ^ k := Nat.mul_lt_mul_of_pos_right hb (by positivity)
      _ = 2 ^ (k + 8) := by ring
  rw [Nat.shiftLeft_eq, ← Nat.mul_add_lt_is_or hlt A]
  ring

theorem or_bytes32 (b0 b1 b2 b3 : ℕ) (h1 : b1 < 256) (h2 : b2 < 256) (h3 : b3 < 256) :
    b0 <<< 24 ||| b1 <<< 16 ||| b2 <<< 8 ||| b3
      = b0 * 2 ^ 24 + b1 * 2 ^ 16 + b2 * 2 ^ 8 + b3 := by
  rw [Nat.shiftLeft_eq b0 24, Nat.mul_comm b0 (2 ^ 24), or_acc _ _ 16 24 h1 rfl,
    or_acc _ _ 8 16 h2 rfl, ← Nat.mul_add_lt_is_or (show b3 < 2 ^ 8 by omega)]
  ring

theorem or_bytes64 (b0 b1 b2 b3 b4 b5 b6 b7 : ℕ) (h1 : b1 < 256) (h2 : b2 < 256)
    (h3 : b3 < 256) (h4 : b4 < 256) (h5 : b5 < 256) (h6 : b6 < 256) (h7 : b7 < 256) :
    b0 <<< 56 ||| b1 <<< 48 ||| b2 <<< 40 ||| b3 <<< 32 ||| b4 <<< 24 ||| b5 <<< 16
        ||| b6 <<< 8 ||| b7
      = b0 * 2 ^ 56 + b1 * 2 ^ 48 + b2 * 2 ^ 40 + b3 * 2 ^ 32 + b4 * 2 ^ 24 + b5 * 2 ^ 16
        + b6 * 2 ^ 8 + b7 := by
  rw [Nat.shiftLeft_eq b0 56, Nat.mul_comm b0 (2 ^ 56), or_acc _ _ 48 56 h1 rfl,
    or_acc _ _ 40 48 h2 rfl, or_acc _ _ 32 40 h3 rfl, or_acc _ _ 24 32 h4 rfl,
    or_acc _ _ 16 24 h5 rfl, or_acc _ _ 8 16 h6 rfl,
    ← Nat.mul_add_lt_is_or (show b7 < 2 ^ 8 by omega)]
  ring

theorem MakeUInt64_eq (hi lo : ℕ) (hlo : lo < 2 ^ 32) : MakeUInt64 hi lo = hi * 2 ^ 32 + lo := by
  unfold MakeUInt64
  rw [Nat.shiftLeft_eq, Nat.mul_comm, ← Nat.mul_add_lt_is_or hlo]

theorem length_WriteUInt32 (n : ℕ) (buf : List ℕ) (off : ℕ) :
    (WriteUInt32 n buf off).length = buf.length := by
  simp [WriteUInt32]

theorem length_WriteUInt64 (n : ℕ) (buf : List ℕ) (off : ℕ) :
    (WriteUInt64 n buf off).length = buf.length := by
  simp [WriteUInt64]

theorem isBytes_WriteUInt32 (n : ℕ) {buf : List ℕ} (off : ℕ) (h : IsBytes buf) :
    IsBytes (WriteUInt32 n buf off) := by
  unfold WriteUInt32
  have h256 : ∀ x : ℕ, x % 256 < 256 := fun x => Nat.mod_lt _ (by norm_num)
  exact (((h.set _ _ (h256 _)).set _ _ (h256 _)).set _ _ (h256 _)).set _ _ (h256 _)

theorem isBytes_WriteUInt64 (n : ℕ) {buf : List ℕ} (off : ℕ) (h : IsBytes buf) :
    IsBytes (WriteUInt64 n buf off) := by
  unfold WriteUInt64
  have h256 : ∀ x : ℕ, x % 256 < 256 := fun x => Nat.mod_lt _ (by norm_num)
  exact (((((((h.set _ _ (h256 _)).set _ _ (h256 _)).set _ _ (h256 _)).set _ _ (h256 _)).set
    _ _ (h256 _)).set _ _ (h256 _)).set _ _ (h256 _)).set _ _ (h256 _)

theorem getD_WriteUInt32 (n : ℕ) (buf : List ℕ) (off p : ℕ) (h : off + 4 ≤ buf.length) :
    (WriteUInt32 n buf off).getD p 0 =
      if p = off then (n >>> 24) % 256
      else if p = off + 1 then (n >>> 16) % 256
      else if p = off + 2 then (n >>> 8) % 256
      else if p = off + 3 then n % 256
      else buf.getD p 0 := by
  simp only [WriteUInt32, getD_set_eq, List.length_set]
  split_ifs <;> first | rfl | omega

theorem getD_WriteUInt32_out (n : ℕ) (buf : List ℕ) (off p : ℕ) (h : p < off ∨ off + 4 ≤ p) :
    (WriteUInt32 n buf off).getD p 0 = buf.getD p 0 := by
  simp only [WriteUInt32, getD_set_eq, List.length_set]
  split_ifs <;> first | rfl | omega

theorem getD_WriteUInt64 (n : ℕ) (buf : List ℕ) (off p : ℕ) (h : off + 8 ≤ buf.length) :
    (WriteUInt64 n buf off).getD p 0 =
      if off + 7 = p then n % 256
      else if off + 6 = p then (n >>> 8) % 256
      else if off + 5 = p then (n >>> 16) % 256
      else if off + 4 = p then (n >>> 24) % 256
      else if off + 3 = p then (n >>> 32) % 256
      else if off + 2 = p then (n >>> 40) % 256
      else if off + 1 = p then (n >>> 48) % 256
      else if off = p then (n >>> 56) % 256
      else buf.getD p 0 := by
  have h0 : off < buf.length := by omega
  have h1 : off + 1 < buf.length := by omega
  have h2 : off + 2 < buf.length := by omega
  have h3 : off + 3 < buf.length := by omega
  have h4 : off + 4 < buf.length := by omega
  have h5 : off + 5 < buf.length := by omega
  have h6 : off + 6 < buf.length := by omega
  have h7 : off + 7 < buf.length := by omega
  simp only [WriteUInt64, getD_set_eq, List.length_set, h0, h1, h2, h3, h4, h5, h6, h7,
    and_true]

theorem getD_WriteUInt64_out (n : ℕ) (buf : List ℕ) (off p : ℕ) (h : p < off ∨ off + 8 ≤ p) :
    (WriteUInt64 n buf off).getD p 0 = buf.getD p 0 := by
  simp only [WriteUInt64, getD_set_eq, List.length_set]
  iterate 8 rw [if_neg (by omega)]

theorem ReadUInt32_eq {buf : List ℕ} (h : IsBytes buf) (off : ℕ) :
    ReadUInt32 buf off = buf.getD off 0 * 2 ^ 24 + buf.getD (off + 1) 0 * 2 ^ 16
      + buf.getD (off + 2) 0 * 2 ^ 8 + buf.getD (off + 3) 0 :=
  or_bytes32 _ _ _ _ (h.getD _) (h.getD _) (h.getD _)

theorem ReadUInt64_eq {buf : List ℕ} (h : IsBytes buf) (off : ℕ) :
    ReadUInt64 buf off = buf.getD off 0 * 2 ^ 56 + buf.getD (off + 1) 0 * 2 ^ 48
      + buf.getD (off + 2) 0 * 2 ^ 40 + buf.getD (off + 3) 0 * 2 ^ 32
      + buf.getD (off + 4) 0 * 2 ^ 24 + buf.getD (off + 5) 0 * 2 ^ 16
      + buf.getD (off + 6) 0 * 2 ^ 8 + buf.getD (off + 7) 0 :=
  or_bytes64 _ _ _ _ _ _ _ _ (h.getD _) (h.getD _) (h.getD _) (h.getD _) (h.getD _)
    (h.getD _) (h.getD _)

theorem ReadUInt32_lt {buf : List ℕ} (h : IsBytes buf) (off : ℕ) :
    ReadUInt32 buf off < 2 ^ 32 := by
  rw [ReadUInt32_eq h]
  have := h.getD off
  have := h.getD (off + 1)
  have := h.getD (off + 2)
  have := h.getD (off + 3)
  omega

/-- A 32-bit word read from a buffer depends only on its four bytes. -/
theorem ReadUInt32_congr {buf buf2 : List ℕ} (off off2 : ℕ)
    (h : ∀ j, j < 4 → buf.getD (off + j) 0 = buf2.getD (off2 + j) 0) :
    ReadUInt32 buf off = ReadUInt32 buf2 off2 := by
  have h0 := h 0 (by omega)
  have h1 := h 1 (by omega)
  have h2 := h 2 (by omega)
  have h3 := h 3 (by omega)
  simp only [Nat.add_zero] at h0
  simp only [ReadUInt32, h0, h1, h2, h3]

/-- A 64-bit word read from a buffer depends only on its eight bytes. -/
theorem ReadUInt64_congr {buf buf2 : List ℕ} (off off2 : ℕ)
    (h : ∀ j, j < 8 → buf.getD (off + j) 0 = buf2.getD (off2 + j) 0) :
    ReadUInt64 buf off = ReadUInt64 buf2 off2 := by
  have h0 := h 0 (by omega)
  have h1 := h 1 (by omega)
  have h2 := h 2 (by omega)
  have h3 := h 3 (by omega)
  have h4 := h 4 (by omega)
  have h5 := h 5 (by omega)
  have h6 := h 6 (by omega)
  have h7 := h 7 (by omega)
  simp only [Nat.add_zero] at h0
  simp only [ReadUInt64, h0, h1, h2, h3, h4, h5, h6, h7]

theorem ReadUInt32_WriteUInt32 (n : ℕ) {buf : List ℕ} (off : ℕ) (hb : IsBytes buf)
    (h : off + 4 ≤ buf.length) (hn : n < 2 ^ 32) :
    ReadUInt32 (WriteUInt32 n buf off) off = n := by
  rw [ReadUInt32_eq (isBytes_WriteUInt32 n off hb)]
  simp only [getD_WriteUInt32 n buf off _ h, Nat.shiftRight_eq_div_pow, ↓reduceIte,
    Nat.reduceEqDiff, add_right_eq_self, OfNat.ofNat_ne_zero, one_ne_zero]
  omega

theorem ReadUInt64_WriteUInt64 (n : ℕ) {buf : List ℕ} (off : ℕ) (hb : IsBytes buf)
    (h : off + 8 ≤ buf.length) (hn : n < 2 ^ 64) :
    ReadUInt64 (WriteUInt64 n buf off) off = n := by
  rw [ReadUInt64_eq (isBytes_WriteUInt64 n off hb)]
  simp only [getD_WriteUInt64 n buf off _ h, Nat.shiftRight_eq_div_pow, ↓reduceIte,
    Nat.reduceEqDiff, add_right_eq_self, self_eq_add_right, OfNat.ofNat_ne_zero, one_ne_zero]
  omega

theorem ReadUInt32_WriteUInt32_out (n : ℕ) (buf : List ℕ) (off off2 : ℕ)
    (h : off2 + 4 ≤ off ∨ off + 4 ≤ off2) :
    ReadUInt32 (WriteUInt32 n buf off) off2 = ReadUInt32 buf off2 := by
  apply ReadUInt32_congr
  intro j hj
  exact getD_WriteUInt32_out n buf off _ (by omega)

theorem ReadUInt32_WriteUInt64_out (n : ℕ) (buf : List ℕ) (off off2 : ℕ)
    (h : off2 + 4 ≤ off ∨ off + 8 ≤ off2) :
    ReadUInt32 (WriteUInt64 n buf off) off2 = ReadUInt32 buf off2 := by
  apply ReadUInt32_congr
  intro j hj
  exact getD_WriteUInt64_out n buf off _ (by omega)

theorem WriteUInt32_ReadUInt32 {buf : List ℕ} (off : ℕ) (hb : IsBytes buf)
    (h : off + 4 ≤ buf.length) : WriteUInt32 (ReadUInt32 buf off) buf off = buf := by
  apply list_ext_getD (length_WriteUInt32 _ _ _)
  intro p _
  rw [getD_WriteUInt32 _ buf off p h, ReadUInt32_eq hb]
  have := hb.getD off
  have := hb.getD (off + 1)
  have := hb.getD (off + 2)
  have := hb.getD (off + 3)
  simp only [Nat.shiftRight_eq_div_pow]
  split_ifs with h0 h1 h2 h3
  · subst h0; omega
  · subst h1; omega
  · subst h2; omega
  · subst h3; omega
  · rfl

theorem WriteUInt32_WriteUInt32 (n m : ℕ) (buf : List ℕ) (off : ℕ)
    (h : off + 4 ≤ buf.length) :
    WriteUInt32 n (WriteUInt32 m buf off) off = WriteUInt32 n buf off := by
  apply list_ext_getD (by simp only [length_WriteUInt32])
  intro p _
  rw [getD_WriteUInt32 _ _ off p (by rw [length_WriteUInt32]; exact h),
    getD_WriteUInt32 _ _ off p h, getD_WriteUInt32 _ _ off p h]
  split_ifs <;> rfl

theorem WriteUInt32_comm (n m : ℕ) (buf : List ℕ) (off off2 : ℕ)
    (h : off + 4 ≤ buf.length) (h2 : off2 + 4 ≤ buf.length) (hd : off2 + 4 ≤ off) :
    WriteUInt32 n (WriteUInt32 m buf off) off2 = WriteUInt32 m (WriteUInt32 n buf off2) off := by
  apply list_ext_getD (by simp only [length_WriteUInt32])
  intro p _
  rw [getD_WriteUInt32 _ _ off2 p (by rw [length_WriteUInt32]; exact h2),
    getD_WriteUInt32 _ _ off p h,
    getD_WriteUInt32 _ _ off p (by rw [length_WriteUInt32]; exact h),
    getD_WriteUInt32 _ _ off2 p h2]
  split_ifs <;> first | rfl | omega

theorem WriteUInt64_WriteUInt64 (n m : ℕ) (buf : List ℕ) (off : ℕ)
    (h : off + 8 ≤ buf.length) :
    WriteUInt64 n (WriteUInt64 m buf off) off = WriteUInt64 n buf off := by
  apply list_ext_getD (by simp only [length_WriteUInt64])
  intro p _
  rw [getD_WriteUInt64 _ _ off p (by rw [length_WriteUInt64]; exact h),
    getD_WriteUInt64 _ _ off p h, getD_WriteUInt64 _ _ off p h]
  split_ifs <;> rfl

/-- Writing back the two 32-bit words read at `off` and `off + 4` as one 64-bit
value restores the eight bytes. -/
theorem WriteUInt64_MakeUInt64_ReadUInt32 {buf : List ℕ} (off : ℕ) (hb : IsBytes buf)
    (h : off + 8 ≤ buf.length) :
    WriteUInt64 (MakeUInt64 (ReadUInt32 buf off) (ReadUInt32 buf (off + 4))) buf off = buf := by
  apply list_ext_getD (length_WriteUInt64 _ _ _)
  intro p _
  rw [getD_WriteUInt64 _ buf off p h, MakeUInt64_eq _ _ (ReadUInt32_lt hb _),
    ReadUInt32_eq hb, ReadUInt32_eq hb]
  have := hb.getD off
  have := hb.getD (off + 1)
  have := hb.getD (off + 2)
  have := hb.getD (off + 3)
  have := hb.getD (off + 4)
  have := hb.getD (off + 5)
  have := hb.getD (off + 6)
  have := hb.getD (off + 7)
  simp only [Nat.shiftRight_eq_div_pow, Nat.add_assoc, Nat.reduceAdd]
  split_ifs with h0 h1 h2 h3 h4 h5 h6 h7
  · subst h0; omega
  · subst h1; omega
  · subst h2; omega
  · subst h3; omega
  · subst h4; omega
  · subst h5; omega
  · subst h6; omega
  · subst h7; omega
  · rfl

theorem Hi_lt (n : ℕ) : Hi n < 2 ^ 32 := Nat.mod_lt _ (by norm_num)

theorem Lo_lt (n : ℕ) : Lo n < 2 ^ 32 := Nat.mod_lt _ (by norm_num)

/-- The halves of `sum + (chain << 32)` are `chain` and `sum`. -/
theorem Hi_pack (sum chain : ℕ) (hs : sum < 2 ^ 32) (hc : chain < 2 ^ 32) :
    Hi (sum + (chain <<< 32)) = chain := by
  simp only [Hi, Nat.shiftLeft_eq, Nat.shiftRight_eq_div_pow]
  omega

theorem Lo_pack (sum chain : ℕ) (hs : sum < 2 ^ 32) :
    Lo (sum + (chain <<< 32)) = sum := by
  simp only [Lo, Nat.shiftLeft_eq]
  omega

theorem pack_lt (sum chain : ℕ) (hs : sum < 2 ^ 32) (hc : chain < 2 ^ 32) :
    sum + (chain <<< 32) < 2 ^ 64 := by
  simp only [Nat.shiftLeft_eq]
  omega

end Utils

/-! ## The chain-and-sum MAC and its inverse -/

theorem z32_cancel {u v x y : Z32} (huv : u * v = 1) (h : u * x = u * y) : x = y := by
  linear_combination v * h - (x - y) * huv

namespace CS64Key

theorem Valid.castA {K : CS64Key} (h : K.Valid) : (K.a : Z32) * (K.invA : Z32) = 1 := by
  have := congrArg (Nat.cast : ℕ → Z32) h.1
  rwa [cast_mod32, Nat.cast_mul, Nat.cast_one] at this

theorem Valid.castC {K : CS64Key} (h : K.Valid) : (K.c : Z32) * (K.invC : Z32) = 1 := by
  have := congrArg (Nat.cast : ℕ → Z32) h.2.1
  rwa [cast_mod32, Nat.cast_mul, Nat.cast_one] at this

theorem Valid.castE {K : CS64Key} (h : K.Valid) : (K.e : Z32) * (K.invE : Z32) = 1 := by
  have := congrArg (Nat.cast : ℕ → Z32) h.2.2
  rwa [cast_mod32, Nat.cast_mul, Nat.cast_one] at this

theorem or_one_odd_lt (x : ℕ) (hx : x < 2 ^ 32) : (1 ||| x) < 2 ^ 32 ∧ (1 ||| x) % 2 = 1 :=
  ⟨Nat.or_lt_two_pow (by norm_num) hx, Nat.or_mod_two_eq_one.2 (Or.inl rfl)⟩

/-- Every key built by `Init` from 32-bit keys carries matching inverses. -/
theorem Init_valid (inHash key1 key2 key3 : ℕ) (h1 : key1 < 2 ^ 32) (h3 : key3 < 2 ^ 32) :
    (Init inHash key1 key2 key3).Valid := by
  have hlo := Utils.Lo_lt inHash
  have ha := or_one_odd_lt (Utils.Lo inHash) hlo
  have hc := or_one_odd_lt (key1 ^^^ Utils.Lo inHash) (Nat.xor_lt_two_pow h1 hlo)
  have he := or_one_odd_lt (key3 ^^^ Utils.Lo inHash) (Nat.xor_lt_two_pow h3 hlo)
  exact ⟨ModInvert32_32_mul _ ha.1 ha.2, ModInvert32_32_mul _ hc.1 hc.2,
    ModInvert32_32_mul _ he.1 he.2⟩

theorem macStep_lt (K : CS64Key) (data : List ℕ) (index chain sum : ℕ) :
    (macStep K data index chain sum).1 < 2 ^ 32 ∧ (macStep K data index chain sum).2 < 2 ^ 32 :=
  ⟨Nat.mod_lt _ (by norm_num), Nat.mod_lt _ (by norm_num)⟩

theorem macLoop_lt (K : CS64Key) (data : List ℕ) : ∀ (n index chain sum : ℕ),
    chain < 2 ^ 32 → sum < 2 ^ 32 →
    (macLoop K data n index chain sum).1 < 2 ^ 32 ∧ (macLoop K data n index chain sum).2 < 2 ^ 32 := by
  intro n
  induction n with
  | zero => intro index chain sum hc hs; exact ⟨hc, hs⟩
  | succ n ih =>
    intro index chain sum _ _
    simp only [macLoop]
    exact ih _ _ _ (macStep_lt K data index chain sum).1 (macStep_lt K data index chain sum).2

/-- The loop body reads the two words at `index` and `index + 1` only. -/
theorem macStep_congr (K : CS64Key) {data data2 : List ℕ} (index chain sum : ℕ)
    (h0 : Utils.ReadUInt32 data (index <<< 2) = Utils.ReadUInt32 data2 (index <<< 2))
    (h1 : Utils.ReadUInt32 data ((index + 1) <<< 2) = Utils.ReadUInt32 data2 ((index + 1) <<< 2)) :
    macStep K data index chain sum = macStep K data2 index chain sum := by
  simp only [macStep, h0, h1]

/-- The loop reads the words `index .. index + 2 * n - 1` only. -/
theorem macLoop_congr (K : CS64Key) {data data2 : List ℕ} : ∀ (n index chain sum : ℕ),
    (∀ q, index ≤ q → q < index + 2 * n →
      Utils.ReadUInt32 data (q <<< 2) = Utils.ReadUInt32 data2 (q <<< 2)) →
    macLoop K data n index chain sum = macLoop K data2 n index chain sum := by
  intro n
  induction n with
  | zero => intro index chain sum _; rfl
  | succ n ih =>
    intro index chain sum h
    simp only [macLoop]
    rw [macStep_congr K index chain sum (h index (by omega) (by omega))
      (h (index + 1) (by omega) (by omega))]
    exact ih _ _ _ (fun q hq1 hq2 => h q (by omega) (by omega))

/-- Running one more pass is running the body once more at the end. -/
theorem macLoop_succ_last (K : CS64Key) (data : List ℕ) : ∀ (n index chain sum : ℕ),
    macLoop K data (n + 1) index chain sum =
      macStep K data (index + 2 * n) (macLoop K data n index chain sum).1
        (macLoop K data n index chain sum).2 := by
  intro n
  induction n with
  | zero => intro index chain sum; rfl
  | succ n ih =>
    intro index chain sum
    rw [macLoop, ih]
    simp only [macLoop]
    rw [show index + 2 + 2 * n = index + 2 * (n + 1) by ring]

/-- The asymmetric start of `CS64ComputeMAC` is the loop body run from the zero
state: the MAC is the packed state after `numBlocks / 2` passes (one pass at
least) from `chain = 0`, `sum = 0`. -/
theorem CS64ComputeMAC_eq_macLoop (K : CS64Key) (data : List ℕ) (numBlocks : ℕ) :
    CS64ComputeMAC K data numBlocks =
      (macLoop K data (numBlocks / 2 - 1 + 1) 0 0 0).2
        + ((macLoop K data (numBlocks / 2 - 1 + 1) 0 0 0).1 <<< 32) := by
  simp only [CS64ComputeMAC, macLoop, macStep, Nat.zero_add, Nat.mod_mod]

theorem CS64ComputeMAC_lt (K : CS64Key) (data : List ℕ) (numBlocks : ℕ) :
    CS64ComputeMAC K data numBlocks < 2 ^ 64 := by
  rw [CS64ComputeMAC_eq_macLoop]
  have := macLoop_lt K data (numBlocks / 2 - 1 + 1) 0 0 0 (by norm_num) (by norm_num)
  exact Utils.pack_lt _ _ this.2 this.1

/-- The algebra of the inversion: the two words consumed by one pass of the
loop body are recovered from the states before and after the pass. -/
theorem macStep_invert {K : CS64Key} (hK : K.Valid) (data : List ℕ) (index chain sum : ℕ)
    (w0 w1 : ℕ) (hw0 : w0 < 2 ^ 32) (hw1 : w1 < 2 ^ 32)
    (e0 : Utils.ReadUInt32 data (index <<< 2) = w0)
    (e1 : Utils.ReadUInt32 data ((index + 1) <<< 2) = w1) :
    wsub32 ((K.invC * wsub32 (macStep K data index chain sum).1 K.d) % 2 ^ 32)
        (wsub32 (wsub32 (macStep K data index chain sum).2 sum) (macStep K data index chain sum).1)
      = w1 ∧
    (K.invE * wsub32 ((K.invA * wsub32
        (wsub32 (wsub32 (macStep K data index chain sum).2 sum) (macStep K data index chain sum).1)
        K.b) % 2 ^ 32) chain) % 2 ^ 32 = w0 := by
  have hA := hK.castA
  have hC := hK.castC
  have hE := hK.castE
  constructor
  · apply eq_of_cast_eq (wsub32_lt _ _) hw1
    simp only [macStep, e0, e1, cast_wsub32, cast_mod32, Nat.cast_mul, Nat.cast_add]
    linear_combination ((K.a : Z32) * ((chain : Z32)
      + (K.e : Z32) * (w0 : Z32)) + (K.b : Z32) + (w1 : Z32)) * hC
  · apply eq_of_cast_eq (Nat.mod_lt _ (by norm_num)) hw0
    simp only [macStep, e0, e1, cast_wsub32, cast_mod32, Nat.cast_mul, Nat.cast_add]
    linear_combination ((K.invE : Z32) * ((chain : Z32) + (K.e : Z32) * (w0 : Z32))) * hA
      + (w0 : Z32) * hE

/-- The chain value after one pass determines each of its three inputs from
the other two. -/
theorem macStep_chain_inj {K : CS64Key} (hK : K.Valid) {data data2 : List ℕ}
    (hd : IsBytes data) (hd2 : IsBytes data2) (index chain chain2 sum sum2 : ℕ)
    (hc : chain < 2 ^ 32) (hc2 : chain2 < 2 ^ 32)
    (h : (macStep K data index chain sum).1 = (macStep K data2 index chain2 sum2).1) :
    (Utils.ReadUInt32 data (index <<< 2) = Utils.ReadUInt32 data2 (index <<< 2) →
      Utils.ReadUInt32 data ((index + 1) <<< 2) = Utils.ReadUInt32 data2 ((index + 1) <<< 2) →
      chain = chain2) ∧
    (chain = chain2 →
      Utils.ReadUInt32 data ((index + 1) <<< 2) = Utils.ReadUInt32 data2 ((index + 1) <<< 2) →
      Utils.ReadUInt32 data (index <<< 2) = Utils.ReadUInt32 data2 (index <<< 2)) ∧
    (chain = chain2 →
      Utils.ReadUInt32 data (index <<< 2) = Utils.ReadUInt32 data2 (index <<< 2) →
      Utils.ReadUInt32 data ((index + 1) <<< 2) = Utils.ReadUInt32 data2 ((index + 1) <<< 2)) := by
  have hA := hK.castA
  have hC := hK.castC
  have hE := hK.castE
  have hz := congrArg (Nat.cast : ℕ → Z32) h
  simp only [macStep, cast_mod32, Nat.cast_mul, Nat.cast_add] at hz
  have hX : (K.a : Z32) * ((chain : Z32) + (K.e : Z32) * (Utils.ReadUInt32 data (index <<< 2) : ℕ))
        + (K.b : Z32) + (Utils.ReadUInt32 data ((index + 1) <<< 2) : ℕ)
      = (K.a : Z32) * ((chain2 : Z32) + (K.e : Z32) * (Utils.ReadUInt32 data2 (index <<< 2) : ℕ))
        + (K.b : Z32) + (Utils.ReadUInt32 data2 ((index + 1) <<< 2) : ℕ) :=
    z32_cancel hC (by linear_combination hz)
  refine ⟨fun e0 e1 => ?_, fun ec e1 => ?_, fun ec e0 => ?_⟩
  · apply eq_of_cast_eq hc hc2
    rw [e0, e1] at hX
    have h2 : (K.a : Z32) * (chain : Z32) = (K.a : Z32) * (chain2 : Z32) := by
      linear_combination hX
    exact z32_cancel hA h2
  · apply eq_of_cast_eq (Utils.ReadUInt32_lt hd _) (Utils.ReadUInt32_lt hd2 _)
    rw [ec, e1] at hX
    have h2 : (K.a : Z32) * ((K.e : Z32) * (Utils.ReadUInt32 data (index <<< 2) : ℕ))
        = (K.a : Z32) * ((K.e : Z32) * (Utils.ReadUInt32 data2 (index <<< 2) : ℕ)) := by
      linear_combination hX
    exact z32_cancel hE (z32_cancel hA h2)
  · apply eq_of_cast_eq (Utils.ReadUInt32_lt hd _) (Utils.ReadUInt32_lt hd2 _)
    rw [ec, e0] at hX
    linear_combination hX

/-- Changing one word, or the incoming chain value, changes the chain value the
loop ends with. -/
theorem macLoop_chain_ne {K : CS64Key} (hK : K.Valid) {data data2 : List ℕ}
    (hd : IsBytes data) (hd2 : IsBytes data2) : ∀ (n index chain chain2 sum sum2 : ℕ),
    chain < 2 ^ 32 → chain2 < 2 ^ 32 →
    ((chain ≠ chain2 ∧ ∀ q, index ≤ q → q < index + 2 * n →
        Utils.ReadUInt32 data (q <<< 2) = Utils.ReadUInt32 data2 (q <<< 2)) ∨
      (chain = chain2 ∧ ∃ q0, index ≤ q0 ∧ q0 < index + 2 * n ∧
        Utils.ReadUInt32 data (q0 <<< 2) ≠ Utils.ReadUInt32 data2 (q0 <<< 2) ∧
        ∀ q, index ≤ q → q < index + 2 * n → q ≠ q0 →
          Utils.ReadUInt32 data (q <<< 2) = Utils.ReadUInt32 data2 (q <<< 2))) →
    (macLoop K data n index chain sum).1 ≠ (macLoop K data2 n index chain2 sum2).1 := by
  intro n
  induction n with
  | zero =>
    intro index chain chain2 sum sum2 _ _ h
    rcases h with ⟨hne, _⟩ | ⟨_, q0, h1, h2, _⟩
    · exact hne
    · omega
  | succ n ih =>
    intro index chain chain2 sum sum2 hc hc2 h
    simp only [macLoop]
    have hlt := (macStep_lt K data index chain sum).1
    have hlt2 := (macStep_lt K data2 index chain2 sum2).1
    apply ih _ _ _ _ _ hlt hlt2
    by_cases hstep : (macStep K data index chain sum).1 = (macStep K data2 index chain2 sum2).1
    · right
      have inj := macStep_chain_inj hK hd hd2 index chain chain2 sum sum2 hc hc2 hstep
      refine ⟨hstep, ?_⟩
      rcases h with ⟨hne, hag⟩ | ⟨heq, q0, h1, h2, hq0, hag⟩
      · exact absurd (inj.1 (hag index (by omega) (by omega))
          (hag (index + 1) (by omega) (by omega))) hne
      · have hq0a : q0 ≠ index := by
          intro e
          subst e
          exact hq0 (inj.2.1 heq (hag (q0 + 1) (by omega) (by omega) (by omega)))
        have hq0b : q0 ≠ index + 1 := by
          intro e
          subst e
          exact hq0 (inj.2.2 heq (hag index (by omega) (by omega) (by omega)))
        exact ⟨q0, by omega, by omega, hq0,
          fun q hq1 hq2 hq3 => hag q (by omega) (by omega) hq3⟩
    · left
      refine ⟨hstep, ?_⟩
      rcases h with ⟨hne, hag⟩ | ⟨heq, q0, h1, h2, hq0, hag⟩
      · exact fun q hq1 hq2 => hag q (by omega) (by omega)
      · have hq0c : q0 = index ∨ q0 = index + 1 := by
          by_contra hcon
          apply hstep
          rw [heq, macStep_congr K index chain2 sum
            (hag index (by omega) (by omega) (by omega))
            (hag (index + 1) (by omega) (by omega) (by omega))]
          rfl
        exact fun q hq1 hq2 => hag q (by omega) (by omega) (by omega)

end CS64Key

/-! ## BV4: the keystream is independent of the data -/

namespace BV4Key

theorem shl2 (i : ℕ) : i <<< 2 = 4 * i := by
  rw [Nat.shiftLeft_eq]; omega

theorem cryptStep_fst (st : BV4Key) (index : ℕ) (buf : List ℕ) :
    (cryptStep st index buf).1 = advance st := rfl

theorem cryptStep_snd (st : BV4Key) (index : ℕ) (buf : List ℕ) :
    (cryptStep st index buf).2 =
      Utils.WriteUInt32 (Utils.ReadUInt32 buf (index <<< 2) ^^^ ksWord st) buf (index <<< 2) := rfl

theorem ksWord_lt (st : BV4Key) : ksWord st < 2 ^ 32 := Nat.mod_lt _ (by norm_num)

theorem cryptLoop_succ (n : ℕ) (st : BV4Key) (index : ℕ) (buf : List ℕ) :
    cryptLoop (n + 1) st index buf =
      cryptLoop n (advance st) (index + 1)
        (Utils.WriteUInt32 (Utils.ReadUInt32 buf (index <<< 2) ^^^ ksWord st) buf (index <<< 2)) := rfl

theorem length_cryptLoop : ∀ (n : ℕ) (st : BV4Key) (index : ℕ) (buf : List ℕ),
    (cryptLoop n st index buf).2.length = buf.length := by
  intro n
  induction n with
  | zero => intro st index buf; rfl
  | succ n ih =>
    intro st index buf
    rw [cryptLoop_succ, ih, Utils.length_WriteUInt32]

theorem isBytes_cryptLoop : ∀ (n : ℕ) (st : BV4Key) (index : ℕ) {buf : List ℕ},
    IsBytes buf → IsBytes (cryptLoop n st index buf).2 := by
  intro n
  induction n with
  | zero => intro st index buf h; exact h
  | succ n ih =>
    intro st index buf h
    rw [cryptLoop_succ]
    exact ih _ _ (Utils.isBytes_WriteUInt32 _ _ h)

/-- The key state after the loop does not depend on the buffer. -/
theorem cryptLoop_fst : ∀ (n : ℕ) (st : BV4Key) (index : ℕ) (buf buf2 : List ℕ),
    (cryptLoop n st index buf).1 = (cryptLoop n st index buf2).1 := by
  intro n
  induction n with
  | zero => intro st index buf buf2; rfl
  | succ n ih =>
    intro st index buf buf2
    rw [cryptLoop_succ, cryptLoop_succ]
    exact ih _ _ _ _

/-- The loop leaves every byte outside the words `index .. index + n - 1`
unchanged. -/
theorem getD_cryptLoop_out : ∀ (n : ℕ) (st : BV4Key) (index : ℕ) (buf : List ℕ) (p : ℕ),
    p < 4 * index ∨ 4 * (index + n) ≤ p →
    (cryptLoop n st index buf).2.getD p 0 = buf.getD p 0 := by
  intro n
  induction n with
  | zero => intro st index buf p _; rfl
  | succ n ih =>
    intro st index buf p hp
    rw [cryptLoop_succ, ih _ _ _ _ (by omega), shl2]
    exact Utils.getD_WriteUInt32_out _ _ _ _ (by omega)

/-- Inside its range the loop XORs each 32-bit word with the keystream word of
its position. -/
theorem ReadUInt32_cryptLoop : ∀ (n : ℕ) (st : BV4Key) (index : ℕ) (buf : List ℕ) (q : ℕ),
    IsBytes buf → 4 * (index + n) ≤ buf.length → index ≤ q → q < index + n →
    Utils.ReadUInt32 (cryptLoop n st index buf).2 (q <<< 2) =
      Utils.ReadUInt32 buf (q <<< 2) ^^^ stream st (q - index) := by
  intro n
  induction n with
  | zero => intro st index buf q _ _ h1 h2; omega
  | succ n ih =>
    intro st index buf q hb hlen h1 h2
    rw [cryptLoop_succ]
    have hw := Utils.isBytes_WriteUInt32
      (Utils.ReadUInt32 buf (index <<< 2) ^^^ ksWord st) (index <<< 2) hb
    by_cases hq : q = index
    · subst hq
      have e1 : Utils.ReadUInt32 (cryptLoop n (advance st) (q + 1)
          (Utils.WriteUInt32 (Utils.ReadUInt32 buf (q <<< 2) ^^^ ksWord st) buf (q <<< 2))).2
            (q <<< 2)
          = Utils.ReadUInt32
            (Utils.WriteUInt32 (Utils.ReadUInt32 buf (q <<< 2) ^^^ ksWord st) buf (q <<< 2))
            (q <<< 2) := by
        apply Utils.ReadUInt32_congr
        intro j hj
        apply getD_cryptLoop_out
        rw [shl2]; omega
      rw [e1, Utils.ReadUInt32_WriteUInt32 _ _ hb (by rw [shl2]; omega)
        (Nat.xor_lt_two_pow (Utils.ReadUInt32_lt hb _) (ksWord_lt st)), Nat.sub_self]
      rfl
    · rw [ih _ _ _ q hw (by rw [Utils.length_WriteUInt32]; omega) (by omega) (by omega),
        Utils.ReadUInt32_WriteUInt32_out _ _ _ _ (by rw [shl2, shl2]; omega),
        show q - index = (q - (index + 1)) + 1 by omega]
      rfl

/-- The bytes of a 32-bit word are determined by its value. -/
theorem getD_eq_of_ReadUInt32_eq {buf buf2 : List ℕ} (hb : IsBytes buf) (hb2 : IsBytes buf2)
    (off : ℕ) (h : Utils.ReadUInt32 buf off = Utils.ReadUInt32 buf2 off) (j : ℕ) (hj : j < 4) :
    buf.getD (off + j) 0 = buf2.getD (off + j) 0 := by
  rw [Utils.ReadUInt32_eq hb, Utils.ReadUInt32_eq hb2] at h
  have := hb.getD off
  have := hb.getD (off + 1)
  have := hb.getD (off + 2)
  have := hb.getD (off + 3)
  have := hb2.getD off
  have := hb2.getD (off + 1)
  have := hb2.getD (off + 2)
  have := hb2.getD (off + 3)
  have hcases : j = 0 ∨ j = 1 ∨ j = 2 ∨ j = 3 := by omega
  rcases hcases with e | e | e | e <;> subst e <;>
    first | omega | (simp only [Nat.add_zero]; omega)

/-- Two buffers of bytes are equal when they agree on the first `n` 32-bit words
and on every later byte. -/
theorem ext_of_words {buf buf2 : List ℕ} (hb : IsBytes buf) (hb2 : IsBytes buf2)
    (hlen : buf.length = buf2.length) (n : ℕ)
    (hw : ∀ q, q < n → Utils.ReadUInt32 buf (q <<< 2) = Utils.ReadUInt32 buf2 (q <<< 2))
    (hout : ∀ p, 4 * n ≤ p → buf.getD p 0 = buf2.getD p 0) : buf = buf2 := by
  apply list_ext_getD hlen
  intro p _
  by_cases hp : p < 4 * n
  · have h := getD_eq_of_ReadUInt32_eq hb hb2 ((p / 4) <<< 2) (hw (p / 4) (by omega))
      (p % 4) (Nat.mod_lt _ (by norm_num))
    rw [shl2, Nat.div_add_mod] at h
    exact h
  · exact hout p (by omega)

/-- Running the loop twice from the same key state restores the buffer. -/
theorem cryptLoop_cryptLoop (n : ℕ) (st : BV4Key) {buf : List ℕ} (hb : IsBytes buf)
    (hlen : 4 * n ≤ buf.length) :
    (cryptLoop n st 0 (cryptLoop n st 0 buf).2).2 = buf := by
  have hb1 := isBytes_cryptLoop n st 0 hb
  have hl1 := length_cryptLoop n st 0 buf
  apply ext_of_words (isBytes_cryptLoop n st 0 hb1) hb
    (by rw [length_cryptLoop, length_cryptLoop]) n
  · intro q hq
    rw [ReadUInt32_cryptLoop n st 0 _ q hb1 (by omega) (by omega) (by omega),
      ReadUInt32_cryptLoop n st 0 _ q hb (by omega) (by omega) (by omega),
      Nat.xor_assoc, Nat.xor_self, Nat.xor_zero]
  · intro p hp
    rw [getD_cryptLoop_out _ _ _ _ _ (by omega), getD_cryptLoop_out _ _ _ _ _ (by omega)]

/-- The RC4 key setup reads the eight key bytes at `keyDataOffset` only. -/
theorem ksaLoop_congr {keyData keyData2 : List ℕ} (off : ℕ)
    (h : ∀ k, k < 8 → keyData.getD (k + off) 0 = keyData2.getD (k + off) 0) :
    ∀ (n i j k : ℕ) (s : List ℕ), k < 8 →
      ksaLoop keyData off 8 n i j k s = ksaLoop keyData2 off 8 n i j k s := by
  intro n
  induction n with
  | zero => intro i j k s _; rfl
  | succ n ih =>
    intro i j k s hk
    simp only [ksaLoop, h k hk]
    apply ih
    split_ifs <;> omega

theorem new_congr {keyData keyData2 : List ℕ} (off : ℕ)
    (h : ∀ k, k < 8 → keyData.getD (k + off) 0 = keyData2.getD (k + off) 0) :
    BV4Key.new keyData off 8 = BV4Key.new keyData2 off 8 := by
  simp only [BV4Key.new, ksaLoop_congr off h _ _ _ _ _ (show 0 < 8 by norm_num)]

theorem BV4Crypt_snd (key : BV4Key) (inputBufBytes : ℕ) (buf : List ℕ) :
    (BV4Crypt key inputBufBytes buf).2 = (cryptLoop (inputBufBytes >>> 2) key 0 buf).2 := rfl

end BV4Key

/-! ## `CS64InvertMAC` recovers the last two words -/

namespace CS64Key

/-- Given the MAC of `2 * m` words of `data`, `CS64InvertMAC` returns the last
two words of `data`; of the buffer it is handed it reads the first
`2 * (m - 1)` words only. -/
theorem CS64InvertMAC_ComputeMAC {K : CS64Key} (hK : K.Valid) (data data2 : List ℕ)
    (hd : IsBytes data) (m : ℕ) (hm : 1 ≤ m) (dataLength : ℕ) (hlen : dataLength / 4 = 2 * m)
    (hag : ∀ q, q < 2 * (m - 1) →
      Utils.ReadUInt32 data2 (q <<< 2) = Utils.ReadUInt32 data (q <<< 2)) :
    CS64InvertMAC K data2 dataLength (CS64ComputeMAC K data (2 * m)) =
      Utils.MakeUInt64 (Utils.ReadUInt32 data ((2 * (m - 1)) <<< 2))
        (Utils.ReadUInt32 data ((2 * (m - 1) + 1) <<< 2)) := by
  obtain ⟨n, rfl⟩ : ∃ n, m = n + 1 := ⟨m - 1, by omega⟩
  simp only [Nat.add_sub_cancel] at hag ⊢
  have hP := macLoop_lt K data n 0 0 0 (by norm_num) (by norm_num)
  have hF : macLoop K data (n + 1) 0 0 0 =
      macStep K data (2 * n) (macLoop K data n 0 0 0).1 (macLoop K data n 0 0 0).2 := by
    rw [macLoop_succ_last, Nat.zero_add]
  have hFlt := macStep_lt K data (2 * n) (macLoop K data n 0 0 0).1 (macLoop K data n 0 0 0).2
  have hfull : CS64ComputeMAC K data (2 * (n + 1)) =
      (macStep K data (2 * n) (macLoop K data n 0 0 0).1 (macLoop K data n 0 0 0).2).2 +
      ((macStep K data (2 * n) (macLoop K data n 0 0 0).1 (macLoop K data n 0 0 0).2).1 <<< 32) := by
    rw [CS64ComputeMAC_eq_macLoop, show 2 * (n + 1) / 2 - 1 + 1 = n + 1 by omega, hF]
  have hprev : 2 * (n + 1) > 2 → CS64ComputeMAC K data2 (2 * (n + 1) - 2) =
      (macLoop K data n 0 0 0).2 + ((macLoop K data n 0 0 0).1 <<< 32) := by
    intro h
    rw [CS64ComputeMAC_eq_macLoop, show (2 * (n + 1) - 2) / 2 - 1 + 1 = n by omega,
      macLoop_congr K n 0 0 0 (fun q _ hq => hag q (by omega))]
  have hyn2 : (if 2 * (n + 1) > 2 then Utils.Hi (CS64ComputeMAC K data2 (2 * (n + 1) - 2)) else 0)
      = (macLoop K data n 0 0 0).1 := by
    split
    · rename_i h
      rw [hprev h, Utils.Hi_pack _ _ hP.2 hP.1]
    · have : n = 0 := by omega
      subst this
      rfl
  have hsp : (if 2 * (n + 1) > 2 then Utils.Lo (CS64ComputeMAC K data2 (2 * (n + 1) - 2)) else 0)
      = (macLoop K data n 0 0 0).2 := by
    split
    · rename_i h
      rw [hprev h, Utils.Lo_pack _ _ hP.2]
    · have : n = 0 := by omega
      subst this
      rfl
  have hinv := macStep_invert hK data (2 * n) (macLoop K data n 0 0 0).1 (macLoop K data n 0 0 0).2
    _ _ (Utils.ReadUInt32_lt hd _) (Utils.ReadUInt32_lt hd _) rfl rfl
  unfold CS64InvertMAC
  simp only [hlen, hyn2, hsp, hfull, Utils.Hi_pack _ _ hFlt.2 hFlt.1, Utils.Lo_pack _ _ hFlt.2]
  rw [hinv.1, hinv.2]

end CS64Key

/-! ## Encrypt and Decrypt -/

theorem IsBytes.take {buf : List ℕ} (h : IsBytes buf) (n : ℕ) : IsBytes (buf.take n) :=
  fun x hx => h x (List.mem_of_mem_take hx)

theorem IsBytes.drop {buf : List ℕ} (h : IsBytes buf) (n : ℕ) : IsBytes (buf.drop n) :=
  fun x hx => h x (List.mem_of_mem_drop hx)

theorem IsBytes.append {buf buf2 : List ℕ} (h : IsBytes buf) (h2 : IsBytes buf2) :
    IsBytes (buf ++ buf2) := by
  intro x hx
  rcases List.mem_append.1 hx with hx | hx
  · exact h x hx
  · exact h2 x hx

theorem wsub32_eight (L : ℕ) (h8 : 8 ≤ L) (hL : L < 2 ^ 32) : wsub32 L 8 = L - 8 := by
  simp only [wsub32]
  omega

namespace CSParve64

/-- Decryption undoes encryption: the buffer is restored and the pre-MAC is
returned. -/
theorem Decrypt_Encrypt (inst : CSParve64) (hK : inst.CsKey.Valid) (B : List ℕ) (k : ℕ)
    (hk : 1 ≤ k) (hL : 8 * k < 2 ^ 32) (hlen : B.length = 8 * k) (hb : IsBytes B) :
    inst.Decrypt (inst.Encrypt B (8 * k)).2.1 (8 * k) =
      (CSPARVE64_OK, B, inst.CsKey.CS64ComputeMAC B (8 * k / CS64Defs.CS_BLOCK_SIZE)) := by
  have hw := wsub32_eight (8 * k) (by omega) hL
  have h8 : 2 * CS64Defs.CS_BLOCK_SIZE = 8 := rfl
  simp only [Encrypt, Decrypt, hw, h8]
  set M := 8 * k - 8 with hM
  set mac := inst.CsKey.CS64ComputeMAC B (8 * k / CS64Defs.CS_BLOCK_SIZE) with hmac
  set D1 := Utils.WriteUInt64 mac B M with hD1
  set blk := MACHelper.ParveEncryptBlock inst.ParveKey inst.SBox (D1.drop M) with hblk
  set D2 := D1.take M ++ blk with hD2
  have hmaclt : mac < 2 ^ 64 := CS64Key.CS64ComputeMAC_lt _ _ _
  have hD1len : D1.length = 8 * k := by rw [hD1, Utils.length_WriteUInt64, hlen]
  have hD1b : IsBytes D1 := Utils.isBytes_WriteUInt64 _ _ hb
  have hdroplen : (D1.drop M).length = 8 := by rw [List.length_drop, hD1len]; omega
  have hblklen : blk.length = 8 := by
    rw [hblk, MACHelper.ParveEncryptBlock, MACHelper.length_encRounds, hdroplen]
  have hblkb : IsBytes blk := MACHelper.isBytes_encRounds _ _ _ (hD1b.drop M)
  have htakelen : (D1.take M).length = M := by rw [List.length_take, hD1len]; omega
  have hD2len : D2.length = 8 * k := by rw [hD2, List.length_append, htakelen, hblklen]; omega
  have hD2b : IsBytes D2 := (hD1b.take M).append hblkb
  have h4 : 4 * (M >>> 2) = M := by rw [Nat.shiftRight_eq_div_pow]; omega
  -- the second BV4 key is the first one
  have hkey : BV4Key.new ((BV4Key.new D2 M 8).BV4Crypt M D2).2 M 8 = BV4Key.new D2 M 8 := by
    apply BV4Key.new_congr
    intro j _
    rw [BV4Key.BV4Crypt_snd]
    exact BV4Key.getD_cryptLoop_out _ _ _ _ _ (Or.inr (by omega))
  -- BV4 twice is the identity
  have hbv : ((BV4Key.new D2 M 8).BV4Crypt M ((BV4Key.new D2 M 8).BV4Crypt M D2).2).2 = D2 := by
    rw [BV4Key.BV4Crypt_snd, BV4Key.BV4Crypt_snd]
    exact BV4Key.cryptLoop_cryptLoop _ _ hD2b (by omega)
  have htake : D2.take M = D1.take M := by rw [hD2]; exact List.take_left' htakelen
  have hdrop : D2.drop M = blk := by rw [hD2]; exact List.drop_left' htakelen
  have hparve : MACHelper.ParveDecryptBlock inst.ParveKey inst.SBox blk = D1.drop M :=
    MACHelper.parve_decrypt_encrypt _ _ (hD1b.drop M) hdroplen
  have hread : Utils.ReadUInt64 D1 M = mac :=
    Utils.ReadUInt64_WriteUInt64 _ _ hb (by omega) hmaclt
  have hinv : inst.CsKey.CS64InvertMAC D1 (8 * k) mac =
      Utils.MakeUInt64 (Utils.ReadUInt32 B M) (Utils.ReadUInt32 B (M + 4)) := by
    have := CS64Key.CS64InvertMAC_ComputeMAC hK B D1 hb k hk (8 * k) (by omega)
      (fun q hq => Utils.ReadUInt32_WriteUInt64_out _ _ _ _
        (Or.inl (by rw [BV4Key.shl2]; omega)))
    rw [BV4Key.shl2, BV4Key.shl2, show 4 * (2 * (k - 1)) = M by omega,
      show 4 * (2 * (k - 1) + 1) = M + 4 by omega,
      show 2 * k = 8 * k / CS64Defs.CS_BLOCK_SIZE by
        simp only [CS64Defs.CS_BLOCK_SIZE]; omega] at this
    exact this
  rw [hkey, hbv, htake, hdrop, hparve, List.take_append_drop, hread, hinv, hD1,
    Utils.WriteUInt64_WriteUInt64 _ _ _ _ (by omega),
    Utils.WriteUInt64_MakeUInt64_ReadUInt32 _ hb (by omega)]

/-- What `Encrypt` returns: the status, and as `*mac` the chain-and-sum MAC of
the whole plaintext. -/
theorem Encrypt_result (inst : CSParve64) (B : List ℕ) (L : ℕ) :
    (inst.Encrypt B L).1 = CSPARVE64_OK ∧
      (inst.Encrypt B L).2.2 = inst.CsKey.CS64ComputeMAC B (L / CS64Defs.CS_BLOCK_SIZE) :=
  ⟨rfl, rfl⟩

theorem length_Encrypt (inst : CSParve64) (B : List ℕ) (k : ℕ)
    (hk : 1 ≤ k) (hL : 8 * k < 2 ^ 32) (hlen : B.length = 8 * k) :
    (inst.Encrypt B (8 * k)).2.1.length = 8 * k := by
  have hw := wsub32_eight (8 * k) (by omega) hL
  have h8 : 2 * CS64Defs.CS_BLOCK_SIZE = 8 := rfl
  simp only [Encrypt, hw, h8, BV4Key.BV4Crypt_snd, BV4Key.length_cryptLoop, List.length_append,
    List.length_take, List.length_drop, MACHelper.ParveEncryptBlock, MACHelper.length_encRounds,
    Utils.length_WriteUInt64, hlen]
  omega

/-- The key of an instance built by the constructor from 32-bit keys is valid. -/
theorem new_valid (parveKey sbox : List ℕ) (k1 k2 k3 : ℕ) (data : List ℕ) (dataLength : ℕ)
    (h1 : k1 < 2 ^ 32) (h3 : k3 < 2 ^ 32) :
    (CSParve64.new parveKey sbox k1 k2 k3 data dataLength).CsKey.Valid := by
  simp only [CSParve64.new, CS64Hash]
  exact CS64Key.Init_valid _ _ _ _ (Nat.or_lt_two_pow h1 (by norm_num))
    (Nat.or_lt_two_pow h3 (by norm_num))

end CSParve64

/-! ## The shape of the results of Encrypt and Decrypt -/

theorem getD_drop (l : List ℕ) (n i : ℕ) : (l.drop n).getD i 0 = l.getD (n + i) 0 := by
  simp only [List.getD_eq_getElem?_getD, List.getElem?_drop]

theorem getD_take_append (l l2 : List ℕ) (n p : ℕ) (hn : n ≤ l.length) :
    (l.take n ++ l2).getD p 0 = if p < n then l.getD p 0 else l2.getD (p - n) 0 := by
  have hlen : (l.take n).length = n := by rw [List.length_take]; omega
  simp only [List.getD_eq_getElem?_getD]
  split
  · rename_i h
    rw [List.getElem?_append_left (by omega), List.getElem?_take_of_lt h]
  · rename_i h
    rw [List.getElem?_append_right (by omega), hlen]

/-- A buffer is its first `n` bytes followed by the rest, also after the first
`n` bytes were rewritten in place. -/
theorem take_append_drop_of_getD {l l2 : List ℕ} (n : ℕ) (hlen : l.length = l2.length)
    (h : ∀ p, n ≤ p → l.getD p 0 = l2.getD p 0) : l.drop n = l2.drop n := by
  apply list_ext_getD (by simp only [List.length_drop, hlen])
  intro i _
  rw [getD_drop, getD_drop]
  exact h _ (by omega)

theorem guard_iff (L : ℕ) :
    (L < CS64Defs.BLK_SIZE ∨ L &&& (CS64Defs.BLK_SIZE - 1) ≠ 0) ↔ (L < 8 ∨ L % 8 ≠ 0) := by
  have h := Nat.and_pow_two_sub_one_eq_mod L 3
  have h7 : CS64Defs.BLK_SIZE - 1 = 2 ^ 3 - 1 := rfl
  rw [h7, h]

namespace CSParve64

/-- The eight bytes of a 64-bit MAC, most significant byte first. -/
theorem drop_WriteUInt64 (mac : ℕ) (B : List ℕ) (M : ℕ) (hlen : B.length = M + 8) :
    (Utils.WriteUInt64 mac B M).drop M = Utils.WriteUInt64 mac (List.replicate 8 0) 0 := by
  apply list_ext_getD
    (by simp only [List.length_drop, Utils.length_WriteUInt64, List.length_replicate, hlen]; omega)
  intro i hi
  have hi8 : i < 8 := by
    simp only [List.length_drop, Utils.length_WriteUInt64, hlen] at hi
    omega
  rw [getD_drop, Utils.getD_WriteUInt64 _ _ _ _ (by omega),
    Utils.getD_WriteUInt64 _ _ _ _ (by simp)]
  have hcases : i = 0 ∨ i = 1 ∨ i = 2 ∨ i = 3 ∨ i = 4 ∨ i = 5 ∨ i = 6 ∨ i = 7 := by omega
  rcases hcases with e | e | e | e | e | e | e | e <;> subst e <;> simp

theorem take_WriteUInt64 (mac : ℕ) (B : List ℕ) (M : ℕ) :
    (Utils.WriteUInt64 mac B M).take M = B.take M := by
  apply list_ext_getD (by simp only [List.length_take, Utils.length_WriteUInt64])
  intro i hi
  have hiM : i < M := by
    simp only [List.length_take] at hi
    omega
  simp only [List.getD_eq_getElem?_getD, List.getElem?_take_of_lt hiM]
  have := Utils.getD_WriteUInt64_out mac B M i (Or.inl hiM)
  simpa only [List.getD_eq_getElem?_getD] using this

/-- The buffer `Encrypt` hands to BV4: the plaintext prefix followed by the
Parve-encrypted pre-MAC. -/
theorem Encrypt_eq (inst : CSParve64) (B : List ℕ) (k : ℕ)
    (hk : 1 ≤ k) (hL : 8 * k < 2 ^ 32) (hlen : B.length = 8 * k) :
    inst.Encrypt B (8 * k) =
      (CSPARVE64_OK,
        (BV4Key.cryptLoop ((8 * k - 8) >>> 2)
          (BV4Key.new (B.take (8 * k - 8) ++ MACHelper.ParveEncryptBlock inst.ParveKey inst.SBox
            (Utils.WriteUInt64 (inst.CsKey.CS64ComputeMAC B (8 * k / 4)) (List.replicate 8 0) 0))
            (8 * k - 8) 8) 0
          (B.take (8 * k - 8) ++ MACHelper.ParveEncryptBlock inst.ParveKey inst.SBox
            (Utils.WriteUInt64 (inst.CsKey.CS64ComputeMAC B (8 * k / 4)) (List.replicate 8 0) 0))).2,
        inst.CsKey.CS64ComputeMAC B (8 * k / 4)) := by
  have hw := wsub32_eight (8 * k) (by omega) hL
  have h8 : 2 * CS64Defs.CS_BLOCK_SIZE = 8 := rfl
  simp only [Encrypt, hw, h8, BV4Key.BV4Crypt_snd, take_WriteUInt64,
    drop_WriteUInt64 _ B (8 * k - 8) (by omega)]

end CSParve64

/-! ## Inverting the MAC over a changed prefix -/

namespace Utils

theorem ReadUInt64_eq_MakeUInt64 {buf : List ℕ} (hb : IsBytes buf) (off : ℕ) :
    ReadUInt64 buf off = MakeUInt64 (ReadUInt32 buf off) (ReadUInt32 buf (off + 4)) := by
  rw [MakeUInt64_eq _ _ (ReadUInt32_lt hb _), ReadUInt64_eq hb, ReadUInt32_eq hb,
    ReadUInt32_eq hb]
  simp only [Nat.add_assoc, Nat.reduceAdd]
  ring

theorem MakeUInt64_inj {a b c d : ℕ} (hb : b < 2 ^ 32) (hd : d < 2 ^ 32)
    (h : MakeUInt64 a b = MakeUInt64 c d) : a = c ∧ b = d := by
  rw [MakeUInt64_eq _ _ hb, MakeUInt64_eq _ _ hd] at h
  omega

theorem MakeUInt64_lt {a b : ℕ} (ha : a < 2 ^ 32) (hb : b < 2 ^ 32) :
    MakeUInt64 a b < 2 ^ 64 := by
  rw [MakeUInt64_eq _ _ hb]
  omega

end Utils

namespace CS64Key

/-- The value of `CS64InvertMAC` in terms of the chain-and-sum state after the
first `2 * n` words of the buffer it is handed. -/
theorem CS64InvertMAC_eq (K : CS64Key) (data2 : List ℕ) (n dataLength : ℕ)
    (hlen : dataLength / 4 = 2 * (n + 1)) (hash : ℕ) :
    CS64InvertMAC K data2 dataLength hash =
      Utils.MakeUInt64
        ((K.invE * wsub32 ((K.invA * wsub32 (wsub32 (wsub32 (Utils.Lo hash)
          (macLoop K data2 n 0 0 0).2) (Utils.Hi hash)) K.b) % 2 ^ 32)
          (macLoop K data2 n 0 0 0).1) % 2 ^ 32)
        (wsub32 ((K.invC * wsub32 (Utils.Hi hash) K.d) % 2 ^ 32)
          (wsub32 (wsub32 (Utils.Lo hash) (macLoop K data2 n 0 0 0).2) (Utils.Hi hash))) := by
  have hP := macLoop_lt K data2 n 0 0 0 (by norm_num) (by norm_num)
  have hprev : 2 * (n + 1) > 2 → CS64ComputeMAC K data2 (2 * (n + 1) - 2) =
      (macLoop K data2 n 0 0 0).2 + ((macLoop K data2 n 0 0 0).1 <<< 32) := by
    intro h
    rw [CS64ComputeMAC_eq_macLoop, show (2 * (n + 1) - 2) / 2 - 1 + 1 = n by omega]
  have hyn2 : (if 2 * (n + 1) > 2 then Utils.Hi (CS64ComputeMAC K data2 (2 * (n + 1) - 2)) else 0)
      = (macLoop K data2 n 0 0 0).1 := by
    split
    · rename_i h
      rw [hprev h, Utils.Hi_pack _ _ hP.2 hP.1]
    · have : n = 0 := by omega
      subst this
      rfl
  have hsp : (if 2 * (n + 1) > 2 then Utils.Lo (CS64ComputeMAC K data2 (2 * (n + 1) - 2)) else 0)
      = (macLoop K data2 n 0 0 0).2 := by
    split
    · rename_i h
      rw [hprev h, Utils.Lo_pack _ _ hP.2]
    · have : n = 0 := by omega
      subst this
      rfl
  unfold CS64InvertMAC
  simp only [hlen, hyn2, hsp]

theorem CS64InvertMAC_lt (K : CS64Key) (data2 : List ℕ) (n dataLength : ℕ)
    (hlen : dataLength / 4 = 2 * (n + 1)) (hash : ℕ) :
    CS64InvertMAC K data2 dataLength hash < 2 ^ 64 := by
  rw [CS64InvertMAC_eq K data2 n dataLength hlen]
  exact Utils.MakeUInt64_lt (Nat.mod_lt _ (by norm_num)) (wsub32_lt _ _)

/-- When exactly one of the first `2 * n` words handed to `CS64InvertMAC`
differs from the words the MAC was computed over, the inversion does not return
the original last two words. -/
theorem CS64InvertMAC_ne {K : CS64Key} (hK : K.Valid) {data data2 : List ℕ}
    (hd : IsBytes data) (hd2 : IsBytes data2) (n dataLength : ℕ)
    (hlen : dataLength / 4 = 2 * (n + 1)) (q0 : ℕ) (hq0 : q0 < 2 * n)
    (hne : Utils.ReadUInt32 data (q0 <<< 2) ≠ Utils.ReadUInt32 data2 (q0 <<< 2))
    (hag : ∀ q, q < 2 * n → q ≠ q0 →
      Utils.ReadUInt32 data (q <<< 2) = Utils.ReadUInt32 data2 (q <<< 2)) :
    CS64InvertMAC K data2 dataLength (CS64ComputeMAC K data (2 * (n + 1))) ≠
      Utils.MakeUInt64 (Utils.ReadUInt32 data ((2 * n) <<< 2))
        (Utils.ReadUInt32 data ((2 * n + 1) <<< 2)) := by
  intro heq
  have htrue := CS64InvertMAC_ComputeMAC hK data data hd (n + 1) (by omega) dataLength hlen
    (fun _ _ => rfl)
  simp only [Nat.add_sub_cancel] at htrue
  rw [← htrue, CS64InvertMAC_eq K data2 n dataLength hlen,
    CS64InvertMAC_eq K data n dataLength hlen] at heq
  obtain ⟨h1, h0⟩ := Utils.MakeUInt64_inj (wsub32_lt _ _) (wsub32_lt _ _) heq
  have hP := macLoop_lt K data n 0 0 0 (by norm_num) (by norm_num)
  have hP2 := macLoop_lt K data2 n 0 0 0 (by norm_num) (by norm_num)
  have hchain := macLoop_chain_ne hK hd hd2 n 0 0 0 0 0 (by norm_num) (by norm_num)
    (Or.inr ⟨rfl, q0, by omega, by omega, hne, fun q _ hq2 hq3 => hag q (by omega) hq3⟩)
  apply hchain
  have c0 := congrArg (Nat.cast : ℕ → Z32) h0
  have c1 := congrArg (Nat.cast : ℕ → Z32) h1
  simp only [cast_wsub32, cast_mod32, Nat.cast_mul] at c0 c1
  have hsum : ((macLoop K data2 n 0 0 0).2 : Z32) = ((macLoop K data n 0 0 0).2 : Z32) := by
    linear_combination c0
  rw [hsum] at c1
  have hE : (K.invE : Z32) * (K.e : Z32) = 1 := by
    rw [mul_comm]; exact hK.castE
  have hch : (K.invE : Z32) * ((macLoop K data n 0 0 0).1 : Z32)
      = (K.invE : Z32) * ((macLoop K data2 n 0 0 0).1 : Z32) := by
    linear_combination c1
  exact eq_of_cast_eq hP.1 hP2.1 (z32_cancel hE hch)

end CS64Key

/-! ## Decrypting a buffer that was changed after encryption -/

namespace CSParve64

/-- The eight bytes of a 64-bit value, most significant byte first. -/
theorem macBlock_props (mac : ℕ) :
    IsBytes (Utils.WriteUInt64 mac (List.replicate 8 0) 0) ∧
      (Utils.WriteUInt64 mac (List.replicate 8 0) 0).length = 8 := by
  refine ⟨Utils.isBytes_WriteUInt64 _ _ ?_, by simp [Utils.length_WriteUInt64]⟩
  intro x hx
  rw [(List.mem_replicate.1 hx).2]
  norm_num

/-- The result of `Decrypt` on any buffer of valid length: the MAC is read from
the Parve decryption of the last eight bytes, the prefix is XORed with the BV4
keystream keyed by the last eight bytes. -/
theorem Decrypt_eq (inst : CSParve64) (D : List ℕ) (k : ℕ)
    (hk : 1 ≤ k) (hL : 8 * k < 2 ^ 32) (hlen : D.length = 8 * k) :
    inst.Decrypt D (8 * k) =
      (CSPARVE64_OK,
        Utils.WriteUInt64
          (inst.CsKey.CS64InvertMAC
            ((BV4Key.cryptLoop ((8 * k - 8) >>> 2) (BV4Key.new D (8 * k - 8) 8) 0 D).2.take
                (8 * k - 8) ++
              MACHelper.ParveDecryptBlock inst.ParveKey inst.SBox (D.drop (8 * k - 8)))
            (8 * k)
            (Utils.ReadUInt64
              (MACHelper.ParveDecryptBlock inst.ParveKey inst.SBox (D.drop (8 * k - 8))) 0))
          ((BV4Key.cryptLoop ((8 * k - 8) >>> 2) (BV4Key.new D (8 * k - 8) 8) 0 D).2.take
              (8 * k - 8) ++
            MACHelper.ParveDecryptBlock inst.ParveKey inst.SBox (D.drop (8 * k - 8)))
          (8 * k - 8),
        Utils.ReadUInt64
          (MACHelper.ParveDecryptBlock inst.ParveKey inst.SBox (D.drop (8 * k - 8))) 0) := by
  have hw := wsub32_eight (8 * k) (by omega) hL
  have h8 : 2 * CS64Defs.CS_BLOCK_SIZE = 8 := rfl
  have h4 : 4 * ((8 * k - 8) >>> 2) = 8 * k - 8 := by rw [Nat.shiftRight_eq_div_pow]; omega
  have hdrop : (BV4Key.cryptLoop ((8 * k - 8) >>> 2) (BV4Key.new D (8 * k - 8) 8) 0 D).2.drop
      (8 * k - 8) = D.drop (8 * k - 8) :=
    take_append_drop_of_getD _ (BV4Key.length_cryptLoop _ _ _ _)
      (fun p hp => BV4Key.getD_cryptLoop_out _ _ _ _ _ (Or.inr (by omega)))
  have hread : ∀ Y : List ℕ,
      Utils.ReadUInt64
        ((BV4Key.cryptLoop ((8 * k - 8) >>> 2) (BV4Key.new D (8 * k - 8) 8) 0 D).2.take
          (8 * k - 8) ++ Y) (8 * k - 8) = Utils.ReadUInt64 Y 0 := by
    intro Y
    apply Utils.ReadUInt64_congr
    intro j _
    rw [getD_take_append _ _ _ _ (by rw [BV4Key.length_cryptLoop]; omega),
      if_neg (by omega), show 8 * k - 8 + j - (8 * k - 8) = 0 + j by omega]
  simp only [Decrypt, hw, h8, BV4Key.BV4Crypt_snd, hdrop, hread]

/-- What `Encrypt` leaves in the last eight bytes: the Parve encryption of the
pre-MAC written big-endian. -/
theorem drop_Encrypt (inst : CSParve64) (B : List ℕ) (k : ℕ)
    (hk : 1 ≤ k) (hL : 8 * k < 2 ^ 32) (hlen : B.length = 8 * k) :
    (inst.Encrypt B (8 * k)).2.1.drop (8 * k - 8) =
      MACHelper.ParveEncryptBlock inst.ParveKey inst.SBox
        (Utils.WriteUInt64 (inst.CsKey.CS64ComputeMAC B (8 * k / 4)) (List.replicate 8 0) 0) := by
  have h4 : 4 * ((8 * k - 8) >>> 2) = 8 * k - 8 := by rw [Nat.shiftRight_eq_div_pow]; omega
  have htl : (B.take (8 * k - 8)).length = 8 * k - 8 := by rw [List.length_take]; omega
  rw [Encrypt_eq inst B k hk hL hlen]
  simp only
  rw [take_append_drop_of_getD _ (BV4Key.length_cryptLoop _ _ _ _)
    (fun p hp => BV4Key.getD_cryptLoop_out _ _ _ _ _ (Or.inr (by omega)))]
  exact List.drop_left' htl

/-- The MAC `Decrypt` returns is the pre-MAC of the encryption whenever the last
eight bytes of the ciphertext are intact, whatever happened to the prefix. -/
theorem Decrypt_mac_of_drop (inst : CSParve64) (B C2 : List ℕ) (k : ℕ)
    (hk : 1 ≤ k) (hL : 8 * k < 2 ^ 32) (hlen : B.length = 8 * k) (hlen2 : C2.length = 8 * k)
    (hdrop : C2.drop (8 * k - 8) = (inst.Encrypt B (8 * k)).2.1.drop (8 * k - 8)) :
    (inst.Decrypt C2 (8 * k)).2.2 = inst.CsKey.CS64ComputeMAC B (8 * k / 4) := by
  rw [Decrypt_eq inst C2 k hk hL hlen2]
  simp only
  rw [hdrop, drop_Encrypt inst B k hk hL hlen,
    MACHelper.parve_decrypt_encrypt _ _ (macBlock_props _).1 (macBlock_props _).2,
    Utils.ReadUInt64_WriteUInt64 _ _ (by intro x hx; rw [(List.mem_replicate.1 hx).2]; norm_num)
      (by simp) (CS64Key.CS64ComputeMAC_lt _ _ _)]

end CSParve64

namespace CSParve64

/-- Decrypting a ciphertext in which one 32-bit word of the prefix was changed
does not restore the last eight bytes of the plaintext. -/
theorem Decrypt_changed_word (inst : CSParve64) (hK : inst.CsKey.Valid) (B C2 : List ℕ)
    (k : ℕ) (hk : 2 ≤ k) (hL : 8 * k < 2 ^ 32) (hlen : B.length = 8 * k) (hb : IsBytes B)
    (hlen2 : C2.length = 8 * k) (hb2 : IsBytes C2) (q : ℕ) (hq : q < 2 * (k - 1))
    (hag : ∀ p, p / 4 ≠ q → C2.getD p 0 = (inst.Encrypt B (8 * k)).2.1.getD p 0)
    (hne : C2 ≠ (inst.Encrypt B (8 * k)).2.1) :
    (inst.Decrypt C2 (8 * k)).2.1.drop (8 * k - 8) ≠ B.drop (8 * k - 8) := by
  have hk1 : 1 ≤ k := by omega
  have h4 : 4 * ((8 * k - 8) >>> 2) = 8 * k - 8 := by rw [Nat.shiftRight_eq_div_pow]; omega
  have hn : (8 * k - 8) >>> 2 = 2 * (k - 1) := by omega
  have hdropE := drop_Encrypt inst B k hk1 hL hlen
  have hEq := Encrypt_eq inst B k hk1 hL hlen
  have hClen := length_Encrypt inst B k hk1 hL hlen
  -- name the pieces of the encryption
  set mac := inst.CsKey.CS64ComputeMAC B (8 * k / 4) with hmac
  set blk := MACHelper.ParveEncryptBlock inst.ParveKey inst.SBox
    (Utils.WriteUInt64 mac (List.replicate 8 0) 0) with hblk
  set D2 := B.take (8 * k - 8) ++ blk with hD2
  set C := (inst.Encrypt B (8 * k)).2.1 with hC
  have hCeq : C = (BV4Key.cryptLoop ((8 * k - 8) >>> 2) (BV4Key.new D2 (8 * k - 8) 8) 0 D2).2 := by
    rw [hC, hEq]
  have hblkb : IsBytes blk := MACHelper.isBytes_encRounds _ _ _ (macBlock_props mac).1
  have hblklen : blk.length = 8 := by
    rw [hblk, MACHelper.ParveEncryptBlock, MACHelper.length_encRounds, (macBlock_props mac).2]
  have hD2b : IsBytes D2 := (hb.take _).append hblkb
  have hD2len : D2.length = 8 * k := by
    rw [hD2, List.length_append, List.length_take, hblklen]; omega
  have hCb : IsBytes C := by rw [hCeq]; exact BV4Key.isBytes_cryptLoop _ _ _ hD2b
  -- the changed word
  have hword_ne : Utils.ReadUInt32 C2 (q <<< 2) ≠ Utils.ReadUInt32 C (q <<< 2) := by
    intro hw
    apply hne
    apply list_ext_getD (by rw [hlen2, hClen])
    intro p _
    by_cases hp : p / 4 = q
    · have := BV4Key.getD_eq_of_ReadUInt32_eq hb2 hCb (q <<< 2) hw (p % 4)
        (Nat.mod_lt _ (by norm_num))
      rw [BV4Key.shl2, ← hp, Nat.div_add_mod] at this
      exact this
    · exact hag p hp
  have hword_eq : ∀ w, w ≠ q → Utils.ReadUInt32 C2 (w <<< 2) = Utils.ReadUInt32 C (w <<< 2) := by
    intro w hw
    apply Utils.ReadUInt32_congr
    intro j hj
    apply hag
    rw [BV4Key.shl2]
    omega
  -- the last eight bytes and the BV4 key are those of the encryption
  have hdrop2 : C2.drop (8 * k - 8) = C.drop (8 * k - 8) :=
    take_append_drop_of_getD _ (by rw [hlen2, hClen]) (fun p hp => hag p (by omega))
  have hkey : BV4Key.new C2 (8 * k - 8) 8 = BV4Key.new D2 (8 * k - 8) 8 := by
    apply BV4Key.new_congr
    intro j _
    rw [hag _ (by omega), hCeq]
    exact BV4Key.getD_cryptLoop_out _ _ _ _ _ (Or.inr (by omega))
  have hpd : MACHelper.ParveDecryptBlock inst.ParveKey inst.SBox (C2.drop (8 * k - 8)) =
      Utils.WriteUInt64 mac (List.replicate 8 0) 0 := by
    rw [hdrop2, hdropE]
    exact MACHelper.parve_decrypt_encrypt _ _ (macBlock_props _).1 (macBlock_props _).2
  have hread : Utils.ReadUInt64 (Utils.WriteUInt64 mac (List.replicate 8 0) 0) 0 = mac :=
    Utils.ReadUInt64_WriteUInt64 _ _
      (by intro x hx; rw [(List.mem_replicate.1 hx).2]; norm_num) (by simp)
      (CS64Key.CS64ComputeMAC_lt _ _ _)
  rw [Decrypt_eq inst C2 k hk1 hL hlen2]
  simp only
  rw [hpd, hread, hkey]
  set E1 := (BV4Key.cryptLoop ((8 * k - 8) >>> 2) (BV4Key.new D2 (8 * k - 8) 8) 0 C2).2 with hE1
  set E2 := E1.take (8 * k - 8) ++ Utils.WriteUInt64 mac (List.replicate 8 0) 0 with hE2
  have hE1b : IsBytes E1 := BV4Key.isBytes_cryptLoop _ _ _ hb2
  have hE1len : E1.length = 8 * k := by rw [hE1, BV4Key.length_cryptLoop, hlen2]
  have hE2b : IsBytes E2 := (hE1b.take _).append (macBlock_props mac).1
  have hE2len : E2.length = 8 * k := by
    rw [hE2, List.length_append, List.length_take, (macBlock_props mac).2]; omega
  -- the words of the prefix after BV4
  have hwE2 : ∀ w, w < 2 * (k - 1) → Utils.ReadUInt32 E2 (w <<< 2) =
      Utils.ReadUInt32 C2 (w <<< 2) ^^^ BV4Key.stream (BV4Key.new D2 (8 * k - 8) 8) w := by
    intro w hw
    have e : Utils.ReadUInt32 E2 (w <<< 2) = Utils.ReadUInt32 E1 (w <<< 2) := by
      apply Utils.ReadUInt32_congr
      intro j hj
      rw [hE2, getD_take_append _ _ _ _ (by omega), if_pos (by rw [BV4Key.shl2]; omega)]
    rw [e, hE1, BV4Key.ReadUInt32_cryptLoop _ _ _ _ w hb2 (by omega) (by omega) (by omega)]
    rfl
  have hwB : ∀ w, w < 2 * (k - 1) → Utils.ReadUInt32 C (w <<< 2) =
      Utils.ReadUInt32 B (w <<< 2) ^^^ BV4Key.stream (BV4Key.new D2 (8 * k - 8) 8) w := by
    intro w hw
    have e : Utils.ReadUInt32 D2 (w <<< 2) = Utils.ReadUInt32 B (w <<< 2) := by
      apply Utils.ReadUInt32_congr
      intro j hj
      rw [hD2, getD_take_append _ _ _ _ (by omega), if_pos (by rw [BV4Key.shl2]; omega)]
    rw [hCeq, BV4Key.ReadUInt32_cryptLoop _ _ _ _ w hD2b (by omega) (by omega) (by omega), e]
    rfl
  have hinv := CS64Key.CS64InvertMAC_ne hK hb hE2b (k - 1) (8 * k) (by omega) q hq
    (by
      rw [hwE2 q hq]
      intro heq
      apply hword_ne
      rw [hwB q hq, heq, Nat.xor_assoc, Nat.xor_self, Nat.xor_zero])
    (by
      intro w hw hwq
      rw [hwE2 w hw, hword_eq w hwq, hwB w hw, Nat.xor_assoc, Nat.xor_self, Nat.xor_zero])
  intro hfinal
  apply hinv
  have hr := congrArg (fun l => Utils.ReadUInt64 l 0) hfinal
  simp only at hr
  have e1 : ∀ l : List ℕ, Utils.ReadUInt64 (l.drop (8 * k - 8)) 0 = Utils.ReadUInt64 l (8 * k - 8) := by
    intro l
    apply Utils.ReadUInt64_congr
    intro j _
    rw [getD_drop, Nat.zero_add, Nat.add_comm]
  rw [e1, e1, Utils.ReadUInt64_WriteUInt64 _ _ hE2b (by omega)
    (CS64Key.CS64InvertMAC_lt _ _ (k - 1) _ (by omega) _),
    Utils.ReadUInt64_eq_MakeUInt64 hb] at hr
  rw [show 2 * (k - 1 + 1) = 8 * k / 4 by omega, BV4Key.shl2, BV4Key.shl2,
    show 4 * (2 * (k - 1)) = 8 * k - 8 by omega,
    show 4 * (2 * (k - 1) + 1) = 8 * k - 8 + 4 by omega]
  exact hr

end CSParve64

/-! ## The exported functions on valid input -/

theorem IsWords.getD_lt {config : List ℕ} (h : IsWords config) (i : ℕ) : config.getD i 0 < 2 ^ 32 := by
  rw [List.getD_eq_getElem?_getD]
  rcases hi : config[i]? with _ | x
  · simp
  · simpa using h x (List.getElem?_mem hi)

/-- An instance that `CSParve64_Create` stores through an empty slot is the one
the constructor builds from the keys and the S-box of the context. -/
theorem Create_auth {ctx : Option Context} {inputKey seed : Option (List ℕ)}
    {seedLen hiHash loHash : ℕ} {inst : CSParve64}
    (h : (CSParve64_Create ctx inputKey seed seedLen hiHash loHash none).auth = some inst) :
    ∃ c key buf, ctx = some c ∧
      inst = CSParve64.new key c.SBox c.Key1 c.Key2 c.Key3 buf seedLen := by
  unfold CSParve64_Create at h
  rcases ctx with _ | c
  · simp at h
  · rcases seed with _ | buf
    · simp at h
    · rcases inputKey with _ | key
      · simp at h
      · simp only at h
        split at h
        · simp at h
        · simp only [Option.some.injEq] at h
          exact ⟨c, key, buf, rfl, h.symm⟩

/-- The chain-and-sum key of every instance created from a context built from
32-bit configuration words carries matching inverses. -/
theorem Create_valid {config20 sbox : List ℕ} {inputKey seed : Option (List ℕ)}
    {seedLen hiHash loHash : ℕ} {inst : CSParve64} (hcfg : IsWords config20)
    (h : (CSParve64_Create (some (Context.new config20 sbox)) inputKey seed seedLen hiHash loHash
      none).auth = some inst) : inst.CsKey.Valid := by
  obtain ⟨c, key, buf, hc, rfl⟩ := Create_auth h
  simp only [Option.some.injEq] at hc
  subst hc
  exact CSParve64.new_valid _ _ _ _ _ _ _
    (Nat.or_lt_two_pow (hcfg.getD_lt 1) (by norm_num))
    (Nat.or_lt_two_pow (hcfg.getD_lt 3) (by norm_num))

theorem Encode_ok (inst : CSParve64) (B : List ℕ) (L hi lo : ℕ) (h8 : 8 ≤ L) (hm : L % 8 = 0) :
    CSParve64_Encode (some inst) (some B) L hi lo =
      { result := CSPARVE64_OK, data := some (inst.Encrypt B L).2.1,
        hiMAC := Utils.Hi (inst.CsKey.CS64ComputeMAC B (L / 4)),
        loMAC := Utils.Lo (inst.CsKey.CS64ComputeMAC B (L / 4)) } := by
  have hg : ¬ (L < CS64Defs.BLK_SIZE ∨ L &&& (CS64Defs.BLK_SIZE - 1) ≠ 0) := by
    rw [guard_iff]; omega
  simp only [CSParve64_Encode, if_neg hg]
  rfl

theorem Decode_ok (inst : CSParve64) (D : List ℕ) (L hi lo : ℕ) (h8 : 8 ≤ L) (hm : L % 8 = 0) :
    CSParve64_Decode (some inst) (some D) L hi lo =
      { result := CSPARVE64_OK, data := some (inst.Decrypt D L).2.1,
        hiMAC := Utils.Hi (inst.Decrypt D L).2.2,
        loMAC := Utils.Lo (inst.Decrypt D L).2.2 } := by
  have hg : ¬ (L < CS64Defs.BLK_SIZE ∨ L &&& (CS64Defs.BLK_SIZE - 1) ≠ 0) := by
    rw [guard_iff]; omega
  simp only [CSParve64_Decode, if_neg hg]
  rfl

/-- Encode followed by Decode, for every valid length. -/
theorem Decode_Encode (inst : CSParve64) (hK : inst.CsKey.Valid) (B : List ℕ) (k : ℕ)
    (hk : 1 ≤ k) (hL : 8 * k < 2 ^ 32) (hlen : B.length = 8 * k) (hb : IsBytes B)
    (hi0 lo0 hi1 lo1 : ℕ) :
    CSParve64_Decode (some inst) (CSParve64_Encode (some inst) (some B) (8 * k) hi0 lo0).data
        (8 * k) hi1 lo1 =
      { result := CSPARVE64_OK, data := some B,
        hiMAC := (CSParve64_Encode (some inst) (some B) (8 * k) hi0 lo0).hiMAC,
        loMAC := (CSParve64_Encode (some inst) (some B) (8 * k) hi0 lo0).loMAC } := by
  rw [Encode_ok inst B (8 * k) hi0 lo0 (by omega) (by omega)]
  simp only
  rw [Decode_ok inst _ (8 * k) hi1 lo1 (by omega) (by omega),
    CSParve64.Decrypt_Encrypt inst hK B k hk hL hlen hb]

theorem isBytes_Encrypt (inst : CSParve64) (B : List ℕ) (k : ℕ)
    (hk : 1 ≤ k) (hL : 8 * k < 2 ^ 32) (hlen : B.length = 8 * k) (hb : IsBytes B) :
    IsBytes (inst.Encrypt B (8 * k)).2.1 := by
  rw [CSParve64.Encrypt_eq inst B k hk hL hlen]
  exact BV4Key.isBytes_cryptLoop _ _ _
    ((hb.take _).append (MACHelper.isBytes_encRounds _ _ _ (CSParve64.macBlock_props _).1))

/-- Two buffers of bytes that agree outside the 32-bit word `q` and are not
equal differ in the value of that word. -/
theorem word_ne_of_ne {B B2 : List ℕ} (hb : IsBytes B) (hb2 : IsBytes B2)
    (hlen : B.length = B2.length) (q : ℕ)
    (hag : ∀ p, p / 4 ≠ q → B.getD p 0 = B2.getD p 0) (hne : B ≠ B2) :
    Utils.ReadUInt32 B (q <<< 2) ≠ Utils.ReadUInt32 B2 (q <<< 2) := by
  intro hw
  apply hne
  apply list_ext_getD hlen
  intro p _
  by_cases hp : p / 4 = q
  · have := BV4Key.getD_eq_of_ReadUInt32_eq hb hb2 (q <<< 2) hw (p % 4)
      (Nat.mod_lt _ (by norm_num))
    rw [BV4Key.shl2, ← hp, Nat.div_add_mod] at this
    exact this
  · exact hag p hp

theorem word_eq_of_agree {B B2 : List ℕ} (q : ℕ)
    (hag : ∀ p, p / 4 ≠ q → B.getD p 0 = B2.getD p 0) (w : ℕ) (hw : w ≠ q) :
    Utils.ReadUInt32 B (w <<< 2) = Utils.ReadUInt32 B2 (w <<< 2) := by
  apply Utils.ReadUInt32_congr
  intro j hj
  apply hag
  rw [BV4Key.shl2]
  omega

/-- Changing one 32-bit word of the plaintext changes the high half of the MAC
of `Encrypt` (the final chain value). -/
theorem Encrypt_mac_ne (inst : CSParve64) (hK : inst.CsKey.Valid) (B B2 : List ℕ) (k : ℕ)
    (hlen : B.length = 8 * k) (hlen2 : B2.length = 8 * k)
    (hb : IsBytes B) (hb2 : IsBytes B2) (q : ℕ) (hq : q < 2 * k)
    (hag : ∀ p, p / 4 ≠ q → B.getD p 0 = B2.getD p 0) (hne : B ≠ B2) :
    Utils.Hi (inst.CsKey.CS64ComputeMAC B (8 * k / 4)) ≠
      Utils.Hi (inst.CsKey.CS64ComputeMAC B2 (8 * k / 4)) := by
  have hP := CS64Key.macLoop_lt inst.CsKey B (8 * k / 4 / 2 - 1 + 1) 0 0 0
    (by norm_num) (by norm_num)
  have hP2 := CS64Key.macLoop_lt inst.CsKey B2 (8 * k / 4 / 2 - 1 + 1) 0 0 0
    (by norm_num) (by norm_num)
  rw [CS64Key.CS64ComputeMAC_eq_macLoop, CS64Key.CS64ComputeMAC_eq_macLoop,
    Utils.Hi_pack _ _ hP.2 hP.1, Utils.Hi_pack _ _ hP2.2 hP2.1]
  exact CS64Key.macLoop_chain_ne hK hb hb2 _ 0 0 0 0 0 (by norm_num) (by norm_num)
    (Or.inr ⟨rfl, q, by omega, by omega,
      word_ne_of_ne hb hb2 (by rw [hlen, hlen2]) q hag hne,
      fun w _ _ hw => word_eq_of_agree q hag w hw⟩)

/-! ## Changing one byte of a buffer -/

theorem getD_set_of_div_ne (l : List ℕ) (i v p : ℕ) (h : p / 4 ≠ i / 4) :
    (l.set i v).getD p 0 = l.getD p 0 := by
  rw [getD_set_eq, if_neg]
  rintro ⟨rfl, _⟩
  exact h rfl

theorem xor_one_ne (x : ℕ) : x ^^^ 1 ≠ x := by
  intro h
  have h2 : x ^^^ 1 = x ^^^ 0 := by rw [h, Nat.xor_zero]
  exact absurd (Nat.xor_right_inj.1 h2) (by norm_num)

theorem set_xor_one_ne (l : List ℕ) (i : ℕ) (hi : i < l.length) :
    l.set i (l.getD i 0 ^^^ 1) ≠ l := by
  intro h
  have := congrArg (fun m => m.getD i 0) h
  simp only [getD_set_eq, hi, and_self, if_true] at this
  exact xor_one_ne _ this

theorem xor_one_lt (x : ℕ) (hx : x < 256) : x ^^^ 1 < 256 :=
  @Nat.xor_lt_two_pow x 1 8 hx (by norm_num)

/-- The MAC returned by Decode is the MAC returned by Encode whenever the last
eight bytes of the ciphertext are intact. -/
theorem Decode_mac_of_drop (inst : CSParve64) (B C2 : List ℕ) (k : ℕ)
    (hk : 1 ≤ k) (hL : 8 * k < 2 ^ 32) (hlen : B.length = 8 * k) (hlen2 : C2.length = 8 * k)
    (hdrop : C2.drop (8 * k - 8) = (inst.Encrypt B (8 * k)).2.1.drop (8 * k - 8))
    (hi0 lo0 hi1 lo1 : ℕ) :
    (CSParve64_Decode (some inst) (some C2) (8 * k) hi1 lo1).hiMAC =
        (CSParve64_Encode (some inst) (some B) (8 * k) hi0 lo0).hiMAC ∧
      (CSParve64_Decode (some inst) (some C2) (8 * k) hi1 lo1).loMAC =
        (CSParve64_Encode (some inst) (some B) (8 * k) hi0 lo0).loMAC := by
  rw [Encode_ok inst B (8 * k) hi0 lo0 (by omega) (by omega),
    Decode_ok inst C2 (8 * k) hi1 lo1 (by omega) (by omega)]
  simp only
  rw [CSParve64.Decrypt_mac_of_drop inst B C2 k hk hL hlen hlen2 hdrop]
  exact ⟨rfl, rfl⟩

/-! ## The properties of the specification -/

/-- C1: for every context built from 32-bit configuration words, every instance
created from it and every buffer `B` of bytes whose length is `8 * k` with
`k ≥ 2`, Encode and then Decode succeed, Decode restores every byte of `B`, and
the MAC returned by Decode equals the MAC returned by Encode. -/
theorem C1_encode_decode_roundtrip (config20 sbox : List ℕ) (inputKey seed : Option (List ℕ))
    (seedLen : ℕ) (inst : CSParve64) (B : List ℕ) (k hi0 lo0 hi1 lo1 : ℕ)
    (hcfg : IsWords config20)
    (hinst : (CSParve64_Create (some (Context.new config20 sbox)) inputKey seed seedLen 0 0
      none).auth = some inst)
    (hk : 2 ≤ k) (hL : 8 * k < 2 ^ 32) (hlen : B.length = 8 * k) (hb : IsBytes B) :
    (CSParve64_Encode (some inst) (some B) (8 * k) hi0 lo0).result = CSPARVE64_OK ∧
    (CSParve64_Decode (some inst) (CSParve64_Encode (some inst) (some B) (8 * k) hi0 lo0).data
      (8 * k) hi1 lo1).result = CSPARVE64_OK ∧
    (CSParve64_Decode (some inst) (CSParve64_Encode (some inst) (some B) (8 * k) hi0 lo0).data
      (8 * k) hi1 lo1).data = some B ∧
    (CSParve64_Decode (some inst) (CSParve64_Encode (some inst) (some B) (8 * k) hi0 lo0).data
      (8 * k) hi1 lo1).hiMAC = (CSParve64_Encode (some inst) (some B) (8 * k) hi0 lo0).hiMAC ∧
    (CSParve64_Decode (some inst) (CSParve64_Encode (some inst) (some B) (8 * k) hi0 lo0).data
      (8 * k) hi1 lo1).loMAC = (CSParve64_Encode (some inst) (some B) (8 * k) hi0 lo0).loMAC := by
  have hK := Create_valid hcfg hinst
  rw [Decode_Encode inst hK B k (by omega) hL hlen hb hi0 lo0 hi1 lo1,
    Encode_ok inst B (8 * k) hi0 lo0 (by omega) (by omega)]
  exact ⟨rfl, rfl, rfl, rfl, rfl⟩

theorem C1_encode_decode_roundtrip_witness :
    IsWords scenarioConfig ∧ IsBytes scenario1Data ∧ scenario1Data.length = 8 * 2 ∧
    (CSParve64_Encode (some scenarioInstance) (some scenario1Data) (8 * 2) 0 0).result
      = CSPARVE64_OK ∧
    (CSParve64_Decode (some scenarioInstance)
      (CSParve64_Encode (some scenarioInstance) (some scenario1Data) (8 * 2) 0 0).data
      (8 * 2) 0 0).result = CSPARVE64_OK ∧
    (CSParve64_Decode (some scenarioInstance)
      (CSParve64_Encode (some scenarioInstance) (some scenario1Data) (8 * 2) 0 0).data
      (8 * 2) 0 0).data = some scenario1Data ∧
    (CSParve64_Decode (some scenarioInstance)
      (CSParve64_Encode (some scenarioInstance) (some scenario1Data) (8 * 2) 0 0).data
      (8 * 2) 0 0).hiMAC
      = (CSParve64_Encode (some scenarioInstance) (some scenario1Data) (8 * 2) 0 0).hiMAC ∧
    (CSParve64_Decode (some scenarioInstance)
      (CSParve64_Encode (some scenarioInstance) (some scenario1Data) (8 * 2) 0 0).data
      (8 * 2) 0 0).loMAC
      = (CSParve64_Encode (some scenarioInstance) (some scenario1Data) (8 * 2) 0 0).loMAC :=
  ⟨by decide, by decide, by decide,
    C1_encode_decode_roundtrip scenarioConfig scenarioSBox (some scenarioInputKey)
      (some scenario1Data) 16 scenarioInstance scenario1Data 2 0 0 0 0
      (by decide) rfl (by decide) (by norm_num) (by decide) (by decide)⟩

/-- C2: for a buffer of exactly 8 bytes, Encode and Decode both succeed, BV4
over the empty prefix changes no byte, the Encode output is the Parve encryption
of the chain-and-sum MAC of the two plaintext words written big-endian, and
Decode after Encode restores the 8 bytes and returns the same MAC. -/
theorem C2_single_block (config20 sbox : List ℕ) (inputKey seed : Option (List ℕ))
    (seedLen : ℕ) (inst : CSParve64) (B : List ℕ) (hi0 lo0 hi1 lo1 : ℕ)
    (hcfg : IsWords config20)
    (hinst : (CSParve64_Create (some (Context.new config20 sbox)) inputKey seed seedLen 0 0
      none).auth = some inst)
    (hlen : B.length = 8) (hb : IsBytes B) :
    (CSParve64_Encode (some inst) (some B) 8 hi0 lo0).result = CSPARVE64_OK ∧
    (CSParve64_Decode (some inst) (CSParve64_Encode (some inst) (some B) 8 hi0 lo0).data
      8 hi1 lo1).result = CSPARVE64_OK ∧
    (∀ (key : BV4Key) (buf : List ℕ), (key.BV4Crypt (wsub32 8 8) buf).2 = buf) ∧
    (CSParve64_Encode (some inst) (some B) 8 hi0 lo0).data =
      some (MACHelper.ParveEncryptBlock inst.ParveKey inst.SBox
        (Utils.WriteUInt64 (inst.CsKey.CS64ComputeMAC B 2) (List.replicate 8 0) 0)) ∧
    (CSParve64_Encode (some inst) (some B) 8 hi0 lo0).hiMAC
      = Utils.Hi (inst.CsKey.CS64ComputeMAC B 2) ∧
    (CSParve64_Encode (some inst) (some B) 8 hi0 lo0).loMAC
      = Utils.Lo (inst.CsKey.CS64ComputeMAC B 2) ∧
    (CSParve64_Decode (some inst) (CSParve64_Encode (some inst) (some B) 8 hi0 lo0).data
      8 hi1 lo1).data = some B ∧
    (CSParve64_Decode (some inst) (CSParve64_Encode (some inst) (some B) 8 hi0 lo0).data
      8 hi1 lo1).hiMAC = (CSParve64_Encode (some inst) (some B) 8 hi0 lo0).hiMAC ∧
    (CSParve64_Decode (some inst) (CSParve64_Encode (some inst) (some B) 8 hi0 lo0).data
      8 hi1 lo1).loMAC = (CSParve64_Encode (some inst) (some B) 8 hi0 lo0).loMAC := by
  have hK := Create_valid hcfg hinst
  have hrt := Decode_Encode inst hK B 1 (by omega) (by norm_num) (by simpa using hlen) hb
    hi0 lo0 hi1 lo1
  have henc := Encode_ok inst B 8 hi0 lo0 (by omega) (by omega)
  have hE := CSParve64.Encrypt_eq inst B 1 (by omega) (by norm_num) (by simpa using hlen)
  simp only [Nat.mul_one] at hrt hE
  have hdata : (inst.Encrypt B 8).2.1 =
      MACHelper.ParveEncryptBlock inst.ParveKey inst.SBox
        (Utils.WriteUInt64 (inst.CsKey.CS64ComputeMAC B 2) (List.replicate 8 0) 0) := by
    rw [hE]
    simp [BV4Key.cryptLoop]
  rw [hrt, henc]
  refine ⟨rfl, rfl, ?_, ?_, rfl, rfl, rfl, rfl, rfl⟩
  · intro key buf
    rfl
  · simp only [hdata]

theorem C2_single_block_witness :
    IsWords scenarioConfig ∧ IsBytes (List.range 8) ∧ (List.range 8).length = 8 ∧
    (CSParve64_Decode (some scenarioInstance)
      (CSParve64_Encode (some scenarioInstance) (some (List.range 8)) 8 0 0).data
      8 0 0).data = some (List.range 8) :=
  ⟨by decide, by decide, by decide,
    (C2_single_block scenarioConfig scenarioSBox (some scenarioInputKey)
      (some scenario1Data) 16 scenarioInstance (List.range 8) 0 0 0 0
      (by decide) rfl (by decide) (by decide)).2.2.2.2.2.2.1⟩

/-- C3: for every key, every S-box (not required to be a permutation) and every
8-byte block `B`, `ParveDecryptBlock` applied to the result of
`ParveEncryptBlock` on `B`, with the same key and S-box, returns `B`. -/
theorem C3_parve_decrypt_encrypt (key sbox block : List ℕ) (hb : IsBytes block)
    (hlen : block.length = 8) :
    MACHelper.ParveDecryptBlock key sbox (MACHelper.ParveEncryptBlock key sbox block) = block :=
  MACHelper.parve_decrypt_encrypt key sbox hb hlen

theorem C3_parve_decrypt_encrypt_witness :
    IsBytes (List.replicate 8 0) ∧ (List.replicate 8 0).length = 8 ∧
    MACHelper.ParveDecryptBlock scenarioInputKey scenarioSBox
      (MACHelper.ParveEncryptBlock scenarioInputKey scenarioSBox (List.replicate 8 0))
        = List.replicate 8 0 :=
  ⟨by decide, by decide,
    C3_parve_decrypt_encrypt scenarioInputKey scenarioSBox (List.replicate 8 0)
      (by decide) (by decide)⟩

/-- C4: for every key slice and every buffer `B` of bytes (in particular one
whose length is a multiple of 4), `BV4Crypt` with a freshly constructed `BV4Key`
followed by `BV4Crypt` with a second `BV4Key` freshly constructed from the same
key bytes returns `B`. -/
theorem C4_bv4_twice (keyData : List ℕ) (keyDataOffset keyDataLength : ℕ) (B : List ℕ)
    (hb : IsBytes B) :
    ((BV4Key.new keyData keyDataOffset keyDataLength).BV4Crypt B.length
      ((BV4Key.new keyData keyDataOffset keyDataLength).BV4Crypt B.length B).2).2 = B := by
  rw [BV4Key.BV4Crypt_snd, BV4Key.BV4Crypt_snd]
  exact BV4Key.cryptLoop_cryptLoop _ _ hb (by rw [Nat.shiftRight_eq_div_pow]; omega)

theorem C4_bv4_twice_witness :
    IsBytes scenario2Data ∧
    ((BV4Key.new scenarioInputKey 0 8).BV4Crypt scenario2Data.length
      ((BV4Key.new scenarioInputKey 0 8).BV4Crypt scenario2Data.length scenario2Data).2).2
        = scenario2Data :=
  ⟨by decide, C4_bv4_twice scenarioInputKey 0 8 scenario2Data (by decide)⟩

/-- C5: for every odd 32-bit `n`, `n * ModInvert32_32 n mod 2 ^ 32 = 1`, also
for `n = 1`, where the early exit returns `1`. -/
theorem C5_mod_invert (n : ℕ) (hn : n < 2 ^ 32) (hodd : n % 2 = 1) :
    (n * CS64Key.ModInvert32_32 n) % 2 ^ 32 = 1 ∧ CS64Key.ModInvert32_32 1 = 1 :=
  ⟨CS64Key.ModInvert32_32_mul n hn hodd, rfl⟩

theorem C5_mod_invert_witness :
    3 < 2 ^ 32 ∧ 3 % 2 = 1 ∧
    (3 * CS64Key.ModInvert32_32 3) % 2 ^ 32 = 1 ∧ CS64Key.ModInvert32_32 1 = 1 :=
  ⟨by decide, by decide, C5_mod_invert 3 (by decide) (by decide)⟩

/-- C6: for every instance created from a context built from 32-bit
configuration words and every buffer of valid length, changing exactly one
32-bit word of the buffer before encryption (in particular flipping one bit of
one byte) changes the 64-bit MAC returned by Encode; its high half, the final
chain value, always changes. -/
theorem C6_encode_mac_changes (config20 sbox : List ℕ) (inputKey seed : Option (List ℕ))
    (seedLen : ℕ) (inst : CSParve64) (B B2 : List ℕ) (k q hi0 lo0 hi1 lo1 : ℕ)
    (hcfg : IsWords config20)
    (hinst : (CSParve64_Create (some (Context.new config20 sbox)) inputKey seed seedLen 0 0
      none).auth = some inst)
    (hlen : B.length = 8 * k) (hlen2 : B2.length = 8 * k) (hb : IsBytes B) (hb2 : IsBytes B2)
    (hq : q < 2 * k) (hag : ∀ p, p / 4 ≠ q → B.getD p 0 = B2.getD p 0) (hne : B ≠ B2) :
    (CSParve64_Encode (some inst) (some B) (8 * k) hi0 lo0).hiMAC ≠
        (CSParve64_Encode (some inst) (some B2) (8 * k) hi1 lo1).hiMAC ∧
      ((CSParve64_Encode (some inst) (some B) (8 * k) hi0 lo0).hiMAC,
        (CSParve64_Encode (some inst) (some B) (8 * k) hi0 lo0).loMAC) ≠
      ((CSParve64_Encode (some inst) (some B2) (8 * k) hi1 lo1).hiMAC,
        (CSParve64_Encode (some inst) (some B2) (8 * k) hi1 lo1).loMAC) := by
  have hK := Create_valid hcfg hinst
  have hmac := Encrypt_mac_ne inst hK B B2 k hlen hlen2 hb hb2 q hq hag hne
  rw [Encode_ok inst B (8 * k) hi0 lo0 (by omega) (by omega),
    Encode_ok inst B2 (8 * k) hi1 lo1 (by omega) (by omega)]
  refine ⟨hmac, ?_⟩
  intro h
  exact hmac (Prod.mk.inj h).1

theorem C6_encode_mac_changes_witness :
    IsWords scenarioConfig ∧ IsBytes scenario1Data ∧ IsBytes (scenario1Data.set 5 1) ∧
    scenario1Data ≠ scenario1Data.set 5 1 ∧
    (CSParve64_Encode (some scenarioInstance) (some scenario1Data) (8 * 2) 0 0).hiMAC ≠
      (CSParve64_Encode (some scenarioInstance) (some (scenario1Data.set 5 1)) (8 * 2) 0 0).hiMAC :=
  ⟨by decide, by decide, by decide, by decide,
    (C6_encode_mac_changes scenarioConfig scenarioSBox (some scenarioInputKey)
      (some scenario1Data) 16 scenarioInstance scenario1Data (scenario1Data.set 5 1) 2 1 0 0 0 0
      (by decide) rfl (by decide) (by decide) (by decide) (by decide) (by decide)
      (fun p hp => (getD_set_of_div_ne scenario1Data 5 1 p hp).symm) (by decide)).1⟩

/-- The context of scenarios 1 and 2 is the one the constructor builds. -/
theorem scenario_context :
    (CSParve64_OpenContext true scenarioConfig (some scenarioSBox)).context
      = some (Context.new scenarioConfig scenarioSBox) := by
  simp only [CSParve64_OpenContext]
  rw [if_pos (by decide)]

theorem scenario_create :
    (CSParve64_Create (CSParve64_OpenContext true scenarioConfig (some scenarioSBox)).context
      (some scenarioInputKey) (some scenario1Data) 16 0 0 none).auth = some scenarioInstance := by
  rw [scenario_context]
  rfl

/-- Flipping `data[5]` of an encrypted 24-byte buffer does not change the MAC
that Decode returns. -/
theorem scenario2_mac (auth : Option CSParve64) :
    (CSParve64_Decode auth
        ((CSParve64_Encode auth (some scenario2Data) 24 0 0).data.map
          (fun d => d.set 5 (d.getD 5 0 ^^^ 0x01))) 24 0 0).hiMAC
      = (CSParve64_Encode auth (some scenario2Data) 24 0 0).hiMAC ∧
    (CSParve64_Decode auth
        ((CSParve64_Encode auth (some scenario2Data) 24 0 0).data.map
          (fun d => d.set 5 (d.getD 5 0 ^^^ 0x01))) 24 0 0).loMAC
      = (CSParve64_Encode auth (some scenario2Data) 24 0 0).loMAC := by
  rcases auth with _ | inst
  · exact ⟨rfl, rfl⟩
  · have hlenE := CSParve64.length_Encrypt inst scenario2Data 3 (by omega) (by norm_num)
      (by decide)
    have h := Decode_mac_of_drop inst scenario2Data
      ((inst.Encrypt scenario2Data 24).2.1.set 5
        ((inst.Encrypt scenario2Data 24).2.1.getD 5 0 ^^^ 1))
      3 (by omega) (by norm_num) (by decide) (by rw [List.length_set]; exact hlenE)
      (List.drop_set_of_lt _ _ (by norm_num)) 0 0 0 0
    have henc : (CSParve64_Encode (some inst) (some scenario2Data) 24 0 0).data =
        some (inst.Encrypt scenario2Data 24).2.1 := by
      rw [Encode_ok inst scenario2Data 24 0 0 (by omega) (by omega)]
    rw [henc]
    exact h

/-- C7 (amended): in scenario 2 (context from the all-zero configuration and
the identity S-box, an instance with input key `00 .. 07` created from any seed
data, the 24-byte buffer `data[i] = i`), after Encode, flipping
`data[5] ^= 0x01` in the ciphertext and calling Decode, the MAC returned by
Decode equals the MAC returned by Encode: Decode reads it from the last eight
bytes, which the flip leaves as they were. -/
theorem C7_tampered_mac_equal (seed : Option (List ℕ)) (seedLen : ℕ) :
    (CSParve64_Decode
        (CSParve64_Create (CSParve64_OpenContext true scenarioConfig (some scenarioSBox)).context
          (some scenarioInputKey) seed seedLen 0 0 none).auth
        ((CSParve64_Encode
          (CSParve64_Create (CSParve64_OpenContext true scenarioConfig (some scenarioSBox)).context
            (some scenarioInputKey) seed seedLen 0 0 none).auth
          (some scenario2Data) 24 0 0).data.map
          (fun d => d.set 5 (d.getD 5 0 ^^^ 0x01))) 24 0 0).hiMAC
      = (CSParve64_Encode
          (CSParve64_Create (CSParve64_OpenContext true scenarioConfig (some scenarioSBox)).context
            (some scenarioInputKey) seed seedLen 0 0 none).auth
          (some scenario2Data) 24 0 0).hiMAC ∧
    (CSParve64_Decode
        (CSParve64_Create (CSParve64_OpenContext true scenarioConfig (some scenarioSBox)).context
          (some scenarioInputKey) seed seedLen 0 0 none).auth
        ((CSParve64_Encode
          (CSParve64_Create (CSParve64_OpenContext true scenarioConfig (some scenarioSBox)).context
            (some scenarioInputKey) seed seedLen 0 0 none).auth
          (some scenario2Data) 24 0 0).data.map
          (fun d => d.set 5 (d.getD 5 0 ^^^ 0x01))) 24 0 0).loMAC
      = (CSParve64_Encode
          (CSParve64_Create (CSParve64_OpenContext true scenarioConfig (some scenarioSBox)).context
            (some scenarioInputKey) seed seedLen 0 0 none).auth
          (some scenario2Data) 24 0 0).loMAC :=
  scenario2_mac _

/-- C7 (counterexample): in scenario 2, with the instance created from the
buffer of scenario 1 as seed data, Encode and Decode succeed and it is not the
case that the MAC returned by Decode after the flip of `data[5]` differs from
the MAC returned by Encode. -/
theorem C7_counterexample :
    (CSParve64_Create (CSParve64_OpenContext true scenarioConfig (some scenarioSBox)).context
      (some scenarioInputKey) (some scenario1Data) 16 0 0 none).auth = some scenarioInstance ∧
    (CSParve64_Encode (some scenarioInstance) (some scenario2Data) 24 0 0).result
      = CSPARVE64_OK ∧
    (CSParve64_Decode (some scenarioInstance)
        ((CSParve64_Encode (some scenarioInstance) (some scenario2Data) 24 0 0).data.map
          (fun d => d.set 5 (d.getD 5 0 ^^^ 0x01))) 24 0 0).result = CSPARVE64_OK ∧
    ¬ (((CSParve64_Decode (some scenarioInstance)
        ((CSParve64_Encode (some scenarioInstance) (some scenario2Data) 24 0 0).data.map
          (fun d => d.set 5 (d.getD 5 0 ^^^ 0x01))) 24 0 0).hiMAC,
      (CSParve64_Decode (some scenarioInstance)
        ((CSParve64_Encode (some scenarioInstance) (some scenario2Data) 24 0 0).data.map
          (fun d => d.set 5 (d.getD 5 0 ^^^ 0x01))) 24 0 0).loMAC) ≠
      ((CSParve64_Encode (some scenarioInstance) (some scenario2Data) 24 0 0).hiMAC,
        (CSParve64_Encode (some scenarioInstance) (some scenario2Data) 24 0 0).loMAC)) := by
  have h := scenario2_mac (some scenarioInstance)
  refine ⟨scenario_create, ?_, ?_, fun hne => hne (Prod.ext h.1 h.2)⟩
  · rw [Encode_ok scenarioInstance scenario2Data 24 0 0 (by omega) (by omega)]
  · rw [Encode_ok scenarioInstance scenario2Data 24 0 0 (by omega) (by omega)]
    simp only [Option.map_some']
    rw [Decode_ok scenarioInstance _ 24 0 0 (by omega) (by omega)]

/-- C8: for every instance created from a context built from 32-bit
configuration words and every buffer of bytes of length `8 * k ≥ 16`: if the
ciphertext produced by Encode is altered only inside one 32-bit word of its
prefix (the bytes before the last eight), then Decode succeeds and the last
eight bytes it writes back differ from the last eight bytes of the original
plaintext. -/
theorem C8_changed_word_changes_last_block (config20 sbox : List ℕ)
    (inputKey seed : Option (List ℕ)) (seedLen : ℕ) (inst : CSParve64) (B C C2 : List ℕ)
    (k q hi0 lo0 hi1 lo1 : ℕ) (hcfg : IsWords config20)
    (hinst : (CSParve64_Create (some (Context.new config20 sbox)) inputKey seed seedLen 0 0
      none).auth = some inst)
    (hk : 2 ≤ k) (hL : 8 * k < 2 ^ 32) (hlen : B.length = 8 * k) (hb : IsBytes B)
    (hC : (CSParve64_Encode (some inst) (some B) (8 * k) hi0 lo0).data = some C)
    (hlen2 : C2.length = 8 * k) (hb2 : IsBytes C2) (hq : q < 2 * (k - 1))
    (hag : ∀ p, p / 4 ≠ q → C2.getD p 0 = C.getD p 0) (hne : C2 ≠ C) :
    (CSParve64_Decode (some inst) (some C2) (8 * k) hi1 lo1).result = CSPARVE64_OK ∧
    ∃ R, (CSParve64_Decode (some inst) (some C2) (8 * k) hi1 lo1).data = some R ∧
      R.drop (8 * k - 8) ≠ B.drop (8 * k - 8) := by
  have hK := Create_valid hcfg hinst
  rw [Encode_ok inst B (8 * k) hi0 lo0 (by omega) (by omega)] at hC
  simp only [Option.some.injEq] at hC
  subst hC
  rw [Decode_ok inst C2 (8 * k) hi1 lo1 (by omega) (by omega)]
  exact ⟨rfl, _, rfl,
    CSParve64.Decrypt_changed_word inst hK B C2 k hk hL hlen hb hlen2 hb2 q hq hag hne⟩

theorem C8_changed_word_changes_last_block_witness :
    IsWords scenarioConfig ∧ IsBytes scenario2Data ∧ scenario2Data.length = 8 * 3 ∧
    (CSParve64_Decode (some scenarioInstance)
      (some ((scenarioInstance.Encrypt scenario2Data 24).2.1.set 5
        ((scenarioInstance.Encrypt scenario2Data 24).2.1.getD 5 0 ^^^ 1)))
      (8 * 3) 0 0).result = CSPARVE64_OK ∧
    ∃ R, (CSParve64_Decode (some scenarioInstance)
      (some ((scenarioInstance.Encrypt scenario2Data 24).2.1.set 5
        ((scenarioInstance.Encrypt scenario2Data 24).2.1.getD 5 0 ^^^ 1)))
      (8 * 3) 0 0).data = some R ∧
      R.drop (8 * 3 - 8) ≠ scenario2Data.drop (8 * 3 - 8) :=
  ⟨by decide, by decide, by decide,
    C8_changed_word_changes_last_block scenarioConfig scenarioSBox (some scenarioInputKey)
      (some scenario1Data) 16 scenarioInstance scenario2Data
      (scenarioInstance.Encrypt scenario2Data 24).2.1
      ((scenarioInstance.Encrypt scenario2Data 24).2.1.set 5
        ((scenarioInstance.Encrypt scenario2Data 24).2.1.getD 5 0 ^^^ 1))
      3 1 0 0 0 0 (by decide) rfl (by decide) (by norm_num) (by decide) (by decide)
      (by rw [Encode_ok scenarioInstance scenario2Data (8 * 3) 0 0 (by omega) (by omega)])
      (by
        rw [List.length_set]
        exact CSParve64.length_Encrypt scenarioInstance scenario2Data 3 (by omega)
          (by norm_num) (by decide))
      ((isBytes_Encrypt scenarioInstance scenario2Data 3 (by omega) (by norm_num) (by decide)
        (by decide)).set _ _
        (xor_one_lt _ ((isBytes_Encrypt scenarioInstance scenario2Data 3 (by omega)
          (by norm_num) (by decide) (by decide)).getD 5)))
      (by decide)
      (fun p hp => getD_set_of_div_ne _ 5 _ p hp)
      (set_xor_one_ne _ 5 (by
        rw [CSParve64.length_Encrypt scenarioInstance scenario2Data 3 (by omega)
          (by norm_num) (by decide)]
        norm_num))⟩

/-- C9: for every instance and every buffer `P` of valid length `L = 8 * k`,
the MAC returned by `Encrypt` is `CS64ComputeMAC` of the instance key over all
`L / 4` words of `P`, the last eight bytes of the output are
`ParveEncryptBlock` (instance Parve key and S-box) of that MAC written
big-endian, and `ParveDecryptBlock` of the last eight bytes of the output, read
big-endian, is the returned MAC. -/
theorem C9_encrypt_mac (inst : CSParve64) (P : List ℕ) (k : ℕ)
    (hk : 1 ≤ k) (hL : 8 * k < 2 ^ 32) (hlen : P.length = 8 * k) :
    (inst.Encrypt P (8 * k)).1 = CSPARVE64_OK ∧
    (inst.Encrypt P (8 * k)).2.2 = inst.CsKey.CS64ComputeMAC P (8 * k / 4) ∧
    (inst.Encrypt P (8 * k)).2.1.drop (8 * k - 8) =
      MACHelper.ParveEncryptBlock inst.ParveKey inst.SBox
        (Utils.WriteUInt64 (inst.Encrypt P (8 * k)).2.2 (List.replicate 8 0) 0) ∧
    Utils.ReadUInt64 (MACHelper.ParveDecryptBlock inst.ParveKey inst.SBox
      ((inst.Encrypt P (8 * k)).2.1.drop (8 * k - 8))) 0 = (inst.Encrypt P (8 * k)).2.2 := by
  have hmac : (inst.Encrypt P (8 * k)).2.2 = inst.CsKey.CS64ComputeMAC P (8 * k / 4) := rfl
  have hdrop := CSParve64.drop_Encrypt inst P k hk hL hlen
  refine ⟨rfl, rfl, ?_, ?_⟩
  · rw [hdrop, hmac]
  · rw [hdrop, hmac, MACHelper.parve_decrypt_encrypt _ _ (CSParve64.macBlock_props _).1
      (CSParve64.macBlock_props _).2,
      Utils.ReadUInt64_WriteUInt64 _ _
        (by intro x hx; rw [(List.mem_replicate.1 hx).2]; norm_num) (by simp)
        (CS64Key.CS64ComputeMAC_lt _ _ _)]

theorem C9_encrypt_mac_witness :
    scenario2Data.length = 8 * 3 ∧
    (scenarioInstance.Encrypt scenario2Data (8 * 3)).2.2
      = scenarioInstance.CsKey.CS64ComputeMAC scenario2Data (8 * 3 / 4) ∧
    Utils.ReadUInt64 (MACHelper.ParveDecryptBlock scenarioInstance.ParveKey scenarioInstance.SBox
      ((scenarioInstance.Encrypt scenario2Data (8 * 3)).2.1.drop (8 * 3 - 8))) 0
        = (scenarioInstance.Encrypt scenario2Data (8 * 3)).2.2 :=
  ⟨by decide,
    (C9_encrypt_mac scenarioInstance scenario2Data 3 (by decide) (by norm_num) (by decide)).2.1,
    (C9_encrypt_mac scenarioInstance scenario2Data 3 (by decide) (by norm_num)
      (by decide)).2.2.2⟩

/-- C10: `CSParve64_Encode` and `CSParve64_Decode` return FAIL exactly when
the handle of the instance or the data pointer is absent, or the length is
below 8, or the length is not a multiple of 8 (so the lengths 7 and 12 fail);
on FAIL the buffer of the caller and the MAC slots are as before the call; on
every other input they return OK. -/
theorem C10_codec_validation (auth : Option CSParve64) (data : Option (List ℕ))
    (L hi lo : ℕ) :
    ((CSParve64_Encode auth data L hi lo).result = CSPARVE64_FAIL ↔
      (auth = none ∨ data = none ∨ L < 8 ∨ L % 8 ≠ 0)) ∧
    ((CSParve64_Encode auth data L hi lo).result = CSPARVE64_FAIL →
      (CSParve64_Encode auth data L hi lo).data = data ∧
      (CSParve64_Encode auth data L hi lo).hiMAC = hi ∧
      (CSParve64_Encode auth data L hi lo).loMAC = lo) ∧
    ((CSParve64_Encode auth data L hi lo).result ≠ CSPARVE64_FAIL →
      (CSParve64_Encode auth data L hi lo).result = CSPARVE64_OK) ∧
    ((CSParve64_Decode auth data L hi lo).result = CSPARVE64_FAIL ↔
      (auth = none ∨ data = none ∨ L < 8 ∨ L % 8 ≠ 0)) ∧
    ((CSParve64_Decode auth data L hi lo).result = CSPARVE64_FAIL →
      (CSParve64_Decode auth data L hi lo).data = data ∧
      (CSParve64_Decode auth data L hi lo).hiMAC = hi ∧
      (CSParve64_Decode auth data L hi lo).loMAC = lo) ∧
    ((CSParve64_Decode auth data L hi lo).result ≠ CSPARVE64_FAIL →
      (CSParve64_Decode auth data L hi lo).result = CSPARVE64_OK) ∧
    (CSParve64_Encode auth data 7 hi lo).result = CSPARVE64_FAIL ∧
    (CSParve64_Encode auth data 12 hi lo).result = CSPARVE64_FAIL ∧
    (CSParve64_Decode auth data 7 hi lo).result = CSPARVE64_FAIL ∧
    (CSParve64_Decode auth data 12 hi lo).result = CSPARVE64_FAIL := by
  have hne : CSPARVE64_OK ≠ CSPARVE64_FAIL := by decide
  have h7 : (7 : ℕ) < CS64Defs.BLK_SIZE ∨ 7 &&& (CS64Defs.BLK_SIZE - 1) ≠ 0 := by
    rw [guard_iff]; omega
  have h12 : (12 : ℕ) < CS64Defs.BLK_SIZE ∨ 12 &&& (CS64Defs.BLK_SIZE - 1) ≠ 0 := by
    rw [guard_iff]; omega
  rcases auth with _ | inst
  · simp [CSParve64_Encode, CSParve64_Decode]
  · rcases data with _ | buf
    · simp [CSParve64_Encode, CSParve64_Decode]
    · by_cases hg : L < 8 ∨ L % 8 ≠ 0
      · have hg2 := (guard_iff L).2 hg
        simp only [CSParve64_Encode, CSParve64_Decode, if_pos hg2, if_pos h7, if_pos h12]
        simp [hg]
      · have hg2 : ¬ (L < CS64Defs.BLK_SIZE ∨ L &&& (CS64Defs.BLK_SIZE - 1) ≠ 0) :=
          fun h => hg ((guard_iff L).1 h)
        have he := Encode_ok inst buf L hi lo (by omega) (by omega)
        have hd := Decode_ok inst buf L hi lo (by omega) (by omega)
        rw [he, hd]
        simp only [CSParve64_Encode, CSParve64_Decode, if_pos h7, if_pos h12]
        simp [hg, hne]

/-! ## The reducer `CS64Mod` modulo `2 ^ 31 - 1` -/

namespace MACHelper

theorem CS64Mod_of_halves (v : ℕ) :
    CS64Mod v =
      (if ((if (Utils.Hi v * 2) % 4294967296 ≥ 2147483647 then (Utils.Hi v * 2) % 4294967296 - 2147483647
            else (Utils.Hi v * 2) % 4294967296)
          + (if Utils.Lo v ≥ 2147483647 then Utils.Lo v - 2147483647 else Utils.Lo v)) % 4294967296
            ≥ 2147483647
       then ((if (Utils.Hi v * 2) % 4294967296 ≥ 2147483647 then (Utils.Hi v * 2) % 4294967296 - 2147483647
            else (Utils.Hi v * 2) % 4294967296)
          + (if Utils.Lo v ≥ 2147483647 then Utils.Lo v - 2147483647 else Utils.Lo v)) % 4294967296
            - 2147483647
       else ((if (Utils.Hi v * 2) % 4294967296 ≥ 2147483647 then (Utils.Hi v * 2) % 4294967296 - 2147483647
            else (Utils.Hi v * 2) % 4294967296)
          + (if Utils.Lo v ≥ 2147483647 then Utils.Lo v - 2147483647 else Utils.Lo v)) % 4294967296) := by
  simp only [CS64Mod, Nat.shiftLeft_eq, CS64Defs.MODULUS]
  norm_num

theorem halves_eq (v : ℕ) (hv : v < 2 ^ 64) : v = Utils.Hi v * 4294967296 + Utils.Lo v := by
  simp only [Utils.Hi, Utils.Lo, Nat.shiftRight_eq_div_pow]
  omega

theorem mod_eq_of_decomp (v X q p : ℕ) (h : v = X + p * q) (hX : X < p) : v % p = X := by
  rw [h, Nat.add_mul_mod_self_left, Nat.mod_eq_of_lt hX]

theorem CS64Mod_exact (v : ℕ) (hv : v < 2 ^ 64) (hhi : Utils.Hi v < 2 ^ 30)
    (hne : v ≠ 2 ^ 62 - 1) : CS64Mod v = v % (2 ^ 31 - 1) := by
  have hlo := Utils.Lo_lt v
  have hsplit := halves_eq v hv
  rw [CS64Mod_of_halves]
  generalize Utils.Hi v = hi at *
  generalize Utils.Lo v = lo at *
  subst hsplit
  have h1 : (hi * 2) % 4294967296 = hi * 2 := Nat.mod_eq_of_lt (by omega)
  rw [h1, if_neg (by omega : ¬ hi * 2 ≥ 2147483647)]
  by_cases hl : lo ≥ 2147483647
  · rw [if_pos hl, Nat.mod_eq_of_lt (by omega : hi * 2 + (lo - 2147483647) < 4294967296)]
    split_ifs with h2
    · exact (mod_eq_of_decomp _ _ (2 * hi + 2) _ (by omega) (by omega)).symm
    · exact (mod_eq_of_decomp _ _ (2 * hi + 1) _ (by omega) (by omega)).symm
  · rw [if_neg hl, Nat.mod_eq_of_lt (by omega : hi * 2 + lo < 4294967296)]
    split_ifs with h2
    · exact (mod_eq_of_decomp _ _ (2 * hi + 1) _ (by omega) (by omega)).symm
    · exact (mod_eq_of_decomp _ _ (2 * hi) _ (by omega) (by omega)).symm
end MACHelper

/-! ## The Parve CBC-MAC over a concatenation -/

namespace MACHelper

theorem length_xorBlock (inText : List ℕ) (i n : ℕ) (aBlock : List ℕ) :
    (xorBlock inText i n aBlock).length = aBlock.length := by
  induction n with
  | zero => rfl
  | succ n ih => simp only [xorBlock, List.length_set, ih]

theorem getD_xorBlock (inText : List ℕ) (i n : ℕ) (aBlock : List ℕ) (j : ℕ) :
    (xorBlock inText i n aBlock).getD j 0 =
      if j < n ∧ j < aBlock.length then
        aBlock.getD j 0 ^^^ inText.getD (i * CS64Defs.BLK_SIZE + j) 0
      else aBlock.getD j 0 := by
  induction n with
  | zero => simp only [xorBlock, Nat.not_lt_zero, false_and, if_false]
  | succ n ih =>
    simp only [xorBlock, getD_set_eq, length_xorBlock]
    by_cases h : n = j
    · subst h
      by_cases h2 : n < aBlock.length
      · rw [if_pos ⟨rfl, h2⟩, if_pos ⟨Nat.lt_succ_self _, h2⟩, ih,
          if_neg (fun h3 => Nat.lt_irrefl _ h3.1)]
      · rw [if_neg (fun h3 => h2 h3.2), if_neg (fun h3 => h2 h3.2), ih,
          if_neg (fun h3 => h2 h3.2)]
    · rw [if_neg (fun h3 => h h3.1), ih]
      by_cases h2 : j < n ∧ j < aBlock.length
      · rw [if_pos h2, if_pos ⟨by omega, h2.2⟩]
      · rw [if_neg h2, if_neg (fun h3 => h2 ⟨by omega, h3.2⟩)]

theorem xorBlock_congr (t1 t2 : List ℕ) (i1 i2 n : ℕ) (aBlock : List ℕ)
    (h : ∀ j, j < n → t1.getD (i1 * CS64Defs.BLK_SIZE + j) 0
      = t2.getD (i2 * CS64Defs.BLK_SIZE + j) 0) :
    xorBlock t1 i1 n aBlock = xorBlock t2 i2 n aBlock := by
  apply list_ext_getD
  · rw [length_xorBlock, length_xorBlock]
  · intro j _
    rw [getD_xorBlock, getD_xorBlock]
    by_cases h2 : j < n ∧ j < aBlock.length
    · rw [if_pos h2, if_pos h2, h j h2.1]
    · rw [if_neg h2, if_neg h2]

theorem isBytes_xorBlock {inText aBlock : List ℕ} (i n : ℕ) (ht : IsBytes inText)
    (hb : IsBytes aBlock) : IsBytes (xorBlock inText i n aBlock) := by
  induction n with
  | zero => exact hb
  | succ n ih =>
    exact ih.set _ _ (@Nat.xor_lt_two_pow _ _ 8 (ih.getD _) (ht.getD _))

theorem length_cbcLoop (key sbox inText : List ℕ) (n : ℕ) (aBlock : List ℕ) :
    (cbcLoop key sbox inText n aBlock).length = aBlock.length := by
  induction n with
  | zero => rfl
  | succ n ih =>
    simp only [cbcLoop, ParveEncryptBlock, length_encRounds, length_xorBlock, ih]

theorem isBytes_cbcLoop {key sbox inText aBlock : List ℕ} (n : ℕ) (ht : IsBytes inText)
    (hb : IsBytes aBlock) : IsBytes (cbcLoop key sbox inText n aBlock) := by
  induction n with
  | zero => exact hb
  | succ n ih => exact isBytes_encRounds key sbox _ (isBytes_xorBlock _ _ ht ih)

theorem cbcLoop_congr (key sbox t1 t2 : List ℕ) (n : ℕ) (aBlock : List ℕ)
    (h : ∀ p, p < CS64Defs.BLK_SIZE * n → t1.getD p 0 = t2.getD p 0) :
    cbcLoop key sbox t1 n aBlock = cbcLoop key sbox t2 n aBlock := by
  induction n with
  | zero => rfl
  | succ n ih =>
    have h8 : CS64Defs.BLK_SIZE = 8 := rfl
    simp only [cbcLoop]
    rw [ih (fun p hp => h p (by rw [h8] at hp ⊢; omega))]
    rw [xorBlock_congr t1 t2 n n _ _ (fun j hj => h _ (by rw [h8] at hj ⊢; omega))]

/-- The block loop over `X ++ Y`, with `X` of `a` whole blocks, is the block
loop over `Y` continued from the state the loop over `X` leaves. -/
theorem cbcLoop_append (key sbox X Y : List ℕ) (a n : ℕ) (aBlock : List ℕ)
    (hX : X.length = CS64Defs.BLK_SIZE * a) :
    cbcLoop key sbox (X ++ Y) (a + n) aBlock
      = cbcLoop key sbox Y n (cbcLoop key sbox X a aBlock) := by
  have h8 : CS64Defs.BLK_SIZE = 8 := rfl
  induction n with
  | zero =>
    apply cbcLoop_congr
    intro p hp
    rw [List.getD_append _ _ _ _ (by rw [hX]; exact hp)]
  | succ n ih =>
    show ParveEncryptBlock key sbox (xorBlock (X ++ Y) (a + n) CS64Defs.BLK_SIZE
        (cbcLoop key sbox (X ++ Y) (a + n) aBlock))
      = ParveEncryptBlock key sbox (xorBlock Y n CS64Defs.BLK_SIZE
        (cbcLoop key sbox Y n (cbcLoop key sbox X a aBlock)))
    rw [ih]
    rw [xorBlock_congr (X ++ Y) Y (a + n) n]
    intro j hj
    rw [List.getD_append_right _ _ _ _ (by rw [hX, h8]; omega)]
    rw [show (a + n) * CS64Defs.BLK_SIZE + j - X.length = n * CS64Defs.BLK_SIZE + j by
      rw [hX, h8]; omega]

end MACHelper

/-- Writing a 64-bit value over a whole 8-byte block leaves nothing of what the
block held. -/
theorem Utils.WriteUInt64_block (n : ℕ) (b1 b2 : List ℕ) (h1 : b1.length = 8)
    (h2 : b2.length = 8) : Utils.WriteUInt64 n b1 0 = Utils.WriteUInt64 n b2 0 := by
  apply list_ext_getD
  · rw [Utils.length_WriteUInt64, Utils.length_WriteUInt64, h1, h2]
  · intro p hp
    rw [Utils.length_WriteUInt64, h1] at hp
    rw [Utils.getD_WriteUInt64 _ _ _ _ (by omega), Utils.getD_WriteUInt64 _ _ _ _ (by omega)]
    split_ifs <;> first | rfl | omega

/-- A block of 8 bytes is the big-endian image of the value read from it. -/
theorem Utils.WriteUInt64_ReadUInt64_block {st : List ℕ} (hb : IsBytes st)
    (hl : st.length = 8) :
    Utils.WriteUInt64 (Utils.ReadUInt64 st 0) (List.replicate 8 0) 0 = st := by
  rw [Utils.WriteUInt64_block _ (List.replicate 8 0) st (List.length_replicate 8 0) hl,
    Utils.ReadUInt64_eq_MakeUInt64 hb]
  exact Utils.WriteUInt64_MakeUInt64_ReadUInt32 0 hb (by omega)

theorem isBytes_replicate_zero (n : ℕ) : IsBytes (List.replicate n 0) := by
  intro x hx
  rw [List.eq_of_mem_replicate hx]
  norm_num

/-! ## Contexts, instance creation and the keyed hash -/

/-- C11: given a present output slot, a configuration vector and an S-box,
`CSParve64_OpenContext` returns OK and publishes a context if and only if
`config[0]` (Flags) is 0; the published context is then the one the
constructor builds. For every non-zero Flags value, such as Flags = 1 with all
other words zero, it returns FAIL and the published handle is null. -/
theorem C11_open_context_flags (config sbox : List ℕ) :
    ((CSParve64_OpenContext true config (some sbox)).result = CSPARVE64_OK ↔
      config.getD 0 0 = 0) ∧
    ((CSParve64_OpenContext true config (some sbox)).context.isSome ↔ config.getD 0 0 = 0) ∧
    (config.getD 0 0 = 0 →
      (CSParve64_OpenContext true config (some sbox)).context
        = some (Context.new config sbox)) ∧
    (config.getD 0 0 ≠ 0 →
      (CSParve64_OpenContext true config (some sbox)).result = CSPARVE64_FAIL ∧
      (CSParve64_OpenContext true config (some sbox)).context = none) ∧
    (CSParve64_OpenContext true (1 :: List.replicate 19 0) (some sbox)).result
      = CSPARVE64_FAIL ∧
    (CSParve64_OpenContext true (1 :: List.replicate 19 0) (some sbox)).context = none := by
  have hflags : (Context.new config sbox).Flags = config.getD 0 0 := rfl
  have hne : CSPARVE64_FAIL ≠ CSPARVE64_OK := by decide
  by_cases h : config.getD 0 0 = 0
  · have e : CSParve64_OpenContext true config (some sbox) =
        { result := CSPARVE64_OK, context := some (Context.new config sbox) } := by
      simp only [CSParve64_OpenContext, hflags, if_pos h]
    rw [e]
    exact ⟨⟨fun _ => h, fun _ => rfl⟩, ⟨fun _ => h, fun _ => rfl⟩, fun _ => rfl,
      fun h2 => absurd h h2, rfl, rfl⟩
  · have e : CSParve64_OpenContext true config (some sbox) =
        { result := CSPARVE64_FAIL, context := none } := by
      simp only [CSParve64_OpenContext, hflags, if_neg h]
    rw [e]
    exact ⟨⟨fun e2 => absurd e2 hne, fun e2 => absurd e2 h⟩,
      ⟨fun e2 => absurd e2 (by simp), fun e2 => absurd e2 h⟩, fun h2 => absurd h2 h,
      fun _ => ⟨rfl, rfl⟩, rfl, rfl⟩

/-- C12: for every configuration vector the constructed context has
`Flags = config[0]` unmodified and, for each `i` in `1 .. 19`, the `i`-th field
in the order K1, K2, K3, WS_B1 .. WS_E2, REV_B1 .. REV_E2 equals
`config[i] | 1`, hence is odd; for the all-zero configuration every such field
is 1; and the S-box of the context is the supplied 256 bytes. -/
theorem C12_context_fields (config sbox : List ℕ) (hs : sbox.length = 256) :
    (Context.new config sbox).Flags = config.getD 0 0 ∧
    (Context.new config sbox).words.length = 20 ∧
    (∀ i, 1 ≤ i → i < 20 →
      (Context.new config sbox).words.getD i 0 = config.getD i 0 ||| 1 ∧
      (Context.new config sbox).words.getD i 0 % 2 = 1) ∧
    (∀ i, 1 ≤ i → i < 20 →
      (Context.new (List.replicate 20 0) sbox).words.getD i 0 = 1) ∧
    (Context.new config sbox).SBox = sbox := by
  refine ⟨rfl, rfl, ?_, ?_, ?_⟩
  · intro i h1 h20
    have hodd : ∀ x : ℕ, (x ||| 1) % 2 = 1 := fun x => Nat.or_mod_two_eq_one.2 (Or.inr rfl)
    interval_cases i <;> exact ⟨rfl, hodd _⟩
  · intro i h1 h20
    interval_cases i <;> rfl
  · show sbox.take 256 = sbox
    exact List.take_of_length_le (by omega)

theorem C12_context_fields_witness :
    scenarioSBox.length = 256 ∧
    (Context.new scenarioConfig scenarioSBox).Flags = scenarioConfig.getD 0 0 ∧
    (Context.new scenarioConfig scenarioSBox).SBox = scenarioSBox :=
  ⟨List.length_range 256,
    (C12_context_fields scenarioConfig scenarioSBox (List.length_range 256)).1,
    (C12_context_fields scenarioConfig scenarioSBox (List.length_range 256)).2.2.2.2⟩

theorem Create_ok (ctx : Context) (key buf : List ℕ) (L hi lo : ℕ) (a : Option CSParve64)
    (h8 : 8 ≤ L) (hm : L % 8 = 0) :
    CSParve64_Create (some ctx) (some key) (some buf) L hi lo a =
      { result := CSPARVE64_OK,
        hiHash := Utils.Hi (CSParve64.new key ctx.SBox ctx.Key1 ctx.Key2 ctx.Key3 buf L).Hash,
        loHash := Utils.Lo (CSParve64.new key ctx.SBox ctx.Key1 ctx.Key2 ctx.Key3 buf L).Hash,
        auth := some (CSParve64.new key ctx.SBox ctx.Key1 ctx.Key2 ctx.Key3 buf L) } := by
  have hg : ¬ (L < CS64Defs.BLK_SIZE ∨ L &&& (CS64Defs.BLK_SIZE - 1) ≠ 0) := by
    rw [guard_iff]; omega
  simp only [CSParve64_Create, if_neg hg]

theorem ComputeHash_ok (ctx : Context) (key buf : List ℕ) (L hi lo : ℕ)
    (h8 : 8 ≤ L) (hm : L % 8 = 0) :
    CSParve64_ComputeHash (some ctx) (some key) (some buf) L hi lo =
      { result := CSPARVE64_OK,
        hi := Utils.Hi (CSParve64.CSH64_ParveCombined ctx key buf L).2,
        lo := Utils.Lo (CSParve64.CSH64_ParveCombined ctx key buf L).2 } := by
  have hg : ¬ (L < CS64Defs.BLK_SIZE ∨ L &&& (CS64Defs.BLK_SIZE - 1) ≠ 0) := by
    rw [guard_iff]; omega
  simp only [CSParve64_ComputeHash, if_neg hg]

/-- C13: `CSParve64_Create` and `CSParve64_ComputeHash` return FAIL exactly
when the context, the input key or the data is absent, or the data length is
below 8 or not a multiple of 8; on FAIL no instance is published and no hash
output is written; on every other input they return OK. -/
theorem C13_create_hash_validation (context : Option Context)
    (inputKey data : Option (List ℕ)) (L hi lo : ℕ) (auth : Option CSParve64) :
    ((CSParve64_Create context inputKey data L hi lo auth).result = CSPARVE64_FAIL ↔
      (context = none ∨ inputKey = none ∨ data = none ∨ L < 8 ∨ L % 8 ≠ 0)) ∧
    ((CSParve64_Create context inputKey data L hi lo auth).result = CSPARVE64_FAIL →
      (CSParve64_Create context inputKey data L hi lo auth).auth = auth ∧
      (CSParve64_Create context inputKey data L hi lo auth).hiHash = hi ∧
      (CSParve64_Create context inputKey data L hi lo auth).loHash = lo) ∧
    ((CSParve64_Create context inputKey data L hi lo auth).result ≠ CSPARVE64_FAIL →
      (CSParve64_Create context inputKey data L hi lo auth).result = CSPARVE64_OK) ∧
    ((CSParve64_ComputeHash context inputKey data L hi lo).result = CSPARVE64_FAIL ↔
      (context = none ∨ inputKey = none ∨ data = none ∨ L < 8 ∨ L % 8 ≠ 0)) ∧
    ((CSParve64_ComputeHash context inputKey data L hi lo).result = CSPARVE64_FAIL →
      (CSParve64_ComputeHash context inputKey data L hi lo).hi = hi ∧
      (CSParve64_ComputeHash context inputKey data L hi lo).lo = lo) ∧
    ((CSParve64_ComputeHash context inputKey data L hi lo).result ≠ CSPARVE64_FAIL →
      (CSParve64_ComputeHash context inputKey data L hi lo).result = CSPARVE64_OK) := by
  have hne : CSPARVE64_OK ≠ CSPARVE64_FAIL := by decide
  rcases context with _ | ctx
  · simp [CSParve64_Create, CSParve64_ComputeHash]
  · rcases data with _ | buf
    · simp [CSParve64_Create, CSParve64_ComputeHash]
    · rcases inputKey with _ | key
      · simp [CSParve64_Create, CSParve64_ComputeHash]
      · by_cases hg : L < 8 ∨ L % 8 ≠ 0
        · have hg2 := (guard_iff L).2 hg
          simp only [CSParve64_Create, CSParve64_ComputeHash, if_pos hg2]
          simp [hg]
        · rw [Create_ok ctx key buf L hi lo auth (by omega) (by omega),
            ComputeHash_ok ctx key buf L hi lo (by omega) (by omega)]
          simp [hg, hne]

/-- C14: for every context (its S-box an array of at most 256 bytes), every
8-byte input key and seed data of valid length, `CSParve64_Create` succeeds,
the `(hiHash, loHash)` it returns are the halves of `h0 XOR h1`, where
`h0 = ParveCBCMAC (inputKey, context S-box, data)` and `h1 = CS64ComputeMAC (data)`
under the key `Init (h0, K1 | 1, K2 | 1, K3 | 1)`, and the chain-and-sum key of
the published instance, the one `Encrypt` computes the MAC with, is that key. -/
theorem C14_create_hash (ctx : Context) (inputKey data : List ℕ) (L hi lo : ℕ)
    (auth : Option CSParve64) (hsb : ctx.SBox.length ≤ 256) (hkey : inputKey.length = 8)
    (h8 : 8 ≤ L) (hm : L % 8 = 0) :
    (CSParve64_Create (some ctx) (some inputKey) (some data) L hi lo auth).result
      = CSPARVE64_OK ∧
    (CSParve64_Create (some ctx) (some inputKey) (some data) L hi lo auth).hiHash =
      Utils.Hi (MACHelper.ParveCBCMAC inputKey ctx.SBox data L ^^^
        (CS64Key.Init (MACHelper.ParveCBCMAC inputKey ctx.SBox data L)
          (ctx.Key1 ||| 1) (ctx.Key2 ||| 1) (ctx.Key3 ||| 1)).CS64ComputeMAC data (L / 4)) ∧
    (CSParve64_Create (some ctx) (some inputKey) (some data) L hi lo auth).loHash =
      Utils.Lo (MACHelper.ParveCBCMAC inputKey ctx.SBox data L ^^^
        (CS64Key.Init (MACHelper.ParveCBCMAC inputKey ctx.SBox data L)
          (ctx.Key1 ||| 1) (ctx.Key2 ||| 1) (ctx.Key3 ||| 1)).CS64ComputeMAC data (L / 4)) ∧
    ∃ inst, (CSParve64_Create (some ctx) (some inputKey) (some data) L hi lo auth).auth
        = some inst ∧
      inst.CsKey =
        CS64Key.Init (MACHelper.ParveCBCMAC inputKey ctx.SBox data L)
          (ctx.Key1 ||| 1) (ctx.Key2 ||| 1) (ctx.Key3 ||| 1) ∧
      ∀ (B : List ℕ) (n : ℕ), (inst.Encrypt B n).2.2 =
        (CS64Key.Init (MACHelper.ParveCBCMAC inputKey ctx.SBox data L)
          (ctx.Key1 ||| 1) (ctx.Key2 ||| 1) (ctx.Key3 ||| 1)).CS64ComputeMAC B (n / 4) := by
  have hk : inputKey.take CS64Defs.KEY_SIZE = inputKey := by
    show inputKey.take 8 = inputKey
    exact List.take_of_length_le (by omega)
  have hs : ctx.SBox.take CS64Defs.SBOX_SIZE = ctx.SBox := by
    show ctx.SBox.take 256 = ctx.SBox
    exact List.take_of_length_le hsb
  rw [Create_ok ctx inputKey data L hi lo auth h8 hm]
  simp only [CSParve64.new, CSParve64.CS64Hash, hk, hs]
  refine ⟨trivial, ?_, ?_, _, rfl, rfl, fun B n => rfl⟩
  · rw [Nat.xor_comm]
  · rw [Nat.xor_comm]

theorem C14_create_hash_witness :
    (Context.new scenarioConfig scenarioSBox).SBox.length ≤ 256 ∧
    scenarioInputKey.length = 8 ∧
    (CSParve64_Create (some (Context.new scenarioConfig scenarioSBox)) (some scenarioInputKey)
      (some scenario1Data) 16 0 0 none).result = CSPARVE64_OK :=
  ⟨List.length_take_le 256 scenarioSBox, by decide,
    (C14_create_hash (Context.new scenarioConfig scenarioSBox) scenarioInputKey scenario1Data
      16 0 0 none (List.length_take_le 256 scenarioSBox) (by decide) (by decide)
      (by decide)).1⟩

/-- C15: for every context, input key and data of valid length,
`CSParve64_ComputeHash` succeeds and returns the halves of `h3`, where
`h0 = ParveCBCMAC (inputKey, SBox, data)`,
`h1 = h0 XOR CS64_Modular (h0, K1, K2, K3, data)`,
`h2 = h1 XOR CS64_WordSwap (context, data, h1)` and
`h3 = h2 XOR CS64_Reversible (context, data, h2)`: each stage is keyed by the
running intermediate hash, in that order. -/
theorem C15_compute_hash (ctx : Context) (inputKey data : List ℕ) (L hi lo : ℕ)
    (h8 : 8 ≤ L) (hm : L % 8 = 0) :
    (CSParve64_ComputeHash (some ctx) (some inputKey) (some data) L hi lo).result
      = CSPARVE64_OK ∧
    (CSParve64_ComputeHash (some ctx) (some inputKey) (some data) L hi lo).hi =
      Utils.Hi
        (MACHelper.ParveCBCMAC inputKey ctx.SBox data L ^^^
          MACHelper.CS64_Modular (MACHelper.ParveCBCMAC inputKey ctx.SBox data L)
            ctx.Key1 ctx.Key2 ctx.Key3 data L ^^^
          WordSwapHelper.CS64_WordSwap ctx data L
            (MACHelper.ParveCBCMAC inputKey ctx.SBox data L ^^^
              MACHelper.CS64_Modular (MACHelper.ParveCBCMAC inputKey ctx.SBox data L)
                ctx.Key1 ctx.Key2 ctx.Key3 data L) ^^^
          WordSwapHelper.CS64_Reversible ctx data L
            (MACHelper.ParveCBCMAC inputKey ctx.SBox data L ^^^
              MACHelper.CS64_Modular (MACHelper.ParveCBCMAC inputKey ctx.SBox data L)
                ctx.Key1 ctx.Key2 ctx.Key3 data L ^^^
              WordSwapHelper.CS64_WordSwap ctx data L
                (MACHelper.ParveCBCMAC inputKey ctx.SBox data L ^^^
                  MACHelper.CS64_Modular (MACHelper.ParveCBCMAC inputKey ctx.SBox data L)
                    ctx.Key1 ctx.Key2 ctx.Key3 data L))) ∧
    (CSParve64_ComputeHash (some ctx) (some inputKey) (some data) L hi lo).lo =
      Utils.Lo
        (MACHelper.ParveCBCMAC inputKey ctx.SBox data L ^^^
          MACHelper.CS64_Modular (MACHelper.ParveCBCMAC inputKey ctx.SBox data L)
            ctx.Key1 ctx.Key2 ctx.Key3 data L ^^^
          WordSwapHelper.CS64_WordSwap ctx data L
            (MACHelper.ParveCBCMAC inputKey ctx.SBox data L ^^^
              MACHelper.CS64_Modular (MACHelper.ParveCBCMAC inputKey ctx.SBox data L)
                ctx.Key1 ctx.Key2 ctx.Key3 data L) ^^^
          WordSwapHelper.CS64_Reversible ctx data L
            (MACHelper.ParveCBCMAC inputKey ctx.SBox data L ^^^
              MACHelper.CS64_Modular (MACHelper.ParveCBCMAC inputKey ctx.SBox data L)
                ctx.Key1 ctx.Key2 ctx.Key3 data L ^^^
              WordSwapHelper.CS64_WordSwap ctx data L
                (MACHelper.ParveCBCMAC inputKey ctx.SBox data L ^^^
                  MACHelper.CS64_Modular (MACHelper.ParveCBCMAC inputKey ctx.SBox data L)
                    ctx.Key1 ctx.Key2 ctx.Key3 data L))) := by
  rw [ComputeHash_ok ctx inputKey data L hi lo h8 hm]
  exact ⟨rfl, rfl, rfl⟩

theorem C15_compute_hash_witness :
    (CSParve64_ComputeHash (some (Context.new scenarioConfig scenarioSBox))
      (some scenarioInputKey) (some scenario1Data) 16 0 0).result = CSPARVE64_OK :=
  (C15_compute_hash (Context.new scenarioConfig scenarioSBox) scenarioInputKey scenario1Data
    16 0 0 (by decide) (by decide)).1

/-- C16: for every input hash and all 32-bit keys, after `CS64Key::Init` the
five multipliers are `a = lo | 1`, `b = hi | 1`, `c = (key1 XOR lo) | 1`,
`d = (key2 XOR hi) | 1` and `e = (key3 XOR lo) | 1`, all five are odd, and the
stored inverses satisfy `a * invA = c * invC = e * invE = 1` modulo `2 ^ 32`. -/
theorem C16_init_key (inHash key1 key2 key3 : ℕ) (h1 : key1 < 2 ^ 32) (h3 : key3 < 2 ^ 32) :
    (CS64Key.Init inHash key1 key2 key3).a = Utils.Lo inHash ||| 1 ∧
    (CS64Key.Init inHash key1 key2 key3).b = Utils.Hi inHash ||| 1 ∧
    (CS64Key.Init inHash key1 key2 key3).c = (key1 ^^^ Utils.Lo inHash) ||| 1 ∧
    (CS64Key.Init inHash key1 key2 key3).d = (key2 ^^^ Utils.Hi inHash) ||| 1 ∧
    (CS64Key.Init inHash key1 key2 key3).e = (key3 ^^^ Utils.Lo inHash) ||| 1 ∧
    (CS64Key.Init inHash key1 key2 key3).a % 2 = 1 ∧
    (CS64Key.Init inHash key1 key2 key3).b % 2 = 1 ∧
    (CS64Key.Init inHash key1 key2 key3).c % 2 = 1 ∧
    (CS64Key.Init inHash key1 key2 key3).d % 2 = 1 ∧
    (CS64Key.Init inHash key1 key2 key3).e % 2 = 1 ∧
    ((CS64Key.Init inHash key1 key2 key3).a * (CS64Key.Init inHash key1 key2 key3).invA)
      % 2 ^ 32 = 1 ∧
    ((CS64Key.Init inHash key1 key2 key3).c * (CS64Key.Init inHash key1 key2 key3).invC)
      % 2 ^ 32 = 1 ∧
    ((CS64Key.Init inHash key1 key2 key3).e * (CS64Key.Init inHash key1 key2 key3).invE)
      % 2 ^ 32 = 1 := by
  have hodd : ∀ x : ℕ, (1 ||| x) % 2 = 1 := fun x => Nat.or_mod_two_eq_one.2 (Or.inl rfl)
  have hv := CS64Key.Init_valid inHash key1 key2 key3 h1 h3
  exact ⟨Nat.or_comm _ _, Nat.or_comm _ _, Nat.or_comm _ _, Nat.or_comm _ _, Nat.or_comm _ _,
    hodd _, hodd _, hodd _, hodd _, hodd _, hv.1, hv.2.1, hv.2.2⟩

theorem C16_init_key_witness :
    (5 : ℕ) < 2 ^ 32 ∧ (7 : ℕ) < 2 ^ 32 ∧
    ((CS64Key.Init 12345 5 6 7).a * (CS64Key.Init 12345 5 6 7).invA) % 2 ^ 32 = 1 :=
  ⟨by decide, by decide, (C16_init_key 12345 5 6 7 (by decide) (by decide)).2.2.2.2.2.2.2.2.2.2.1⟩

/-- C17: for every key produced by `Init` from 32-bit keys and every buffer of
bytes holding `n = 2 * m ≥ 2` 32-bit words, `CS64InvertMAC` given the hash
`CS64ComputeMAC (data, n)` returns `MakeUInt64 (W[n-2], W[n-1])`, the last two
words of `data`; the result is the same for every buffer handed to
`CS64InvertMAC` that agrees with `data` on the first `n - 2` words, whatever
its last 8 bytes hold. -/
theorem C17_invert_mac (inHash key1 key2 key3 : ℕ) (data data2 : List ℕ) (m dataLength : ℕ)
    (h1 : key1 < 2 ^ 32) (h3 : key3 < 2 ^ 32) (hd : IsBytes data) (hm : 1 ≤ m)
    (hlen : dataLength / 4 = 2 * m)
    (hag : ∀ p, p < 4 * (2 * m - 2) → data2.getD p 0 = data.getD p 0) :
    (CS64Key.Init inHash key1 key2 key3).CS64InvertMAC data dataLength
        ((CS64Key.Init inHash key1 key2 key3).CS64ComputeMAC data (2 * m)) =
      Utils.MakeUInt64 (Utils.ReadUInt32 data ((2 * m - 2) <<< 2))
        (Utils.ReadUInt32 data ((2 * m - 1) <<< 2)) ∧
    (CS64Key.Init inHash key1 key2 key3).CS64InvertMAC data2 dataLength
        ((CS64Key.Init inHash key1 key2 key3).CS64ComputeMAC data (2 * m)) =
      Utils.MakeUInt64 (Utils.ReadUInt32 data ((2 * m - 2) <<< 2))
        (Utils.ReadUInt32 data ((2 * m - 1) <<< 2)) := by
  have hK := CS64Key.Init_valid inHash key1 key2 key3 h1 h3
  have e1 : 2 * m - 2 = 2 * (m - 1) := by omega
  have e2 : 2 * m - 1 = 2 * (m - 1) + 1 := by omega
  rw [e1, e2]
  refine ⟨CS64Key.CS64InvertMAC_ComputeMAC hK data data hd m hm dataLength hlen
      (fun _ _ => rfl),
    CS64Key.CS64InvertMAC_ComputeMAC hK data data2 hd m hm dataLength hlen ?_⟩
  intro q hq
  apply Utils.ReadUInt32_congr
  intro j hj
  apply hag
  rw [BV4Key.shl2]
  omega

theorem C17_invert_mac_witness :
    IsBytes scenario2Data ∧
    (CS64Key.Init 12345 5 6 7).CS64InvertMAC (scenario2Data.set 20 0) 24
        ((CS64Key.Init 12345 5 6 7).CS64ComputeMAC scenario2Data (2 * 3)) =
      Utils.MakeUInt64 (Utils.ReadUInt32 scenario2Data ((2 * 3 - 2) <<< 2))
        (Utils.ReadUInt32 scenario2Data ((2 * 3 - 1) <<< 2)) :=
  ⟨by decide,
    (C17_invert_mac 12345 5 6 7 scenario2Data (scenario2Data.set 20 0) 3 24 (by decide)
      (by decide) (by decide) (by decide) (by decide)
      (fun p hp => by
        rw [getD_set_eq, if_neg]
        rintro ⟨rfl, _⟩
        omega)).2⟩

/-! ## The modular reducer and the Parve CBC-MAC -/

theorem MACHelper.CS64Mod_word (x : ℕ) (hx : x < 2 ^ 32) :
    MACHelper.CS64Mod x = x % (2 ^ 31 - 1) := by
  apply MACHelper.CS64Mod_exact x (by omega)
  · have h0 : Utils.Hi x = 0 := by
      simp only [Utils.Hi, Nat.shiftRight_eq_div_pow]
      omega
    rw [h0]
    norm_num
  · omega

/-- C18, as amended: for every 64-bit value `v` whose high 32-bit half is below
`2 ^ 30` (the range of an intermediate chain-and-sum result the source names),
other than `v = 2 ^ 62 - 1`, `CS64Mod v` equals `v mod (2 ^ 31 - 1)` exactly. -/
theorem C18_cs64mod_exact (v : ℕ) (hv : v < 2 ^ 64) (hhi : Utils.Hi v < 2 ^ 30)
    (hne : v ≠ 2 ^ 62 - 1) : MACHelper.CS64Mod v = v % (2 ^ 31 - 1) :=
  MACHelper.CS64Mod_exact v hv hhi hne

theorem C18_cs64mod_exact_witness :
    (12345678901234567 : ℕ) < 2 ^ 64 ∧ Utils.Hi 12345678901234567 < 2 ^ 30 ∧
    (12345678901234567 : ℕ) ≠ 2 ^ 62 - 1 ∧
    MACHelper.CS64Mod 12345678901234567 = 12345678901234567 % (2 ^ 31 - 1) :=
  ⟨by decide, by decide, by decide,
    C18_cs64mod_exact 12345678901234567 (by decide) (by decide) (by decide)⟩

/-- C18, the counterexample: `2 ^ 63` is a 64-bit value, its residue mod
`2 ^ 31 - 1` is 2, and `CS64Mod` returns 0 (the doubling of the high half
wraps around mod `2 ^ 32`). -/
theorem C18_counterexample :
    (2 ^ 63 : ℕ) < 2 ^ 64 ∧ MACHelper.CS64Mod (2 ^ 63) = 0 ∧
    (2 ^ 63 : ℕ) % (2 ^ 31 - 1) = 2 ∧
    MACHelper.CS64Mod (2 ^ 63) ≠ 2 ^ 63 % (2 ^ 31 - 1) := by
  decide

/-- C19: `ParveCBCMAC` is the big-endian value of the state the block loop
leaves when started from eight zero bytes; one pass of the loop over block `n`
sets `C` to `ParveEncryptBlock (C XOR M_n)`, the XOR being taken byte by byte
with the bytes `8 * n .. 8 * n + 7` of the message. Consequently, for a
message `X` of `a` whole blocks of bytes and any `Y`, the MAC of the first
`a + b` blocks of `X ++ Y` is the big-endian value of the state reached by
running the same loop over `b` blocks of `Y` from the state whose big-endian
value is `ParveCBCMAC (K, S, X)`. -/
theorem C19_cbc_mac_continue (key sbox X Y : List ℕ) (a b : ℕ) (hX : IsBytes X)
    (hlen : X.length = 8 * a) :
    (∀ (M : List ℕ) (L : ℕ), MACHelper.ParveCBCMAC key sbox M L =
      Utils.ReadUInt64 (MACHelper.cbcLoop key sbox M (L / 8) (List.replicate 8 0)) 0) ∧
    (∀ (M : List ℕ) (n : ℕ) (C : List ℕ), MACHelper.cbcLoop key sbox M (n + 1) C =
      MACHelper.ParveEncryptBlock key sbox
        (MACHelper.xorBlock M n 8 (MACHelper.cbcLoop key sbox M n C))) ∧
    (∀ (M : List ℕ) (n : ℕ) (C : List ℕ) (j : ℕ), C.length = 8 → j < 8 →
      (MACHelper.xorBlock M n 8 C).getD j 0 = C.getD j 0 ^^^ M.getD (n * 8 + j) 0) ∧
    (∀ C : List ℕ, IsBytes C → Utils.ReadUInt64 C 0 =
      C.getD 0 0 * 2 ^ 56 + C.getD 1 0 * 2 ^ 48 + C.getD 2 0 * 2 ^ 40 + C.getD 3 0 * 2 ^ 32
        + C.getD 4 0 * 2 ^ 24 + C.getD 5 0 * 2 ^ 16 + C.getD 6 0 * 2 ^ 8 + C.getD 7 0) ∧
    Utils.ReadUInt64
        (Utils.WriteUInt64 (MACHelper.ParveCBCMAC key sbox X (8 * a)) (List.replicate 8 0) 0) 0
      = MACHelper.ParveCBCMAC key sbox X (8 * a) ∧
    MACHelper.ParveCBCMAC key sbox (X ++ Y) (8 * (a + b)) =
      Utils.ReadUInt64
        (MACHelper.cbcLoop key sbox Y b
          (Utils.WriteUInt64 (MACHelper.ParveCBCMAC key sbox X (8 * a))
            (List.replicate 8 0) 0)) 0 := by
  have hst : Utils.WriteUInt64 (MACHelper.ParveCBCMAC key sbox X (8 * a))
      (List.replicate 8 0) 0 = MACHelper.cbcLoop key sbox X a (List.replicate 8 0) := by
    have e : MACHelper.ParveCBCMAC key sbox X (8 * a)
        = Utils.ReadUInt64 (MACHelper.cbcLoop key sbox X a (List.replicate 8 0)) 0 := by
      show Utils.ReadUInt64 (MACHelper.cbcLoop key sbox X (8 * a / 8) (List.replicate 8 0)) 0
        = _
      rw [Nat.mul_div_cancel_left a (by norm_num : 0 < 8)]
    rw [e]
    exact Utils.WriteUInt64_ReadUInt64_block
      (MACHelper.isBytes_cbcLoop a hX (isBytes_replicate_zero 8))
      (by rw [MACHelper.length_cbcLoop, List.length_replicate])
  refine ⟨fun M L => rfl, fun M n C => rfl, ?_, ?_, ?_, ?_⟩
  · intro M n C j hC hj
    rw [MACHelper.getD_xorBlock, if_pos ⟨hj, by omega⟩]
  · intro C hC
    have h := Utils.ReadUInt64_eq hC 0
    simpa only [Nat.zero_add] using h
  · rw [hst]
    show _ = Utils.ReadUInt64 (MACHelper.cbcLoop key sbox X (8 * a / 8) (List.replicate 8 0)) 0
    rw [Nat.mul_div_cancel_left a (by norm_num : 0 < 8)]
  · rw [hst, ← MACHelper.cbcLoop_append key sbox X Y a b _ hlen]
    show Utils.ReadUInt64 (MACHelper.cbcLoop key sbox (X ++ Y) (8 * (a + b) / 8)
      (List.replicate 8 0)) 0 = _
    rw [Nat.mul_div_cancel_left (a + b) (by norm_num : 0 < 8)]

theorem C19_cbc_mac_continue_witness :
    IsBytes (scenario1Data.take 8) ∧ (scenario1Data.take 8).length = 8 * 1 ∧
    MACHelper.ParveCBCMAC scenarioInputKey scenarioSBox
        (scenario1Data.take 8 ++ scenario1Data.drop 8) (8 * (1 + 1)) =
      Utils.ReadUInt64
        (MACHelper.cbcLoop scenarioInputKey scenarioSBox (scenario1Data.drop 8) 1
          (Utils.WriteUInt64
            (MACHelper.ParveCBCMAC scenarioInputKey scenarioSBox (scenario1Data.take 8) (8 * 1))
            (List.replicate 8 0) 0)) 0 :=
  ⟨by decide, by decide,
    (C19_cbc_mac_continue scenarioInputKey scenarioSBox (scenario1Data.take 8)
      (scenario1Data.drop 8) 1 1 (by decide) (by decide)).2.2.2.2.2⟩

/-- C20, as amended: in `CS64_Modular` the seed-derived keys are
`A = lo (seed) mod p` and `B = hi (seed) mod p` with `p = 2 ^ 31 - 1` (`A` the
multiplier of the `a * x + b` steps and `B` the addend), and `C = keyC`,
`D = keyD`, `E = keyE` enter the chain unreduced; reducing `E` first can
change the result. -/
theorem C20_modular_keys (inHash keyC keyD keyE : ℕ) (data : List ℕ) (dataLength : ℕ) :
    MACHelper.CS64_Modular inHash keyC keyD keyE data dataLength =
      MACHelper.modularChain (Utils.Lo inHash % (2 ^ 31 - 1)) (Utils.Hi inHash % (2 ^ 31 - 1))
        keyC keyD keyE data (dataLength / 4) ∧
    MACHelper.CS64_Modular 1 1 1 (2 ^ 32 - 1) [255, 255, 255, 255, 0, 0, 0, 0] 8 ≠
      MACHelper.CS64_Modular 1 1 1 ((2 ^ 32 - 1) % (2 ^ 31 - 1))
        [255, 255, 255, 255, 0, 0, 0, 0] 8 := by
  refine ⟨?_, by decide⟩
  rw [← MACHelper.CS64Mod_word _ (Utils.Lo_lt inHash),
    ← MACHelper.CS64Mod_word _ (Utils.Hi_lt inHash)]
  rfl

/-- C20, the counterexample: for the seed 1 (high half 0, low half 1) the
result of `CS64_Modular` is not the one the chain gives with
`A = hi (seed) mod p` and `B = lo (seed) mod p`. -/
theorem C20_counterexample :
    MACHelper.CS64_Modular 1 1 1 1 [0, 0, 0, 1, 0, 0, 0, 0] 8 = 17179869186 ∧
    MACHelper.modularChain (Utils.Hi 1 % (2 ^ 31 - 1)) (Utils.Lo 1 % (2 ^ 31 - 1)) 1 1 1
      [0, 0, 0, 1, 0, 0, 0, 0] (8 / 4) = 17179869187 ∧
    MACHelper.CS64_Modular 1 1 1 1 [0, 0, 0, 1, 0, 0, 0, 0] 8 ≠
      MACHelper.modularChain (Utils.Hi 1 % (2 ^ 31 - 1)) (Utils.Lo 1 % (2 ^ 31 - 1)) 1 1 1
        [0, 0, 0, 1, 0, 0, 0, 0] (8 / 4) := by
  decide

/-! ## Hash values, word access and the MAC of `Decrypt` -/

/-- The failing input of C21: with seed 1 and keys 1, flipping bit 31 of the
first data word (`00 00 00 01` to `80 00 00 01`) changes the value returned by
`CS64_Modular`, which the doc comment of the function says ignores the high
bit of the data words. -/
theorem C21_high_bit_changes_result :
    MACHelper.CS64_Modular 1 1 1 1 [0, 0, 0, 1, 0, 0, 0, 0] 8 = 17179869186 ∧
    MACHelper.CS64_Modular 1 1 1 1 [128, 0, 0, 1, 0, 0, 0, 0] 8 = 25769803779 ∧
    Utils.ReadUInt32 [128, 0, 0, 1, 0, 0, 0, 0] 0
      = Utils.ReadUInt32 [0, 0, 0, 1, 0, 0, 0, 0] 0 ^^^ 2 ^ 31 ∧
    Utils.ReadUInt32 [128, 0, 0, 1, 0, 0, 0, 0] 4 = Utils.ReadUInt32 [0, 0, 0, 1, 0, 0, 0, 0] 4 ∧
    MACHelper.CS64_Modular 1 1 1 1 [128, 0, 0, 1, 0, 0, 0, 0] 8 ≠
      MACHelper.CS64_Modular 1 1 1 1 [0, 0, 0, 1, 0, 0, 0, 0] 8 := by
  decide

set_option maxRecDepth 1000000 in
/-- C23: for the scenario-1 inputs (context from the all-zero config and the
identity S-box, input key `00 01 02 03 04 05 06 07`, 16 bytes of `0x00`) both
`CSParve64_Create` and `CSParve64_ComputeHash` succeed, and the 64-bit hash of
`Create`, `(4029991285, 2229333275)`, differs from the 64-bit hash of
`ComputeHash`, `(786239511, 2357928563)`, in both halves. -/
theorem C23_scenario_hashes_differ :
    (CSParve64_Create (CSParve64_OpenContext true scenarioConfig (some scenarioSBox)).context
      (some scenarioInputKey) (some scenario1Data) 16 0 0 none).result = CSPARVE64_OK ∧
    (CSParve64_ComputeHash (CSParve64_OpenContext true scenarioConfig (some scenarioSBox)).context
      (some scenarioInputKey) (some scenario1Data) 16 0 0).result = CSPARVE64_OK ∧
    (CSParve64_Create (CSParve64_OpenContext true scenarioConfig (some scenarioSBox)).context
      (some scenarioInputKey) (some scenario1Data) 16 0 0 none).hiHash = 4029991285 ∧
    (CSParve64_Create (CSParve64_OpenContext true scenarioConfig (some scenarioSBox)).context
      (some scenarioInputKey) (some scenario1Data) 16 0 0 none).loHash = 2229333275 ∧
    (CSParve64_ComputeHash (CSParve64_OpenContext true scenarioConfig (some scenarioSBox)).context
      (some scenarioInputKey) (some scenario1Data) 16 0 0).hi = 786239511 ∧
    (CSParve64_ComputeHash (CSParve64_OpenContext true scenarioConfig (some scenarioSBox)).context
      (some scenarioInputKey) (some scenario1Data) 16 0 0).lo = 2357928563 ∧
    Utils.MakeUInt64
        (CSParve64_Create (CSParve64_OpenContext true scenarioConfig (some scenarioSBox)).context
          (some scenarioInputKey) (some scenario1Data) 16 0 0 none).hiHash
        (CSParve64_Create (CSParve64_OpenContext true scenarioConfig (some scenarioSBox)).context
          (some scenarioInputKey) (some scenario1Data) 16 0 0 none).loHash ≠
      Utils.MakeUInt64
        (CSParve64_ComputeHash
          (CSParve64_OpenContext true scenarioConfig (some scenarioSBox)).context
          (some scenarioInputKey) (some scenario1Data) 16 0 0).hi
        (CSParve64_ComputeHash
          (CSParve64_OpenContext true scenarioConfig (some scenarioSBox)).context
          (some scenarioInputKey) (some scenario1Data) 16 0 0).lo := by
  rw [scenario_context]
  decide

/-- C24: word reads and writes are big-endian and round-trip. For every buffer
of bytes, in-range offset and 64-bit `n` (32-bit `m`): reading after writing at
the same offset returns the value; byte `j` of the written word, counted from
the lowest address, holds bits `8 * (7 - j) ..` (`8 * (3 - j) ..`) of the
value, so the most significant byte comes first; the bytes outside the written
8 (or 4) and the length are unchanged; a read is the big-endian sum of its
bytes, and `ReadUInt64 (buf, off) = MakeUInt64 (ReadUInt32 (buf, off),
ReadUInt32 (buf, off + 4))`. -/
theorem C24_big_endian_words (buf : List ℕ) (off n m : ℕ) (hb : IsBytes buf)
    (h : off + 8 ≤ buf.length) (hn : n < 2 ^ 64) (hm : m < 2 ^ 32) :
    Utils.ReadUInt64 (Utils.WriteUInt64 n buf off) off = n ∧
    Utils.ReadUInt32 (Utils.WriteUInt32 m buf off) off = m ∧
    (∀ j, j < 8 →
      (Utils.WriteUInt64 n buf off).getD (off + j) 0 = (n >>> (8 * (7 - j))) % 256) ∧
    (∀ j, j < 4 →
      (Utils.WriteUInt32 m buf off).getD (off + j) 0 = (m >>> (8 * (3 - j))) % 256) ∧
    (Utils.WriteUInt64 n buf off).getD off 0 = n / 2 ^ 56 ∧
    (Utils.WriteUInt32 m buf off).getD off 0 = m / 2 ^ 24 ∧
    (∀ p, p < off ∨ off + 8 ≤ p →
      (Utils.WriteUInt64 n buf off).getD p 0 = buf.getD p 0) ∧
    (∀ p, p < off ∨ off + 4 ≤ p →
      (Utils.WriteUInt32 m buf off).getD p 0 = buf.getD p 0) ∧
    (Utils.WriteUInt64 n buf off).length = buf.length ∧
    (Utils.WriteUInt32 m buf off).length = buf.length ∧
    Utils.ReadUInt64 buf off =
      buf.getD off 0 * 2 ^ 56 + buf.getD (off + 1) 0 * 2 ^ 48
        + buf.getD (off + 2) 0 * 2 ^ 40 + buf.getD (off + 3) 0 * 2 ^ 32
        + buf.getD (off + 4) 0 * 2 ^ 24 + buf.getD (off + 5) 0 * 2 ^ 16
        + buf.getD (off + 6) 0 * 2 ^ 8 + buf.getD (off + 7) 0 ∧
    Utils.ReadUInt32 buf off =
      buf.getD off 0 * 2 ^ 24 + buf.getD (off + 1) 0 * 2 ^ 16
        + buf.getD (off + 2) 0 * 2 ^ 8 + buf.getD (off + 3) 0 ∧
    Utils.ReadUInt64 buf off =
      Utils.MakeUInt64 (Utils.ReadUInt32 buf off) (Utils.ReadUInt32 buf (off + 4)) := by
  have h64 : ∀ j, j < 8 →
      (Utils.WriteUInt64 n buf off).getD (off + j) 0 = (n >>> (8 * (7 - j))) % 256 := by
    intro j hj
    rw [Utils.getD_WriteUInt64 n buf off _ h]
    interval_cases j <;>
      simp only [Nat.add_zero, ↓reduceIte, Nat.reduceEqDiff, add_right_eq_self,
        self_eq_add_right, OfNat.ofNat_ne_zero, one_ne_zero, Nat.add_right_cancel_iff,
        Nat.reduceSub, Nat.reduceMul, Nat.shiftRight_zero]
  have h32 : ∀ j, j < 4 →
      (Utils.WriteUInt32 m buf off).getD (off + j) 0 = (m >>> (8 * (3 - j))) % 256 := by
    intro j hj
    rw [Utils.getD_WriteUInt32 m buf off _ (by omega)]
    interval_cases j <;>
      simp only [Nat.add_zero, ↓reduceIte, Nat.reduceEqDiff, add_right_eq_self,
        self_eq_add_right, OfNat.ofNat_ne_zero, one_ne_zero, Nat.add_right_cancel_iff,
        Nat.reduceSub, Nat.reduceMul, Nat.shiftRight_zero]
  refine ⟨Utils.ReadUInt64_WriteUInt64 n off hb h hn,
    Utils.ReadUInt32_WriteUInt32 m off hb (by omega) hm, h64, h32, ?_, ?_,
    fun p hp => Utils.getD_WriteUInt64_out n buf off p hp,
    fun p hp => Utils.getD_WriteUInt32_out m buf off p hp,
    Utils.length_WriteUInt64 n buf off, Utils.length_WriteUInt32 m buf off,
    Utils.ReadUInt64_eq hb off, Utils.ReadUInt32_eq hb off,
    Utils.ReadUInt64_eq_MakeUInt64 hb off⟩
  · have e := h64 0 (by norm_num)
    rw [Nat.add_zero] at e
    rw [e, Nat.shiftRight_eq_div_pow]
    exact Nat.mod_eq_of_lt (by omega)
  · have e := h32 0 (by norm_num)
    rw [Nat.add_zero] at e
    rw [e, Nat.shiftRight_eq_div_pow]
    exact Nat.mod_eq_of_lt (by omega)

theorem C24_big_endian_words_witness :
    IsBytes scenario2Data ∧ 4 + 8 ≤ scenario2Data.length ∧
    Utils.ReadUInt64 (Utils.WriteUInt64 1311768467463790320 scenario2Data 4) 4
      = 1311768467463790320 :=
  ⟨by decide, by decide,
    (C24_big_endian_words scenario2Data 4 1311768467463790320 305419896 (by decide)
      (by decide) (by decide) (by decide)).1⟩

/-- The failing input of C29: the high half of `2 ^ 62 - 1` is `2 ^ 30 - 1`,
below `2 ^ 30`, its residue mod `2 ^ 31 - 1` is 0, and `CS64Mod` returns
`2 ^ 31 - 1`. -/
theorem C29_unreduced_result :
    (2 ^ 62 - 1 : ℕ) < 2 ^ 64 ∧ Utils.Hi (2 ^ 62 - 1) = 2 ^ 30 - 1 ∧
    Utils.Lo (2 ^ 62 - 1) = 2 ^ 32 - 1 ∧
    (2 ^ 62 - 1 : ℕ) % (2 ^ 31 - 1) = 0 ∧
    MACHelper.CS64Mod (2 ^ 62 - 1) = 2 ^ 31 - 1 ∧
    MACHelper.CS64Mod (2 ^ 62 - 1) ≠ (2 ^ 62 - 1) % (2 ^ 31 - 1) := by
  decide

/-- C30: the MAC returned by `Decrypt` depends only on the last 8 bytes of the
buffer and on the Parve key and S-box of the instance. For two instances with
the same Parve key and S-box and two buffers of valid, possibly different,
lengths that agree on their last 8 bytes, the MACs are equal: each is the
big-endian value of `ParveDecryptBlock` of those 8 bytes. -/
theorem C30_decrypt_mac_last_block (inst1 inst2 : CSParve64) (D1 D2 : List ℕ) (k1 k2 : ℕ)
    (hkey : inst1.ParveKey = inst2.ParveKey) (hsbox : inst1.SBox = inst2.SBox)
    (hk1 : 1 ≤ k1) (hk2 : 1 ≤ k2) (hL1 : 8 * k1 < 2 ^ 32) (hL2 : 8 * k2 < 2 ^ 32)
    (hlen1 : D1.length = 8 * k1) (hlen2 : D2.length = 8 * k2)
    (hlast : D1.drop (8 * k1 - 8) = D2.drop (8 * k2 - 8)) :
    (inst1.Decrypt D1 (8 * k1)).2.2 = (inst2.Decrypt D2 (8 * k2)).2.2 ∧
    (inst1.Decrypt D1 (8 * k1)).2.2 =
      Utils.ReadUInt64
        (MACHelper.ParveDecryptBlock inst1.ParveKey inst1.SBox (D1.drop (8 * k1 - 8))) 0 ∧
    (inst1.Decrypt D1 (8 * k1)).1 = CSPARVE64_OK ∧
    (inst2.Decrypt D2 (8 * k2)).1 = CSPARVE64_OK := by
  rw [CSParve64.Decrypt_eq inst1 D1 k1 hk1 hL1 hlen1,
    CSParve64.Decrypt_eq inst2 D2 k2 hk2 hL2 hlen2]
  simp only [hkey, hsbox, hlast, and_self]

theorem C30_decrypt_mac_last_block_witness :
    scenarioInstance.ParveKey = scenarioInstance.ParveKey ∧
    (scenario2Data.drop 8).drop (8 * 2 - 8) = scenario2Data.drop (8 * 3 - 8) ∧
    (scenarioInstance.Decrypt (scenario2Data.drop 8) (8 * 2)).2.2
      = (scenarioInstance.Decrypt scenario2Data (8 * 3)).2.2 :=
  ⟨rfl, by decide,
    (C30_decrypt_mac_last_block scenarioInstance scenarioInstance (scenario2Data.drop 8)
      scenario2Data 2 3 rfl rfl (by decide) (by decide) (by decide) (by decide) (by decide)
      (by decide) (by decide)).1⟩

/-! ## `CS64ComputeMAC` and the reference recurrence -/

theorem mod_affine (a b c x M : ℕ) :
    (a * (c + x % M) + b) % M = (a * (c + x) + b) % M :=
  Nat.ModEq.add_right _ (Nat.ModEq.mul_left _ (Nat.ModEq.add_left _ (Nat.mod_modEq _ _)))

theorem mod_affine_zero (a b x M : ℕ) : (a * (x % M) + b) % M = (a * x + b) % M :=
  Nat.ModEq.add_right _ (Nat.ModEq.mul_left _ (Nat.mod_modEq _ _))

theorem CS64Key.macStep_eq_ref (key : CS64Key) (data : List ℕ) (k chain sum : ℕ) :
    CS64Key.macStep key data (2 * (k + 1)) chain sum =
      ((key.c * ((key.a * (chain + key.e * wordAt data (2 * (k + 1))) + key.b) % 2 ^ 32
          + wordAt data (2 * (k + 1) + 1)) + key.d) % 2 ^ 32,
        ((sum + (key.a * (chain + key.e * wordAt data (2 * (k + 1))) + key.b) % 2 ^ 32) % 2 ^ 32
          + (key.c * ((key.a * (chain + key.e * wordAt data (2 * (k + 1))) + key.b) % 2 ^ 32
            + wordAt data (2 * (k + 1) + 1)) + key.d) % 2 ^ 32) % 2 ^ 32) := by
  simp only [CS64Key.macStep, wordAt, BV4Key.shl2, mod_affine]

theorem CS64Key.macLoop_eq_ref (key : CS64Key) (data : List ℕ) (k : ℕ) :
    CS64Key.macLoop key data (k + 1) 0 0 0 = refChainSum key (wordAt data) k := by
  induction k with
  | zero =>
    simp only [CS64Key.macLoop, CS64Key.macStep, refChainSum, wordAt, BV4Key.shl2,
      Nat.zero_add, Nat.mod_mod, mod_affine_zero, Nat.mul_zero, Nat.mul_one]
  | succ k ih =>
    rw [CS64Key.macLoop_succ_last, ih, Nat.zero_add, CS64Key.macStep_eq_ref]
    rfl

theorem refChainSum_lt (key : CS64Key) (W : ℕ → ℕ) (k : ℕ) :
    (refChainSum key W k).1 < 2 ^ 32 ∧ (refChainSum key W k).2 < 2 ^ 32 := by
  cases k <;> exact ⟨Nat.mod_lt _ (by norm_num), Nat.mod_lt _ (by norm_num)⟩

/-- C27: for every key, buffer and number of words `n`, `CS64ComputeMAC` equals
the reference recurrence with all arithmetic mod `2 ^ 32`: the first pair with
`chain = sum = a * (e * W[0]) + b`, then `chain = c * (chain + W[1]) + d`,
`sum += chain`; for `k = 1 .. n / 2 - 1` `chain = a * (chain + e * W[2k]) + b`,
`sum += chain`, `chain = c * (chain + W[2k+1]) + d`, `sum += chain`; the result
is `sum + (chain << 32)`: the final chain is the high and the final sum the low
32 bits. -/
theorem C27_compute_mac_reference (key : CS64Key) (data : List ℕ) (n : ℕ) :
    key.CS64ComputeMAC data n = refComputeMAC key (wordAt data) n ∧
    Utils.Hi (key.CS64ComputeMAC data n) = (refChainSum key (wordAt data) (n / 2 - 1)).1 ∧
    Utils.Lo (key.CS64ComputeMAC data n) = (refChainSum key (wordAt data) (n / 2 - 1)).2 ∧
    (refChainSum key (wordAt data) 0).1 =
      (key.c * ((key.a * (key.e * wordAt data 0) + key.b) % 2 ^ 32 + wordAt data 1) + key.d)
        % 2 ^ 32 ∧
    (refChainSum key (wordAt data) 0).2 =
      ((key.a * (key.e * wordAt data 0) + key.b) % 2 ^ 32 + (refChainSum key (wordAt data) 0).1)
        % 2 ^ 32 := by
  have e : key.CS64ComputeMAC data n = refComputeMAC key (wordAt data) n := by
    rw [CS64Key.CS64ComputeMAC_eq_macLoop, CS64Key.macLoop_eq_ref]
    rfl
  have hlt := refChainSum_lt key (wordAt data) (n / 2 - 1)
  refine ⟨e, ?_, ?_, rfl, rfl⟩
  · rw [e]
    exact Utils.Hi_pack _ _ hlt.2 hlt.1
  · rw [e]
    exact Utils.Lo_pack _ _ hlt.2

/-! ## `CS64_Modular`: bounds and the recurrence mod `2 ^ 31 - 1` -/

namespace MACHelper

/-- Every result of `CS64Mod` is at most `2 ^ 31`. -/
theorem CS64Mod_le (v : ℕ) : CS64Mod v ≤ 2 ^ 31 := by
  have hlo := Utils.Lo_lt v
  rw [CS64Mod_of_halves]
  generalize Utils.Hi v = hi at *
  generalize Utils.Lo v = lo at *
  split_ifs <;> omega

/-- Below `2 ^ 63` nothing wraps around: the result of `CS64Mod` differs from
its argument by a multiple of `2 ^ 31 - 1`. -/
theorem CS64Mod_decomp (v : ℕ) (hv : v < 2 ^ 63) :
    ∃ q, v = CS64Mod v + 2147483647 * q := by
  have hlo := Utils.Lo_lt v
  have hsplit := halves_eq v (by omega)
  have hhi : Utils.Hi v < 2 ^ 31 := by
    simp only [Utils.Hi, Nat.shiftRight_eq_div_pow]
    omega
  rw [CS64Mod_of_halves]
  generalize Utils.Hi v = hi at *
  generalize Utils.Lo v = lo at *
  subst hsplit
  have h1 : (hi * 2) % 4294967296 = hi * 2 := Nat.mod_eq_of_lt (by omega)
  rw [h1]
  split_ifs <;>
    first
    | exact ⟨2 * hi, by omega⟩
    | exact ⟨2 * hi + 1, by omega⟩
    | exact ⟨2 * hi + 2, by omega⟩
    | exact ⟨2 * hi + 3, by omega⟩

theorem CS64Mod_modEq (v : ℕ) (hv : v < 2 ^ 63) : CS64Mod v ≡ v [MOD 2 ^ 31 - 1] := by
  obtain ⟨q, hq⟩ := CS64Mod_decomp v hv
  have h : v ≡ CS64Mod v [MOD 2147483647] := by
    unfold Nat.ModEq
    conv_lhs => rw [hq]
    exact Nat.add_mul_mod_self_left _ _ _
  exact h.symm

/-- The reduction of a 64-bit expression that does not reach `2 ^ 63`. -/
theorem CS64Mod_wrap (x : ℕ) (hx : x < 2 ^ 63) :
    CS64Mod (x % 2 ^ 64) ≡ x [MOD 2 ^ 31 - 1] ∧ CS64Mod (x % 2 ^ 64) ≤ 2 ^ 31 := by
  rw [Nat.mod_eq_of_lt (by omega)]
  exact ⟨CS64Mod_modEq x hx, CS64Mod_le x⟩

/-- The reduction of a 64-bit expression below `2 ^ 32` is exact. -/
theorem CS64Mod_wrap_word (x : ℕ) (hx : x < 2 ^ 32) :
    CS64Mod (x % 2 ^ 64) = x % (2 ^ 31 - 1) := by
  rw [Nat.mod_eq_of_lt (by omega)]
  exact CS64Mod_word x hx

theorem CS64Mod_word_lt (x : ℕ) (hx : x < 2 ^ 32) : CS64Mod x < 2 ^ 31 - 1 := by
  rw [CS64Mod_word x hx]
  exact Nat.mod_lt _ (by norm_num)

/-- `CS64_Modular` is the loop run from the zero state, followed by the final
step. -/
theorem modularChain_eq_loop (A B C D E : ℕ) (data : List ℕ) (numBlocks : ℕ) :
    modularChain A B C D E data numBlocks =
      Utils.MakeUInt64
        (Utils.Lo (CS64Mod (((modularLoop A B C D E data ((numBlocks >>> 1) - 1) 2
          (modularStep A B C D E data 0 0 0).1 (modularStep A B C D E data 0 0 0).2).2 + D)
            % 2 ^ 64)))
        (Utils.Lo (CS64Mod (((modularLoop A B C D E data ((numBlocks >>> 1) - 1) 2
          (modularStep A B C D E data 0 0 0).1 (modularStep A B C D E data 0 0 0).2).1 + B)
            % 2 ^ 64))) := by
  simp only [modularChain, modularStep, Nat.add_zero, Nat.zero_add]

/-- Bounds of one pass of the loop, whatever the words are. -/
theorem modularStep_le (A B C D E : ℕ) (data : List ℕ) (index mac sum : ℕ) :
    (modularStep A B C D E data index mac sum).1 ≤ 2 ^ 31 ∧
    (modularStep A B C D E data index mac sum).2 ≤ sum + 2 ^ 32 := by
  refine ⟨CS64Mod_le _, ?_⟩
  simp only [modularStep]
  have h1 := CS64Mod_le ((A * CS64Mod ((E * Utils.ReadUInt32 data (index <<< 2) + mac) % 2 ^ 64)
    + B) % 2 ^ 64)
  generalize CS64Mod ((A * CS64Mod ((E * Utils.ReadUInt32 data (index <<< 2) + mac) % 2 ^ 64)
    + B) % 2 ^ 64) = m1 at *
  have h2 := CS64Mod_le ((C * CS64Mod ((m1 + Utils.ReadUInt32 data ((index + 1) <<< 2))
    % 2 ^ 64) + D) % 2 ^ 64)
  generalize CS64Mod ((C * CS64Mod ((m1 + Utils.ReadUInt32 data ((index + 1) <<< 2))
    % 2 ^ 64) + D) % 2 ^ 64) = m2 at *
  omega

theorem modularLoop_le (A B C D E : ℕ) (data : List ℕ) : ∀ (n index mac sum : ℕ),
    mac ≤ 2 ^ 31 →
    (modularLoop A B C D E data n index mac sum).1 ≤ 2 ^ 31 ∧
    (modularLoop A B C D E data n index mac sum).2 ≤ sum + n * 2 ^ 32 := by
  intro n
  induction n with
  | zero =>
    intro index mac sum hmac
    exact ⟨hmac, by simp only [modularLoop]; omega⟩
  | succ n ih =>
    intro index mac sum hmac
    simp only [modularLoop]
    have hs := modularStep_le A B C D E data index mac sum
    have hl := ih (index + 2) _ (modularStep A B C D E data index mac sum).2 hs.1
    refine ⟨hl.1, ?_⟩
    have e : (n + 1) * 2 ^ 32 = n * 2 ^ 32 + 2 ^ 32 := by ring
    omega

end MACHelper

namespace MACHelper

theorem Hi_MakeUInt64 (a b : ℕ) (ha : a < 2 ^ 32) (hb : b < 2 ^ 32) :
    Utils.Hi (Utils.MakeUInt64 a b) = a := by
  rw [Utils.MakeUInt64_eq a b hb]
  simp only [Utils.Hi, Nat.shiftRight_eq_div_pow]
  omega

theorem Lo_MakeUInt64 (a b : ℕ) (hb : b < 2 ^ 32) :
    Utils.Lo (Utils.MakeUInt64 a b) = b := by
  rw [Utils.MakeUInt64_eq a b hb]
  simp only [Utils.Lo]
  omega

/-- The final reduction of the sum is exact as long as the sum stays below
`2 ^ 62 - 1`, which it does for every `UINT32` length. -/
theorem CS64Mod_sum (x : ℕ) (hx : x < 2 ^ 62 - 1) :
    CS64Mod (x % 2 ^ 64) = x % (2 ^ 31 - 1) := by
  rw [Nat.mod_eq_of_lt (by omega)]
  apply CS64Mod_exact x (by omega)
  · simp only [Utils.Hi, Nat.shiftRight_eq_div_pow]
    omega
  · omega

/-- The two halves that `modularChain` packs, for every `UINT32` length: the
sum and the MAC reduced mod `2 ^ 31 - 1`. -/
theorem modularChain_eq_mod (A B C D E : ℕ) (data : List ℕ) (numBlocks : ℕ)
    (hB : B < 2 ^ 31 - 1) (hD : D < 2 ^ 32) (hn : numBlocks < 2 ^ 30) :
    modularChain A B C D E data numBlocks =
      Utils.MakeUInt64
        (((modularLoop A B C D E data ((numBlocks >>> 1) - 1) 2
          (modularStep A B C D E data 0 0 0).1 (modularStep A B C D E data 0 0 0).2).2 + D)
            % (2 ^ 31 - 1))
        (((modularLoop A B C D E data ((numBlocks >>> 1) - 1) 2
          (modularStep A B C D E data 0 0 0).1 (modularStep A B C D E data 0 0 0).2).1 + B)
            % (2 ^ 31 - 1)) := by
  have hs := modularStep_le A B C D E data 0 0 0
  have hl := modularLoop_le A B C D E data ((numBlocks >>> 1) - 1) 2
    (modularStep A B C D E data 0 0 0).1 (modularStep A B C D E data 0 0 0).2 hs.1
  have hpass : ((numBlocks >>> 1) - 1) * 2 ^ 32 ≤ 2 ^ 29 * 2 ^ 32 := by
    apply Nat.mul_le_mul_right
    rw [Nat.shiftRight_eq_div_pow]
    omega
  rw [modularChain_eq_loop, CS64Mod_sum _ (by omega), CS64Mod_wrap_word _ (by omega)]
  have h1 : ∀ x : ℕ, x % (2 ^ 31 - 1) < 2 ^ 32 := fun x =>
    lt_trans (Nat.mod_lt _ (by norm_num)) (by norm_num)
  rw [Utils.Lo, Utils.Lo, Nat.mod_eq_of_lt (h1 _), Nat.mod_eq_of_lt (h1 _)]

end MACHelper

/-- C22: for every seed, every keyC and keyE, every 32-bit keyD and every
buffer with a `UINT32` byte length, both 32-bit halves of the value returned
by `CS64_Modular` are fully reduced: the high half (sum) and the low half (mac)
are below `2 ^ 31 - 1`, so bit 31 of each half is 0. -/
theorem C22_modular_halves_reduced (inHash keyC keyD keyE : ℕ) (data : List ℕ)
    (dataLength : ℕ) (hD : keyD < 2 ^ 32) (hL : dataLength < 2 ^ 32) :
    Utils.Hi (MACHelper.CS64_Modular inHash keyC keyD keyE data dataLength) < 2 ^ 31 - 1 ∧
    Utils.Lo (MACHelper.CS64_Modular inHash keyC keyD keyE data dataLength) < 2 ^ 31 - 1 ∧
    (Utils.Hi (MACHelper.CS64_Modular inHash keyC keyD keyE data dataLength)).testBit 31
      = false ∧
    (Utils.Lo (MACHelper.CS64_Modular inHash keyC keyD keyE data dataLength)).testBit 31
      = false := by
  have hB := MACHelper.CS64Mod_word_lt (Utils.Hi inHash) (Utils.Hi_lt inHash)
  have hn : dataLength / CS64Defs.CS_BLOCK_SIZE < 2 ^ 30 := by
    show dataLength / 4 < 2 ^ 30
    omega
  have hp : ∀ x : ℕ, x % (2 ^ 31 - 1) < 2 ^ 31 - 1 := fun x => Nat.mod_lt _ (by norm_num)
  have h32 : ∀ x : ℕ, x % (2 ^ 31 - 1) < 2 ^ 32 := fun x => lt_trans (hp x) (by norm_num)
  have e : MACHelper.CS64_Modular inHash keyC keyD keyE data dataLength =
      MACHelper.modularChain (MACHelper.CS64Mod (Utils.Lo inHash))
        (MACHelper.CS64Mod (Utils.Hi inHash)) keyC keyD keyE data
        (dataLength / CS64Defs.CS_BLOCK_SIZE) := rfl
  rw [e, MACHelper.modularChain_eq_mod _ _ _ _ _ _ _ hB hD hn,
    MACHelper.Hi_MakeUInt64 _ _ (h32 _) (h32 _), MACHelper.Lo_MakeUInt64 _ _ (h32 _)]
  exact ⟨hp _, hp _, Nat.testBit_lt_two_pow (lt_trans (hp _) (by norm_num)),
    Nat.testBit_lt_two_pow (lt_trans (hp _) (by norm_num))⟩

theorem C22_modular_halves_reduced_witness :
    (4294967295 : ℕ) < 2 ^ 32 ∧ (8 : ℕ) < 2 ^ 32 ∧
    Utils.Hi (MACHelper.CS64_Modular 18446744073709551615 4294967295 4294967295 4294967295
      [255, 255, 255, 255, 255, 255, 255, 255] 8) < 2 ^ 31 - 1 :=
  ⟨by decide, by decide,
    (C22_modular_halves_reduced 18446744073709551615 4294967295 4294967295 4294967295
      [255, 255, 255, 255, 255, 255, 255, 255] 8 (by decide) (by decide)).1⟩

namespace MACHelper

/-- One pass of the loop over two words of the documented range follows the
recurrence mod `2 ^ 31 - 1`: no product reaches `2 ^ 63`, so no reduction
wraps around. -/
theorem modularStep_modEq (A B C D E : ℕ) (data : List ℕ) (index mac sum m s : ℕ)
    (hA : A < 2 ^ 31) (hB : B < 2 ^ 31) (hC : C < 2 ^ 32) (hD : D < 2 ^ 32) (hE : E < 2 ^ 32)
    (hW0 : Utils.ReadUInt32 data (index <<< 2) < 2 ^ 31)
    (hW1 : Utils.ReadUInt32 data ((index + 1) <<< 2) < 2 ^ 31)
    (hmac : mac ≤ 2 ^ 31) (hsum : sum + 2 ^ 32 < 2 ^ 64)
    (hm : mac ≡ m [MOD 2 ^ 31 - 1]) (hs : sum ≡ s [MOD 2 ^ 31 - 1]) :
    (modularStep A B C D E data index mac sum).1 ≡
      (C * ((A * (E * Utils.ReadUInt32 data (index <<< 2) + m) + B) % (2 ^ 31 - 1)
        + Utils.ReadUInt32 data ((index + 1) <<< 2)) + D) % (2 ^ 31 - 1) [MOD 2 ^ 31 - 1] ∧
    (modularStep A B C D E data index mac sum).2 ≡
      ((s + (A * (E * Utils.ReadUInt32 data (index <<< 2) + m) + B) % (2 ^ 31 - 1))
          % (2 ^ 31 - 1)
        + (C * ((A * (E * Utils.ReadUInt32 data (index <<< 2) + m) + B) % (2 ^ 31 - 1)
          + Utils.ReadUInt32 data ((index + 1) <<< 2)) + D) % (2 ^ 31 - 1))
        % (2 ^ 31 - 1) [MOD 2 ^ 31 - 1] := by
  simp only [modularStep]
  generalize Utils.ReadUInt32 data (index <<< 2) = W0 at *
  generalize Utils.ReadUInt32 data ((index + 1) <<< 2) = W1 at *
  -- tmp = E * W0 + mac
  have b1 : E * W0 + mac < 2 ^ 63 := by
    have := Nat.mul_le_mul (show E ≤ 4294967295 by omega) (show W0 ≤ 2147483647 by omega)
    omega
  obtain ⟨c1, l1⟩ := CS64Mod_wrap (E * W0 + mac) b1
  generalize CS64Mod ((E * W0 + mac) % 2 ^ 64) = t1 at *
  -- mac = A * tmp + B
  have b2 : A * t1 + B < 2 ^ 63 := by
    have := Nat.mul_le_mul (show A ≤ 2147483647 by omega) (show t1 ≤ 2147483648 by omega)
    omega
  obtain ⟨c2, l2⟩ := CS64Mod_wrap (A * t1 + B) b2
  generalize CS64Mod ((A * t1 + B) % 2 ^ 64) = m1 at *
  -- tmp = mac + W1
  rw [CS64Mod_wrap_word (m1 + W1) (by omega)]
  have l3 : (m1 + W1) % (2 ^ 31 - 1) ≤ 2147483646 := by
    have := Nat.mod_lt (m1 + W1) (show 0 < 2 ^ 31 - 1 by norm_num)
    omega
  -- mac = C * tmp + D
  have b4 : C * ((m1 + W1) % (2 ^ 31 - 1)) + D < 2 ^ 63 := by
    have := Nat.mul_le_mul (show C ≤ 4294967295 by omega) l3
    omega
  obtain ⟨c4, l4⟩ := CS64Mod_wrap _ b4
  generalize CS64Mod ((C * ((m1 + W1) % (2 ^ 31 - 1)) + D) % 2 ^ 64) = m2 at *
  rw [Nat.mod_eq_of_lt (show sum + m1 < 2 ^ 64 by omega),
    Nat.mod_eq_of_lt (show sum + m1 + m2 < 2 ^ 64 by omega)]
  -- the congruences
  have e1 : m1 ≡ (A * (E * W0 + m) + B) % (2 ^ 31 - 1) [MOD 2 ^ 31 - 1] :=
    (c2.trans (Nat.ModEq.add_right _ (Nat.ModEq.mul_left _
      (c1.trans (Nat.ModEq.add_left _ hm))))).trans (Nat.mod_modEq _ _).symm
  have e2 : m2 ≡ (C * ((A * (E * W0 + m) + B) % (2 ^ 31 - 1) + W1) + D) % (2 ^ 31 - 1)
      [MOD 2 ^ 31 - 1] :=
    (c4.trans (Nat.ModEq.add_right _ (Nat.ModEq.mul_left _
      ((Nat.mod_modEq _ _).trans (Nat.ModEq.add_right _ e1))))).trans (Nat.mod_modEq _ _).symm
  exact ⟨e2, ((((hs.add e1).trans (Nat.mod_modEq _ _).symm).add e2).trans
    (Nat.mod_modEq _ _).symm)⟩

/-- The loop over words of the documented range follows the reference
recurrence: started after the pair `k`, `n` passes reach the pair `k + n`. -/
theorem modularLoop_modEq (A B C D E : ℕ) (data : List ℕ)
    (hA : A < 2 ^ 31) (hB : B < 2 ^ 31) (hC : C < 2 ^ 32) (hD : D < 2 ^ 32) (hE : E < 2 ^ 32) :
    ∀ (n k mac sum : ℕ),
    (∀ i, i < 2 * (k + 1 + n) → wordAt data i < 2 ^ 31) →
    mac ≤ 2 ^ 31 → sum + n * 2 ^ 32 < 2 ^ 64 →
    mac ≡ (refModularPairs A B C D E (wordAt data) k).1 [MOD 2 ^ 31 - 1] →
    sum ≡ (refModularPairs A B C D E (wordAt data) k).2 [MOD 2 ^ 31 - 1] →
    (modularLoop A B C D E data n (2 * (k + 1)) mac sum).1 ≡
        (refModularPairs A B C D E (wordAt data) (k + n)).1 [MOD 2 ^ 31 - 1] ∧
      (modularLoop A B C D E data n (2 * (k + 1)) mac sum).2 ≡
        (refModularPairs A B C D E (wordAt data) (k + n)).2 [MOD 2 ^ 31 - 1] := by
  intro n
  induction n with
  | zero =>
    intro k mac sum _ _ _ hm hs
    exact ⟨hm, hs⟩
  | succ n ih =>
    intro k mac sum hW hmac hsum hm hs
    have e32 : (n + 1) * 2 ^ 32 = n * 2 ^ 32 + 2 ^ 32 := by ring
    have hw0 : Utils.ReadUInt32 data ((2 * (k + 1)) <<< 2) = wordAt data (2 * (k + 1)) := by
      rw [BV4Key.shl2]; rfl
    have hw1 : Utils.ReadUInt32 data ((2 * (k + 1) + 1) <<< 2)
        = wordAt data (2 * (k + 1) + 1) := by
      rw [BV4Key.shl2]; rfl
    have hst := modularStep_modEq A B C D E data (2 * (k + 1)) mac sum _ _ hA hB hC hD hE
      (by rw [hw0]; exact hW _ (by omega)) (by rw [hw1]; exact hW _ (by omega))
      hmac (by omega) hm hs
    rw [hw0, hw1] at hst
    have hle := modularStep_le A B C D E data (2 * (k + 1)) mac sum
    have h := ih (k + 1) (modularStep A B C D E data (2 * (k + 1)) mac sum).1
      (modularStep A B C D E data (2 * (k + 1)) mac sum).2
      (fun i hi => hW i (by omega)) hle.1 (by omega) hst.1 hst.2
    rw [show k + (n + 1) = k + 1 + n by omega]
    exact h

end MACHelper

/-- C28: for every seed, every 32-bit keyC, keyD, keyE and every buffer of an
even number (at least 2) of words, with a `UINT32` byte length, in which every
data word is in the documented range `0 .. 2 ^ 31 - 2`, `CS64_Modular` equals
the chain-and-sum recurrence over the integers mod `p = 2 ^ 31 - 1` with
`A = CS64Mod (Lo seed)` and `B = CS64Mod (Hi seed)`, returned as
`(sum << 32) | mac`: no 32-bit wrap and no unreduced intermediate value changes
the result. -/
theorem C28_modular_reference (inHash keyC keyD keyE : ℕ) (data : List ℕ)
    (dataLength h : ℕ) (hC : keyC < 2 ^ 32) (hD : keyD < 2 ^ 32) (hE : keyE < 2 ^ 32)
    (hL : dataLength < 2 ^ 32) (hh : 1 ≤ h) (hn : dataLength / 4 = 2 * h)
    (hW : ∀ i, i < dataLength / 4 → wordAt data i ≤ 2 ^ 31 - 2) :
    MACHelper.CS64_Modular inHash keyC keyD keyE data dataLength =
      refModular inHash keyC keyD keyE (wordAt data) (dataLength / 4) := by
  have hA := MACHelper.CS64Mod_word_lt (Utils.Lo inHash) (Utils.Lo_lt inHash)
  have hB := MACHelper.CS64Mod_word_lt (Utils.Hi inHash) (Utils.Hi_lt inHash)
  have hA31 : MACHelper.CS64Mod (Utils.Lo inHash) < 2 ^ 31 := lt_trans hA (by norm_num)
  have hB31 : MACHelper.CS64Mod (Utils.Hi inHash) < 2 ^ 31 := lt_trans hB (by norm_num)
  have hW31 : ∀ i, i < 2 * (0 + 1 + (h - 1)) → wordAt data i < 2 ^ 31 := by
    intro i hi
    have := hW i (by omega)
    omega
  have e : MACHelper.CS64_Modular inHash keyC keyD keyE data dataLength =
      MACHelper.modularChain (MACHelper.CS64Mod (Utils.Lo inHash))
        (MACHelper.CS64Mod (Utils.Hi inHash)) keyC keyD keyE data (dataLength / 4) := rfl
  have hpass : (dataLength / 4) >>> 1 - 1 = h - 1 := by
    rw [Nat.shiftRight_eq_div_pow]
    omega
  have hpairs : dataLength / 4 / 2 - 1 = h - 1 := by omega
  -- the first pair
  have hw0 : Utils.ReadUInt32 data (0 <<< 2) = wordAt data 0 := by
    rw [BV4Key.shl2]; rfl
  have hw1 : Utils.ReadUInt32 data ((0 + 1) <<< 2) = wordAt data 1 := by
    rw [BV4Key.shl2]; rfl
  have hfirst := MACHelper.modularStep_modEq (MACHelper.CS64Mod (Utils.Lo inHash))
    (MACHelper.CS64Mod (Utils.Hi inHash)) keyC keyD keyE data 0 0 0 0 0 hA31 hB31 hC hD hE
    (by rw [hw0]; exact hW31 0 (by omega)) (by rw [hw1]; exact hW31 1 (by omega))
    (by norm_num) (by norm_num) (Nat.ModEq.refl 0) (Nat.ModEq.refl 0)
  rw [hw0, hw1] at hfirst
  simp only [Nat.add_zero, Nat.zero_add, Nat.mod_mod] at hfirst
  have hle := MACHelper.modularStep_le (MACHelper.CS64Mod (Utils.Lo inHash))
    (MACHelper.CS64Mod (Utils.Hi inHash)) keyC keyD keyE data 0 0 0
  have hpb : (h - 1) * 2 ^ 32 ≤ 2 ^ 29 * 2 ^ 32 := Nat.mul_le_mul_right _ (by omega)
  -- the remaining pairs
  have hloop := MACHelper.modularLoop_modEq (MACHelper.CS64Mod (Utils.Lo inHash))
    (MACHelper.CS64Mod (Utils.Hi inHash)) keyC keyD keyE data hA31 hB31 hC hD hE (h - 1) 0 _ _
    hW31 hle.1 (by omega) hfirst.1 hfirst.2
  rw [e, MACHelper.modularChain_eq_mod _ _ _ _ _ _ _ hB hD (by omega), hpass]
  simp only [refModular, hpairs]
  rw [Nat.zero_add (h - 1)] at hloop
  have e1 := Nat.ModEq.add_right (MACHelper.CS64Mod (Utils.Hi inHash)) hloop.1
  have e2 := Nat.ModEq.add_right keyD hloop.2
  unfold Nat.ModEq at e1 e2
  rw [e1, e2, Utils.MakeUInt64]

theorem C28_modular_reference_witness :
    (4294967295 : ℕ) < 2 ^ 32 ∧ 16 / 4 = 2 * 2 ∧
    (∀ i, i < 16 / 4 →
      wordAt [127, 255, 255, 254, 0, 0, 0, 1, 127, 255, 255, 254, 18, 52, 86, 120] i
        ≤ 2 ^ 31 - 2) ∧
    MACHelper.CS64_Modular 18446744073709551615 4294967295 4294967295 4294967295
        [127, 255, 255, 254, 0, 0, 0, 1, 127, 255, 255, 254, 18, 52, 86, 120] 16 =
      refModular 18446744073709551615 4294967295 4294967295 4294967295
        (wordAt [127, 255, 255, 254, 0, 0, 0, 1, 127, 255, 255, 254, 18, 52, 86, 120])
        (16 / 4) :=
  ⟨by decide, by decide, by decide,
    C28_modular_reference 18446744073709551615 4294967295 4294967295 4294967295
      [127, 255, 255, 254, 0, 0, 0, 1, 127, 255, 255, 254, 18, 52, 86, 120] 16 2
      (by decide) (by decide) (by decide) (by decide) (by decide) (by decide) (by decide)⟩

/-! ## GUID strings: parsing and printing -/

theorem hexValue_lt (c : ℕ) (h : IsHexChar c) : hexValue c < 16 := by
  unfold hexValue
  unfold IsHexChar at h
  split_ifs <;> omega

theorem hexToNibble_of_hex (c p : ℕ) (h : IsHexChar c) : hexToNibble c p = (0, hexValue c) := by
  unfold IsHexChar at h
  unfold hexToNibble hexValue
  rcases h with h | h | h
  · rw [if_pos h, if_pos h.2, Nat.mod_eq_of_lt (by omega)]
  · rw [if_neg (by omega), if_pos h, if_neg (by omega), if_pos h.1,
      Nat.mod_eq_of_lt (by omega), show 10 + c - 97 = c - 87 by omega]
  · rw [if_neg (by omega), if_neg (by omega), if_pos h, if_neg (by omega), if_neg (by omega),
      Nat.mod_eq_of_lt (by omega), show 10 + c - 65 = c - 55 by omega]

theorem hexToNibble_of_not_hex (c p : ℕ) (h : ¬ IsHexChar c) : hexToNibble c p = (-1, p) := by
  unfold IsHexChar at h
  unfold hexToNibble
  rw [if_neg (fun h1 => h (Or.inl h1)), if_neg (fun h1 => h (Or.inr (Or.inl h1))),
    if_neg (fun h1 => h (Or.inr (Or.inr h1)))]

theorem nibbles_or (v0 v1 : ℕ) (h0 : v0 < 16) (h1 : v1 < 16) :
    (v0 <<< 4) % 256 ||| v1 = v0 * 16 + v1 := by
  rw [Nat.shiftLeft_eq, Nat.mod_eq_of_lt (by omega), Nat.mul_comm,
    Nat.mul_add_lt_is_or (show v1 < 2 ^ 4 by omega)]

theorem hexToByte_of_hex (s : List ℕ) (off p : ℕ) (h0 : IsHexChar (s.getD off 0))
    (h1 : IsHexChar (s.getD (off + 1) 0)) :
    hexToByte s off p = (0, hexValue (s.getD off 0) * 16 + hexValue (s.getD (off + 1) 0)) := by
  simp only [hexToByte, hexToNibble_of_hex _ _ h0, hexToNibble_of_hex _ _ h1, if_true]
  rw [nibbles_or _ _ (hexValue_lt _ h0) (hexValue_lt _ h1)]

theorem hexToByte_fst (s : List ℕ) (off p : ℕ) :
    ((hexToByte s off p).1 = 0 ∨ (hexToByte s off p).1 = -1) ∧
    ((hexToByte s off p).1 = 0 ↔
      IsHexChar (s.getD off 0) ∧ IsHexChar (s.getD (off + 1) 0)) := by
  by_cases h0 : IsHexChar (s.getD off 0)
  · by_cases h1 : IsHexChar (s.getD (off + 1) 0)
    · rw [hexToByte_of_hex s off p h0 h1]
      exact ⟨Or.inl rfl, fun _ => ⟨h0, h1⟩, fun _ => rfl⟩
    · have e : (hexToByte s off p).1 = -1 := by
        simp only [hexToByte, hexToNibble_of_hex _ _ h0, hexToNibble_of_not_hex _ _ h1,
          if_true]
        rfl
      rw [e]
      exact ⟨Or.inr rfl, fun h => absurd h (by decide), fun h => absurd h.2 h1⟩
  · have e : (hexToByte s off p).1 = -1 := by
      simp only [hexToByte, hexToNibble_of_not_hex _ _ h0]
      rfl
    rw [e]
    exact ⟨Or.inr rfl, fun h => absurd h (by decide), fun h => absurd h.1 h0⟩

theorem guidStep_of_hex (s : List ℕ) (off idx : ℕ) (data : List ℕ)
    (h0 : IsHexChar (s.getD off 0)) (h1 : IsHexChar (s.getD (off + 1) 0)) :
    guidStep s off idx (0, data) =
      (0, data.set idx (hexValue (s.getD off 0) * 16 + hexValue (s.getD (off + 1) 0))) := by
  simp only [guidStep, hexToByte_of_hex s off _ h0 h1, if_true]
  rfl

theorem guidStep_fst (s : List ℕ) (off idx : ℕ) (st : Int × List ℕ) :
    (guidStep s off idx st).1 = 0 ↔
      st.1 = 0 ∧ IsHexChar (s.getD off 0) ∧ IsHexChar (s.getD (off + 1) 0) := by
  unfold guidStep
  by_cases h : st.1 = 0
  · rw [if_pos h]
    simp only [h, zero_add, true_and]
    exact (hexToByte_fst s off _).2
  · rw [if_neg h]
    exact ⟨fun h2 => absurd h2 h, fun h2 => absurd h2.1 h⟩

/-- The digits of a GUID string: every position below 36 other than the four
dashes holds a hexadecimal digit. -/
theorem guid_digits_iff (s : List ℕ) :
    (∀ i, i < 36 → i ≠ 8 → i ≠ 13 → i ≠ 18 → i ≠ 23 → IsHexChar (s.getD i 0)) ↔
      ∀ j, j < 16 → IsHexChar (s.getD (guidDigitPos j) 0) ∧
        IsHexChar (s.getD (guidDigitPos j + 1) 0) := by
  constructor
  · intro h j hj
    interval_cases j <;>
      exact ⟨h _ (by decide) (by decide) (by decide) (by decide) (by decide),
        h _ (by decide) (by decide) (by decide) (by decide) (by decide)⟩
  · intro h i hi h8 h13 h18 h23
    have p0 := h 0 (by norm_num)
    have p1 := h 1 (by norm_num)
    have p2 := h 2 (by norm_num)
    have p3 := h 3 (by norm_num)
    have p4 := h 4 (by norm_num)
    have p5 := h 5 (by norm_num)
    have p6 := h 6 (by norm_num)
    have p7 := h 7 (by norm_num)
    have p8 := h 8 (by norm_num)
    have p9 := h 9 (by norm_num)
    have p10 := h 10 (by norm_num)
    have p11 := h 11 (by norm_num)
    have p12 := h 12 (by norm_num)
    have p13 := h 13 (by norm_num)
    have p14 := h 14 (by norm_num)
    have p15 := h 15 (by norm_num)
    interval_cases i <;>
      first
      | exact absurd rfl h8
      | exact absurd rfl h13
      | exact absurd rfl h18
      | exact absurd rfl h23
      | exact p0.1 | exact p0.2 | exact p1.1 | exact p1.2 | exact p2.1 | exact p2.2
      | exact p3.1 | exact p3.2 | exact p4.1 | exact p4.2 | exact p5.1 | exact p5.2
      | exact p6.1 | exact p6.2 | exact p7.1 | exact p7.2 | exact p8.1 | exact p8.2
      | exact p9.1 | exact p9.2 | exact p10.1 | exact p10.2 | exact p11.1 | exact p11.2
      | exact p12.1 | exact p12.2 | exact p13.1 | exact p13.2 | exact p14.1 | exact p14.2
      | exact p15.1 | exact p15.2

theorem code_eq_zero_iff (c : Prop) [Decidable c] : (if c then (0 : Int) else -1) = 0 ↔ c := by
  by_cases h : c
  · rw [if_pos h]
    exact ⟨fun _ => h, fun _ => rfl⟩
  · rw [if_neg h]
    exact ⟨fun h2 => absurd h2 (by decide), fun h2 => absurd h2 h⟩

/-- The sixteen statements of `GuidFromString` all succeed exactly when every
pair of digits is hexadecimal. -/
theorem guidSteps_fst (s data : List ℕ) :
    (guidStep s 34 15 (guidStep s 32 14 (guidStep s 30 13 (guidStep s 28 12
      (guidStep s 26 11 (guidStep s 24 10 (guidStep s 21 9 (guidStep s 19 8
      (guidStep s 16 6 (guidStep s 14 7 (guidStep s 11 4 (guidStep s 9 5
      (guidStep s 6 0 (guidStep s 4 1 (guidStep s 2 2 (guidStep s 0 3
        ((0 : Int), data))))))))))))))))).1 = 0 ↔
      ∀ j, j < 16 → IsHexChar (s.getD (guidDigitPos j) 0) ∧
        IsHexChar (s.getD (guidDigitPos j + 1) 0) := by
  simp only [guidStep_fst]
  constructor
  · intro h j hj
    obtain ⟨⟨⟨⟨⟨⟨⟨⟨⟨⟨⟨⟨⟨⟨⟨⟨-, a3, b3⟩, a2, b2⟩, a1, b1⟩, a0, b0⟩, a5, b5⟩, a4, b4⟩, a7, b7⟩, a6,
      b6⟩, a8, b8⟩, a9, b9⟩, a10, b10⟩, a11, b11⟩, a12, b12⟩, a13, b13⟩, a14, b14⟩, a15,
      b15⟩ := h
    interval_cases j <;>
      first
      | exact ⟨a0, b0⟩
      | exact ⟨a1, b1⟩
      | exact ⟨a2, b2⟩
      | exact ⟨a3, b3⟩
      | exact ⟨a4, b4⟩
      | exact ⟨a5, b5⟩
      | exact ⟨a6, b6⟩
      | exact ⟨a7, b7⟩
      | exact ⟨a8, b8⟩
      | exact ⟨a9, b9⟩
      | exact ⟨a10, b10⟩
      | exact ⟨a11, b11⟩
      | exact ⟨a12, b12⟩
      | exact ⟨a13, b13⟩
      | exact ⟨a14, b14⟩
      | exact ⟨a15, b15⟩
  · intro p
    exact ⟨⟨⟨⟨⟨⟨⟨⟨⟨⟨⟨⟨⟨⟨⟨⟨trivial, (p 3 (by norm_num)).1, (p 3 (by norm_num)).2⟩, (p 2 (by
      norm_num)).1, (p 2 (by norm_num)).2⟩, (p 1 (by norm_num)).1, (p 1 (by norm_num)).2⟩,
      (p 0 (by norm_num)).1, (p 0 (by norm_num)).2⟩, (p 5 (by norm_num)).1, (p 5 (by
      norm_num)).2⟩, (p 4 (by norm_num)).1, (p 4 (by norm_num)).2⟩, (p 7 (by norm_num)).1,
      (p 7 (by norm_num)).2⟩, (p 6 (by norm_num)).1, (p 6 (by norm_num)).2⟩, (p 8 (by
      norm_num)).1, (p 8 (by norm_num)).2⟩, (p 9 (by norm_num)).1, (p 9 (by norm_num)).2⟩,
      (p 10 (by norm_num)).1, (p 10 (by norm_num)).2⟩, (p 11 (by norm_num)).1, (p 11 (by
      norm_num)).2⟩, (p 12 (by norm_num)).1, (p 12 (by norm_num)).2⟩, (p 13 (by
      norm_num)).1, (p 13 (by norm_num)).2⟩, (p 14 (by norm_num)).1, (p 14 (by
      norm_num)).2⟩, (p 15 (by norm_num)).1, (p 15 (by norm_num)).2⟩

/-- The result code of `GuidFromString` on present arguments. -/
theorem GuidFromString_fst (s data : List ℕ) :
    ((GuidFromString (some s) (some data)).1 = 0 ∨
      (GuidFromString (some s) (some data)).1 = -1) ∧
    ((GuidFromString (some s) (some data)).1 = 0 ↔
      36 ≤ strlen s ∧
      (s.getD 8 0 = 45 ∧ s.getD 13 0 = 45 ∧ s.getD 18 0 = 45 ∧ s.getD 23 0 = 45) ∧
      ∀ j, j < 16 → IsHexChar (s.getD (guidDigitPos j) 0) ∧
        IsHexChar (s.getD (guidDigitPos j + 1) 0)) := by
  simp only [GuidFromString]
  by_cases hl : strlen s ≥ GUID_AS_STR_LENGTH - 1
  · rw [if_pos hl]
    by_cases hd : s.getD 8 0 = 45 ∧ s.getD 13 0 = 45 ∧ s.getD 18 0 = 45 ∧ s.getD 23 0 = 45
    · rw [if_pos hd]
      simp only
      refine ⟨?_, ?_⟩
      · split_ifs
        · exact Or.inl rfl
        · exact Or.inr rfl
      · rw [code_eq_zero_iff, guidSteps_fst]
        exact ⟨fun h => ⟨hl, hd, h⟩, fun h => h.2.2⟩
    · rw [if_neg hd]
      exact ⟨Or.inr rfl, fun h => absurd h (by decide : (-1 : Int) ≠ 0), fun h => absurd h.2.1 hd⟩
  · rw [if_neg hl]
    exact ⟨Or.inr rfl, fun h => absurd h (by decide : (-1 : Int) ≠ 0), fun h => absurd h.1 hl⟩

theorem GuidFromString_of_hex (s data : List ℕ) (hl : 36 ≤ strlen s)
    (hd : s.getD 8 0 = 45 ∧ s.getD 13 0 = 45 ∧ s.getD 18 0 = 45 ∧ s.getD 23 0 = 45)
    (h : ∀ j, j < 16 → IsHexChar (s.getD (guidDigitPos j) 0) ∧
      IsHexChar (s.getD (guidDigitPos j + 1) 0)) :
    GuidFromString (some s) (some data) = (0, some (guidParsed s data)) := by
  simp only [GuidFromString]
  rw [if_pos (show strlen s ≥ GUID_AS_STR_LENGTH - 1 from hl), if_pos hd]
  rw [guidStep_of_hex s 0 3 _ (h 3 (by norm_num)).1 (h 3 (by norm_num)).2]
  rw [guidStep_of_hex s 2 2 _ (h 2 (by norm_num)).1 (h 2 (by norm_num)).2]
  rw [guidStep_of_hex s 4 1 _ (h 1 (by norm_num)).1 (h 1 (by norm_num)).2]
  rw [guidStep_of_hex s 6 0 _ (h 0 (by norm_num)).1 (h 0 (by norm_num)).2]
  rw [guidStep_of_hex s 9 5 _ (h 5 (by norm_num)).1 (h 5 (by norm_num)).2]
  rw [guidStep_of_hex s 11 4 _ (h 4 (by norm_num)).1 (h 4 (by norm_num)).2]
  rw [guidStep_of_hex s 14 7 _ (h 7 (by norm_num)).1 (h 7 (by norm_num)).2]
  rw [guidStep_of_hex s 16 6 _ (h 6 (by norm_num)).1 (h 6 (by norm_num)).2]
  rw [guidStep_of_hex s 19 8 _ (h 8 (by norm_num)).1 (h 8 (by norm_num)).2]
  rw [guidStep_of_hex s 21 9 _ (h 9 (by norm_num)).1 (h 9 (by norm_num)).2]
  rw [guidStep_of_hex s 24 10 _ (h 10 (by norm_num)).1 (h 10 (by norm_num)).2]
  rw [guidStep_of_hex s 26 11 _ (h 11 (by norm_num)).1 (h 11 (by norm_num)).2]
  rw [guidStep_of_hex s 28 12 _ (h 12 (by norm_num)).1 (h 12 (by norm_num)).2]
  rw [guidStep_of_hex s 30 13 _ (h 13 (by norm_num)).1 (h 13 (by norm_num)).2]
  rw [guidStep_of_hex s 32 14 _ (h 14 (by norm_num)).1 (h 14 (by norm_num)).2]
  rw [guidStep_of_hex s 34 15 _ (h 15 (by norm_num)).1 (h 15 (by norm_num)).2]
  rfl

theorem length_guidParsed (s data : List ℕ) : (guidParsed s data).length = data.length := by
  simp only [guidParsed, List.length_set]

theorem getD_guidParsed (s data : List ℕ) (hlen : data.length = 16) (j : ℕ) (hj : j < 16) :
    (guidParsed s data).getD j 0 = guidByte s j := by
  simp only [guidParsed, getD_set_eq, List.length_set, hlen]
  interval_cases j <;> simp

theorem strlen_eq (n : ℕ) : ∀ s : List ℕ, (∀ i, i < n → s.getD i 0 ≠ 0) → s.getD n 0 = 0 →
    strlen s = n := by
  induction n with
  | zero =>
    intro s _ h0
    cases s with
    | nil => rfl
    | cons c t =>
      have hc : c = 0 := h0
      simp only [strlen, hc, if_true]
  | succ n ih =>
    intro s h h0
    cases s with
    | nil => exact absurd rfl (h 0 (Nat.succ_pos n))
    | cons c t =>
      have hc : c ≠ 0 := h 0 (Nat.succ_pos n)
      simp only [strlen, hc, if_false]
      rw [ih t (fun i hi => h (i + 1) (Nat.succ_lt_succ hi)) h0]

theorem hexDigit_isHex (n : ℕ) (h : n < 16) : IsHexChar (hexDigit n) := by
  unfold hexDigit IsHexChar
  split_ifs <;> omega

theorem hexValue_hexDigit (n : ℕ) (h : n < 16) : hexValue (hexDigit n) = n := by
  unfold hexDigit hexValue
  split_ifs <;> omega

theorem hexDigit_ne_zero (n : ℕ) : hexDigit n ≠ 0 := by
  unfold hexDigit
  split_ifs <;> omega

theorem guidText_eq (g : List ℕ) :
    guidText g =
      [hexDigit (g.getD 3 0 % 256 / 16), hexDigit (g.getD 3 0 % 256 % 16), hexDigit
        (g.getD 2 0 % 256 / 16), hexDigit (g.getD 2 0 % 256 % 16), hexDigit (g.getD 1 0 %
        256 / 16), hexDigit (g.getD 1 0 % 256 % 16), hexDigit (g.getD 0 0 % 256 / 16),
        hexDigit (g.getD 0 0 % 256 % 16), 45, hexDigit (g.getD 5 0 % 256 / 16), hexDigit
        (g.getD 5 0 % 256 % 16), hexDigit (g.getD 4 0 % 256 / 16), hexDigit (g.getD 4 0 %
        256 % 16), 45, hexDigit (g.getD 7 0 % 256 / 16), hexDigit (g.getD 7 0 % 256 % 16),
        hexDigit (g.getD 6 0 % 256 / 16), hexDigit (g.getD 6 0 % 256 % 16), 45, hexDigit
        (g.getD 8 0 % 256 / 16), hexDigit (g.getD 8 0 % 256 % 16), hexDigit (g.getD 9 0 %
        256 / 16), hexDigit (g.getD 9 0 % 256 % 16), 45, hexDigit (g.getD 10 0 % 256 / 16),
        hexDigit (g.getD 10 0 % 256 % 16), hexDigit (g.getD 11 0 % 256 / 16), hexDigit
        (g.getD 11 0 % 256 % 16), hexDigit (g.getD 12 0 % 256 / 16), hexDigit (g.getD 12 0 %
        256 % 16), hexDigit (g.getD 13 0 % 256 / 16), hexDigit (g.getD 13 0 % 256 % 16),
        hexDigit (g.getD 14 0 % 256 / 16), hexDigit (g.getD 14 0 % 256 % 16), hexDigit
        (g.getD 15 0 % 256 / 16), hexDigit (g.getD 15 0 % 256 % 16)] := by
  simp only [guidText, fmt02hhx, List.cons_append, List.nil_append, List.append_assoc]

theorem length_guidText (g : List ℕ) : (guidText g).length = 36 := by
  rw [guidText_eq]
  simp only [List.length_cons, List.length_nil]

/-- The string `GuidToString` stores: the 36 characters of the text, then the
terminator. -/
theorem getD_snprintfText (buf g : List ℕ) (i : ℕ) (hi : i ≤ 36) :
    (snprintfText buf GUID_AS_STR_LENGTH (guidText g)).getD i 0 =
      if i < 36 then (guidText g).getD i 0 else 0 := by
  have e : snprintfText buf GUID_AS_STR_LENGTH (guidText g)
      = guidText g ++ (0 :: buf.drop 37) := by
    simp only [snprintfText, length_guidText, GUID_AS_STR_LENGTH, Nat.add_one_sub_one,
      Nat.min_self, List.append_assoc, List.singleton_append, Nat.reduceAdd, Nat.reduceSub]
    rw [List.take_of_length_le (by rw [length_guidText])]
  rw [e]
  by_cases h : i < 36
  · rw [if_pos h, List.getD_append _ _ _ _ (by rw [length_guidText]; exact h)]
  · rw [if_neg h, List.getD_append_right _ _ _ _ (by rw [length_guidText]; omega),
      length_guidText, show i - 36 = 0 by omega]
    rfl

/-- The digits of the printed text at the positions of `Data[j]`. -/
theorem getD_guidText (g : List ℕ) (j : ℕ) (hj : j < 16) :
    (guidText g).getD (guidDigitPos j) 0 = hexDigit (g.getD j 0 % 256 / 16) ∧
    (guidText g).getD (guidDigitPos j + 1) 0 = hexDigit (g.getD j 0 % 256 % 16) := by
  rw [guidText_eq]
  interval_cases j <;> exact ⟨rfl, rfl⟩

theorem guidText_ne_zero (g : List ℕ) (i : ℕ) (hi : i < 36) : (guidText g).getD i 0 ≠ 0 := by
  rw [guidText_eq]
  interval_cases i <;>
    first
    | exact hexDigit_ne_zero _
    | exact (by decide : (45 : ℕ) ≠ 0)

theorem guidPos_lt (j : ℕ) (hj : j < 16) : guidDigitPos j + 1 < 36 := by
  interval_cases j <;> decide

/-- Parsing the printed text of a GUID gives the GUID back. -/
theorem GuidFromString_guidText (g buf guid0 : List ℕ) (hg : g.length = 16) (hb : IsBytes g)
    (h0 : guid0.length = 16) :
    strlen (snprintfText buf GUID_AS_STR_LENGTH (guidText g)) = 36 ∧
    GuidFromString (some (snprintfText buf GUID_AS_STR_LENGTH (guidText g))) (some guid0)
      = (0, some g) := by
  have hs : ∀ i, i < 36 → (snprintfText buf GUID_AS_STR_LENGTH (guidText g)).getD i 0
      = (guidText g).getD i 0 := by
    intro i hi
    rw [getD_snprintfText buf g i (by omega), if_pos hi]
  have hlen : strlen (snprintfText buf GUID_AS_STR_LENGTH (guidText g)) = 36 := by
    apply strlen_eq
    · intro i hi
      rw [hs i hi]
      exact guidText_ne_zero g i hi
    · rw [getD_snprintfText buf g 36 (le_refl _)]
      rfl
  have hbyte : ∀ j, g.getD j 0 % 256 = g.getD j 0 := fun j => Nat.mod_eq_of_lt (hb.getD j)
  have hdig : ∀ j, j < 16 →
      (snprintfText buf GUID_AS_STR_LENGTH (guidText g)).getD (guidDigitPos j) 0
        = hexDigit (g.getD j 0 / 16) ∧
      (snprintfText buf GUID_AS_STR_LENGTH (guidText g)).getD (guidDigitPos j + 1) 0
        = hexDigit (g.getD j 0 % 16) := by
    intro j hj
    have hp := guidPos_lt j hj
    rw [hs _ (by omega), hs _ hp, (getD_guidText g j hj).1, (getD_guidText g j hj).2, hbyte]
    exact ⟨rfl, rfl⟩
  have hdash : (snprintfText buf GUID_AS_STR_LENGTH (guidText g)).getD 8 0 = 45 ∧
      (snprintfText buf GUID_AS_STR_LENGTH (guidText g)).getD 13 0 = 45 ∧
      (snprintfText buf GUID_AS_STR_LENGTH (guidText g)).getD 18 0 = 45 ∧
      (snprintfText buf GUID_AS_STR_LENGTH (guidText g)).getD 23 0 = 45 := by
    rw [hs 8 (by norm_num), hs 13 (by norm_num), hs 18 (by norm_num), hs 23 (by norm_num),
      guidText_eq]
    exact ⟨rfl, rfl, rfl, rfl⟩
  have hhex : ∀ j, j < 16 →
      IsHexChar ((snprintfText buf GUID_AS_STR_LENGTH (guidText g)).getD (guidDigitPos j) 0) ∧
      IsHexChar
        ((snprintfText buf GUID_AS_STR_LENGTH (guidText g)).getD (guidDigitPos j + 1) 0) := by
    intro j hj
    rw [(hdig j hj).1, (hdig j hj).2]
    exact ⟨hexDigit_isHex _ (by have := hb.getD j; omega), hexDigit_isHex _ (by omega)⟩
  have hparsed : guidParsed (snprintfText buf GUID_AS_STR_LENGTH (guidText g)) guid0 = g := by
    apply list_ext_getD
    · rw [length_guidParsed, h0, hg]
    · intro j hj
      rw [length_guidParsed, h0] at hj
      rw [getD_guidParsed _ _ h0 j hj, guidByte, (hdig j hj).1, (hdig j hj).2,
        hexValue_hexDigit _ (by have := hb.getD j; omega),
        hexValue_hexDigit _ (by omega)]
      omega
  refine ⟨hlen, ?_⟩
  rw [GuidFromString_of_hex _ guid0 (le_of_eq hlen.symm) hdash hhex, hparsed]

/-- C25: for every string and every GUID (both pointers non-null),
`GuidFromString` returns 0 or -1, and it returns 0 if and only if the string
has at least 36 characters, has the dash (code 45) at the indices 8, 13, 18
and 23, and has a hexadecimal digit at each of the other 32 positions below 36.
On success `Data[j]` holds the value of the two digits at the position the
documented layout `b4 b3 b2 b1 - b6 b5 - b8 b7 - b9 b10 - b11 .. b16` gives it:
the positions of the first digits of `Data[0] .. Data[15]` are
6, 4, 2, 0, 11, 9, 16, 14, 19, 21, 24, 26, 28, 30, 32, 34. -/
theorem C25_guid_from_string (s data : List ℕ) (hlen : data.length = 16) :
    ((GuidFromString (some s) (some data)).1 = 0 ∨
      (GuidFromString (some s) (some data)).1 = -1) ∧
    ((GuidFromString (some s) (some data)).1 = 0 ↔
      36 ≤ strlen s ∧
      (s.getD 8 0 = 45 ∧ s.getD 13 0 = 45 ∧ s.getD 18 0 = 45 ∧ s.getD 23 0 = 45) ∧
      ∀ i, i < 36 → i ≠ 8 → i ≠ 13 → i ≠ 18 → i ≠ 23 → IsHexChar (s.getD i 0)) ∧
    ((GuidFromString (some s) (some data)).1 = 0 →
      ∃ d, (GuidFromString (some s) (some data)).2 = some d ∧ d.length = 16 ∧
        ∀ j, j < 16 → d.getD j 0 =
          hexValue (s.getD (guidDigitPos j) 0) * 16
            + hexValue (s.getD (guidDigitPos j + 1) 0)) ∧
    (List.range 16).map guidDigitPos
      = [6, 4, 2, 0, 11, 9, 16, 14, 19, 21, 24, 26, 28, 30, 32, 34] := by
  have h := GuidFromString_fst s data
  refine ⟨h.1, ?_, ?_, by decide⟩
  · rw [h.2, guid_digits_iff]
  · intro h0
    obtain ⟨hl, hd, hx⟩ := h.2.1 h0
    rw [GuidFromString_of_hex s data hl hd hx]
    exact ⟨_, rfl, by rw [length_guidParsed, hlen],
      fun j hj => getD_guidParsed s data hlen j hj⟩

theorem C25_guid_from_string_witness :
    (List.replicate 16 0).length = 16 ∧
    (GuidFromString (some exampleGuidString) (some (List.replicate 16 0))).1 = 0 :=
  ⟨List.length_replicate 16 0,
    (C25_guid_from_string exampleGuidString (List.replicate 16 0)
      (List.length_replicate 16 0)).2.1.2 ⟨by decide, by decide, by decide⟩⟩

/-- C26: for every 16-byte GUID `g`, `GuidToString` succeeds and stores a
string of 36 characters that `GuidFromString` accepts (it returns 0) and
parses back to exactly `g`, whatever the string buffer and the target GUID
held before. -/
theorem C26_guid_string_roundtrip (g buf guid0 : List ℕ) (hg : g.length = 16)
    (hb : IsBytes g) (h0 : guid0.length = 16) :
    (GuidToString (some g) (some buf)).1 = 0 ∧
    ∃ s, (GuidToString (some g) (some buf)).2 = some s ∧ strlen s = 36 ∧
      GuidFromString (some s) (some guid0) = (0, some g) :=
  ⟨rfl, _, rfl, GuidFromString_guidText g buf guid0 hg hb h0⟩

theorem C26_guid_string_roundtrip_witness :
    (List.range 16).length = 16 ∧ IsBytes (List.range 16) ∧
    ∃ s, (GuidToString (some (List.range 16)) (some [])).2 = some s ∧ strlen s = 36 ∧
      GuidFromString (some s) (some (List.replicate 16 0)) = (0, some (List.range 16)) :=
  ⟨List.length_range 16, by decide,
    (C26_guid_string_roundtrip (List.range 16) [] (List.replicate 16 0) (List.length_range 16)
      (by decide) (List.length_replicate 16 0)).2⟩

/-! ## Parve: encryption inverts decryption -/

namespace MACHelper

set_option maxRecDepth 100000 in
theorem rol_ror : ∀ x, x < 256 → rol1 (ror1 x) = x := by
  decide

theorem length_decStep (key sbox : List ℕ) (r i : ℕ) (block : List ℕ) :
    (decStep key sbox r i block).length = block.length := by
  simp [decStep]

theorem isBytes_decStep (key sbox : List ℕ) (r i : ℕ) {block : List ℕ}
    (h : IsBytes block) : IsBytes (decStep key sbox r i block) := by
  unfold decStep
  exact h.set _ _ (Nat.mod_lt _ (by norm_num))

theorem length_decInner (key sbox : List ℕ) (r n : ℕ) (block : List ℕ) :
    (decInner key sbox r n block).length = block.length := by
  induction n generalizing block with
  | zero => rfl
  | succ n ih => simp [decInner, length_decStep, ih]

theorem isBytes_decInner (key sbox : List ℕ) (r n : ℕ) {block : List ℕ}
    (h : IsBytes block) : IsBytes (decInner key sbox r n block) := by
  induction n generalizing block with
  | zero => exact h
  | succ n ih => exact ih (isBytes_decStep key sbox r n h)

theorem length_decRound (key sbox : List ℕ) (r : ℕ) (block : List ℕ) :
    (decRound key sbox r block).length = block.length := by
  simp [decRound, length_decInner]

theorem isBytes_decRound (key sbox : List ℕ) (r : ℕ) {block : List ℕ}
    (h : IsBytes block) : IsBytes (decRound key sbox r block) := by
  unfold decRound
  exact isBytes_decInner key sbox r _ (h.set _ _ (Nat.mod_lt _ (by norm_num)))

theorem length_decRounds (key sbox : List ℕ) (n : ℕ) (block : List ℕ) :
    (decRounds key sbox n block).length = block.length := by
  induction n with
  | zero => rfl
  | succ n ih => simp [decRounds, ih, length_decRound]

theorem isBytes_decRounds (key sbox : List ℕ) (n : ℕ) {block : List ℕ}
    (h : IsBytes block) : IsBytes (decRounds key sbox n block) := by
  induction n with
  | zero => exact h
  | succ n ih => exact isBytes_decRound key sbox (n + 1) ih

/-- The byte arithmetic of one inverse step is undone by the matching cipher
step. -/
theorem step_byte (x s : ℕ) (hx : x < 256) :
    rol1 (((ror1 x + 256 - s % 256) % 256 + s) % 256) = x := by
  have hr : ror1 x < 256 := Nat.mod_lt _ (by norm_num)
  rw [show ((ror1 x + 256 - s % 256) % 256 + s) % 256 = ror1 x by omega]
  exact rol_ror x hx

theorem encStep_decStep (key sbox : List ℕ) (r i : ℕ) {block : List ℕ}
    (hb : IsBytes block) (hi : i + 1 < block.length) :
    encStep key sbox r i (decStep key sbox r i block) = block := by
  apply list_ext_getD
  · simp [decStep, encStep]
  · intro p hp
    have hx := hb.getD (i + 1)
    simp only [decStep, encStep, getD_set_eq, List.length_set]
    rw [if_neg (by omega : ¬ (i + 1 = i ∧ i + 1 < block.length))]
    simp only [true_and, hi, if_true, and_true]
    split
    · rename_i h
      rw [step_byte _ _ hx, h]
    · rfl

theorem encInner_decInner (key sbox : List ℕ) (r n : ℕ) {block : List ℕ}
    (hb : IsBytes block) (hn : n < block.length) :
    encInner key sbox r n (decInner key sbox r n block) = block := by
  induction n generalizing block with
  | zero => rfl
  | succ n ih =>
    simp only [encInner, decInner]
    rw [ih (isBytes_decStep key sbox r n hb) (by rw [length_decStep]; omega)]
    exact encStep_decStep key sbox r n hb hn

theorem encRound_decRound (key sbox : List ℕ) (r : ℕ) {block : List ℕ}
    (hb : IsBytes block) (hlen : block.length = 8) :
    encRound key sbox r (decRound key sbox r block) = block := by
  have hx := hb.getD 0
  have hsb : IsBytes (block.set 0 ((ror1 (block.getD 0 0) + 256
      - sbox.getD ((key.getD 7 0 + block.getD 7 0 + r) &&& 255) 0 % 256) % 256)) :=
    hb.set _ _ (Nat.mod_lt _ (by norm_num))
  unfold encRound decRound
  simp only [Nat.add_one_sub_one, CS64Defs.BLK_SIZE, Nat.reduceSub]
  rw [encInner_decInner key sbox r 7 hsb (by rw [List.length_set, hlen]; norm_num)]
  apply list_ext_getD
  · simp
  · intro p hp
    simp only [getD_set_eq, List.length_set, hlen]
    rw [if_neg (by omega : ¬ (0 = 7 ∧ 0 < 8))]
    have h8 : (0 : ℕ) < 8 := by norm_num
    simp only [true_and, h8, if_true, and_true]
    split
    · rename_i h
      rw [step_byte _ _ hx, h]
    · rfl

theorem encRounds_decRounds (key sbox : List ℕ) (n : ℕ) {block : List ℕ}
    (hb : IsBytes block) (hlen : block.length = 8) :
    encRounds key sbox n (decRounds key sbox n block) = block := by
  induction n with
  | zero => rfl
  | succ n ih =>
    simp only [encRounds, decRounds]
    rw [encRound_decRound key sbox (n + 1) (isBytes_decRounds key sbox n hb)
      (by rw [length_decRounds]; exact hlen)]
    exact ih

theorem parve_encrypt_decrypt (key sbox : List ℕ) {block : List ℕ}
    (hb : IsBytes block) (hlen : block.length = 8) :
    ParveEncryptBlock key sbox (ParveDecryptBlock key sbox block) = block :=
  encRounds_decRounds key sbox 8 hb hlen

end MACHelper

/-! ## `CS64ComputeMAC` over the words that `CS64InvertMAC` returns -/

namespace CS64Key

/-- The algebra of the inversion, read forwards: one pass of the loop body over
the two words that the inversion computes from a target `(yn, sum)` reaches
that target. -/
theorem macStep_of_invert {K : CS64Key} (hK : K.Valid) (data : List ℕ)
    (index chain sum0 yn s : ℕ) (hyn : yn < 2 ^ 32) (hs : s < 2 ^ 32)
    (e0 : Utils.ReadUInt32 data (index <<< 2) =
      (K.invE * wsub32 ((K.invA * wsub32 (wsub32 (wsub32 s sum0) yn) K.b) % 2 ^ 32) chain)
        % 2 ^ 32)
    (e1 : Utils.ReadUInt32 data ((index + 1) <<< 2) =
      wsub32 ((K.invC * wsub32 yn K.d) % 2 ^ 32) (wsub32 (wsub32 s sum0) yn)) :
    macStep K data index chain sum0 = (yn, s) := by
  have hA := hK.castA
  have hC := hK.castC
  have hE := hK.castE
  have hlt := macStep_lt K data index chain sum0
  have h1 : (macStep K data index chain sum0).1 = yn := by
    apply eq_of_cast_eq hlt.1 hyn
    simp only [macStep, e0, e1, cast_wsub32, cast_mod32, Nat.cast_mul, Nat.cast_add]
    linear_combination ((K.c : Z32) * ((K.invA : Z32) * ((s : Z32) - (sum0 : Z32) - (yn : Z32)
      - (K.b : Z32)) - (chain : Z32))) * (K.a : Z32) * hE
      + ((K.c : Z32) * ((s : Z32) - (sum0 : Z32) - (yn : Z32) - (K.b : Z32))) * hA
      + ((yn : Z32) - (K.d : Z32)) * hC
  have h2 : (macStep K data index chain sum0).2 = s := by
    apply eq_of_cast_eq hlt.2 hs
    simp only [macStep, e0, e1, cast_wsub32, cast_mod32, Nat.cast_mul, Nat.cast_add]
    linear_combination (((K.c : Z32) + 1) * ((K.invA : Z32) * ((s : Z32) - (sum0 : Z32)
      - (yn : Z32) - (K.b : Z32)) - (chain : Z32))) * (K.a : Z32) * hE
      + (((K.c : Z32) + 1) * ((s : Z32) - (sum0 : Z32) - (yn : Z32) - (K.b : Z32))) * hA
      + ((yn : Z32) - (K.d : Z32)) * hC
  exact Prod.ext h1 h2

end CS64Key

namespace CS64Key

/-- The chain-and-sum MAC of a buffer whose last two words are the ones
`CS64InvertMAC` computes for a target MAC is that target: the inversion is also
a right inverse. -/
theorem CS64ComputeMAC_of_invert {K : CS64Key} (hK : K.Valid) (T B : List ℕ)
    (n dataLength hash : ℕ) (hlen : dataLength / 4 = 2 * (n + 1)) (hh : hash < 2 ^ 64)
    (hag : ∀ q, q < 2 * n → Utils.ReadUInt32 B (q <<< 2) = Utils.ReadUInt32 T (q <<< 2))
    (hlo : Utils.ReadUInt32 B ((2 * n + 1) <<< 2) < 2 ^ 32)
    (hX : Utils.MakeUInt64 (Utils.ReadUInt32 B ((2 * n) <<< 2))
      (Utils.ReadUInt32 B ((2 * n + 1) <<< 2)) = CS64InvertMAC K T dataLength hash) :
    CS64ComputeMAC K B (2 * (n + 1)) = hash := by
  rw [CS64InvertMAC_eq K T n dataLength hlen] at hX
  obtain ⟨e0, e1⟩ := Utils.MakeUInt64_inj hlo (wsub32_lt _ _) hX
  have hpre : macLoop K B n 0 0 0 = macLoop K T n 0 0 0 :=
    macLoop_congr K n 0 0 0 (fun q _ hq => hag q (by omega))
  rw [CS64ComputeMAC_eq_macLoop, show 2 * (n + 1) / 2 - 1 + 1 = n + 1 by omega,
    macLoop_succ_last, Nat.zero_add, hpre,
    macStep_of_invert hK B (2 * n) _ _ (Utils.Hi hash) (Utils.Lo hash) (Utils.Hi_lt _)
      (Utils.Lo_lt _) e0 e1]
  simp only [Utils.Hi, Utils.Lo, Nat.shiftLeft_eq, Nat.shiftRight_eq_div_pow]
  omega

end CS64Key

theorem Utils.ReadUInt32_WriteUInt64_MakeUInt64 {buf : List ℕ} (hb : IsBytes buf) (M hi lo : ℕ)
    (h : M + 8 ≤ buf.length) (hhi : hi < 2 ^ 32) (hlo : lo < 2 ^ 32) :
    Utils.ReadUInt32 (Utils.WriteUInt64 (Utils.MakeUInt64 hi lo) buf M) M = hi ∧
    Utils.ReadUInt32 (Utils.WriteUInt64 (Utils.MakeUInt64 hi lo) buf M) (M + 4) = lo := by
  have hB := Utils.isBytes_WriteUInt64 (Utils.MakeUInt64 hi lo) M hb
  have e := Utils.ReadUInt64_WriteUInt64 (Utils.MakeUInt64 hi lo) M hb h
    (Utils.MakeUInt64_lt hhi hlo)
  rw [Utils.ReadUInt64_eq_MakeUInt64 hB] at e
  exact Utils.MakeUInt64_inj (Utils.ReadUInt32_lt hB _) hlo e

namespace CSParve64

/-- Encryption undoes decryption: every buffer of bytes of valid length is the
encryption of its decryption, with the same MAC. -/
theorem Encrypt_Decrypt (inst : CSParve64) (hK : inst.CsKey.Valid) (C : List ℕ) (k : ℕ)
    (hk : 1 ≤ k) (hL : 8 * k < 2 ^ 32) (hlen : C.length = 8 * k) (hb : IsBytes C) :
    inst.Encrypt (inst.Decrypt C (8 * k)).2.1 (8 * k) =
      (CSPARVE64_OK, C, (inst.Decrypt C (8 * k)).2.2) := by
  have h4 : 4 * ((8 * k - 8) >>> 2) = 8 * k - 8 := by rw [Nat.shiftRight_eq_div_pow]; omega
  rw [Decrypt_eq inst C k hk hL hlen]
  simp only
  set M := 8 * k - 8 with hM
  set key0 := BV4Key.new C M 8 with hkey0
  set pre := (BV4Key.cryptLoop (M >>> 2) key0 0 C).2.take M with hpre
  set P := MACHelper.ParveDecryptBlock inst.ParveKey inst.SBox (C.drop M) with hP
  set mac := Utils.ReadUInt64 P 0 with hmac
  set T := pre ++ P with hT
  set X := inst.CsKey.CS64InvertMAC T (8 * k) mac with hX
  set B := Utils.WriteUInt64 X T M with hB
  -- shapes
  have hcl : (BV4Key.cryptLoop (M >>> 2) key0 0 C).2.length = 8 * k := by
    rw [BV4Key.length_cryptLoop, hlen]
  have hclb : IsBytes (BV4Key.cryptLoop (M >>> 2) key0 0 C).2 :=
    BV4Key.isBytes_cryptLoop _ _ _ hb
  have hprelen : pre.length = M := by rw [hpre, List.length_take, hcl]; omega
  have hdroplen : (C.drop M).length = 8 := by rw [List.length_drop, hlen]; omega
  have hPlen : P.length = 8 := by
    rw [hP, MACHelper.ParveDecryptBlock, MACHelper.length_decRounds, hdroplen]
  have hPb : IsBytes P := MACHelper.isBytes_decRounds _ _ _ (hb.drop M)
  have hTlen : T.length = 8 * k := by rw [hT, List.length_append, hprelen, hPlen]; omega
  have hTb : IsBytes T := (hclb.take M).append hPb
  have hmaclt : mac < 2 ^ 64 := by
    rw [hmac, Utils.ReadUInt64_eq_MakeUInt64 hPb]
    exact Utils.MakeUInt64_lt (Utils.ReadUInt32_lt hPb _) (Utils.ReadUInt32_lt hPb _)
  have hBlen : B.length = 8 * k := by rw [hB, Utils.length_WriteUInt64, hTlen]
  have hBb : IsBytes B := Utils.isBytes_WriteUInt64 _ _ hTb
  -- the MAC of the decrypted buffer is the MAC that `Decrypt` returns
  have hcompute : inst.CsKey.CS64ComputeMAC B (8 * k / 4) = mac := by
    obtain ⟨n, rfl⟩ : ∃ n, k = n + 1 := ⟨k - 1, by omega⟩
    have hdl : 8 * (n + 1) / 4 = 2 * (n + 1) := by omega
    have hXeq := CS64Key.CS64InvertMAC_eq inst.CsKey T n (8 * (n + 1)) hdl mac
    rw [hdl]
    apply CS64Key.CS64ComputeMAC_of_invert hK T B n (8 * (n + 1)) mac hdl hmaclt
    · intro q hq
      rw [hB]
      exact Utils.ReadUInt32_WriteUInt64_out _ _ _ _ (Or.inl (by rw [BV4Key.shl2]; omega))
    · exact Utils.ReadUInt32_lt hBb _
    · have hw := Utils.ReadUInt32_WriteUInt64_MakeUInt64 hTb M _ _ (by omega)
        (show (inst.CsKey.invE * wsub32 ((inst.CsKey.invA * wsub32 (wsub32 (wsub32
          (Utils.Lo mac) (CS64Key.macLoop inst.CsKey T n 0 0 0).2) (Utils.Hi mac))
          inst.CsKey.b) % 2 ^ 32) (CS64Key.macLoop inst.CsKey T n 0 0 0).1) % 2 ^ 32 < 2 ^ 32
          from Nat.mod_lt _ (by norm_num))
        (wsub32_lt ((inst.CsKey.invC * wsub32 (Utils.Hi mac) inst.CsKey.d) % 2 ^ 32)
          (wsub32 (wsub32 (Utils.Lo mac) (CS64Key.macLoop inst.CsKey T n 0 0 0).2)
            (Utils.Hi mac)))
      rw [← hXeq] at hw
      rw [BV4Key.shl2, BV4Key.shl2, show 4 * (2 * n) = M by omega,
        show 4 * (2 * n + 1) = M + 4 by omega, hB, hX, hw.1, hw.2, hXeq]
  -- the block that `Encrypt` hands to Parve, and the buffer it hands to BV4
  have hblock : MACHelper.ParveEncryptBlock inst.ParveKey inst.SBox
      (Utils.WriteUInt64 mac (List.replicate 8 0) 0) = C.drop M := by
    rw [hmac, Utils.WriteUInt64_ReadUInt64_block hPb hPlen, hP]
    exact MACHelper.parve_encrypt_decrypt _ _ (hb.drop M) hdroplen
  have htake : B.take M = pre := by
    rw [hB, take_WriteUInt64, hT]
    exact List.take_left' hprelen
  have hd : (BV4Key.cryptLoop (M >>> 2) key0 0 C).2.drop M = C.drop M :=
    take_append_drop_of_getD M (hcl.trans hlen.symm)
      (fun p hp => BV4Key.getD_cryptLoop_out _ _ _ _ _ (Or.inr (by omega)))
  have hbuf : pre ++ C.drop M = (BV4Key.cryptLoop (M >>> 2) key0 0 C).2 := by
    rw [hpre, ← hd, List.take_append_drop]
  -- the BV4 key of the encryption is the BV4 key of the decryption
  have hkey : BV4Key.new (BV4Key.cryptLoop (M >>> 2) key0 0 C).2 M 8 = key0 := by
    apply BV4Key.new_congr
    intro j _
    exact BV4Key.getD_cryptLoop_out _ _ _ _ _ (Or.inr (by omega))
  rw [Encrypt_eq inst B k hk hL hBlen, hcompute, hblock, htake, hbuf, hkey,
    BV4Key.cryptLoop_cryptLoop _ _ hb (by omega)]

end CSParve64

/-! ## Every buffer is a ciphertext -/

/-- The components of a triple that equals a given triple. -/
theorem triple_of_eq {α β γ : Type} {x : α × β × γ} {a : α} {b : β} {c : γ}
    (h : x = (a, b, c)) : x.1 = a ∧ x.2.1 = b ∧ x.2.2 = c := by
  subst h
  exact ⟨rfl, rfl, rfl⟩


/-- C31: for every context built from 32-bit configuration words, every
instance created from it and every buffer `C` of bytes of valid length `8 * k`
with `k ≥ 1`: `Decrypt` on `C` and then `Encrypt` on the result succeed and
give `C` again, and the MAC returned by `Encrypt` equals the MAC returned by
`Decrypt`; in the other order `Encrypt` and then `Decrypt` give `C` again with
the same MAC, so the two are mutually inverse on buffers of each length. -/
theorem C31_every_buffer_is_ciphertext (config20 sbox : List ℕ)
    (inputKey seed : Option (List ℕ)) (seedLen : ℕ) (inst : CSParve64) (C : List ℕ) (k : ℕ)
    (hcfg : IsWords config20)
    (hinst : (CSParve64_Create (some (Context.new config20 sbox)) inputKey seed seedLen 0 0
      none).auth = some inst)
    (hk : 1 ≤ k) (hL : 8 * k < 2 ^ 32) (hlen : C.length = 8 * k) (hb : IsBytes C) :
    (inst.Decrypt C (8 * k)).1 = CSPARVE64_OK ∧
    (inst.Decrypt C (8 * k)).2.1.length = 8 * k ∧
    (inst.Encrypt (inst.Decrypt C (8 * k)).2.1 (8 * k)).1 = CSPARVE64_OK ∧
    (inst.Encrypt (inst.Decrypt C (8 * k)).2.1 (8 * k)).2.1 = C ∧
    (inst.Encrypt (inst.Decrypt C (8 * k)).2.1 (8 * k)).2.2 = (inst.Decrypt C (8 * k)).2.2 ∧
    (inst.Decrypt (inst.Encrypt C (8 * k)).2.1 (8 * k)).2.1 = C ∧
    (inst.Decrypt (inst.Encrypt C (8 * k)).2.1 (8 * k)).2.2 = (inst.Encrypt C (8 * k)).2.2 := by
  have hK := Create_valid hcfg hinst
  obtain ⟨a1, a2, a3⟩ := triple_of_eq (CSParve64.Encrypt_Decrypt inst hK C k hk hL hlen hb)
  obtain ⟨_, b2, b3⟩ := triple_of_eq (CSParve64.Decrypt_Encrypt inst hK C k hk hL hlen hb)
  obtain ⟨c1, c2, _⟩ := triple_of_eq (CSParve64.Decrypt_eq inst C k hk hL hlen)
  have hl : (inst.Decrypt C (8 * k)).2.1.length = 8 * k := by
    rw [c2]
    simp only [Utils.length_WriteUInt64, List.length_append, List.length_take,
      BV4Key.length_cryptLoop, MACHelper.ParveDecryptBlock, MACHelper.length_decRounds,
      List.length_drop, hlen]
    omega
  have hm : (inst.Encrypt C (8 * k)).2.2
      = inst.CsKey.CS64ComputeMAC C (8 * k / CS64Defs.CS_BLOCK_SIZE) :=
    rfl
  exact ⟨c1, hl, a1, a2, a3, b2, b3.trans hm.symm⟩

set_option maxRecDepth 1000000 in
theorem C31_every_buffer_is_ciphertext_witness :
    IsWords scenarioConfig ∧ IsBytes scenario2Data ∧ scenario2Data.length = 8 * 3 ∧
    (scenarioInstance.Encrypt (scenarioInstance.Decrypt scenario2Data (8 * 3)).2.1 (8 * 3)).2.1
      = scenario2Data ∧
    (scenarioInstance.Encrypt (scenarioInstance.Decrypt scenario2Data (8 * 3)).2.1 (8 * 3)).2.2
      = (scenarioInstance.Decrypt scenario2Data (8 * 3)).2.2 :=
  ⟨by decide, by decide, by decide,
    (C31_every_buffer_is_ciphertext scenarioConfig scenarioSBox (some scenarioInputKey)
      (some scenario1Data) 16 scenarioInstance scenario2Data 3
      (by decide) rfl (by decide) (by norm_num) (by decide) (by decide)).2.2.2.1,
    (C31_every_buffer_is_ciphertext scenarioConfig scenarioSBox (some scenarioInputKey)
      (some scenario1Data) 16 scenarioInstance scenario2Data 3
      (by decide) rfl (by decide) (by norm_num) (by decide) (by decide)).2.2.2.2.1⟩

/-! ## BV4: the keystream byte by byte -/

theorem byte_xor (W K s : ℕ) :
    ((W ^^^ K) >>> s) % 256 = ((W >>> s) % 256) ^^^ ((K >>> s) % 256) := by
  apply Nat.eq_of_testBit_eq
  intro i
  rw [show (256 : ℕ) = 2 ^ 8 by norm_num]
  simp only [Nat.testBit_mod_two_pow, Nat.testBit_shiftRight, Nat.testBit_xor]
  by_cases h : i < 8
  · simp only [h, decide_True, Bool.true_and]
  · simp only [h, decide_False, Bool.false_and, Bool.xor_self]

theorem getD_xorBuf (A B : List ℕ) (hlen : A.length = B.length) (p : ℕ) :
    (xorBuf A B).getD p 0 = A.getD p 0 ^^^ B.getD p 0 := by
  unfold xorBuf
  simp only [List.getD_eq_getElem?_getD, List.getElem?_zipWith]
  by_cases hp : p < A.length
  · rw [List.getElem?_eq_getElem hp, List.getElem?_eq_getElem (hlen ▸ hp)]
    rfl
  · rw [List.getElem?_eq_none (by omega), List.getElem?_eq_none (by omega)]
    rfl

theorem length_xorBuf (A B : List ℕ) (hlen : A.length = B.length) :
    (xorBuf A B).length = A.length := by
  unfold xorBuf
  rw [List.length_zipWith, hlen, Nat.min_self]

theorem isBytes_xorBuf {A B : List ℕ} (ha : IsBytes A) (hb : IsBytes B) :
    IsBytes (xorBuf A B) := by
  intro x hx
  unfold xorBuf at hx
  rw [List.mem_iff_getElem] at hx
  obtain ⟨i, hi, rfl⟩ := hx
  rw [List.getElem_zipWith]
  exact @Nat.xor_lt_two_pow _ _ 8 (ha _ (List.getElem_mem _)) (hb _ (List.getElem_mem _))

/-- The byte `j` of a big-endian 32-bit word. -/
theorem Utils.getD_of_ReadUInt32 {buf : List ℕ} (hb : IsBytes buf) (off j : ℕ) (hj : j < 4) :
    buf.getD (off + j) 0 = (Utils.ReadUInt32 buf off >>> (8 * (3 - j))) % 256 := by
  rw [Utils.ReadUInt32_eq hb]
  have := hb.getD off
  have := hb.getD (off + 1)
  have := hb.getD (off + 2)
  have := hb.getD (off + 3)
  have hcases : j = 0 ∨ j = 1 ∨ j = 2 ∨ j = 3 := by omega
  rcases hcases with e | e | e | e <;> subst e <;>
    simp only [Nat.add_zero, Nat.shiftRight_eq_div_pow, Nat.reduceSub, Nat.reduceMul,
      Nat.sub_self, Nat.mul_zero, Nat.pow_zero, Nat.div_one] <;> omega

namespace BV4Key

/-- Inside its range the loop XORs each byte with the keystream byte of its
position, which depends on the key state only. -/
theorem getD_cryptLoop_in (n : ℕ) (st : BV4Key) {buf : List ℕ} (hb : IsBytes buf)
    (hlen : 4 * n ≤ buf.length) (p : ℕ) (hp : p < 4 * n) :
    (cryptLoop n st 0 buf).2.getD p 0 =
      buf.getD p 0 ^^^ ((stream st (p / 4) >>> (8 * (3 - p % 4))) % 256) := by
  have hb1 := isBytes_cryptLoop n st 0 hb
  have hj : p % 4 < 4 := Nat.mod_lt _ (by norm_num)
  have hw := ReadUInt32_cryptLoop n st 0 buf (p / 4) hb (by omega) (Nat.zero_le _) (by omega)
  rw [shl2, Nat.sub_zero] at hw
  have e1 := Utils.getD_of_ReadUInt32 hb1 (4 * (p / 4)) (p % 4) hj
  have e2 := Utils.getD_of_ReadUInt32 hb (4 * (p / 4)) (p % 4) hj
  rw [Nat.div_add_mod] at e1 e2
  rw [e1, hw, byte_xor, ← e2]

/-- The keystream does not depend on the data: the loop on `A XOR B` gives the
result of the loop on `A`, XORed with `B`. -/
theorem cryptLoop_xorBuf (n : ℕ) (st : BV4Key) {A B : List ℕ} (ha : IsBytes A)
    (hb : IsBytes B) (hlen : A.length = B.length) (hn : 4 * n ≤ A.length) :
    (cryptLoop n st 0 (xorBuf A B)).2 = xorBuf (cryptLoop n st 0 A).2 B := by
  have hx := isBytes_xorBuf ha hb
  have hxl := length_xorBuf A B hlen
  have hcl := length_cryptLoop n st 0 A
  apply list_ext_getD
  · rw [length_cryptLoop, hxl, length_xorBuf _ _ (hcl.trans hlen), hcl]
  · intro p _
    rw [getD_xorBuf _ _ (hcl.trans hlen)]
    by_cases hp : p < 4 * n
    · rw [getD_cryptLoop_in n st hx (by omega) p hp, getD_cryptLoop_in n st ha hn p hp,
        getD_xorBuf A B hlen, Nat.xor_assoc, Nat.xor_assoc,
        Nat.xor_comm (B.getD p 0)]
    · rw [getD_cryptLoop_out _ _ _ _ _ (Or.inr (by omega)),
        getD_cryptLoop_out _ _ _ _ _ (Or.inr (by omega)), getD_xorBuf A B hlen]

end BV4Key

/-- C32: the BV4 keystream does not depend on the data. For every key state, in
particular the fresh one built from any key slice, and any two buffers of bytes
`A` and `B` of the same length, `BV4Crypt` on `A XOR B` equals `BV4Crypt` on
`A`, XORed with `B`, and the state `(s, i, j, h, y)` after the call is the same
for `A`, for `B` and for `A XOR B`. -/
theorem C32_bv4_keystream_independent (key : BV4Key) (keyData : List ℕ) (off len : ℕ)
    (A B : List ℕ) (bytes : ℕ) (ha : IsBytes A) (hb : IsBytes B)
    (hlen : A.length = B.length) (hbytes : bytes ≤ A.length) :
    (key.BV4Crypt bytes (xorBuf A B)).2 = xorBuf (key.BV4Crypt bytes A).2 B ∧
    (key.BV4Crypt bytes A).1 = (key.BV4Crypt bytes B).1 ∧
    (key.BV4Crypt bytes (xorBuf A B)).1 = (key.BV4Crypt bytes A).1 ∧
    ((BV4Key.new keyData off len).BV4Crypt bytes (xorBuf A B)).2
      = xorBuf ((BV4Key.new keyData off len).BV4Crypt bytes A).2 B ∧
    ((BV4Key.new keyData off len).BV4Crypt bytes A).1
      = ((BV4Key.new keyData off len).BV4Crypt bytes B).1 := by
  have h4 : 4 * (bytes >>> 2) ≤ A.length := by
    rw [Nat.shiftRight_eq_div_pow]
    omega
  have hst : ∀ (K : BV4Key) (X Y : List ℕ), (K.BV4Crypt bytes X).1 = (K.BV4Crypt bytes Y).1 := by
    intro K X Y
    simp only [BV4Key.BV4Crypt, BV4Key.cryptLoop_fst (bytes >>> 2) K 0 X Y]
  refine ⟨?_, hst _ _ _, hst _ _ _, ?_, hst _ _ _⟩
  · rw [BV4Key.BV4Crypt_snd, BV4Key.BV4Crypt_snd]
    exact BV4Key.cryptLoop_xorBuf _ _ ha hb hlen h4
  · rw [BV4Key.BV4Crypt_snd, BV4Key.BV4Crypt_snd]
    exact BV4Key.cryptLoop_xorBuf _ _ ha hb hlen h4

theorem C32_bv4_keystream_independent_witness :
    IsBytes scenario2Data ∧ IsBytes (List.replicate 24 255) ∧
    scenario2Data.length = (List.replicate 24 255).length ∧ 24 ≤ scenario2Data.length ∧
    ((BV4Key.new scenarioInputKey 0 8).BV4Crypt 24
        (xorBuf scenario2Data (List.replicate 24 255))).2
      = xorBuf ((BV4Key.new scenarioInputKey 0 8).BV4Crypt 24 scenario2Data).2
        (List.replicate 24 255) :=
  ⟨by decide, by decide, by decide, by decide,
    (C32_bv4_keystream_independent (BV4Key.new scenarioInputKey 0 8) scenarioInputKey 0 8
      scenario2Data (List.replicate 24 255) 24 (by decide) (by decide) (by decide)
      (by decide)).1⟩

/-! ## Word-swap chain-and-sum: the padding step -/

namespace WordSwapHelper

theorem wordSwapLoop_add_two (ctx : Context) (data : List ℕ) (k1 k2 nb : ℕ)
    (st : ℕ × ℕ × ℕ × ℕ) :
    wordSwapLoop ctx data k1 k2 (nb + 2) st =
      wordSwapLoop ctx data k1 k2 nb
        (Iteration k2 ctx.WS_B2 ctx.WS_C2 ctx.WS_D2 ctx.WS_E2 data
          (Iteration k1 ctx.WS_B1 ctx.WS_C1 ctx.WS_D1 ctx.WS_E1 data st)) := by
  rw [wordSwapLoop]

theorem wordSwapLoop_zero (ctx : Context) (data : List ℕ) (k1 k2 : ℕ) (st : ℕ × ℕ × ℕ × ℕ) :
    wordSwapLoop ctx data k1 k2 0 st = (0, st) := by
  rw [wordSwapLoop]
  intro n h
  omega

theorem wordSwapLoop_one (ctx : Context) (data : List ℕ) (k1 k2 : ℕ) (st : ℕ × ℕ × ℕ × ℕ) :
    wordSwapLoop ctx data k1 k2 1 st = (1, st) := by
  rw [wordSwapLoop]
  intro n h
  omega

theorem reversibleLoop_add_two (ctx : Context) (data : List ℕ) (k1 k2 l1 l2 nb : ℕ)
    (st : ℕ × ℕ × ℕ × ℕ) :
    reversibleLoop ctx data k1 k2 l1 l2 (nb + 2) st =
      reversibleLoop ctx data k1 k2 l1 l2 nb
        (ReversibleIteration k2 ctx.REV_B2 ctx.REV_C2 ctx.REV_D2 ctx.REV_E2 l2 data
          (ReversibleIteration k1 ctx.REV_B1 ctx.REV_C1 ctx.REV_D1 ctx.REV_E1 l1 data st)) := by
  rw [reversibleLoop]

theorem reversibleLoop_zero (ctx : Context) (data : List ℕ) (k1 k2 l1 l2 : ℕ)
    (st : ℕ × ℕ × ℕ × ℕ) :
    reversibleLoop ctx data k1 k2 l1 l2 0 st = (0, st) := by
  rw [reversibleLoop]
  intro n h
  omega

theorem reversibleLoop_one (ctx : Context) (data : List ℕ) (k1 k2 l1 l2 : ℕ)
    (st : ℕ × ℕ × ℕ × ℕ) :
    reversibleLoop ctx data k1 k2 l1 l2 1 st = (1, st) := by
  rw [reversibleLoop]
  intro n h
  omega

/-- The step reads the word at the index of the state only. -/
theorem Iteration_congr (a b c d e : ℕ) {data data2 : List ℕ} (st : ℕ × ℕ × ℕ × ℕ)
    (h : Utils.ReadUInt32 data (st.2.2.1 <<< 2) = Utils.ReadUInt32 data2 (st.2.2.1 <<< 2)) :
    Iteration a b c d e data st = Iteration a b c d e data2 st := by
  simp only [Iteration, h]

theorem ReversibleIteration_congr (a b c d e l : ℕ) {data data2 : List ℕ}
    (st : ℕ × ℕ × ℕ × ℕ)
    (h : Utils.ReadUInt32 data (st.2.2.1 <<< 2) = Utils.ReadUInt32 data2 (st.2.2.1 <<< 2)) :
    ReversibleIteration a b c d e l data st = ReversibleIteration a b c d e l data2 st := by
  simp only [ReversibleIteration, h]

theorem Iteration_index (a b c d e : ℕ) (data : List ℕ) (st : ℕ × ℕ × ℕ × ℕ) :
    (Iteration a b c d e data st).2.2.1 = st.2.2.1 + 1 := rfl

theorem ReversibleIteration_index (a b c d e l : ℕ) (data : List ℕ) (st : ℕ × ℕ × ℕ × ℕ) :
    (ReversibleIteration a b c d e l data st).2.2.1 = st.2.2.1 + 1 := rfl

theorem Iteration_lt (a b c d e : ℕ) (data : List ℕ) (st : ℕ × ℕ × ℕ × ℕ) :
    (Iteration a b c d e data st).1 < 2 ^ 32 ∧ (Iteration a b c d e data st).2.1 < 2 ^ 32 ∧
    (Iteration a b c d e data st).2.2.2 < 2 ^ 32 :=
  ⟨Nat.mod_lt _ (by norm_num), Nat.mod_lt _ (by norm_num), Nat.mod_lt _ (by norm_num)⟩

theorem ReversibleIteration_lt (a b c d e l : ℕ) (data : List ℕ) (st : ℕ × ℕ × ℕ × ℕ) :
    (ReversibleIteration a b c d e l data st).1 < 2 ^ 32 ∧
    (ReversibleIteration a b c d e l data st).2.2.2 < 2 ^ 32 :=
  ⟨Nat.mod_lt _ (by norm_num), Nat.mod_lt _ (by norm_num)⟩

/-- The padding step is an ordinary step that consumes a zero word: the two
agree on `t`, `t2` and `sum`. -/
theorem Iteration_zero_word (a b c d e : ℕ) (data : List ℕ) (st : ℕ × ℕ × ℕ × ℕ)
    (ht2 : st.2.1 < 2 ^ 32) (h : Utils.ReadUInt32 data (st.2.2.1 <<< 2) = 0) :
    (Iteration a b c d e data st).1 = (FinalIteration a b c d e st).1 ∧
    (Iteration a b c d e data st).2.1 = (FinalIteration a b c d e st).2.1 ∧
    (Iteration a b c d e data st).2.2.2 = (FinalIteration a b c d e st).2.2.2 := by
  simp only [Iteration, FinalIteration, h, Nat.add_zero, Nat.mod_eq_of_lt ht2, and_self]

theorem ReversibleIteration_zero_word (a b c d e l : ℕ) (data : List ℕ)
    (st : ℕ × ℕ × ℕ × ℕ) (ht : st.1 < 2 ^ 32)
    (h : Utils.ReadUInt32 data (st.2.2.1 <<< 2) = 0) :
    (ReversibleIteration a b c d e l data st).1 = (ReversibleFinalIteration a b c d e l st).1 ∧
    (ReversibleIteration a b c d e l data st).2.2.2
      = (ReversibleFinalIteration a b c d e l st).2.2.2 := by
  simp only [ReversibleIteration, ReversibleFinalIteration, h, Nat.add_zero,
    Nat.mod_eq_of_lt ht, and_self]

/-- For an odd number `2 * m + 1` of blocks, the loop followed by the step and
the padding step gives the `t2` and `sum` that the loop over `2 * m + 2` blocks
gives on a buffer with the same words followed by a zero word. -/
theorem wordSwapLoop_padding (ctx : Context) {data data2 : List ℕ} (k1 k2 : ℕ) :
    ∀ (m : ℕ) (st : ℕ × ℕ × ℕ × ℕ),
    (∀ q, st.2.2.1 ≤ q → q < st.2.2.1 + (2 * m + 1) →
      Utils.ReadUInt32 data (q <<< 2) = Utils.ReadUInt32 data2 (q <<< 2)) →
    Utils.ReadUInt32 data2 ((st.2.2.1 + (2 * m + 1)) <<< 2) = 0 →
    (wordSwapLoop ctx data k1 k2 (2 * m + 1) st).1 = 1 ∧
    (wordSwapLoop ctx data2 k1 k2 (2 * m + 2) st).1 = 0 ∧
    (FinalIteration k2 ctx.WS_B2 ctx.WS_C2 ctx.WS_D2 ctx.WS_E2
      (Iteration k1 ctx.WS_B1 ctx.WS_C1 ctx.WS_D1 ctx.WS_E1 data
        (wordSwapLoop ctx data k1 k2 (2 * m + 1) st).2)).2.1
      = (wordSwapLoop ctx data2 k1 k2 (2 * m + 2) st).2.2.1 ∧
    (FinalIteration k2 ctx.WS_B2 ctx.WS_C2 ctx.WS_D2 ctx.WS_E2
      (Iteration k1 ctx.WS_B1 ctx.WS_C1 ctx.WS_D1 ctx.WS_E1 data
        (wordSwapLoop ctx data k1 k2 (2 * m + 1) st).2)).2.2.2
      = (wordSwapLoop ctx data2 k1 k2 (2 * m + 2) st).2.2.2.2 := by
  intro m
  induction m with
  | zero =>
    intro st hag hz
    have e1 := Iteration_congr k1 ctx.WS_B1 ctx.WS_C1 ctx.WS_D1 ctx.WS_E1 st
      (hag st.2.2.1 (le_refl _) (by omega))
    have hz2 := Iteration_zero_word k2 ctx.WS_B2 ctx.WS_C2 ctx.WS_D2 ctx.WS_E2 data2
      (Iteration k1 ctx.WS_B1 ctx.WS_C1 ctx.WS_D1 ctx.WS_E1 data2 st)
      (Iteration_lt _ _ _ _ _ _ _).2.1 (by rw [Iteration_index]; exact hz)
    rw [show 2 * 0 + 1 = 1 from rfl, show 2 * 0 + 2 = 0 + 2 from rfl, wordSwapLoop_one,
      wordSwapLoop_add_two, wordSwapLoop_zero, e1]
    exact ⟨rfl, rfl, hz2.2.1.symm, hz2.2.2.symm⟩
  | succ m ih =>
    intro st hag hz
    have e1 := Iteration_congr k1 ctx.WS_B1 ctx.WS_C1 ctx.WS_D1 ctx.WS_E1 st
      (hag st.2.2.1 (le_refl _) (by omega))
    have e2 : Iteration k2 ctx.WS_B2 ctx.WS_C2 ctx.WS_D2 ctx.WS_E2 data
          (Iteration k1 ctx.WS_B1 ctx.WS_C1 ctx.WS_D1 ctx.WS_E1 data2 st)
        = Iteration k2 ctx.WS_B2 ctx.WS_C2 ctx.WS_D2 ctx.WS_E2 data2
          (Iteration k1 ctx.WS_B1 ctx.WS_C1 ctx.WS_D1 ctx.WS_E1 data2 st) :=
      Iteration_congr _ _ _ _ _ _ (by rw [Iteration_index]; exact hag _ (by omega) (by omega))
    rw [show 2 * (m + 1) + 1 = (2 * m + 1) + 2 by ring,
      show 2 * (m + 1) + 2 = (2 * m + 2) + 2 by ring, wordSwapLoop_add_two,
      wordSwapLoop_add_two, e1, e2]
    apply ih
    · intro q h1 h2
      rw [Iteration_index, Iteration_index] at h1 h2
      exact hag q (by omega) (by omega)
    · rw [Iteration_index, Iteration_index]
      rw [show st.2.2.1 + 1 + 1 + (2 * m + 1) = st.2.2.1 + (2 * (m + 1) + 1) by ring]
      exact hz

theorem reversibleLoop_padding (ctx : Context) {data data2 : List ℕ} (k1 k2 l1 l2 : ℕ) :
    ∀ (m : ℕ) (st : ℕ × ℕ × ℕ × ℕ),
    (∀ q, st.2.2.1 ≤ q → q < st.2.2.1 + (2 * m + 1) →
      Utils.ReadUInt32 data (q <<< 2) = Utils.ReadUInt32 data2 (q <<< 2)) →
    Utils.ReadUInt32 data2 ((st.2.2.1 + (2 * m + 1)) <<< 2) = 0 →
    (reversibleLoop ctx data k1 k2 l1 l2 (2 * m + 1) st).1 = 1 ∧
    (reversibleLoop ctx data2 k1 k2 l1 l2 (2 * m + 2) st).1 = 0 ∧
    (ReversibleFinalIteration k2 ctx.REV_B2 ctx.REV_C2 ctx.REV_D2 ctx.REV_E2 l2
      (ReversibleIteration k1 ctx.REV_B1 ctx.REV_C1 ctx.REV_D1 ctx.REV_E1 l1 data
        (reversibleLoop ctx data k1 k2 l1 l2 (2 * m + 1) st).2)).1
      = (reversibleLoop ctx data2 k1 k2 l1 l2 (2 * m + 2) st).2.1 ∧
    (ReversibleFinalIteration k2 ctx.REV_B2 ctx.REV_C2 ctx.REV_D2 ctx.REV_E2 l2
      (ReversibleIteration k1 ctx.REV_B1 ctx.REV_C1 ctx.REV_D1 ctx.REV_E1 l1 data
        (reversibleLoop ctx data k1 k2 l1 l2 (2 * m + 1) st).2)).2.2.2
      = (reversibleLoop ctx data2 k1 k2 l1 l2 (2 * m + 2) st).2.2.2.2 := by
  intro m
  induction m with
  | zero =>
    intro st hag hz
    have e1 := ReversibleIteration_congr k1 ctx.REV_B1 ctx.REV_C1 ctx.REV_D1 ctx.REV_E1 l1 st
      (hag st.2.2.1 (le_refl _) (by omega))
    have hz2 := ReversibleIteration_zero_word k2 ctx.REV_B2 ctx.REV_C2 ctx.REV_D2 ctx.REV_E2
      l2 data2 (ReversibleIteration k1 ctx.REV_B1 ctx.REV_C1 ctx.REV_D1 ctx.REV_E1 l1 data2 st)
      (ReversibleIteration_lt _ _ _ _ _ _ _ _).1 (by rw [ReversibleIteration_index]; exact hz)
    rw [show 2 * 0 + 1 = 1 from rfl, show 2 * 0 + 2 = 0 + 2 from rfl, reversibleLoop_one,
      reversibleLoop_add_two, reversibleLoop_zero, e1]
    exact ⟨rfl, rfl, hz2.1.symm, hz2.2.symm⟩
  | succ m ih =>
    intro st hag hz
    have e1 := ReversibleIteration_congr k1 ctx.REV_B1 ctx.REV_C1 ctx.REV_D1 ctx.REV_E1 l1 st
      (hag st.2.2.1 (le_refl _) (by omega))
    have e2 : ReversibleIteration k2 ctx.REV_B2 ctx.REV_C2 ctx.REV_D2 ctx.REV_E2 l2 data
          (ReversibleIteration k1 ctx.REV_B1 ctx.REV_C1 ctx.REV_D1 ctx.REV_E1 l1 data2 st)
        = ReversibleIteration k2 ctx.REV_B2 ctx.REV_C2 ctx.REV_D2 ctx.REV_E2 l2 data2
          (ReversibleIteration k1 ctx.REV_B1 ctx.REV_C1 ctx.REV_D1 ctx.REV_E1 l1 data2 st) :=
      ReversibleIteration_congr _ _ _ _ _ _ _
        (by rw [ReversibleIteration_index]; exact hag _ (by omega) (by omega))
    rw [show 2 * (m + 1) + 1 = (2 * m + 1) + 2 by ring,
      show 2 * (m + 1) + 2 = (2 * m + 2) + 2 by ring, reversibleLoop_add_two,
      reversibleLoop_add_two, e1, e2]
    apply ih
    · intro q h1 h2
      rw [ReversibleIteration_index, ReversibleIteration_index] at h1 h2
      exact hag q (by omega) (by omega)
    · rw [ReversibleIteration_index, ReversibleIteration_index]
      rw [show st.2.2.1 + 1 + 1 + (2 * m + 1) = st.2.2.1 + (2 * (m + 1) + 1) by ring]
      exact hz

end WordSwapHelper

/-! ## `CS64_Reversible`: every step is a bijection of `t` -/

namespace WordSwapHelper

theorem WordSwap_eq (d : ℕ) (hd : d < 2 ^ 32) :
    WordSwap d = 2 ^ 16 * (d % 2 ^ 16) + d / 2 ^ 16 := by
  unfold WordSwap
  rw [Nat.shiftLeft_eq, Nat.shiftRight_eq_div_pow,
    show d * 2 ^ 16 % 2 ^ 32 = 2 ^ 16 * (d % 2 ^ 16) by omega, Nat.lor_comm,
    ← Nat.mul_add_lt_is_or (show d / 2 ^ 16 < 2 ^ 16 by omega)]

theorem WordSwap_lt (d : ℕ) (hd : d < 2 ^ 32) : WordSwap d < 2 ^ 32 := by
  rw [WordSwap_eq d hd]
  omega

theorem WordSwap_inj {x y : ℕ} (hx : x < 2 ^ 32) (hy : y < 2 ^ 32)
    (h : WordSwap x = WordSwap y) : x = y := by
  rw [WordSwap_eq x hx, WordSwap_eq y hy] at h
  omega

/-- Multiplication by an odd number is injective on 32-bit words. -/
theorem mul_odd_inj {a x y : ℕ} (ha : a % 2 = 1) (hx : x < 2 ^ 32) (hy : y < 2 ^ 32)
    (h : (x * a) % 2 ^ 32 = (y * a) % 2 ^ 32) : x = y := by
  have hcop : Nat.gcd (2 ^ 32) a = 1 :=
    Nat.Coprime.pow_left 32 (Nat.coprime_two_left.2 (Nat.odd_iff.2 ha))
  have hmod : x ≡ y [MOD 2 ^ 32] := Nat.ModEq.cancel_right_of_coprime hcop h
  exact Nat.ModEq.eq_of_lt_of_lt hmod hx hy

/-- With `l = 0` and odd multipliers, the chain of multiplications and word
swaps of one step is injective. -/
theorem revCore_inj {a b c d e x y : ℕ} (ha : a % 2 = 1) (hb : b % 2 = 1) (hc : c % 2 = 1)
    (hd : d % 2 = 1) (he : e % 2 = 1) (hx : x < 2 ^ 32) (hy : y < 2 ^ 32)
    (h : (WordSwap ((WordSwap ((WordSwap ((WordSwap ((x * a) % 2 ^ 32) * b) % 2 ^ 32) * c)
        % 2 ^ 32) * d) % 2 ^ 32) * e) % 2 ^ 32
      = (WordSwap ((WordSwap ((WordSwap ((WordSwap ((y * a) % 2 ^ 32) * b) % 2 ^ 32) * c)
        % 2 ^ 32) * d) % 2 ^ 32) * e) % 2 ^ 32) : x = y := by
  have hm : ∀ z : ℕ, z % 2 ^ 32 < 2 ^ 32 := fun z => Nat.mod_lt _ (by norm_num)
  have hw : ∀ z : ℕ, WordSwap (z % 2 ^ 32) < 2 ^ 32 := fun z => WordSwap_lt _ (hm z)
  have h1 := WordSwap_inj (hm _) (hm _) (mul_odd_inj he (hw _) (hw _) h)
  have h2 := WordSwap_inj (hm _) (hm _) (mul_odd_inj hd (hw _) (hw _) h1)
  have h3 := WordSwap_inj (hm _) (hm _) (mul_odd_inj hc (hw _) (hw _) h2)
  have h4 := WordSwap_inj (hm _) (hm _) (mul_odd_inj hb (hw _) (hw _) h3)
  exact mul_odd_inj ha hx hy h4

/-- The value of `t` after one step determines `t + word` before it. -/
theorem ReversibleIteration_inj {a b c d e : ℕ} (ha : a % 2 = 1) (hb : b % 2 = 1)
    (hc : c % 2 = 1) (hd : d % 2 = 1) (he : e % 2 = 1) (data1 data2 : List ℕ)
    (s1 s2 : ℕ × ℕ × ℕ × ℕ)
    (h : (ReversibleIteration a b c d e 0 data1 s1).1
      = (ReversibleIteration a b c d e 0 data2 s2).1) :
    (s1.1 + Utils.ReadUInt32 data1 (s1.2.2.1 <<< 2)) % 2 ^ 32
      = (s2.1 + Utils.ReadUInt32 data2 (s2.2.2.1 <<< 2)) % 2 ^ 32 := by
  simp only [ReversibleIteration, Nat.mul_zero, Nat.add_zero, Nat.mod_mod] at h
  exact revCore_inj ha hb hc hd he (Nat.mod_lt _ (by norm_num)) (Nat.mod_lt _ (by norm_num)) h

theorem ReversibleFinalIteration_inj {a b c d e : ℕ} (ha : a % 2 = 1) (hb : b % 2 = 1)
    (hc : c % 2 = 1) (hd : d % 2 = 1) (he : e % 2 = 1) (s1 s2 : ℕ × ℕ × ℕ × ℕ)
    (h1 : s1.1 < 2 ^ 32) (h2 : s2.1 < 2 ^ 32)
    (h : (ReversibleFinalIteration a b c d e 0 s1).1
      = (ReversibleFinalIteration a b c d e 0 s2).1) : s1.1 = s2.1 := by
  simp only [ReversibleFinalIteration, Nat.mul_zero, Nat.add_zero, Nat.mod_mod] at h
  exact revCore_inj ha hb hc hd he h1 h2 h

/-- One step keeps the relation between the two runs. -/
theorem revDiffer_step {a b c d e : ℕ} (ha : a % 2 = 1) (hb : b % 2 = 1)
    (hc : c % 2 = 1) (hd : d % 2 = 1) (he : e % 2 = 1) {data1 data2 : List ℕ} (k : ℕ)
    (hw1 : ∀ q, Utils.ReadUInt32 data1 (q <<< 2) < 2 ^ 32)
    (hw2 : ∀ q, Utils.ReadUInt32 data2 (q <<< 2) < 2 ^ 32)
    (hag : ∀ q, q ≠ k → Utils.ReadUInt32 data1 (q <<< 2) = Utils.ReadUInt32 data2 (q <<< 2))
    (hne : Utils.ReadUInt32 data1 (k <<< 2) ≠ Utils.ReadUInt32 data2 (k <<< 2))
    (s1 s2 : ℕ × ℕ × ℕ × ℕ) (h : revDiffer k s1 s2) :
    revDiffer k (ReversibleIteration a b c d e 0 data1 s1)
      (ReversibleIteration a b c d e 0 data2 s2) := by
  obtain ⟨hidx, ht1, ht2, hcase⟩ := h
  refine ⟨by rw [ReversibleIteration_index, ReversibleIteration_index, hidx],
    (ReversibleIteration_lt _ _ _ _ _ _ _ _).1, (ReversibleIteration_lt _ _ _ _ _ _ _ _).1, ?_⟩
  rw [ReversibleIteration_index]
  rcases hcase with ⟨hle, heq⟩ | ⟨hlt, htne⟩
  · subst heq
    by_cases hk : s1.2.2.1 = k
    · right
      refine ⟨by omega, fun hcontra => hne ?_⟩
      have hinj := ReversibleIteration_inj ha hb hc hd he data1 data2 s1 s1 hcontra
      rw [hk] at hinj
      have h1 := hw1 k
      have h2 := hw2 k
      omega
    · left
      exact ⟨by omega, ReversibleIteration_congr a b c d e 0 s1 (hag _ hk)⟩
  · right
    refine ⟨by omega, fun hcontra => htne ?_⟩
    have hinj := ReversibleIteration_inj ha hb hc hd he data1 data2 s1 s2 hcontra
    rw [← hidx, hag s1.2.2.1 (by omega)] at hinj
    have h2 := hw2 s1.2.2.1
    omega

/-- The loop keeps the relation and consumes `2 * (numBlocks / 2)` words. -/
theorem revDiffer_loop (ctx : Context) {k1 k2 : ℕ} (hk1 : k1 % 2 = 1) (hk2 : k2 % 2 = 1)
    (hB1 : ctx.REV_B1 % 2 = 1) (hC1 : ctx.REV_C1 % 2 = 1) (hD1 : ctx.REV_D1 % 2 = 1)
    (hE1 : ctx.REV_E1 % 2 = 1) (hB2 : ctx.REV_B2 % 2 = 1) (hC2 : ctx.REV_C2 % 2 = 1)
    (hD2 : ctx.REV_D2 % 2 = 1) (hE2 : ctx.REV_E2 % 2 = 1) {data1 data2 : List ℕ} (k : ℕ)
    (hw1 : ∀ q, Utils.ReadUInt32 data1 (q <<< 2) < 2 ^ 32)
    (hw2 : ∀ q, Utils.ReadUInt32 data2 (q <<< 2) < 2 ^ 32)
    (hag : ∀ q, q ≠ k → Utils.ReadUInt32 data1 (q <<< 2) = Utils.ReadUInt32 data2 (q <<< 2))
    (hne : Utils.ReadUInt32 data1 (k <<< 2) ≠ Utils.ReadUInt32 data2 (k <<< 2)) :
    ∀ (m r : ℕ) (s1 s2 : ℕ × ℕ × ℕ × ℕ), r < 2 → revDiffer k s1 s2 →
    (reversibleLoop ctx data1 k1 k2 0 0 (2 * m + r) s1).1 = r ∧
    (reversibleLoop ctx data2 k1 k2 0 0 (2 * m + r) s2).1 = r ∧
    (reversibleLoop ctx data1 k1 k2 0 0 (2 * m + r) s1).2.2.2.1 = s1.2.2.1 + 2 * m ∧
    revDiffer k (reversibleLoop ctx data1 k1 k2 0 0 (2 * m + r) s1).2
      (reversibleLoop ctx data2 k1 k2 0 0 (2 * m + r) s2).2 := by
  intro m
  induction m with
  | zero =>
    intro r s1 s2 hr h
    have hcases : r = 0 ∨ r = 1 := by omega
    rcases hcases with e | e <;> subst e
    · rw [show 2 * 0 + 0 = 0 from rfl, reversibleLoop_zero, reversibleLoop_zero]
      exact ⟨rfl, rfl, rfl, h⟩
    · rw [show 2 * 0 + 1 = 1 from rfl, reversibleLoop_one, reversibleLoop_one]
      exact ⟨rfl, rfl, rfl, h⟩
  | succ m ih =>
    intro r s1 s2 hr h
    rw [show 2 * (m + 1) + r = (2 * m + r) + 2 by ring, reversibleLoop_add_two,
      reversibleLoop_add_two]
    have h1 := revDiffer_step hk1 hB1 hC1 hD1 hE1 k hw1 hw2 hag hne s1 s2 h
    have h2 := revDiffer_step hk2 hB2 hC2 hD2 hE2 k hw1 hw2 hag hne _ _ h1
    obtain ⟨r1, r2, r3, r4⟩ := ih r _ _ hr h2
    refine ⟨r1, r2, ?_, r4⟩
    rw [r3, ReversibleIteration_index, ReversibleIteration_index]
    ring

end WordSwapHelper

theorem Context.new_rev_odd (config sbox : List ℕ) :
    (Context.new config sbox).REV_B1 % 2 = 1 ∧ (Context.new config sbox).REV_C1 % 2 = 1 ∧
    (Context.new config sbox).REV_D1 % 2 = 1 ∧ (Context.new config sbox).REV_E1 % 2 = 1 ∧
    (Context.new config sbox).REV_B2 % 2 = 1 ∧ (Context.new config sbox).REV_C2 % 2 = 1 ∧
    (Context.new config sbox).REV_D2 % 2 = 1 ∧ (Context.new config sbox).REV_E2 % 2 = 1 := by
  have hodd : ∀ x : ℕ, (x ||| 1) % 2 = 1 := fun x => Nat.or_mod_two_eq_one.2 (Or.inr rfl)
  exact ⟨hodd _, hodd _, hodd _, hodd _, hodd _, hodd _, hodd _, hodd _⟩

/-- C33: for every context built by the constructor (all REV constants odd),
every seed and every two buffers of bytes that differ in exactly one of their
`length / 4` 32-bit words, the low 32 bits (the final `t`) of `CS64_Reversible`
differ; with `L = 0` the value of `t` after a step determines `t + word` before
it, so a step is a bijection of `t` for a fixed word and of the word for a fixed
`t`. -/
theorem C33_reversible_word_change (config sbox data1 data2 : List ℕ) (inHash length k : ℕ)
    (hb1 : IsBytes data1) (hb2 : IsBytes data2) (hk : k < length / 4)
    (hag : ∀ q, q ≠ k → wordAt data1 q = wordAt data2 q)
    (hne : wordAt data1 k ≠ wordAt data2 k) :
    Utils.Lo (WordSwapHelper.CS64_Reversible (Context.new config sbox) data1 length inHash) ≠
      Utils.Lo (WordSwapHelper.CS64_Reversible (Context.new config sbox) data2 length inHash) ∧
    (∀ (d1 d2 : List ℕ) (s1 s2 : ℕ × ℕ × ℕ × ℕ),
      (WordSwapHelper.ReversibleIteration (Utils.Lo inHash ||| 1)
          (Context.new config sbox).REV_B1 (Context.new config sbox).REV_C1
          (Context.new config sbox).REV_D1 (Context.new config sbox).REV_E1 0 d1 s1).1
        = (WordSwapHelper.ReversibleIteration (Utils.Lo inHash ||| 1)
          (Context.new config sbox).REV_B1 (Context.new config sbox).REV_C1
          (Context.new config sbox).REV_D1 (Context.new config sbox).REV_E1 0 d2 s2).1 →
      (s1.1 + Utils.ReadUInt32 d1 (s1.2.2.1 <<< 2)) % 2 ^ 32
        = (s2.1 + Utils.ReadUInt32 d2 (s2.2.2.1 <<< 2)) % 2 ^ 32) := by
  obtain ⟨hB1, hC1, hD1, hE1, hB2, hC2, hD2, hE2⟩ := Context.new_rev_odd config sbox
  have hk1 : (Utils.Lo inHash ||| 1) % 2 = 1 := Nat.or_mod_two_eq_one.2 (Or.inr rfl)
  have hk2 : (Utils.Hi inHash ||| 1) % 2 = 1 := Nat.or_mod_two_eq_one.2 (Or.inr rfl)
  refine ⟨?_, fun d1 d2 s1 s2 h =>
    WordSwapHelper.ReversibleIteration_inj hk1 hB1 hC1 hD1 hE1 d1 d2 s1 s2 h⟩
  have hw1 : ∀ q, Utils.ReadUInt32 data1 (q <<< 2) < 2 ^ 32 := fun q =>
    Utils.ReadUInt32_lt hb1 _
  have hw2 : ∀ q, Utils.ReadUInt32 data2 (q <<< 2) < 2 ^ 32 := fun q =>
    Utils.ReadUInt32_lt hb2 _
  have hag2 : ∀ q, q ≠ k →
      Utils.ReadUInt32 data1 (q <<< 2) = Utils.ReadUInt32 data2 (q <<< 2) := by
    intro q hq
    rw [BV4Key.shl2]
    exact hag q hq
  have hne2 : Utils.ReadUInt32 data1 (k <<< 2) ≠ Utils.ReadUInt32 data2 (k <<< 2) := by
    rw [BV4Key.shl2]
    exact hne
  have hinit : revDiffer k ((0 : ℕ), (0 : ℕ), (0 : ℕ), (0 : ℕ)) (0, 0, 0, 0) :=
    ⟨rfl, by norm_num, by norm_num, Or.inl ⟨Nat.zero_le k, rfl⟩⟩
  have hn : length / CS64Defs.CS_BLOCK_SIZE = 2 * (length / 4 / 2) + length / 4 % 2 := by
    show length / 4 = _
    omega
  obtain ⟨r1, r2, r3, r4⟩ := WordSwapHelper.revDiffer_loop (Context.new config sbox) hk1 hk2
    hB1 hC1 hD1 hE1 hB2 hC2 hD2 hE2 k hw1 hw2 hag2 hne2 (length / 4 / 2) (length / 4 % 2)
    (0, 0, 0, 0) (0, 0, 0, 0) (Nat.mod_lt _ (by norm_num)) hinit
  simp only [WordSwapHelper.CS64_Reversible]
  rw [hn, r1, r2]
  have hcases : length / 4 % 2 = 0 ∨ length / 4 % 2 = 1 := by omega
  rcases hcases with e | e
  · rw [e] at r3 r4 ⊢
    rw [if_neg (by norm_num), if_neg (by norm_num)]
    obtain ⟨_, ht1, ht2, hcase⟩ := r4
    rw [MACHelper.Lo_MakeUInt64 _ _ ht1, MACHelper.Lo_MakeUInt64 _ _ ht2]
    rcases hcase with ⟨hle, _⟩ | ⟨_, htne⟩
    · rw [r3] at hle
      simp only [Nat.add_zero, Nat.zero_add] at hle
      omega
    · exact htne
  · rw [e] at r3 r4 ⊢
    rw [if_pos rfl, if_pos rfl]
    have h1 := WordSwapHelper.revDiffer_step hk1 hB1 hC1 hD1 hE1 k hw1 hw2 hag2 hne2 _ _ r4
    obtain ⟨_, ht1, ht2, hcase⟩ := h1
    have hf : ∀ (a b c d e : ℕ) (st : ℕ × ℕ × ℕ × ℕ),
        (WordSwapHelper.ReversibleFinalIteration a b c d e 0 st).1 < 2 ^ 32 := by
      intro a b c d e st
      simp only [WordSwapHelper.ReversibleFinalIteration]
      exact Nat.mod_lt _ (by norm_num)
    rw [MACHelper.Lo_MakeUInt64 _ _ (hf _ _ _ _ _ _), MACHelper.Lo_MakeUInt64 _ _ (hf _ _ _ _ _ _)]
    rcases hcase with ⟨hle, _⟩ | ⟨_, htne⟩
    · rw [WordSwapHelper.ReversibleIteration_index, r3] at hle
      simp only [Nat.zero_add] at hle
      omega
    · exact fun hcontra => htne
        (WordSwapHelper.ReversibleFinalIteration_inj hk2 hB2 hC2 hD2 hE2 _ _ ht1 ht2 hcontra)

theorem C33_reversible_word_change_witness :
    IsBytes scenario2Data ∧ IsBytes (scenario2Data.set 9 255) ∧ 2 < 24 / 4 ∧
    Utils.Lo (WordSwapHelper.CS64_Reversible (Context.new scenarioConfig scenarioSBox)
        scenario2Data 24 12345) ≠
      Utils.Lo (WordSwapHelper.CS64_Reversible (Context.new scenarioConfig scenarioSBox)
        (scenario2Data.set 9 255) 24 12345) :=
  ⟨by decide, by decide, by decide,
    (C33_reversible_word_change scenarioConfig scenarioSBox scenario2Data
      (scenario2Data.set 9 255) 12345 24 2 (by decide) (by decide) (by decide)
      (fun q hq => Utils.ReadUInt32_congr _ _ (fun j hj => by
        rw [getD_set_eq, if_neg]
        rintro ⟨h9, _⟩
        omega))
      (by decide)).1⟩

/-- C34: for a buffer with an odd number `n = 2 * m + 1` of 32-bit words,
`CS64_WordSwap` and `CS64_Reversible` each return the same value as on the
buffer extended by one zero word (`n + 1` words): the padding step is an
ordinary step that consumes a word equal to 0. -/
theorem C34_padding_step (ctx : Context) (data : List ℕ) (inHash m : ℕ)
    (hlen : data.length = 4 * (2 * m + 1)) :
    WordSwapHelper.CS64_WordSwap ctx data (4 * (2 * m + 1)) inHash =
      WordSwapHelper.CS64_WordSwap ctx (data ++ [0, 0, 0, 0]) (4 * (2 * m + 2)) inHash ∧
    WordSwapHelper.CS64_Reversible ctx data (4 * (2 * m + 1)) inHash =
      WordSwapHelper.CS64_Reversible ctx (data ++ [0, 0, 0, 0]) (4 * (2 * m + 2)) inHash := by
  have hag : ∀ q, (0, 0, 0, 0).2.2.1 ≤ q → q < (0, 0, 0, 0).2.2.1 + (2 * m + 1) →
      Utils.ReadUInt32 data (q <<< 2) = Utils.ReadUInt32 (data ++ [0, 0, 0, 0]) (q <<< 2) := by
    intro q _ hq
    simp only [Nat.zero_add] at hq
    apply Utils.ReadUInt32_congr
    intro j hj
    rw [BV4Key.shl2, List.getD_append _ _ _ _ (by omega)]
  have hz : Utils.ReadUInt32 (data ++ [0, 0, 0, 0])
      ((((0, 0, 0, 0) : ℕ × ℕ × ℕ × ℕ).2.2.1 + (2 * m + 1)) <<< 2) = 0 := by
    have e : Utils.ReadUInt32 (data ++ [0, 0, 0, 0]) ((0 + (2 * m + 1)) <<< 2)
        = Utils.ReadUInt32 [0, 0, 0, 0] 0 := by
      apply Utils.ReadUInt32_congr
      intro j hj
      rw [BV4Key.shl2, List.getD_append_right _ _ _ _ (by omega)]
      congr 1
      omega
    exact e
  have n1 : 4 * (2 * m + 1) / CS64Defs.CS_BLOCK_SIZE = 2 * m + 1 := by
    show 4 * (2 * m + 1) / 4 = _
    omega
  have n2 : 4 * (2 * m + 2) / CS64Defs.CS_BLOCK_SIZE = 2 * m + 2 := by
    show 4 * (2 * m + 2) / 4 = _
    omega
  obtain ⟨w1, w2, w3, w4⟩ := WordSwapHelper.wordSwapLoop_padding ctx (Utils.Lo inHash ||| 1)
    (Utils.Hi inHash ||| 1) m (0, 0, 0, 0) hag hz
  obtain ⟨v1, v2, v3, v4⟩ := WordSwapHelper.reversibleLoop_padding ctx (Utils.Lo inHash ||| 1)
    (Utils.Hi inHash ||| 1) 0 0 m (0, 0, 0, 0) hag hz
  constructor
  · simp only [WordSwapHelper.CS64_WordSwap, n1, n2]
    rw [w1, w2, if_pos rfl, if_neg (by norm_num), w3, w4]
  · simp only [WordSwapHelper.CS64_Reversible, n1, n2]
    rw [v1, v2, if_pos rfl, if_neg (by norm_num), v3, v4]

theorem C34_padding_step_witness :
    (scenario2Data.take 12).length = 4 * (2 * 1 + 1) ∧
    WordSwapHelper.CS64_WordSwap (Context.new scenarioConfig scenarioSBox)
        (scenario2Data.take 12) (4 * (2 * 1 + 1)) 12345 =
      WordSwapHelper.CS64_WordSwap (Context.new scenarioConfig scenarioSBox)
        (scenario2Data.take 12 ++ [0, 0, 0, 0]) (4 * (2 * 1 + 2)) 12345 :=
  ⟨by decide,
    (C34_padding_step (Context.new scenarioConfig scenarioSBox) (scenario2Data.take 12) 12345 1
      (by decide)).1⟩

/-! ## The state of a BV4 key after construction -/

theorem and_255_lt (x : ℕ) : x &&& 255 < 256 :=
  Nat.lt_of_le_of_lt Nat.and_le_right (by norm_num)

/-- Exchanging two entries of a table gives a permutation of the table. -/
theorem swap_perm (s : List ℕ) (i j : ℕ) (hi : i < s.length) (hj : j < s.length) :
    ((s.set i (s.getD j 0)).set j (s.getD i 0)).Perm s := by
  rw [List.perm_iff_count]
  intro b
  have hj2 : j < (s.set i (s.getD j 0)).length := by rw [List.length_set]; exact hj
  rw [List.count_set _ _ _ _ hj2, List.count_set _ _ _ _ hi]
  have e1 : (s.set i (s.getD j 0))[j] = s.getD j 0 := by
    rw [List.getElem_set]
    split_ifs with h
    · rfl
    · exact (List.getD_eq_getElem _ _ hj).symm
  have e2 : s[i] = s.getD i 0 := by rw [List.getD_eq_getElem _ _ hi]
  rw [e1, e2]
  have hc : (if (s.getD i 0 == b) = true then 1 else 0) ≤ s.count b := by
    split_ifs with h
    · have hb : s.getD i 0 = b := by simpa using h
      have hm : b ∈ s := by
        rw [← hb, List.getD_eq_getElem _ _ hi]
        exact List.getElem_mem _
      exact List.count_pos_iff.2 hm
    · exact Nat.zero_le _
  omega

namespace BV4Key

theorem ksaLoop_perm (keyData : List ℕ) (off len : ℕ) :
    ∀ (n i j k : ℕ) (s : List ℕ), s.length = 256 → i + n ≤ 256 →
      (ksaLoop keyData off len n i j k s).Perm s := by
  intro n
  induction n with
  | zero => intro i j k s _ _; exact List.Perm.refl _
  | succ n ih =>
    intro i j k s hs hi
    rw [ksaLoop]
    have hj : (j + s.getD i 0 + keyData.getD (k + off) 0) &&& (RC4_TABLESIZE - 1) < s.length := by
      rw [hs]; exact and_255_lt _
    have hp := swap_perm s i _ (by omega) hj
    exact (ih _ _ _ _ (by rw [List.length_set, List.length_set]; exact hs) (by omega)).trans hp

theorem rc4FillLoop_perm :
    ∀ (n k i j : ℕ) (s buffer : List ℕ), s.length = 256 →
      (rc4FillLoop n k i j s buffer).2.2.1.Perm s := by
  intro n
  induction n with
  | zero => intro k i j s buffer _; exact List.Perm.refl _
  | succ n ih =>
    intro k i j s buffer hs
    rw [rc4FillLoop]
    have hi : (i + 1) &&& (RC4_TABLESIZE - 1) < s.length := by rw [hs]; exact and_255_lt _
    have hj : (j + s.getD ((i + 1) &&& (RC4_TABLESIZE - 1)) 0) &&& (RC4_TABLESIZE - 1)
        < s.length := by
      rw [hs]; exact and_255_lt _
    have hp := swap_perm s _ _ hi hj
    exact (ih _ _ _ _ _ (by rw [List.length_set, List.length_set]; exact hs)).trans hp

theorem rc4FillLoop_i :
    ∀ (n k i j : ℕ) (s buffer : List ℕ), i < 256 →
      (rc4FillLoop n k i j s buffer).1 = (i + n) % 256 := by
  intro n
  induction n with
  | zero => intro k i j s buffer hi; exact (Nat.mod_eq_of_lt hi).symm
  | succ n ih =>
    intro k i j s buffer hi
    rw [rc4FillLoop]
    have e : (i + 1) &&& (RC4_TABLESIZE - 1) = (i + 1) % 256 := Nat.and_pow_two_sub_one_eq_mod _ 8
    simp only [e]
    rw [ih _ _ _ _ _ (Nat.mod_lt _ (by norm_num))]
    omega

theorem rc4FillLoop_j :
    ∀ (n k i j : ℕ) (s buffer : List ℕ), j < 256 →
      (rc4FillLoop n k i j s buffer).2.1 < 256 := by
  intro n
  induction n with
  | zero => intro k i j s buffer hj; exact hj
  | succ n ih =>
    intro k i j s buffer hj
    rw [rc4FillLoop]
    exact ih _ _ _ _ _ (and_255_lt _)

theorem length_rc4FillLoop_buffer :
    ∀ (n k i j : ℕ) (s buffer : List ℕ),
      (rc4FillLoop n k i j s buffer).2.2.2.length = buffer.length := by
  intro n
  induction n with
  | zero => intro k i j s buffer; rfl
  | succ n ih =>
    intro k i j s buffer
    rw [rc4FillLoop, ih, List.length_set]

theorem isBytes_rc4FillLoop_buffer :
    ∀ (n k i j : ℕ) (s buffer : List ℕ), IsBytes s → IsBytes buffer →
      IsBytes (rc4FillLoop n k i j s buffer).2.2.2 := by
  intro n
  induction n with
  | zero => intro k i j s buffer _ hb; exact hb
  | succ n ih =>
    intro k i j s buffer hs hb
    rw [rc4FillLoop]
    have hs2 : IsBytes ((s.set ((i + 1) &&& (RC4_TABLESIZE - 1))
        (s.getD ((j + s.getD ((i + 1) &&& (RC4_TABLESIZE - 1)) 0) &&& (RC4_TABLESIZE - 1)) 0)).set
        ((j + s.getD ((i + 1) &&& (RC4_TABLESIZE - 1)) 0) &&& (RC4_TABLESIZE - 1))
        (s.getD ((i + 1) &&& (RC4_TABLESIZE - 1)) 0)) :=
      (hs.set _ _ (hs.getD _)).set _ _ (hs.getD _)
    exact ih _ _ _ _ _ hs2 (hb.set _ _ (hs2.getD _))

theorem isBytes_of_perm_range {s : List ℕ} (h : s.Perm (List.range 256)) : IsBytes s := by
  intro x hx
  exact List.mem_range.1 (h.mem_iff.1 hx)

theorem new_s_perm (keyData : List ℕ) (off len : ℕ) :
    (new keyData off len).s.Perm (List.range 256) := by
  have h1 : (ksaLoop keyData off len RC4_TABLESIZE 0 0 0 (List.range RC4_TABLESIZE)).Perm
      (List.range 256) :=
    ksaLoop_perm keyData off len 256 0 0 0 (List.range 256) (List.length_range 256) (by norm_num)
  simp only [new, RC4Fill]
  exact (rc4FillLoop_perm _ _ _ _ _ _ (by rw [h1.length_eq, List.length_range])).trans h1

theorem warmup_props (keyData : List ℕ) (off len : ℕ) :
    (warmup keyData off len).length = 132 ∧ IsBytes (warmup keyData off len) := by
  have h1 : (ksaLoop keyData off len RC4_TABLESIZE 0 0 0 (List.range RC4_TABLESIZE)).Perm
      (List.range 256) :=
    ksaLoop_perm keyData off len 256 0 0 0 (List.range 256) (List.length_range 256) (by norm_num)
  constructor
  · rw [warmup, length_rc4FillLoop_buffer, List.length_replicate]
    rfl
  · exact isBytes_rc4FillLoop_buffer _ _ _ _ _ _ (isBytes_of_perm_range h1)
      (isBytes_replicate_zero _)

end BV4Key

/-- C35: for every key slice, immediately after the construction of a BV4 key
(RC4 key schedule and the 132-byte warm-up) the table `s` is a permutation of
`0..255`, the index `i` is 132 and `j` is below 256, the warm-up buffer holds
132 bytes, `h` is the big-endian value of its first four bytes, and `y` has 32
entries with `y[k]` the big-endian value of the bytes `4 (k + 1) .. 4 (k + 1) + 3`
for `k = 0..31`. -/
theorem C35_bv4_key_after_construction (keyData : List ℕ) (off len : ℕ) :
    (BV4Key.new keyData off len).s.Perm (List.range 256) ∧
    (BV4Key.new keyData off len).i = 132 ∧
    (BV4Key.new keyData off len).j < 256 ∧
    (BV4Key.warmup keyData off len).length = 132 ∧
    IsBytes (BV4Key.warmup keyData off len) ∧
    (BV4Key.new keyData off len).h =
      (BV4Key.warmup keyData off len).getD 0 0 * 2 ^ 24
        + (BV4Key.warmup keyData off len).getD 1 0 * 2 ^ 16
        + (BV4Key.warmup keyData off len).getD 2 0 * 2 ^ 8
        + (BV4Key.warmup keyData off len).getD 3 0 ∧
    (BV4Key.new keyData off len).y.length = 32 ∧
    ∀ k, k < 32 → (BV4Key.new keyData off len).y.getD k 0 =
      (BV4Key.warmup keyData off len).getD (4 * (k + 1)) 0 * 2 ^ 24
        + (BV4Key.warmup keyData off len).getD (4 * (k + 1) + 1) 0 * 2 ^ 16
        + (BV4Key.warmup keyData off len).getD (4 * (k + 1) + 2) 0 * 2 ^ 8
        + (BV4Key.warmup keyData off len).getD (4 * (k + 1) + 3) 0 := by
  obtain ⟨hwl, hwb⟩ := BV4Key.warmup_props keyData off len
  have hh : (BV4Key.new keyData off len).h
      = Utils.ReadUInt32 (BV4Key.warmup keyData off len) 0 := by
    simp only [BV4Key.new, BV4Key.RC4Fill, BV4Key.warmup]
  have hy : (BV4Key.new keyData off len).y = (List.range 32).map
      (fun k => Utils.ReadUInt32 (BV4Key.warmup keyData off len) ((k + 1) * 4)) := by
    simp only [BV4Key.new, BV4Key.RC4Fill, BV4Key.warmup]
  refine ⟨BV4Key.new_s_perm keyData off len, ?_, ?_, hwl, hwb, ?_, ?_, ?_⟩
  · simp only [BV4Key.new, BV4Key.RC4Fill]
    rw [BV4Key.rc4FillLoop_i _ _ _ _ _ _ (by norm_num)]
    rfl
  · simp only [BV4Key.new, BV4Key.RC4Fill]
    exact Nat.mod_lt _ (by norm_num)
  · rw [hh, Utils.ReadUInt32_eq hwb]
  · rw [hy, List.length_map, List.length_range]
  · intro k hk
    rw [hy, List.getD_eq_getElem _ _ (by rw [List.length_map, List.length_range]; exact hk),
      List.getElem_map, List.getElem_range, Utils.ReadUInt32_eq hwb,
      show (k + 1) * 4 = 4 * (k + 1) by omega]

/-! ## The uniform recurrence, the reducer and the Euclidean algorithm -/

theorem CS64Key.macStep_eq_pairStep (key : CS64Key) (data : List ℕ) (k chain sum : ℕ) :
    CS64Key.macStep key data (2 * k) chain sum = refPairStep key (wordAt data) k (chain, sum) := by
  simp only [CS64Key.macStep, refPairStep, wordAt, BV4Key.shl2, mod_affine]

theorem CS64Key.macLoop_eq_fold (key : CS64Key) (data : List ℕ) (m : ℕ) :
    CS64Key.macLoop key data m 0 0 0 =
      (List.range m).foldl (fun st k => refPairStep key (wordAt data) k st) (0, 0) := by
  induction m with
  | zero => rfl
  | succ m ih =>
    rw [CS64Key.macLoop_succ_last, Nat.zero_add, CS64Key.macStep_eq_pairStep, ih,
      List.range_succ, List.foldl_append]
    rfl

/-- C37: the asymmetric start of `CS64ComputeMAC` is equivalent to a uniform
recurrence. For every key and every buffer of `n >= 2` words (in particular
`n` even), `CS64ComputeMAC` equals `sum + (chain << 32)` for the fold of the
general pair step (`chain = a * (chain + e * W[2k]) + b; sum += chain;
chain = c * (chain + W[2k+1]) + d; sum += chain`, mod `2 ^ 32`) over all
`n / 2` pairs, starting from `chain = 0`, `sum = 0`. -/
theorem C37_uniform_recurrence (key : CS64Key) (data : List ℕ) (n : ℕ) (hn : 2 ≤ n) :
    key.CS64ComputeMAC data n =
      (refUniformChainSum key (wordAt data) n).2
        + ((refUniformChainSum key (wordAt data) n).1 <<< 32) ∧
    Utils.Hi (key.CS64ComputeMAC data n) = (refUniformChainSum key (wordAt data) n).1 ∧
    Utils.Lo (key.CS64ComputeMAC data n) = (refUniformChainSum key (wordAt data) n).2 := by
  have e : key.CS64ComputeMAC data n =
      (refUniformChainSum key (wordAt data) n).2
        + ((refUniformChainSum key (wordAt data) n).1 <<< 32) := by
    rw [CS64Key.CS64ComputeMAC_eq_macLoop, show n / 2 - 1 + 1 = n / 2 by omega,
      CS64Key.macLoop_eq_fold]
    rfl
  have hlt : (refUniformChainSum key (wordAt data) n).1 < 2 ^ 32 ∧
      (refUniformChainSum key (wordAt data) n).2 < 2 ^ 32 := by
    unfold refUniformChainSum
    rw [← CS64Key.macLoop_eq_fold]
    exact CS64Key.macLoop_lt key data _ 0 0 0 (by norm_num) (by norm_num)
  refine ⟨e, ?_, ?_⟩
  · rw [e]
    exact Utils.Hi_pack _ _ hlt.2 hlt.1
  · rw [e]
    exact Utils.Lo_pack _ _ hlt.2

theorem C37_uniform_recurrence_witness :
    2 ≤ 6 ∧
    (CS64Key.Init 12345 5 6 7).CS64ComputeMAC scenario2Data 6 =
      (refUniformChainSum (CS64Key.Init 12345 5 6 7) (wordAt scenario2Data) 6).2
        + ((refUniformChainSum (CS64Key.Init 12345 5 6 7) (wordAt scenario2Data) 6).1 <<< 32) :=
  ⟨by decide, (C37_uniform_recurrence (CS64Key.Init 12345 5 6 7) scenario2Data 6 (by decide)).1⟩

/-- C38: for every 64-bit value `v` whose high 32-bit half is below `2 ^ 31`,
`CS64Mod v` is congruent to `v` modulo `2 ^ 31 - 1` and is at most `2 ^ 31`;
the unreduced values `2 ^ 31 - 1` and `2 ^ 31` do occur (at `2 ^ 62 - 1` and
`2 ^ 63 - 1`); for every `v` whatsoever the result is at most `2 ^ 31`. -/
theorem C38_cs64mod_congruent (v : ℕ) (hv : v < 2 ^ 64) (hhi : Utils.Hi v < 2 ^ 31) :
    MACHelper.CS64Mod v ≡ v [MOD 2 ^ 31 - 1] ∧
    MACHelper.CS64Mod v % (2 ^ 31 - 1) = v % (2 ^ 31 - 1) ∧
    MACHelper.CS64Mod v ≤ 2 ^ 31 ∧
    (∀ w : ℕ, MACHelper.CS64Mod w ≤ 2 ^ 31) ∧
    (Utils.Hi (2 ^ 62 - 1) < 2 ^ 31 ∧ MACHelper.CS64Mod (2 ^ 62 - 1) = 2 ^ 31 - 1) ∧
    (Utils.Hi (2 ^ 63 - 1) < 2 ^ 31 ∧ MACHelper.CS64Mod (2 ^ 63 - 1) = 2 ^ 31) := by
  have h63 : v < 2 ^ 63 := by
    simp only [Utils.Hi, Nat.shiftRight_eq_div_pow] at hhi
    omega
  exact ⟨MACHelper.CS64Mod_modEq v h63, MACHelper.CS64Mod_modEq v h63,
    MACHelper.CS64Mod_le v, MACHelper.CS64Mod_le, by decide, by decide⟩

theorem C38_cs64mod_congruent_witness :
    (2 ^ 63 - 1 : ℕ) < 2 ^ 64 ∧ Utils.Hi (2 ^ 63 - 1) < 2 ^ 31 ∧
    MACHelper.CS64Mod (2 ^ 63 - 1) ≡ 2 ^ 63 - 1 [MOD 2 ^ 31 - 1] :=
  ⟨by decide, by decide, (C38_cs64mod_congruent (2 ^ 63 - 1) (by decide) (by decide)).1⟩

namespace CS64Key

/-- With more fuel than the second argument the loop leaves through `b = 0`:
its result does not depend on the fuel. -/
theorem Egcd32Loop_fuel : ∀ (fuel1 fuel2 a b x y lastx lasty : ℕ), b < fuel1 → b < fuel2 →
    Egcd32Loop fuel1 a b x y lastx lasty = Egcd32Loop fuel2 a b x y lastx lasty := by
  intro fuel1
  induction fuel1 with
  | zero => intro fuel2 a b x y lastx lasty h; omega
  | succ fuel1 ih =>
    intro fuel2 a b x y lastx lasty h1 h2
    obtain ⟨f2, rfl⟩ : ∃ f2, fuel2 = f2 + 1 := ⟨fuel2 - 1, by omega⟩
    unfold Egcd32Loop
    by_cases hb : b = 0
    · rw [if_pos hb, if_pos hb]
    · rw [if_neg hb, if_neg hb]
      have hlt : a % b < b := Nat.mod_lt _ (Nat.pos_of_ne_zero hb)
      exact ih f2 _ _ _ _ _ _ (by omega) (by omega)

theorem Egcd32Loop_lt : ∀ (fuel a b x y lastx lasty : ℕ), x < 2 ^ 32 → y < 2 ^ 32 →
    lastx < 2 ^ 32 → lasty < 2 ^ 32 →
    (Egcd32Loop fuel a b x y lastx lasty).1 < 2 ^ 32 ∧
    (Egcd32Loop fuel a b x y lastx lasty).2 < 2 ^ 32 := by
  intro fuel
  induction fuel with
  | zero => intro a b x y lastx lasty _ _ h3 h4; exact ⟨h3, h4⟩
  | succ fuel ih =>
    intro a b x y lastx lasty h1 h2 h3 h4
    unfold Egcd32Loop
    by_cases hb : b = 0
    · rw [if_pos hb]
      exact ⟨h3, h4⟩
    · rw [if_neg hb]
      exact ih _ _ _ _ _ _ (wsub32_lt _ _) (wsub32_lt _ _) h1 h2

end CS64Key

/-- C39: for all 32-bit `a` and `b`, `Egcd32` terminates (the loop leaves
through `b = 0` within `b + 1` passes, so every larger fuel gives the same
result) and its 32-bit outputs satisfy
`outx * a + outy * b = gcd (a, b)` modulo `2 ^ 32`; for `b = 0` it returns
`(1, 0)`. -/
theorem C39_egcd32_bezout (a b : ℕ) (ha : a < 2 ^ 32) (hb : b < 2 ^ 32) :
    (∀ fuel, b < fuel → CS64Key.Egcd32Loop fuel a b 0 1 1 0 = CS64Key.Egcd32 a b) ∧
    ((CS64Key.Egcd32 a b).1 * a + (CS64Key.Egcd32 a b).2 * b) % 2 ^ 32 = Nat.gcd a b ∧
    (CS64Key.Egcd32 a b).1 < 2 ^ 32 ∧ (CS64Key.Egcd32 a b).2 < 2 ^ 32 ∧
    CS64Key.Egcd32 a 0 = (1, 0) := by
  have hbez := CS64Key.Egcd32Loop_bezout a b (b + 1) a b 0 1 1 0 (Nat.lt_succ_self b)
    (by simp) (by simp)
  have hlt := CS64Key.Egcd32Loop_lt (b + 1) a b 0 1 1 0 (by norm_num) (by norm_num)
    (by norm_num) (by norm_num)
  have hg : Nat.gcd a b < 2 ^ 32 := by
    by_cases h0 : a = 0
    · subst h0
      rw [Nat.gcd_zero_left]
      exact hb
    · exact lt_of_le_of_lt (Nat.gcd_le_left b (Nat.pos_of_ne_zero h0)) ha
  refine ⟨fun fuel hf => CS64Key.Egcd32Loop_fuel fuel (b + 1) a b 0 1 1 0 hf (Nat.lt_succ_self b),
    ?_, hlt.1, hlt.2, rfl⟩
  have hcast : ((((CS64Key.Egcd32 a b).1 * a + (CS64Key.Egcd32 a b).2 * b) % 2 ^ 32 : ℕ) : Z32)
      = ((Nat.gcd a b : ℕ) : Z32) := by
    rw [cast_mod32, Nat.cast_add, Nat.cast_mul, Nat.cast_mul]
    exact hbez
  exact eq_of_cast_eq (Nat.mod_lt _ (by norm_num)) hg hcast

theorem C39_egcd32_bezout_witness :
    (240 : ℕ) < 2 ^ 32 ∧ (46 : ℕ) < 2 ^ 32 ∧
    ((CS64Key.Egcd32 240 46).1 * 240 + (CS64Key.Egcd32 240 46).2 * 46) % 2 ^ 32
      = Nat.gcd 240 46 :=
  ⟨by decide, by decide, (C39_egcd32_bezout 240 46 (by decide) (by decide)).2.1⟩

/-! ## Validated calls stay inside the buffer -/

theorem Event.below_mono {b c : ℕ} (h : b ≤ c) {e : Event} (he : e.Below b) : e.Below c := by
  cases e with
  | read i => exact Nat.lt_of_lt_of_le he h
  | write i => exact Nat.lt_of_lt_of_le he h
  | computeMAC n => exact he
  | modular n => exact he

theorem Event.below_safe {b : ℕ} {e : Event} (he : e.Below b) : e.Safe b := by
  cases e with
  | read i => exact he
  | write i => exact he
  | computeMAC n => exact he.elim
  | modular n => exact he.elim

theorem below_append {b : ℕ} {l1 l2 : List Event} (h1 : ∀ e ∈ l1, e.Below b)
    (h2 : ∀ e ∈ l2, e.Below b) : ∀ e ∈ l1 ++ l2, e.Below b := by
  intro e he
  rcases List.mem_append.1 he with h | h
  · exact h1 e h
  · exact h2 e h

theorem Utils.below_ReadUInt32 (offset b : ℕ) (h : offset + 4 ≤ b) :
    ∀ e ∈ Utils.ReadUInt32_events offset, e.Below b := by
  intro e he
  simp only [Utils.ReadUInt32_events, List.mem_cons, List.mem_singleton, List.not_mem_nil,
    or_false] at he
  rcases he with rfl | rfl | rfl | rfl <;> (show _ < b) <;> omega

theorem Utils.below_WriteUInt32 (offset b : ℕ) (h : offset + 4 ≤ b) :
    ∀ e ∈ Utils.WriteUInt32_events offset, e.Below b := by
  intro e he
  simp only [Utils.WriteUInt32_events, List.mem_cons, List.mem_singleton, List.not_mem_nil,
    or_false] at he
  rcases he with rfl | rfl | rfl | rfl <;> (show _ < b) <;> omega

theorem Utils.below_ReadUInt64 (offset b : ℕ) (h : offset + 8 ≤ b) :
    ∀ e ∈ Utils.ReadUInt64_events offset, e.Below b := by
  intro e he
  simp only [Utils.ReadUInt64_events, List.mem_cons, List.mem_singleton, List.not_mem_nil,
    or_false] at he
  rcases he with rfl | rfl | rfl | rfl | rfl | rfl | rfl | rfl <;> (show _ < b) <;> omega

theorem Utils.below_WriteUInt64 (offset b : ℕ) (h : offset + 8 ≤ b) :
    ∀ e ∈ Utils.WriteUInt64_events offset, e.Below b := by
  intro e he
  simp only [Utils.WriteUInt64_events, List.mem_cons, List.mem_singleton, List.not_mem_nil,
    or_false] at he
  rcases he with rfl | rfl | rfl | rfl | rfl | rfl | rfl | rfl <;> (show _ < b) <;> omega

theorem CS64Key.below_macLoop (b : ℕ) : ∀ (n index : ℕ), 4 * (index + 2 * n) ≤ b →
    ∀ e ∈ CS64Key.macLoop_events n index, e.Below b := by
  intro n
  induction n with
  | zero => intro index _ e he; simp [CS64Key.macLoop_events] at he
  | succ n ih =>
    intro index h
    rw [CS64Key.macLoop_events]
    refine below_append (below_append ?_ ?_) (ih _ (by omega))
    · exact Utils.below_ReadUInt32 _ _ (by rw [BV4Key.shl2]; omega)
    · exact Utils.below_ReadUInt32 _ _ (by rw [BV4Key.shl2]; omega)

/-- The events of `CS64ComputeMAC` on `numBlocks ≥ 2` blocks: the invocation,
and accesses below `4 * numBlocks`. -/
theorem CS64Key.CS64ComputeMAC_events_spec (numBlocks b : ℕ) (h2 : 2 ≤ numBlocks)
    (hb : 4 * numBlocks ≤ b) :
    ∀ e ∈ CS64Key.CS64ComputeMAC_events numBlocks,
      e = Event.computeMAC numBlocks ∨ e.Below b := by
  intro e he
  rw [CS64Key.CS64ComputeMAC_events, List.mem_cons] at he
  rcases he with rfl | he
  · exact Or.inl rfl
  · refine Or.inr (below_append (below_append ?_ ?_) ?_ e he)
    · exact Utils.below_ReadUInt32 _ _ (by rw [BV4Key.shl2]; omega)
    · exact Utils.below_ReadUInt32 _ _ (by rw [BV4Key.shl2]; omega)
    · exact CS64Key.below_macLoop b _ _ (by omega)

theorem BV4Key.below_ksaLoop (off len b : ℕ) (h : off + len ≤ b) :
    ∀ (n k : ℕ), k < len → ∀ e ∈ BV4Key.ksaLoop_events off len n k, e.Below b := by
  intro n
  induction n with
  | zero => intro k _ e he; simp [BV4Key.ksaLoop_events] at he
  | succ n ih =>
    intro k hk e he
    rw [BV4Key.ksaLoop_events, List.mem_cons] at he
    rcases he with rfl | he
    · show k + off < b
      omega
    · refine ih _ ?_ e he
      split_ifs <;> omega

theorem BV4Key.below_cryptLoop (b : ℕ) : ∀ (n index : ℕ), 4 * (index + n) ≤ b →
    ∀ e ∈ BV4Key.cryptLoop_events n index, e.Below b := by
  intro n
  induction n with
  | zero => intro index _ e he; simp [BV4Key.cryptLoop_events] at he
  | succ n ih =>
    intro index h
    rw [BV4Key.cryptLoop_events]
    refine below_append (below_append ?_ ?_) (ih _ (by omega))
    · exact Utils.below_ReadUInt32 _ _ (by rw [BV4Key.shl2]; omega)
    · exact Utils.below_WriteUInt32 _ _ (by rw [BV4Key.shl2]; omega)

namespace MACHelper

theorem below_three (b x y z : ℕ) (hx : x < b) (hy : y < b) (hz : z < b) :
    ∀ e ∈ [Event.read x, Event.read y, Event.write z], e.Below b := by
  intro e he
  simp only [List.mem_cons, List.mem_singleton, List.not_mem_nil, or_false] at he
  rcases he with rfl | rfl | rfl
  · exact hx
  · exact hy
  · exact hz

theorem below_encInner (base b : ℕ) : ∀ n, base + n + 1 ≤ b →
    ∀ e ∈ encInner_events base n, e.Below b := by
  intro n
  induction n with
  | zero => intro _ e he; simp [encInner_events] at he
  | succ n ih =>
    intro h
    rw [encInner_events]
    exact below_append (ih (by omega)) (below_three b _ _ _ (by omega) (by omega) (by omega))

theorem below_encRound (base b : ℕ) (h : base + 8 ≤ b) :
    ∀ e ∈ encRound_events base, e.Below b := by
  rw [encRound_events]
  exact below_append (below_encInner base b _ (by show base + (8 - 1) + 1 ≤ b; omega))
    (below_three b _ _ _ (by omega) (by show base + (8 - 1) < b; omega) (by omega))

theorem below_encRounds (base b : ℕ) (h : base + 8 ≤ b) :
    ∀ n, ∀ e ∈ encRounds_events base n, e.Below b := by
  intro n
  induction n with
  | zero => intro e he; simp [encRounds_events] at he
  | succ n ih =>
    rw [encRounds_events]
    exact below_append (below_encRound base b h) ih

theorem below_decInner (base b : ℕ) : ∀ n, base + n + 1 ≤ b →
    ∀ e ∈ decInner_events base n, e.Below b := by
  intro n
  induction n with
  | zero => intro _ e he; simp [decInner_events] at he
  | succ n ih =>
    intro h
    rw [decInner_events]
    exact below_append (below_three b _ _ _ (by omega) (by omega) (by omega)) (ih (by omega))

theorem below_decRound (base b : ℕ) (h : base + 8 ≤ b) :
    ∀ e ∈ decRound_events base, e.Below b := by
  rw [decRound_events]
  exact below_append
    (below_three b _ _ _ (by omega) (by show base + (8 - 1) < b; omega) (by omega))
    (below_decInner base b _ (by show base + (8 - 1) + 1 ≤ b; omega))

theorem below_decRounds (base b : ℕ) (h : base + 8 ≤ b) :
    ∀ n, ∀ e ∈ decRounds_events base n, e.Below b := by
  intro n
  induction n with
  | zero => intro e he; simp [decRounds_events] at he
  | succ n ih =>
    rw [decRounds_events]
    exact below_append ih (below_decRound base b h)

theorem below_xorBlock (i b : ℕ) : ∀ n, i * 8 + n ≤ b →
    ∀ e ∈ xorBlock_events i n, e.Below b := by
  intro n
  induction n with
  | zero => intro _ e he; simp [xorBlock_events] at he
  | succ n ih =>
    intro h
    rw [xorBlock_events]
    refine below_append (ih (by omega)) ?_
    intro e he
    rw [List.mem_singleton] at he
    subst he
    show i * 8 + n < b
    omega

theorem below_cbcLoop (b : ℕ) : ∀ n, 8 * n ≤ b → ∀ e ∈ cbcLoop_events n, e.Below b := by
  intro n
  induction n with
  | zero => intro _ e he; simp [cbcLoop_events] at he
  | succ n ih =>
    intro h
    rw [cbcLoop_events]
    exact below_append (ih (by omega)) (below_xorBlock n b 8 (by omega))

theorem below_modularLoop (b : ℕ) : ∀ (n index : ℕ), 4 * (index + 2 * n) ≤ b →
    ∀ e ∈ modularLoop_events n index, e.Below b := by
  intro n
  induction n with
  | zero => intro index _ e he; simp [modularLoop_events] at he
  | succ n ih =>
    intro index h
    rw [modularLoop_events]
    refine below_append (below_append ?_ ?_) (ih _ (by omega))
    · exact Utils.below_ReadUInt32 _ _ (by rw [BV4Key.shl2]; omega)
    · exact Utils.below_ReadUInt32 _ _ (by rw [BV4Key.shl2]; omega)

/-- The events of `CS64_Modular` on a length of at least 8: the invocation,
and accesses below the length. -/
theorem CS64_Modular_events_spec (L : ℕ) (h8 : 8 ≤ L) :
    ∀ e ∈ CS64_Modular_events L, e = Event.modular (L / 4) ∨ e.Below L := by
  intro e he
  rw [CS64_Modular_events, List.mem_cons] at he
  rcases he with rfl | he
  · exact Or.inl rfl
  · refine Or.inr (below_append (below_append ?_ ?_) ?_ e he)
    · exact Utils.below_ReadUInt32 _ _ (by rw [BV4Key.shl2]; omega)
    · exact Utils.below_ReadUInt32 _ _ (by rw [BV4Key.shl2]; omega)
    · refine below_modularLoop L _ _ ?_
      show 4 * (2 + 2 * ((L / 4) >>> 1 - 1)) ≤ L
      rw [Nat.shiftRight_eq_div_pow]
      omega

end MACHelper

namespace WordSwapHelper

theorem loop_events_add_two (n index : ℕ) :
    loop_events (n + 2) index =
      ((loop_events n (index + 2)).1, (loop_events n (index + 2)).2.1,
        Iteration_events index ++ Iteration_events (index + 1)
          ++ (loop_events n (index + 2)).2.2) := by
  rw [loop_events]

theorem loop_events_zero (index : ℕ) : loop_events 0 index = (0, index, []) := by
  rw [loop_events]
  intro n h
  omega

theorem loop_events_one (index : ℕ) : loop_events 1 index = (1, index, []) := by
  rw [loop_events]
  intro n h
  omega

/-- The loop over `2 * m + r` blocks, `r < 2`: `r` blocks are left, the index
advanced by `2 * m`, and every access is below `4 * (index + 2 * m)`. -/
theorem loop_events_spec (b r : ℕ) (hr : r < 2) : ∀ (m index : ℕ), 4 * (index + 2 * m) ≤ b →
    (loop_events (2 * m + r) index).1 = r ∧
    (loop_events (2 * m + r) index).2.1 = index + 2 * m ∧
    ∀ e ∈ (loop_events (2 * m + r) index).2.2, e.Below b := by
  intro m
  induction m with
  | zero =>
    intro index _
    have hr2 : r = 0 ∨ r = 1 := by omega
    rcases hr2 with rfl | rfl
    · rw [show 2 * 0 + 0 = 0 from rfl, loop_events_zero]
      exact ⟨rfl, rfl, fun e he => by simp at he⟩
    · rw [show 2 * 0 + 1 = 1 from rfl, loop_events_one]
      exact ⟨rfl, rfl, fun e he => by simp at he⟩
  | succ m ih =>
    intro index h
    rw [show 2 * (m + 1) + r = (2 * m + r) + 2 by omega, loop_events_add_two]
    obtain ⟨i1, i2, i3⟩ := ih (index + 2) (by omega)
    refine ⟨i1, by rw [i2]; omega, below_append (below_append ?_ ?_) i3⟩
    · exact Utils.below_ReadUInt32 _ _ (by rw [BV4Key.shl2]; omega)
    · exact Utils.below_ReadUInt32 _ _ (by rw [BV4Key.shl2]; omega)

theorem below_wordLoop (L : ℕ) :
    ∀ e ∈ (loop_events (L / 4) 0).2.2 ++
      (if (loop_events (L / 4) 0).1 = 1 then Iteration_events (loop_events (L / 4) 0).2.1
        else []), e.Below L := by
  have hn : L / 4 = 2 * (L / 4 / 2) + L / 4 % 2 := by omega
  by_cases hodd : L / 4 % 2 = 1
  · obtain ⟨i1, i2, i3⟩ := loop_events_spec (L - 4) (L / 4 % 2) (by omega) (L / 4 / 2) 0
      (by omega)
    rw [← hn] at i1 i2 i3
    rw [i1, i2, if_pos hodd]
    refine below_append (fun e he => Event.below_mono (by omega) (i3 e he)) ?_
    exact Utils.below_ReadUInt32 _ _ (by rw [BV4Key.shl2]; omega)
  · obtain ⟨i1, i2, i3⟩ := loop_events_spec L (L / 4 % 2) (by omega) (L / 4 / 2) 0 (by omega)
    rw [← hn] at i1 i2 i3
    rw [i1, if_neg hodd]
    exact below_append i3 (fun e he => by simp at he)

end WordSwapHelper

theorem validation_passes (L : ℕ) (h8 : 8 ≤ L) (hm : L % 8 = 0) :
    ¬ (L < CS64Defs.BLK_SIZE ∨ L &&& (CS64Defs.BLK_SIZE - 1) ≠ 0) := by
  have e : L &&& (CS64Defs.BLK_SIZE - 1) = L % 8 := Nat.and_pow_two_sub_one_eq_mod L 3
  rw [e]
  show ¬ (L < 8 ∨ L % 8 ≠ 0)
  omega

namespace CSParve64

theorem CS64Hash_events_spec (L : ℕ) (h8 : 8 ≤ L) :
    ∀ e ∈ CS64Hash_events L, e = Event.computeMAC (L / 4) ∨ e.Below L := by
  intro e he
  rw [CS64Hash_events, List.mem_append] at he
  rcases he with he | he
  · exact Or.inr (MACHelper.below_cbcLoop L _ (by show 8 * (L / 8) ≤ L; omega) e he)
  · exact CS64Key.CS64ComputeMAC_events_spec (L / 4) L (by omega) (by omega) e he

theorem Encrypt_events_spec (L : ℕ) (h8 : 8 ≤ L) (hL : L < 2 ^ 32) :
    ∀ e ∈ Encrypt_events L, e = Event.computeMAC (L / 4) ∨ e.Below L := by
  have hw : wsub32 L (2 * CS64Defs.CS_BLOCK_SIZE) = L - 8 := wsub32_eight L h8 hL
  intro e he
  simp only [Encrypt_events, hw, List.mem_append] at he
  rcases he with (((he | he) | he) | he) | he
  · exact CS64Key.CS64ComputeMAC_events_spec (L / 4) L (by omega) (by omega) e he
  · exact Or.inr (Utils.below_WriteUInt64 _ _ (by omega) e he)
  · exact Or.inr (MACHelper.below_encRounds _ L (by omega) _ e he)
  · exact Or.inr (BV4Key.below_ksaLoop _ _ L (by show L - 8 + 2 * 4 ≤ L; omega) _ 0
      (by norm_num) e he)
  · refine Or.inr (BV4Key.below_cryptLoop L _ 0 ?_ e he)
    rw [Nat.shiftRight_eq_div_pow]
    omega

theorem Decrypt_events_spec (L : ℕ) (h8 : 8 ≤ L) (hm : L % 8 = 0) (hL : L < 2 ^ 32) :
    ∀ e ∈ Decrypt_events L, (2 < L / 4 ∧ e = Event.computeMAC (L / 4 - 2)) ∨ e.Below L := by
  have hw : wsub32 L (2 * CS64Defs.CS_BLOCK_SIZE) = L - 8 := wsub32_eight L h8 hL
  intro e he
  simp only [Decrypt_events, hw, List.mem_append] at he
  rcases he with ((((he | he) | he) | he) | he) | he
  · exact Or.inr (BV4Key.below_ksaLoop _ _ L (by show L - 8 + 2 * 4 ≤ L; omega) _ 0
      (by norm_num) e he)
  · refine Or.inr (BV4Key.below_cryptLoop L _ 0 ?_ e he)
    rw [Nat.shiftRight_eq_div_pow]
    omega
  · exact Or.inr (MACHelper.below_decRounds _ L (by omega) _ e he)
  · exact Or.inr (Utils.below_ReadUInt64 _ _ (by omega) e he)
  · simp only [CS64Key.CS64InvertMAC_events] at he
    split_ifs at he with h2
    · rcases CS64Key.CS64ComputeMAC_events_spec (L / 4 - 2) L (by omega) (by omega) e he
        with h | h
      · exact Or.inl ⟨h2, h⟩
      · exact Or.inr h
    · simp at he
  · exact Or.inr (Utils.below_WriteUInt64 _ _ (by omega) e he)

theorem CSH64_ParveCombined_events_spec (L : ℕ) (h8 : 8 ≤ L) :
    ∀ e ∈ CSH64_ParveCombined_events L, e = Event.modular (L / 4) ∨ e.Below L := by
  intro e he
  simp only [CSH64_ParveCombined_events, List.mem_append] at he
  rcases he with ((he | he) | he) | he
  · exact Or.inr (MACHelper.below_cbcLoop L _ (by show 8 * (L / 8) ≤ L; omega) e he)
  · exact MACHelper.CS64_Modular_events_spec L h8 e he
  · exact Or.inr (WordSwapHelper.below_wordLoop L e he)
  · exact Or.inr (WordSwapHelper.below_wordLoop L e he)

end CSParve64

/-- C36: for every call of Create, Encode, Decode or ComputeHash that passes
validation (length `L` a multiple of 8, `L ≥ 8`, a `UINT32`): every event of
the call is safe, that is every index of the caller's buffer that is read or
written lies in `[0, L)` and every invocation of `CS64ComputeMAC` and of
`CS64_Modular` receives an even `numBlocks ≥ 2`. Create and Encode invoke
`CS64ComputeMAC` on `L / 4` blocks only, Decode invokes it (through
`CS64InvertMAC`) on `L / 4 - 2` blocks and only when `L / 4 > 2`, ComputeHash
invokes `CS64_Modular` on `L / 4` blocks only; the last byte of the buffer is
reached. -/
theorem C36_validated_calls_safe (L : ℕ) (h8 : 8 ≤ L) (hm : L % 8 = 0) (hL : L < 2 ^ 32) :
    (∀ e ∈ CSParve64_Create_events L, e.Safe L) ∧
    (∀ e ∈ CSParve64_Encode_events L, e.Safe L) ∧
    (∀ e ∈ CSParve64_Decode_events L, e.Safe L) ∧
    (∀ e ∈ CSParve64_ComputeHash_events L, e.Safe L) ∧
    (∀ n, Event.computeMAC n ∈ CSParve64_Create_events L ↔ n = L / 4) ∧
    (∀ n, Event.computeMAC n ∈ CSParve64_Encode_events L ↔ n = L / 4) ∧
    (∀ n, Event.computeMAC n ∈ CSParve64_Decode_events L ↔ 2 < L / 4 ∧ n = L / 4 - 2) ∧
    (∀ n, Event.modular n ∈ CSParve64_ComputeHash_events L ↔ n = L / 4) ∧
    Event.write (L - 1) ∈ CSParve64_Encode_events L ∧
    Event.write (L - 1) ∈ CSParve64_Decode_events L := by
  have hv := validation_passes L h8 hm
  have hw : wsub32 L (2 * CS64Defs.CS_BLOCK_SIZE) = L - 8 := wsub32_eight L h8 hL
  have hC : CSParve64_Create_events L = CSParve64.CS64Hash_events L := by
    rw [CSParve64_Create_events, if_neg hv, CSParve64.new_events]
  have hE : CSParve64_Encode_events L = CSParve64.Encrypt_events L := by
    rw [CSParve64_Encode_events, if_neg hv]
  have hD : CSParve64_Decode_events L = CSParve64.Decrypt_events L := by
    rw [CSParve64_Decode_events, if_neg hv]
  have hH : CSParve64_ComputeHash_events L = CSParve64.CSH64_ParveCombined_events L := by
    rw [CSParve64_ComputeHash_events, if_neg hv]
  have hsafe : ∀ e : Event, e = Event.computeMAC (L / 4) ∨ e.Below L → e.Safe L := by
    rintro e (rfl | h)
    · exact ⟨by omega, by omega⟩
    · exact Event.below_safe h
  rw [hC, hE, hD, hH]
  refine ⟨fun e he => hsafe e (CSParve64.CS64Hash_events_spec L h8 e he),
    fun e he => hsafe e (CSParve64.Encrypt_events_spec L h8 hL e he), ?_, ?_, ?_, ?_, ?_, ?_, ?_, ?_⟩
  · intro e he
    rcases CSParve64.Decrypt_events_spec L h8 hm hL e he with ⟨h2, rfl⟩ | h
    · exact ⟨by omega, by omega⟩
    · exact Event.below_safe h
  · intro e he
    rcases CSParve64.CSH64_ParveCombined_events_spec L h8 e he with rfl | h
    · exact ⟨by omega, by omega⟩
    · exact Event.below_safe h
  · intro n
    constructor
    · intro he
      rcases CSParve64.CS64Hash_events_spec L h8 _ he with h | h
      · exact Event.computeMAC.inj h
      · exact h.elim
    · rintro rfl
      simp [CSParve64.CS64Hash_events, CS64Key.CS64ComputeMAC_events]
  · intro n
    constructor
    · intro he
      rcases CSParve64.Encrypt_events_spec L h8 hL _ he with h | h
      · exact Event.computeMAC.inj h
      · exact h.elim
    · rintro rfl
      simp [CSParve64.Encrypt_events, CS64Key.CS64ComputeMAC_events]
  · intro n
    constructor
    · intro he
      rcases CSParve64.Decrypt_events_spec L h8 hm hL _ he with ⟨h2, h⟩ | h
      · exact ⟨h2, Event.computeMAC.inj h⟩
      · exact h.elim
    · rintro ⟨h2, rfl⟩
      simp [CSParve64.Decrypt_events, CS64Key.CS64InvertMAC_events, h2,
        CS64Key.CS64ComputeMAC_events]
  · intro n
    constructor
    · intro he
      rcases CSParve64.CSH64_ParveCombined_events_spec L h8 _ he with h | h
      · exact Event.modular.inj h
      · exact h.elim
    · rintro rfl
      simp [CSParve64.CSH64_ParveCombined_events, MACHelper.CS64_Modular_events]
  · have e7 : L - 8 + 7 = L - 1 := by omega
    simp only [CSParve64.Encrypt_events, hw, List.mem_append]
    refine Or.inl (Or.inl (Or.inl (Or.inr ?_)))
    simp [Utils.WriteUInt64_events, e7]
  · have e7 : L - 8 + 7 = L - 1 := by omega
    simp only [CSParve64.Decrypt_events, hw, List.mem_append]
    refine Or.inr ?_
    simp [Utils.WriteUInt64_events, e7]

theorem C36_validated_calls_safe_witness :
    8 ≤ 24 ∧ 24 % 8 = 0 ∧
    (∀ e ∈ CSParve64_Encode_events 24, e.Safe 24) ∧
    (∀ e ∈ CSParve64_Decode_events 24, e.Safe 24) ∧
    (∀ n, Event.computeMAC n ∈ CSParve64_Decode_events 24 ↔ 2 < 24 / 4 ∧ n = 24 / 4 - 2) :=
  ⟨by decide, by decide,
    (C36_validated_calls_safe 24 (by decide) (by decide) (by norm_num)).2.1,
    (C36_validated_calls_safe 24 (by decide) (by decide) (by norm_num)).2.2.1,
    (C36_validated_calls_safe 24 (by decide) (by decide) (by norm_num)).2.2.2.2.2.2.1⟩
